import Mathlib

/-! Poincare tree pool and tree references.

A shallow embedding of `poincare/src/tree_reference.cpp`, and of the header checks of
`bootloader/userland_header.cpp`.

The arena is the list of its node records in address order, and an address is
an index into that list.  The identifier table is the lookup of an identifier
in that list.  `TreeNode` and `TreePool` are not part of the translated file;
their operations are modelled from the specification and marked so.
-/

namespace Bootloader

/-- The fields of `UserlandHeader` that the translated functions read; the
declaration of the record is not part of the translated file.  `m_rest` stands
for every other field of the record. -/
structure UserlandHeader where
  m_header : Nat
  m_expectedEpsilonVersion : String
  m_rest : List Nat
  m_footer : Nat
  m_omegaMagicHeader : Nat
  m_omegaVersion : String
  m_omegaMagicFooter : Nat
  m_upsilonMagicHeader : Nat
  m_UpsilonVersion : String
  m_upsilonMagicFooter : Nat
deriving DecidableEq, Repr

namespace UserlandHeader

/-- `UserlandHeader::version`. -/
def version (self : UserlandHeader) : String := self.m_expectedEpsilonVersion

/-- `UserlandHeader::isValid`; the constant `Magic` is declared outside the
translated file and is a parameter. -/
def isValid (Magic : Nat) (self : UserlandHeader) : Bool :=
  self.m_header == Magic && self.m_footer == Magic

/-- `UserlandHeader::isOmega`; the constant `OmegaMagic` is a parameter. -/
def isOmega (OmegaMagic : Nat) (self : UserlandHeader) : Bool :=
  self.m_omegaMagicHeader == OmegaMagic && self.m_omegaMagicFooter == OmegaMagic

/-- `UserlandHeader::omegaVersion`. -/
def omegaVersion (self : UserlandHeader) : String := self.m_omegaVersion

/-- `UserlandHeader::isUpsilon`; the constant `UpsilonMagic` is a parameter. -/
def isUpsilon (UpsilonMagic : Nat) (self : UserlandHeader) : Bool :=
  self.m_upsilonMagicHeader == UpsilonMagic && self.m_upsilonMagicFooter == UpsilonMagic

/-- `UserlandHeader::upsilonVersion`. -/
def upsilonVersion (self : UserlandHeader) : String := self.m_UpsilonVersion

end UserlandHeader

end Bootloader

namespace Poincare

/-- Reasons for which a call stops before it returns. -/
inductive Fault where
  | assertion
  | undefinedHandle
  | unknownIdentifier
  | outOfArena
  | fuel
deriving DecidableEq, Repr

deriving instance DecidableEq for Except

/-! ## Node records -/

/-- Modelled from the spec: the node header of `TreeNode` (identifier,
reference count, child count), the flag telling an allocation-failure sentinel
from a live node, and an uninterpreted tag `content` for kind and payload. -/
structure TreeNode where
  identifier : Int
  retainCount : Int
  numberOfChildren : Nat
  isAllocationFailure : Bool
  content : Nat
deriving DecidableEq, Repr

namespace TreeNode

/-- Modelled from the spec: `TreeNode::retain`, one more owner. -/
def retain (x : TreeNode) : TreeNode :=
  { x with retainCount := x.retainCount + 1 }

/-- Modelled from the spec: `TreeNode::setReferenceCounter`. -/
def setReferenceCounter (x : TreeNode) (c : Int) : TreeNode :=
  { x with retainCount := c }

/-- Modelled from the spec: `TreeNode::rename`, which overwrites the stored
identifier and leaves the reference count alone. -/
def rename (x : TreeNode) (identifier : Int) : TreeNode :=
  { x with identifier := identifier }

/-- Modelled from the spec: `TreeNode::incrementNumberOfChildren`.  A failure
sentinel cannot gain children. -/
def incrementNumberOfChildren (x : TreeNode) (increment : Nat) : TreeNode :=
  if x.isAllocationFailure then x
  else { x with numberOfChildren := x.numberOfChildren + increment }

/-- Modelled from the spec: `TreeNode::decrementNumberOfChildren`. -/
def decrementNumberOfChildren (x : TreeNode) (decrement : Nat) : TreeNode :=
  if x.isAllocationFailure then x
  else { x with numberOfChildren := x.numberOfChildren - decrement }

/-- Modelled from the spec: `TreeNode::eraseNumberOfChildren`. -/
def eraseNumberOfChildren (x : TreeNode) : TreeNode :=
  if x.isAllocationFailure then x else { x with numberOfChildren := 0 }

/-- Modelled from the spec: `TreeNode::failedAllocationStaticNode`, the
statically allocated failure counterpart of the node's kind. -/
def failedAllocationStaticNode (x : TreeNode) : TreeNode :=
  { identifier := -1, retainCount := 0, numberOfChildren := 0,
    isAllocationFailure := true, content := x.content }

/-- Modelled from the spec: `TreeNode::allocationFailureNodeIdentifier`, the
identifier a clone of a failure sentinel goes by.  The spec has the clone alias
the identifier of the sentinel itself. -/
def allocationFailureNodeIdentifier (x : TreeNode) : Int := x.identifier

end TreeNode

/-! ## Navigation by layout -/

/-- Modelled from the spec: the node stored at an address. -/
def nodeAt (nodes : List TreeNode) (a : Nat) : Except Fault TreeNode :=
  match nodes[a]? with
  | some x => .ok x
  | none => .error .outOfArena

/-- Number of records covered by `k` consecutive subtrees at the head of a
run of records; `none` when the run ends first. -/
def spanLength : List TreeNode → Nat → Option Nat
  | _, 0 => some 0
  | [], _ + 1 => none
  | x :: rest, k + 1 =>
    match spanLength rest (k + x.numberOfChildren) with
    | some n => some (n + 1)
    | none => none

/-- Modelled from the spec: `TreeNode::deepSize`, the size of a node together
with `realNumberOfChildren` child subtrees. -/
def deepSize (nodes : List TreeNode) (a realNumberOfChildren : Nat) : Except Fault Nat :=
  match nodeAt nodes a with
  | .error e => .error e
  | .ok _ =>
    match spanLength (nodes.drop (a + 1)) realNumberOfChildren with
    | some n => .ok (n + 1)
    | none => .error .outOfArena

/-- Modelled from the spec: `TreeNode::nextSibling`, own address plus own
total size including descendants. -/
def nextSibling (nodes : List TreeNode) (a : Nat) : Except Fault Nat := do
  let x ← nodeAt nodes a
  let n ← deepSize nodes a x.numberOfChildren
  pure (a + n)

/-- The loop `for (i = 0; i < index; i++) p = p->nextSibling();`. -/
def siblingLoop (nodes : List TreeNode) : Nat → Nat → Except Fault Nat
  | 0, a => .ok a
  | i + 1, a => do
    let b ← nextSibling nodes a
    siblingLoop nodes i b

/-- Modelled from the spec: `TreeNode::childAtIndex`, reached from the first
child by walking `i` siblings forward. -/
def childAtIndex (nodes : List TreeNode) (a i : Nat) : Except Fault Nat :=
  siblingLoop nodes i (a + 1)

/-- Modelled from the spec: `TreeNode::lastDescendant`, the address of the
node immediately before the next sibling. -/
def lastDescendant (nodes : List TreeNode) (a : Nat) : Except Fault Nat := do
  let b ← nextSibling nodes a
  pure (b - 1)

/-- Backward scan for the parent over the records that precede a node, nearest
first; `t` counts the complete subtrees passed so far.  The result is the
parent's address and the index of the node among the parent's children. -/
def parentScan : List TreeNode → Nat → Option (Nat × Nat)
  | [], _ => none
  | x :: before, t =>
    if t < x.numberOfChildren then some (before.length, t)
    else parentScan before (t + 1 - x.numberOfChildren)

/-- Modelled from the spec: `TreeNode::parentTree`, found by scanning backward
using child counts. -/
def parentTree (nodes : List TreeNode) (a : Nat) : Option Nat :=
  (parentScan (nodes.take a).reverse 0).map Prod.fst

/-- Modelled from the spec: `TreeNode::indexInParent`, `-1` without parent. -/
def indexInParent (nodes : List TreeNode) (a : Nat) : Int :=
  match parentScan (nodes.take a).reverse 0 with
  | some (_, i) => (i : Int)
  | none => -1

/-- Walk over the next `k` direct children starting at address `c`. -/
def hasChildLoop (nodes : List TreeNode) : Nat → Nat → Nat → Bool
  | 0, _, _ => false
  | k + 1, c, b =>
    if c = b then true
    else
      match nextSibling nodes c with
      | .ok c' => hasChildLoop nodes k c' b
      | .error _ => false

/-- Modelled from the spec: `TreeNode::hasChild`, whether address `b` is one
of the `numberOfChildren` direct children of the node at address `a`. -/
def hasChild (nodes : List TreeNode) (a b : Nat) : Except Fault Bool := do
  let x ← nodeAt nodes a
  pure (hasChildLoop nodes x.numberOfChildren (a + 1) b)

/-! ## The arena -/

/-- Apply `f` to the record at address `a`. -/
def modifyAt (nodes : List TreeNode) (a : Nat) (f : TreeNode → TreeNode) :
    Except Fault (List TreeNode) :=
  match nodes[a]? with
  | some x => .ok (nodes.set a (f x))
  | none => .error .outOfArena

/-- Modelled from the spec: the identifier table, the address at which an
identifier is stored. -/
def nodeForIdentifier : List TreeNode → Int → Option Nat
  | [], _ => none
  | x :: rest, identifier =>
    if x.identifier = identifier then some 0
    else
      match nodeForIdentifier rest identifier with
      | some a => some (a + 1)
      | none => none

/-- Modelled from the spec: `TreePool::last`, the end of the used arena. -/
def last (nodes : List TreeNode) : Nat := nodes.length

/-- Modelled from the spec: the ordered range shuffle under `TreePool::move`.
The `len` records at `src` are taken out and put back so that they start where
the record formerly at `dst` stood; the records in between shift to close the
gap.  A destination strictly inside the moved range changes nothing. -/
def moveNodes (nodes : List TreeNode) (dst src len : Nat) : List TreeNode :=
  if dst ≤ src then
    nodes.take dst ++ (nodes.drop src).take len ++ (nodes.drop dst).take (src - dst)
      ++ nodes.drop (src + len)
  else if src + len ≤ dst then
    nodes.take src ++ (nodes.drop (src + len)).take (dst - (src + len))
      ++ (nodes.drop src).take len ++ nodes.drop dst
  else nodes

/-- Modelled from the spec: `TreePool::move(destination, source,
numberOfChildren)`. -/
def move (nodes : List TreeNode) (dst src numberOfChildren : Nat) :
    Except Fault (List TreeNode) := do
  let len ← deepSize nodes src numberOfChildren
  pure (moveNodes nodes dst src len)

/-- Modelled from the spec: `TreePool::moveChildren(destination,
sourceParent)`, which moves the descendants of a node and not the node. -/
def moveChildren (nodes : List TreeNode) (dst src : Nat) : Except Fault (List TreeNode) := do
  let x ← nodeAt nodes src
  let len ← deepSize nodes src x.numberOfChildren
  pure (moveNodes nodes dst (src + 1) (len - 1))

/-- Modelled from the spec: `TreePool::discardTreeNode`, the bytes of one
record are given back. -/
def discardTreeNode (nodes : List TreeNode) (a : Nat) : Except Fault (List TreeNode) :=
  match nodes[a]? with
  | some _ => .ok (nodes.eraseIdx a)
  | none => .error .outOfArena

/-- An identifier no record of the arena carries. -/
def freshIdentifier (nodes : List TreeNode) : Int :=
  (nodes.map (fun x => x.identifier)).foldl max (-1) + 1

/-- Modelled from the spec: `TreePool::deepCopy` of a statically allocated
node: the copy is appended at `last()` under a fresh identifier.  The capacity
of the arena is not modelled. -/
def deepCopyStatic (nodes : List TreeNode) (x : TreeNode) : Nat × List TreeNode :=
  (nodes.length, nodes ++ [x.rename (freshIdentifier nodes)])

/-- A copied run of records as `TreePool::deepCopy` leaves it: consecutive
identifiers from `base` on, one owner each, everything else as in the original. -/
def cloneSpan : Int → List TreeNode → List TreeNode
  | _, [] => []
  | base, x :: rest =>
    { x with identifier := base, retainCount := 1 } :: cloneSpan (base + 1) rest

/-- Modelled from the spec: `TreePool::deepCopy`, which duplicates a node and
its full descendant subtree at `last()`, assigns fresh identifiers throughout
and resets the counters: the copy's own counter is 1, a descendant's counter
counts its parent.  The capacity of the arena is not modelled. -/
def deepCopy (nodes : List TreeNode) (a : Nat) : Except Fault (Nat × List TreeNode) := do
  let x ← nodeAt nodes a
  let len ← deepSize nodes a x.numberOfChildren
  pure (nodes.length, nodes ++ cloneSpan (freshIdentifier nodes) ((nodes.drop a).take len))

/-- Counters of a subtree nobody owns yet: none for the root, the parent as the
one owner of every descendant. -/
def resetCounters : List TreeNode → List TreeNode
  | [] => []
  | x :: rest => x.setReferenceCounter 0 :: rest.map (fun y => y.setReferenceCounter 1)

/-- Modelled from the spec: `TreeNode::deepResetReferenceCounter`, after which
the counters of a subtree reflect its internal structure only. -/
def deepResetReferenceCounter (nodes : List TreeNode) (a : Nat) :
    Except Fault (List TreeNode) := do
  let x ← nodeAt nodes a
  let len ← deepSize nodes a x.numberOfChildren
  pure (nodes.take a ++ (resetCounters ((nodes.drop a).take len) ++ nodes.drop (a + len)))

/-- One turn of the loop of `releaseChildren`: the first child is moved to
the tail of the arena and released there. -/
def releaseFirstChild (rel : List TreeNode → Nat → Except Fault (List TreeNode))
    (a : Nat) (nodes : List TreeNode) : Except Fault (List TreeNode) := do
  let c ← nodeAt nodes (a + 1)
  let len ← deepSize nodes (a + 1) c.numberOfChildren
  let nodes ← move nodes (last nodes) (a + 1) c.numberOfChildren
  rel nodes (nodes.length - len)

/-- Run `body` on the state `n` times. -/
def repeatM (body : List TreeNode → Except Fault (List TreeNode)) :
    Nat → List TreeNode → Except Fault (List TreeNode)
  | 0, nodes => .ok nodes
  | n + 1, nodes => do
    let nodes ← body nodes
    repeatM body n nodes

/-- Modelled from the spec: `TreeNode::release`, which decrements the
reference count and destroys the node, releasing each child subtree, when the
count reaches zero.  `fuel` bounds the nesting of destructions. -/
def release : Nat → List TreeNode → Nat → Except Fault (List TreeNode)
  | 0, _, _ => .error .fuel
  | fuel + 1, nodes, a => do
    let x ← nodeAt nodes a
    let nodes ← modifyAt nodes a (fun y => { y with retainCount := y.retainCount - 1 })
    if x.retainCount - 1 = 0 then do
      let nodes ← repeatM (releaseFirstChild (release fuel) a) x.numberOfChildren nodes
      discardTreeNode nodes a
    else pure nodes

/-- Modelled from the spec: `TreeNode::releaseChildren`. -/
def releaseChildren (fuel : Nat) (nodes : List TreeNode) (a numberOfChildren : Nat) :
    Except Fault (List TreeNode) :=
  repeatM (releaseFirstChild (release fuel) a) numberOfChildren nodes

/-- Modelled from the spec: `TreeNode::releaseChildrenAndDestroy`. -/
def releaseChildrenAndDestroy (fuel : Nat) (nodes : List TreeNode) (a numberOfChildren : Nat) :
    Except Fault (List TreeNode) := do
  let nodes ← releaseChildren fuel nodes a numberOfChildren
  discardTreeNode nodes a

/-! ## Tree references -/

/-- Modelled from the spec: `TreePool::NoNodeIdentifier`, the identifier of an
undefined reference. -/
def NoNodeIdentifier : Int := -1

/-- The shared pool: the arena, and the number of operations on an undefined
reference that were let through.  Every operation of this file stops on an
undefined reference, so no call changes that number. -/
structure TreePool where
  nodes : List TreeNode
  undefinedUses : Nat
deriving DecidableEq, Repr

/-- Modelled from the spec: a tree handle carries one identifier.  A handle
passed by value is a copy that lives as long as the call while the caller
keeps its own, so the retain and the release of that copy are not modelled;
handles that a function body creates are retained and released explicitly. -/
structure TreeReference where
  m_identifier : Int
deriving DecidableEq, Repr

namespace TreeReference

/-- Modelled from the spec: `TreeReference::isDefined`. -/
def isDefined (self : TreeReference) : Bool :=
  decide (self.m_identifier ≠ NoNodeIdentifier)

/-- Modelled from the spec: `TreeReference::node`, the current address of the
node the handle denotes. -/
def node (self : TreeReference) (nodes : List TreeNode) : Except Fault Nat :=
  if self.isDefined then
    match nodeForIdentifier nodes self.m_identifier with
    | some a => .ok a
    | none => .error .unknownIdentifier
  else .error .undefinedHandle

/-- Modelled from the spec: the constructor `TreeReference(TreeNode *)`, which
retains the node, or is undefined for a null pointer. -/
def ofNode (nodes : List TreeNode) : Option Nat → Except Fault (TreeReference × List TreeNode)
  | none => .ok (⟨NoNodeIdentifier⟩, nodes)
  | some a => do
    let x ← nodeAt nodes a
    let nodes ← modifyAt nodes a TreeNode.retain
    pure (⟨x.identifier⟩, nodes)

/-- Modelled from the spec: `TreeReference::isAllocationFailure`, defined and
denoting a failure sentinel. -/
def isAllocationFailure (self : TreeReference) (nodes : List TreeNode) : Except Fault Bool :=
  if self.isDefined then do
    let a ← self.node nodes
    let x ← nodeAt nodes a
    pure x.isAllocationFailure
  else pure false

/-- Modelled from the spec: `TreeReference::numberOfChildren`. -/
def numberOfChildren (self : TreeReference) (nodes : List TreeNode) : Except Fault Nat := do
  let a ← self.node nodes
  let x ← nodeAt nodes a
  pure x.numberOfChildren

/-- Modelled from the spec: `TreeReference::parent`, a handle on
`node()->parentTree()`. -/
def parent (self : TreeReference) (nodes : List TreeNode) :
    Except Fault (TreeReference × List TreeNode) := do
  let a ← self.node nodes
  ofNode nodes (parentTree nodes a)

/-- Modelled from the spec: `TreeReference::treeChildAtIndex`, a handle on
`node()->childAtIndex(i)`. -/
def treeChildAtIndex (self : TreeReference) (i : Nat) (nodes : List TreeNode) :
    Except Fault (TreeReference × List TreeNode) := do
  let a ← self.node nodes
  let c ← childAtIndex nodes a i
  ofNode nodes (some c)

/-- Modelled from the spec: `TreeReference::decrementNumberOfChildren`.
Operating on an undefined handle is a precondition violation: the call stops
there, as every other operation on an undefined handle does. -/
def decrementNumberOfChildren (self : TreeReference) (pool : TreePool) : Except Fault TreePool :=
  do
    let a ← self.node pool.nodes
    let nodes ← modifyAt pool.nodes a (fun x => x.decrementNumberOfChildren 1)
    pure { pool with nodes := nodes }

/-- The destructor `TreeReference::~TreeReference`. -/
def destruct (fuel : Nat) (self : TreeReference) (pool : TreePool) : Except Fault TreePool :=
  if self.isDefined then do
    let a ← self.node pool.nodes
    let x ← nodeAt pool.nodes a
    if x.identifier = self.m_identifier then do
      let nodes ← release fuel pool.nodes a
      pure { pool with nodes := nodes }
    else .error .assertion
  else pure pool

/-- `TreeReference::removeTreeChild`. -/
def removeTreeChild (fuel : Nat) (self t : TreeReference) (pool : TreePool) :
    Except Fault TreePool :=
  if self.isDefined then do
    let ta ← t.node pool.nodes
    let tn ← t.numberOfChildren pool.nodes
    let nodes ← move pool.nodes (last pool.nodes) ta tn
    let ta ← t.node nodes
    let nodes ← release fuel nodes ta
    let a ← self.node nodes
    let nodes ← modifyAt nodes a (fun x => x.decrementNumberOfChildren 1)
    pure { pool with nodes := nodes }
  else .error .assertion

/-- `TreeReference::removeTreeChildAtIndex`. -/
def removeTreeChildAtIndex (fuel : Nat) (self : TreeReference) (i : Int) (pool : TreePool) :
    Except Fault TreePool :=
  if self.isDefined then do
    let n ← self.numberOfChildren pool.nodes
    if 0 ≤ i ∧ i < (n : Int) then do
      let (t, nodes) ← self.treeChildAtIndex i.toNat pool.nodes
      let pool ← removeTreeChild fuel self t { pool with nodes := nodes }
      destruct fuel t pool
    else .error .assertion
  else .error .assertion

/-- `TreeReference::removeChildren`. -/
def removeChildren (fuel : Nat) (self : TreeReference) (pool : TreePool) :
    Except Fault TreePool :=
  if self.isDefined then do
    let a ← self.node pool.nodes
    let n ← self.numberOfChildren pool.nodes
    let nodes ← releaseChildren fuel pool.nodes a n
    let a ← self.node nodes
    let nodes ← modifyAt nodes a TreeNode.eraseNumberOfChildren
    pure { pool with nodes := nodes }
  else .error .assertion

mutual

/-- `TreeReference::addChildTreeAtIndex`. -/
def addChildTreeAtIndex : Nat → TreeReference → TreeReference → Int → Int → TreePool →
    Except Fault TreePool
  | 0, _, _, _, _, _ => .error .fuel
  | fuel + 1, self, t, index, currentNumberOfChildren, pool =>
    if self.isDefined then do
      let a ← self.node pool.nodes
      let x ← nodeAt pool.nodes a
      if x.isAllocationFailure then pure pool
      else do
        let tFailed ← t.isAllocationFailure pool.nodes
        if tFailed then replaceWithAllocationFailure fuel self currentNumberOfChildren pool
        else if 0 ≤ index ∧ index ≤ currentNumberOfChildren then do
          -- Retain t before detaching it, else it might get destroyed
          let ta ← t.node pool.nodes
          let nodes ← modifyAt pool.nodes ta TreeNode.retain
          -- Detach t from its parent
          let (tParent, nodes) ← t.parent nodes
          let pool ←
            if tParent.isDefined then removeTreeChild fuel tParent t { pool with nodes := nodes }
            else pure { pool with nodes := nodes }
          -- Move t
          let a ← self.node pool.nodes
          let newChildPosition ← siblingLoop pool.nodes index.toNat (a + 1)
          let ta ← t.node pool.nodes
          let tn ← t.numberOfChildren pool.nodes
          let nodes ← move pool.nodes newChildPosition ta tn
          let a ← self.node nodes
          let nodes ← modifyAt nodes a (fun y => y.incrementNumberOfChildren 1)
          destruct fuel tParent { pool with nodes := nodes }
        else .error .assertion
    else .error .assertion

/-- `TreeReference::replaceWithAllocationFailure`. -/
def replaceWithAllocationFailure : Nat → TreeReference → Int → TreePool → Except Fault TreePool
  | 0, _, _, _ => .error .fuel
  | fuel + 1, self, currentNumberOfChildren, pool => do
    let failed ← self.isAllocationFailure pool.nodes
    if failed then pure pool
    else if self.isDefined then do
      let (p, nodes) ← self.parent pool.nodes
      let hasParent := p.isDefined
      let a ← self.node nodes
      let x ← nodeAt nodes a
      let indexInParentNode : Int := if hasParent then indexInParent nodes a else -1
      let currentRetainCount := x.retainCount
      let staticAllocFailNode := x.failedAllocationStaticNode
      -- Release all children and delete the node in the pool
      let nodes ← releaseChildrenAndDestroy fuel nodes a currentNumberOfChildren.toNat
      -- Create an allocation failure node with the previous node id
      let (newAllocationFailureNode, nodes) := deepCopyStatic nodes staticAllocFailNode
      let nodes ← modifyAt nodes newAllocationFailureNode (fun y => y.rename self.m_identifier)
      let pool ←
        if p.isDefined then
          if 0 ≤ indexInParentNode then do
            let nodes ← modifyAt nodes newAllocationFailureNode
              (fun y => y.setReferenceCounter (currentRetainCount - 1))
            let (tmp, nodes) ← ofNode nodes (some newAllocationFailureNode)
            let pn ← p.numberOfChildren nodes
            let pool ← addChildTreeAtIndex fuel p tmp indexInParentNode ((pn : Int) - 1)
              { pool with nodes := nodes }
            destruct fuel tmp pool
          else .error .assertion
        else do
          let nodes ← modifyAt nodes newAllocationFailureNode
            (fun y => y.setReferenceCounter currentRetainCount)
          pure { pool with nodes := nodes }
      let pool ← p.decrementNumberOfChildren pool
      destruct fuel p pool
    else .error .assertion

end

/-- `TreeReference::replaceTreeChildAtIndex`. -/
def replaceTreeChildAtIndex (fuel : Nat) (self : TreeReference) (oldChildIndex : Int)
    (newChild : TreeReference) (pool : TreePool) : Except Fault TreePool :=
  if self.isDefined then do
    let newFailed ← newChild.isAllocationFailure pool.nodes
    if newFailed then do
      let n ← self.numberOfChildren pool.nodes
      replaceWithAllocationFailure fuel self (n : Int) pool
    else do
      let (p, nodes) ← newChild.parent pool.nodes
      let pool ←
        if p.isDefined then p.decrementNumberOfChildren { pool with nodes := nodes }
        else pure { pool with nodes := nodes }
      let n ← self.numberOfChildren pool.nodes
      if 0 ≤ oldChildIndex ∧ oldChildIndex < (n : Int) then do
        let (oldChild, nodes) ← self.treeChildAtIndex oldChildIndex.toNat pool.nodes
        let oa ← oldChild.node nodes
        let dst ← nextSibling nodes oa
        let na ← newChild.node nodes
        let nn ← newChild.numberOfChildren nodes
        let nodes ← move nodes dst na nn
        let nodes ←
          if p.isDefined then pure nodes
          else do
            let na ← newChild.node nodes
            modifyAt nodes na TreeNode.retain
        let oa ← oldChild.node nodes
        let oldn ← oldChild.numberOfChildren nodes
        let nodes ← move nodes (last nodes) oa oldn
        let oa ← oldChild.node nodes
        let nodes ← release fuel nodes oa
        let pool ← destruct fuel oldChild { pool with nodes := nodes }
        destruct fuel p pool
      else .error .assertion
  else .error .assertion

/-- `TreeReference::mergeTreeChildrenAtIndex`. -/
def mergeTreeChildrenAtIndex (fuel : Nat) (self t : TreeReference) (i : Int) (pool : TreePool) :
    Except Fault TreePool := do
  let n ← self.numberOfChildren pool.nodes
  if 0 ≤ i ∧ i ≤ (n : Int) then do
    -- Steal operands
    let numberOfNewChildren ← t.numberOfChildren pool.nodes
    let a ← self.node pool.nodes
    let dst ←
      if i < (n : Int) then childAtIndex pool.nodes a i.toNat
      else do
        let d ← lastDescendant pool.nodes a
        pure (d + 1)
    let ta ← t.node pool.nodes
    let nodes ← moveChildren pool.nodes dst ta
    let ta ← t.node nodes
    let nodes ← modifyAt nodes ta TreeNode.eraseNumberOfChildren
    -- If t is a child, remove it
    let a ← self.node nodes
    let ta ← t.node nodes
    let isChild ← hasChild nodes a ta
    let pool ←
      if isChild then removeTreeChild fuel self t { pool with nodes := nodes }
      else pure { pool with nodes := nodes }
    let a ← self.node pool.nodes
    let nodes ← modifyAt pool.nodes a (fun y => y.incrementNumberOfChildren numberOfNewChildren)
    pure { pool with nodes := nodes }
  else .error .assertion

/-- `TreeReference::treeClone`. -/
def treeClone (self : TreeReference) (pool : TreePool) :
    Except Fault (TreeReference × TreePool) :=
  if !self.isDefined then do
    let (r, nodes) ← ofNode pool.nodes none
    pure (r, { pool with nodes := nodes })
  else do
    let myNode ← self.node pool.nodes
    let x ← nodeAt pool.nodes myNode
    if x.isAllocationFailure then do
      let allocationFailureNodeId := x.allocationFailureNodeIdentifier
      let (r, nodes) ← ofNode pool.nodes (nodeForIdentifier pool.nodes allocationFailureNodeId)
      pure (r, { pool with nodes := nodes })
    else do
      let (nodeCopy, nodes) ← deepCopy pool.nodes myNode
      let nodes ← deepResetReferenceCounter nodes nodeCopy
      let (r, nodes) ← ofNode nodes (some nodeCopy)
      pure (r, { pool with nodes := nodes })

/-- Modelled from the spec: `TreeReference::setIdentifierAndRetain`. -/
def setIdentifierAndRetain (newId : Int) (nodes : List TreeNode) :
    Except Fault (TreeReference × List TreeNode) := do
  let r : TreeReference := ⟨newId⟩
  let a ← r.node nodes
  let nodes ← modifyAt nodes a TreeNode.retain
  pure (r, nodes)

/-- `TreeReference::setTo`; the result is the handle after the assignment.
The pointer `currentNode` is fetched before `isDefined()` is looked at and is
used under it only: it is the entry of the identifier table, `none` for an
identifier without node. -/
def setTo (fuel : Nat) (self tr : TreeReference) (pool : TreePool) :
    Except Fault (TreeReference × TreePool) :=
  if self.m_identifier = tr.m_identifier then pure (self, pool)
  else do
    let currentNode := nodeForIdentifier pool.nodes self.m_identifier
    let releaseNode := self.isDefined
    let (self, nodes) ←
      if tr.isDefined then setIdentifierAndRetain tr.m_identifier pool.nodes
      else pure (⟨NoNodeIdentifier⟩, pool.nodes)
    let nodes ←
      if releaseNode then
        match currentNode with
        | some a => release fuel nodes a
        | none => .error .unknownIdentifier
      else pure nodes
    pure (self, { pool with nodes := nodes })

end TreeReference

/-! ## Subtrees as values -/

/-- A subtree as a value: the record of its root and the subtrees of its
children, in order. -/
inductive Tree where
  | node (hdr : TreeNode) (kids : List Tree)

namespace Tree

/-- The record of the root as it is stored: its child count is the number of
child subtrees. -/
def root : Tree → TreeNode
  | node h ks => { h with numberOfChildren := ks.length }

/-- The child subtrees. -/
def children : Tree → List Tree
  | node _ ks => ks

end Tree

mutual
/-- Pre-order layout of a subtree. -/
def flat : Tree → List TreeNode
  | .node h ks => { h with numberOfChildren := ks.length } :: flatF ks
/-- Pre-order layout of consecutive subtrees. -/
def flatF : List Tree → List TreeNode
  | [] => []
  | t :: ts => flat t ++ flatF ts
end

mutual
/-- Nesting depth of a subtree. -/
def height : Tree → Nat
  | .node _ ks => heightF ks + 1
/-- Largest nesting depth among consecutive subtrees. -/
def heightF : List Tree → Nat
  | [] => 0
  | t :: ts => max (height t) (heightF ts)
end

mutual
/-- What a release leaves of a subtree: the subtree with one owner less, or,
when that was the last owner, what the release of each child leaves. -/
def released : Tree → List TreeNode
  | .node h ks =>
    if h.retainCount - 1 = 0 then releasedF ks
    else flat (.node { h with retainCount := h.retainCount - 1 } ks)
/-- What releasing each of consecutive subtrees leaves, in order. -/
def releasedF : List Tree → List TreeNode
  | [] => []
  | t :: ts => released t ++ releasedF ts
end

mutual
/-- The copy of a subtree as a value: identifiers in pre-order from `base` on,
one owner each. -/
def cloneTree : Int → Tree → Tree
  | base, .node h ks =>
    .node { h with identifier := base, retainCount := 1 } (cloneForest (base + 1) ks)
/-- The copies of consecutive subtrees. -/
def cloneForest : Int → List Tree → List Tree
  | _, [] => []
  | base, t :: ts => cloneTree base t :: cloneForest (base + (flat t).length) ts
end

/-- The identifiers stored in a run of records. -/
def ids (nodes : List TreeNode) : List Int := nodes.map (fun x => x.identifier)

/-- The arena in which the run of records `span` starts at address `q` and
the other records are `rest`, in order. -/
def insertSpan (rest : List TreeNode) (q : Nat) (span : List TreeNode) : List TreeNode :=
  rest.take q ++ (span ++ rest.drop q)

/-- Every record of a run is followed, within the run, by as many complete
subtrees as its child count tells. -/
def wellFormed : List TreeNode → Bool
  | [] => true
  | x :: rest => (spanLength rest x.numberOfChildren).isSome && wellFormed rest

/-- Whether the node at address `b` stands in the subtree of the node at address `a`, that
node itself included. -/
def inSubtree (nodes : List TreeNode) (a b : Nat) : Bool :=
  match nextSibling nodes a with
  | .ok e => decide (a ≤ b ∧ b < e)
  | .error _ => false

/-- Number of complete subtrees a run of records makes up when each record
adopts as many of the subtrees after it as its child count tells: every
record adds one and takes its children away. -/
def bal : List TreeNode → Int
  | [] => 0
  | x :: rest => 1 - (x.numberOfChildren : Int) + bal rest

/-- Every record of the run finds its children when `d` complete subtrees
follow the run. -/
def goodWith (d : Int) : List TreeNode → Prop
  | [] => True
  | x :: rest => 1 ≤ bal (x :: rest) + d ∧ goodWith d rest

/-! ## Ancestors -/

/-- One ancestor of a node: its record, and the subtrees of its children that stand before
and after the child on the way down to the node. -/
structure Frame where
  hdr : TreeNode
  left : List Tree
  right : List Tree

/-- The record of an ancestor as it is stored, counting all its children. -/
def Frame.root (f : Frame) : TreeNode :=
  { f.hdr with numberOfChildren := f.left.length + 1 + f.right.length }

/-- The records that the ancestors of a node, nearest first, store before it: each ancestor
followed by its children on the left of the way down. -/
def pathBefore : List Frame → List TreeNode
  | [] => []
  | f :: rest => pathBefore rest ++ (f.root :: flatF f.left)

/-- The records that the ancestors of a node, nearest first, store after its subtree: the
children on the right of the way down. -/
def pathAfter : List Frame → List TreeNode
  | [] => []
  | f :: rest => flatF f.right ++ pathAfter rest

/-- The identifiers of the ancestors, nearest first. -/
def pathIds (path : List Frame) : List Int := path.map (fun f => f.hdr.identifier)

/-- The records of all the subtrees that hang off the way down. -/
def pathKids : List Frame → List TreeNode
  | [] => []
  | f :: rest => flatF (f.left ++ f.right) ++ pathKids rest

/-- Largest nesting depth among the subtrees that hang off the way down. -/
def pathHeight : List Frame → Nat
  | [] => 0
  | f :: rest => max (heightF (f.left ++ f.right)) (pathHeight rest)

/-- The failure sentinel that takes the identifier and the kind of a record. -/
def sentinel (h : TreeNode) (retainCount : Int) : TreeNode :=
  { identifier := h.identifier, retainCount := retainCount, numberOfChildren := 0,
    isAllocationFailure := true, content := h.content }

/-- Fuel that `replaceWithAllocationFailure` needs on a node with the child subtrees `Ks`
under the given ancestors. -/
def fuelFor : List Frame → List Tree → Nat
  | [], Ks => heightF Ks + 1
  | f :: rest, Ks => max (heightF Ks + 1) (fuelFor rest (f.left ++ f.right) + 2)

/-! ## Records used in worked examples -/

/-- A live record with the given identifier and reference count. -/
def liveNode (identifier retainCount : Int) : TreeNode :=
  { identifier := identifier, retainCount := retainCount, numberOfChildren := 0,
    isAllocationFailure := false, content := 0 }

/-- A live subtree without children. -/
def leaf (identifier retainCount : Int) : Tree :=
  .node (liveNode identifier retainCount) []

/-- A failure sentinel with the given identifier and reference count. -/
def failureNode (identifier retainCount : Int) : TreeNode :=
  { identifier := identifier, retainCount := retainCount, numberOfChildren := 0,
    isAllocationFailure := true, content := 0 }

/-! ## Lemmas -/

@[simp] theorem flatF_nil : flatF [] = [] := by simp [flatF]
@[simp] theorem flatF_cons (t : Tree) (ts : List Tree) : flatF (t :: ts) = flat t ++ flatF ts := by
  simp [flatF]
theorem flat_eq (t : Tree) : flat t = t.root :: flatF t.children := by
  cases t; simp [flat, Tree.root, Tree.children]
@[simp] theorem flat_node (h : TreeNode) (ks : List Tree) :
    flat (.node h ks) = { h with numberOfChildren := ks.length } :: flatF ks := by
  simp [flat]
@[simp] theorem flatF_append (a b : List Tree) : flatF (a ++ b) = flatF a ++ flatF b := by
  induction a with
  | nil => simp
  | cons t ts ih => simp [ih]

@[simp] theorem spanLength_zero (l : List TreeNode) : spanLength l 0 = some 0 := by
  cases l <;> simp [spanLength]
theorem spanLength_cons (x : TreeNode) (l : List TreeNode) (k : Nat) :
    spanLength (x :: l) (k + 1) = (spanLength l (k + x.numberOfChildren)).map (· + 1) := by
  simp only [spanLength]
  cases spanLength l (k + x.numberOfChildren) <;> simp

mutual
theorem spanLength_flat (t : Tree) (R : List TreeNode) (k : Nat) :
    spanLength (flat t ++ R) (k + 1) = (spanLength R k).map (· + (flat t).length) := by
  match t with
  | .node h ks =>
    simp only [flat_node, List.cons_append, spanLength_cons, List.length_cons]
    rw [show k + ks.length = ks.length + k by omega, spanLength_flatF ks R k]
    cases spanLength R k with
    | none => simp
    | some n =>
      simp
      omega
theorem spanLength_flatF (F : List Tree) (R : List TreeNode) (k : Nat) :
    spanLength (flatF F ++ R) (F.length + k) = (spanLength R k).map (· + (flatF F).length) := by
  match F with
  | [] => simp
  | t :: ts =>
    simp only [flatF_cons, List.append_assoc, List.length_cons, List.length_append]
    rw [show ts.length + 1 + k = (ts.length + k) + 1 by omega, spanLength_flat t _ _,
      spanLength_flatF ts R k]
    cases spanLength R k with
    | none => simp
    | some n =>
      simp
      omega
end


/-! ### Monad plumbing -/

@[simp] theorem ok_bind {α β : Type} (a : α) (f : α → Except Fault β) :
    (Except.ok a >>= f) = f a := rfl
@[simp] theorem error_bind {α β : Type} (e : Fault) (f : α → Except Fault β) :
    ((Except.error e : Except Fault α) >>= f) = Except.error e := rfl
@[simp] theorem pure_eq_ok {α : Type} (a : α) : (pure a : Except Fault α) = Except.ok a := rfl

/-! ### Addresses in a decomposed arena -/

theorem getElem?_mid {N A B : List TreeNode} {x : TreeNode} {a : Nat}
    (hn : N = A ++ x :: B) (ha : a = A.length) : N[a]? = some x := by
  subst hn ha
  rw [List.getElem?_append_right (Nat.le_refl _)]
  simp

theorem nodeAt_mid {N A B : List TreeNode} {x : TreeNode} {a : Nat}
    (hn : N = A ++ x :: B) (ha : a = A.length) : nodeAt N a = .ok x := by
  simp [nodeAt, getElem?_mid hn ha]

theorem modifyAt_mid {N A B : List TreeNode} {x : TreeNode} {a : Nat}
    (f : TreeNode → TreeNode) (hn : N = A ++ x :: B) (ha : a = A.length) :
    modifyAt N a f = .ok (A ++ f x :: B) := by
  simp only [modifyAt, getElem?_mid hn ha]
  subst hn ha; simp

theorem discardTreeNode_mid {N A B : List TreeNode} {x : TreeNode} {a : Nat}
    (hn : N = A ++ x :: B) (ha : a = A.length) :
    discardTreeNode N a = .ok (A ++ B) := by
  simp only [discardTreeNode, getElem?_mid hn ha]
  subst hn ha
  simp [List.eraseIdx_append_of_length_le]

theorem nodeForIdentifier_mid {N A B : List TreeNode} {x : TreeNode} {i : Int}
    (hn : N = A ++ x :: B) (hi : x.identifier = i)
    (hA : ∀ y ∈ A, y.identifier ≠ i) :
    nodeForIdentifier N i = some A.length := by
  subst hn hi
  induction A with
  | nil => simp [nodeForIdentifier]
  | cons y A ih =>
    have hy : y.identifier ≠ x.identifier := hA y (by simp)
    have := ih (fun z hz => hA z (by simp [hz]))
    simp [nodeForIdentifier, hy, this]

theorem deepSize_mid {N A B : List TreeNode} {x : TreeNode} {F : List Tree} {a n : Nat}
    (hn : N = A ++ x :: (flatF F ++ B)) (ha : a = A.length) (hF : n = F.length) :
    deepSize N a n = .ok ((flatF F).length + 1) := by
  simp only [deepSize, nodeAt_mid hn ha]
  subst hn ha hF
  have := spanLength_flatF F B 0
  simp at this
  simp [this]


theorem nextSibling_mid {N A B : List TreeNode} {t : Tree} {a : Nat}
    (hn : N = A ++ (flat t ++ B)) (ha : a = A.length) :
    nextSibling N a = .ok (a + (flat t).length) := by
  cases t with
  | node h ks =>
    have hn' : N = A ++ ({ h with numberOfChildren := ks.length } : TreeNode)
        :: (flatF ks ++ B) := by
      simp [hn]
    simp [nextSibling, nodeAt_mid hn' ha, deepSize_mid hn' ha rfl]

theorem siblingLoop_mid {N A B : List TreeNode} {F : List Tree} (i : Nat) {a : Nat}
    (hn : N = A ++ (flatF F ++ B)) (ha : a = A.length) (hi : i ≤ F.length) :
    siblingLoop N i a = .ok (a + (flatF (F.take i)).length) := by
  induction i generalizing A F a with
  | zero => simp [siblingLoop]
  | succ i ih =>
    cases F with
    | nil => simp at hi
    | cons t ts =>
      have h1 : nextSibling N a = .ok (a + (flat t).length) :=
        nextSibling_mid (B := flatF ts ++ B) (by simp [hn]) ha
      have h2 := ih (A := A ++ flat t) (F := ts) (a := a + (flat t).length)
        (by simp [hn]) (by simp [ha]) (by simpa using hi)
      simp [siblingLoop, h1, h2]
      omega

theorem take_app {α : Type} (A X : List α) : (A ++ X).take A.length = A := by
  induction A with
  | nil => simp
  | cons a A ih => simp [ih]

theorem drop_app {α : Type} (A X : List α) : (A ++ X).drop A.length = X := by
  induction A with
  | nil => simp
  | cons a A ih => simp [ih]

theorem drop_app2 {α : Type} (A M X : List α) :
    (A ++ (M ++ X)).drop (A.length + M.length) = X := by
  rw [← List.append_assoc, ← List.length_append, drop_app]

theorem take_app2 {α : Type} (A M X : List α) :
    (A ++ (M ++ X)).take (A.length + M.length) = A ++ M := by
  rw [← List.append_assoc, ← List.length_append, take_app]

theorem moveNodes_left (A M S B : List TreeNode) {d s l : Nat}
    (hd : d = A.length) (hs : s = A.length + M.length) (hl : l = S.length) :
    moveNodes (A ++ (M ++ (S ++ B))) d s l = A ++ (S ++ (M ++ B)) := by
  subst hd hs hl
  simp only [moveNodes, Nat.le_add_right, if_true, Nat.add_sub_cancel_left]
  rw [take_app, drop_app2, drop_app, take_app, take_app,
    show A.length + M.length + S.length = A.length + (M.length + S.length) by omega,
    ← List.length_append, ← List.append_assoc M S B, drop_app2]
  simp

theorem moveNodes_right (A M S B : List TreeNode) {d s l : Nat}
    (hd : d = A.length + S.length + M.length) (hs : s = A.length) (hl : l = S.length) :
    moveNodes (A ++ (S ++ (M ++ B))) d s l = A ++ (M ++ (S ++ B)) := by
  subst hd hs hl
  by_cases h0 : S.length + M.length = 0
  · have hS : S = [] := by
      apply List.eq_nil_of_length_eq_zero; omega
    have hM : M = [] := by
      apply List.eq_nil_of_length_eq_zero; omega
    subst hS hM
    simp [moveNodes]
  · have hlt : ¬ (A.length + S.length + M.length ≤ A.length) := by omega
    unfold moveNodes
    rw [if_neg hlt, if_pos (by omega)]
    rw [take_app, drop_app2, drop_app,
      show A.length + S.length + M.length - (A.length + S.length) = M.length by omega,
      take_app, take_app,
      show A.length + S.length + M.length = A.length + (S.length + M.length) by omega,
      ← List.length_append, ← List.append_assoc S M B, drop_app2]
    simp

mutual
theorem parentScan_flat (t : Tree) (R : List TreeNode) (k : Nat) :
    parentScan ((flat t).reverse ++ R) k = parentScan R (k + 1) := by
  match t with
  | .node h ks =>
    simp only [flat_node, List.reverse_cons, List.append_assoc, List.singleton_append]
    rw [parentScan_flatF ks _ k]
    simp only [parentScan]
    rw [if_neg (by omega), show k + ks.length + 1 - ks.length = k + 1 by omega]
theorem parentScan_flatF (F : List Tree) (R : List TreeNode) (k : Nat) :
    parentScan ((flatF F).reverse ++ R) k = parentScan R (k + F.length) := by
  match F with
  | [] => simp
  | t :: ts =>
    simp only [flatF_cons, List.reverse_append, List.append_assoc, List.length_cons]
    rw [parentScan_flatF ts _ k, parentScan_flat t R _, Nat.add_assoc]
end

@[simp] theorem releasedF_nil : releasedF [] = [] := by simp [releasedF]
@[simp] theorem releasedF_cons (t : Tree) (ts : List Tree) :
    releasedF (t :: ts) = released t ++ releasedF ts := by
  simp [releasedF]
theorem released_node (h : TreeNode) (ks : List Tree) :
    released (.node h ks) =
      if h.retainCount - 1 = 0 then releasedF ks
      else flat (.node { h with retainCount := h.retainCount - 1 } ks) := by
  simp [released]
@[simp] theorem heightF_nil : heightF [] = 0 := by simp [heightF]
@[simp] theorem heightF_cons (t : Tree) (ts : List Tree) :
    heightF (t :: ts) = max (height t) (heightF ts) := by
  simp [heightF]
@[simp] theorem height_node (h : TreeNode) (ks : List Tree) :
    height (.node h ks) = heightF ks + 1 := by
  simp [height]

theorem move_mid_to_last {N A B : List TreeNode} {t : Tree} {a n : Nat}
    (hn : N = A ++ (flat t ++ B)) (ha : a = A.length) (hc : n = t.children.length) :
    move N (last N) a n = .ok (A ++ (B ++ flat t)) := by
  subst hn ha
  cases t with
  | node h ks =>
    have hd := deepSize_mid (N := A ++ (flat (.node h ks) ++ B)) (A := A)
      (x := ({ h with numberOfChildren := ks.length } : TreeNode)) (F := ks) (B := B)
      (a := A.length) (n := n) (by simp) rfl (by simpa [Tree.children] using hc)
    simp only [move, hd, ok_bind, pure_eq_ok]
    have := moveNodes_right A B (flat (.node h ks)) []
      (d := last (A ++ (flat (.node h ks) ++ B))) (s := A.length)
      (l := (flatF ks).length + 1) (by simp [last]; omega) rfl (by simp)
    simp only [List.append_nil] at this
    rw [this]

mutual
theorem release_flat (t : Tree) (A B : List TreeNode) (fuel : Nat) (hf : height t ≤ fuel) :
    release fuel (A ++ (flat t ++ B)) A.length =
      .ok (if t.root.retainCount - 1 = 0 then A ++ (B ++ releasedF t.children)
           else A ++ (flat (.node { t.root with retainCount := t.root.retainCount - 1 }
             t.children) ++ B)) := by
  match t, fuel, hf with
  | .node h ks, 0, hf => simp at hf
  | .node h ks, fuel + 1, hf =>
    have hf' : heightF ks ≤ fuel := by simpa using hf
    have hn : A ++ (flat (.node h ks) ++ B) =
        A ++ ({ h with numberOfChildren := ks.length } : TreeNode) :: (flatF ks ++ B) := by simp
    simp only [release, nodeAt_mid hn rfl, modifyAt_mid _ hn rfl, ok_bind, Tree.root,
      Tree.children]
    by_cases hz : h.retainCount - 1 = 0
    · simp only [hz, if_true]
      rw [releaseLoop_flatF ks A _ B fuel hf']
      simp only [ok_bind]
      rw [discardTreeNode_mid rfl rfl]
    · simp [hz]
theorem releaseLoop_flatF (F : List Tree) (A : List TreeNode) (x : TreeNode) (B : List TreeNode)
    (fuel : Nat) (hf : heightF F ≤ fuel) :
    repeatM (releaseFirstChild (release fuel) A.length) F.length (A ++ x :: (flatF F ++ B)) =
      .ok (A ++ x :: (B ++ releasedF F)) := by
  match F with
  | [] => simp [repeatM]
  | t :: ts =>
    have hft : height t ≤ fuel := by
      simp at hf; omega
    have hfts : heightF ts ≤ fuel := by
      simp at hf; omega
    have hn : A ++ x :: (flatF (t :: ts) ++ B) = (A ++ [x]) ++ (flat t ++ (flatF ts ++ B)) := by
      simp
    have hc : nodeAt (A ++ x :: (flatF (t :: ts) ++ B)) (A.length + 1) = .ok t.root := by
      apply nodeAt_mid (A := A ++ [x]) (B := flatF t.children ++ (flatF ts ++ B))
      · simp [flat_eq t]
      · simp
    have hd : deepSize (A ++ x :: (flatF (t :: ts) ++ B)) (A.length + 1)
        t.root.numberOfChildren = .ok ((flat t).length) := by
      rw [deepSize_mid (A := A ++ [x]) (x := t.root) (F := t.children) (B := flatF ts ++ B)]
      · simp [flat_eq t]
      · simp [flat_eq t]
      · simp
      · cases t; simp [Tree.root, Tree.children]
    have hm := move_mid_to_last (N := A ++ x :: (flatF (t :: ts) ++ B)) (A := A ++ [x])
      (B := flatF ts ++ B) (t := t) (a := A.length + 1) (n := t.root.numberOfChildren)
      (by simp) (by simp) (by cases t; simp [Tree.root, Tree.children])
    have hr := release_flat t (A ++ [x] ++ (flatF ts ++ B)) [] fuel hft
    simp only [List.length_cons, repeatM, releaseFirstChild, hc, hd, hm, ok_bind]
    have hlen : (A ++ [x] ++ (flatF ts ++ B ++ flat t)).length - (flat t).length
        = (A ++ [x] ++ (flatF ts ++ B)).length := by
      simp; omega
    rw [hlen]
    have hre : A ++ [x] ++ (flatF ts ++ B ++ flat t) =
        (A ++ [x] ++ (flatF ts ++ B)) ++ (flat t ++ []) := by simp
    rw [hre, hr]
    simp only [ok_bind]
    have hrel : (if t.root.retainCount - 1 = 0 then
          A ++ [x] ++ (flatF ts ++ B) ++ ([] ++ releasedF t.children)
        else A ++ [x] ++ (flatF ts ++ B) ++
          (flat (.node { t.root with retainCount := t.root.retainCount - 1 } t.children) ++ []))
        = A ++ x :: (flatF ts ++ (B ++ released t)) := by
      cases t with
      | node h ks =>
        simp only [released_node, Tree.root, Tree.children]
        split <;> simp
    rw [hrel, releaseLoop_flatF ts A x (B ++ released t) fuel hfts]
    simp
end

@[simp] theorem ids_nil : ids [] = [] := rfl
@[simp] theorem ids_cons (x : TreeNode) (l : List TreeNode) :
    ids (x :: l) = x.identifier :: ids l := rfl
@[simp] theorem ids_append (a b : List TreeNode) : ids (a ++ b) = ids a ++ ids b := by
  simp [ids]

theorem not_mem_ids {i : Int} {l : List TreeNode} (h : i ∉ ids l) :
    ∀ y ∈ l, y.identifier ≠ i := by
  intro y hy he
  exact h (by simp only [ids, List.mem_map]; exact ⟨y, hy, he⟩)

namespace TreeReference

theorem node_mid {N A B : List TreeNode} {x : TreeNode} (r : TreeReference)
    (hn : N = A ++ x :: B) (hr : r.m_identifier = x.identifier)
    (hd : x.identifier ≠ NoNodeIdentifier) (hA : x.identifier ∉ ids A) :
    r.node N = .ok A.length := by
  have h1 : r.isDefined = true := by simp [isDefined, hr, hd]
  simp [node, h1, nodeForIdentifier_mid hn hr.symm (hr ▸ not_mem_ids hA)]

theorem isAllocationFailure_mid {N A B : List TreeNode} {x : TreeNode} (r : TreeReference)
    (hn : N = A ++ x :: B) (hr : r.m_identifier = x.identifier)
    (hd : x.identifier ≠ NoNodeIdentifier) (hA : x.identifier ∉ ids A) :
    r.isAllocationFailure N = .ok x.isAllocationFailure := by
  have h1 : r.isDefined = true := by simp [isDefined, hr, hd]
  simp [isAllocationFailure, h1, node_mid r hn hr hd hA, nodeAt_mid hn rfl]

theorem numberOfChildren_mid {N A B : List TreeNode} {x : TreeNode} (r : TreeReference)
    (hn : N = A ++ x :: B) (hr : r.m_identifier = x.identifier)
    (hd : x.identifier ≠ NoNodeIdentifier) (hA : x.identifier ∉ ids A) :
    r.numberOfChildren N = .ok x.numberOfChildren := by
  simp [numberOfChildren, node_mid r hn hr hd hA, nodeAt_mid hn rfl]

end TreeReference

theorem parentTree_congr {m n : List TreeNode} {a : Nat} (h : m.take a = n.take a) :
    parentTree m a = parentTree n a := by
  simp [parentTree, h]

open TreeReference

theorem add_after (L M R : List TreeNode) (p : TreeNode) (K : List Tree) (ch : TreeNode)
    (cks : List Tree) (index : Nat) (fuel v : Nat)
    (hpd : p.identifier ≠ NoNodeIdentifier) (hpl : p.isAllocationFailure = false)
    (hcd : ch.identifier ≠ NoNodeIdentifier) (hcl : ch.isAllocationFailure = false)
    (hpi : p.identifier ∉ ids L)
    (hci : ch.identifier ∉ ids (L ++ (flat (.node p K) ++ M)))
    (hpar : parentTree (L ++ (flat (.node p K) ++ (M ++ (flat (.node ch cks) ++ R))))
      (L.length + (flat (.node p K)).length + M.length) = none)
    (hi : index ≤ K.length) :
    addChildTreeAtIndex (fuel + 1) ⟨p.identifier⟩ ⟨ch.identifier⟩ index K.length
        ⟨L ++ (flat (.node p K) ++ (M ++ (flat (.node ch cks) ++ R))), v⟩ =
      .ok ⟨L ++ (flat (.node p (K.take index ++ .node ch.retain cks :: K.drop index))
        ++ (M ++ R)), v⟩ := by
  set p' : TreeNode := { p with numberOfChildren := K.length } with hp'
  set c' : TreeNode := { ch with numberOfChildren := cks.length } with hc'
  set nodes := L ++ (flat (.node p K) ++ (M ++ (flat (.node ch cks) ++ R))) with hnodes
  have e1 : nodes = L ++ p' :: (flatF K ++ (M ++ (c' :: (flatF cks ++ R)))) := by
    simp [hnodes, hp', hc']
  have e2 : nodes = (L ++ p' :: (flatF K ++ M)) ++ c' :: (flatF cks ++ R) := by
    simp [e1]
  have hci' : c'.identifier ∉ ids (L ++ p' :: (flatF K ++ M)) := by
    simpa [hp', hc'] using hci
  have s1 : (⟨p.identifier⟩ : TreeReference).isDefined = true := by simp [isDefined, hpd]
  have s2 : (⟨p.identifier⟩ : TreeReference).node nodes = .ok L.length :=
    node_mid _ e1 rfl hpd hpi
  have s3 : nodeAt nodes L.length = .ok p' := nodeAt_mid e1 rfl
  have s4 : (⟨ch.identifier⟩ : TreeReference).isAllocationFailure nodes = .ok false := by
    rw [isAllocationFailure_mid _ e2 rfl hcd hci']; simp [hc', hcl]
  have s5 : (⟨ch.identifier⟩ : TreeReference).node nodes
      = .ok (L ++ p' :: (flatF K ++ M)).length := node_mid _ e2 rfl hcd hci'
  -- retain t
  set c1 : TreeNode := c'.retain with hc1
  set nodes1 := (L ++ p' :: (flatF K ++ M)) ++ c1 :: (flatF cks ++ R) with hnodes1
  have s6 : modifyAt nodes (L ++ p' :: (flatF K ++ M)).length TreeNode.retain = .ok nodes1 :=
    modifyAt_mid _ e2 rfl
  have hci1 : c1.identifier ∉ ids (L ++ p' :: (flatF K ++ M)) := by
    simpa [hc1, TreeNode.retain] using hci'
  have hcd1 : c1.identifier ≠ NoNodeIdentifier := by simpa [hc1, hc', TreeNode.retain] using hcd
  have s7 : (⟨ch.identifier⟩ : TreeReference).node nodes1
      = .ok (L ++ p' :: (flatF K ++ M)).length := node_mid _ hnodes1 rfl hcd1 hci1
  have s8 : parentTree nodes1 (L ++ p' :: (flatF K ++ M)).length = none := by
    rw [parentTree_congr (n := nodes)]
    · rw [← hpar]; congr 1; simp [hp']; omega
    · rw [hnodes1, e2, take_app, take_app]
  have s9 : (⟨NoNodeIdentifier⟩ : TreeReference).isDefined = false := by simp [isDefined]
  -- destination
  have f1 : nodes1 = L ++ p' :: (flatF K ++ (M ++ (c1 :: (flatF cks ++ R)))) := by
    simp [hnodes1]
  have s10 : (⟨p.identifier⟩ : TreeReference).node nodes1 = .ok L.length :=
    node_mid _ f1 rfl hpd hpi
  have s11 : siblingLoop nodes1 index (L.length + 1)
      = .ok (L.length + 1 + (flatF (K.take index)).length) :=
    siblingLoop_mid (A := L ++ [p']) (F := K) (B := M ++ (c1 :: (flatF cks ++ R))) index
      (by simp [f1]) (by simp) hi
  have s12 : (⟨ch.identifier⟩ : TreeReference).numberOfChildren nodes1 = .ok cks.length := by
    rw [numberOfChildren_mid _ hnodes1 rfl hcd1 hci1]; simp [hc1, hc', TreeNode.retain]
  have s13 : deepSize nodes1 (L ++ p' :: (flatF K ++ M)).length cks.length
      = .ok ((flatF cks).length + 1) := deepSize_mid hnodes1 rfl rfl
  set nodes2 := (L ++ p' :: flatF (K.take index)) ++ ((c1 :: flatF cks) ++
      ((flatF (K.drop index) ++ M) ++ R)) with hnodes2
  have s14 : moveNodes nodes1 (L.length + 1 + (flatF (K.take index)).length)
      (L ++ p' :: (flatF K ++ M)).length ((flatF cks).length + 1) = nodes2 := by
    have := moveNodes_left (L ++ p' :: flatF (K.take index)) (flatF (K.drop index) ++ M)
      (c1 :: flatF cks) R (d := L.length + 1 + (flatF (K.take index)).length)
      (s := (L ++ p' :: (flatF K ++ M)).length) (l := (flatF cks).length + 1)
      (by simp; omega)
      (by
        have hk : (flatF K).length = (flatF (K.take index)).length
            + (flatF (K.drop index)).length := by
          rw [← List.length_append, ← flatF_append, List.take_append_drop]
        simp; omega)
      (by simp)
    rw [hnodes2, ← this]
    congr 1
    have hk : flatF K = flatF (K.take index) ++ flatF (K.drop index) := by
      rw [← flatF_append, List.take_append_drop]
    simp [f1, hk]
  have g1 : nodes2 = L ++ p' :: (flatF (K.take index) ++ ((c1 :: flatF cks) ++
      ((flatF (K.drop index) ++ M) ++ R))) := by
    simp [hnodes2]
  have s15 : (⟨p.identifier⟩ : TreeReference).node nodes2 = .ok L.length :=
    node_mid _ g1 rfl hpd hpi
  have s16 := modifyAt_mid (fun y => y.incrementNumberOfChildren 1) g1 rfl
  rw [addChildTreeAtIndex]
  have s3' : p'.isAllocationFailure = false := hpl
  have hix : (0 : Int) ≤ (index : Int) ∧ (index : Int) ≤ (K.length : Int) := by
    constructor <;> omega
  simp only [s1, s2, s3, s3', s4, s5, s6, s7, s8, s9, s10, s11, s12, s13, s14, s15, s16, ok_bind,
    pure_eq_ok, if_true, parent, ofNode, move, destruct, Bool.false_eq_true, if_false, hix,
    and_self, Int.toNat_ofNat]
  simp [hi, hc1, hc', TreeNode.retain, TreeNode.incrementNumberOfChildren, hpl, hp']
  omega


theorem add_before (L M R : List TreeNode) (p : TreeNode) (K : List Tree) (ch : TreeNode)
    (cks : List Tree) (index : Nat) (fuel v : Nat)
    (hpd : p.identifier ≠ NoNodeIdentifier) (hpl : p.isAllocationFailure = false)
    (hcd : ch.identifier ≠ NoNodeIdentifier) (hcl : ch.isAllocationFailure = false)
    (hpi : p.identifier ∉ ids (L ++ (flat (.node ch cks) ++ M)))
    (hci : ch.identifier ∉ ids L)
    (hpar : parentTree (L ++ (flat (.node ch cks) ++ (M ++ (flat (.node p K) ++ R))))
      L.length = none)
    (hi : index ≤ K.length) :
    addChildTreeAtIndex (fuel + 1) ⟨p.identifier⟩ ⟨ch.identifier⟩ index K.length
        ⟨L ++ (flat (.node ch cks) ++ (M ++ (flat (.node p K) ++ R))), v⟩ =
      .ok ⟨L ++ (M ++ (flat (.node p (K.take index ++ .node ch.retain cks :: K.drop index))
        ++ R)), v⟩ := by
  set p' : TreeNode := { p with numberOfChildren := K.length } with hp'
  set c' : TreeNode := { ch with numberOfChildren := cks.length } with hc'
  set nodes := L ++ (flat (.node ch cks) ++ (M ++ (flat (.node p K) ++ R))) with hnodes
  have e1 : nodes = L ++ c' :: (flatF cks ++ (M ++ (p' :: (flatF K ++ R)))) := by
    simp [hnodes, hp', hc']
  have e2 : nodes = (L ++ c' :: (flatF cks ++ M)) ++ p' :: (flatF K ++ R) := by
    simp [e1]
  have hpi' : p'.identifier ∉ ids (L ++ c' :: (flatF cks ++ M)) := by
    simpa [hp', hc'] using hpi
  have s1 : (⟨p.identifier⟩ : TreeReference).isDefined = true := by simp [isDefined, hpd]
  have s2 : (⟨p.identifier⟩ : TreeReference).node nodes
      = .ok (L ++ c' :: (flatF cks ++ M)).length := node_mid _ e2 rfl hpd hpi'
  have s3 : nodeAt nodes (L ++ c' :: (flatF cks ++ M)).length = .ok p' := nodeAt_mid e2 rfl
  have s3' : p'.isAllocationFailure = false := hpl
  have s4 : (⟨ch.identifier⟩ : TreeReference).isAllocationFailure nodes = .ok false := by
    rw [isAllocationFailure_mid _ e1 rfl hcd hci]; simp [hc', hcl]
  have s5 : (⟨ch.identifier⟩ : TreeReference).node nodes = .ok L.length :=
    node_mid _ e1 rfl hcd hci
  -- retain t
  set c1 : TreeNode := c'.retain with hc1
  set nodes1 := L ++ c1 :: (flatF cks ++ (M ++ (p' :: (flatF K ++ R)))) with hnodes1
  have s6 : modifyAt nodes L.length TreeNode.retain = .ok nodes1 := modifyAt_mid _ e1 rfl
  have hcd1 : c1.identifier ≠ NoNodeIdentifier := by simpa [hc1, hc', TreeNode.retain] using hcd
  have s7 : (⟨ch.identifier⟩ : TreeReference).node nodes1 = .ok L.length :=
    node_mid _ hnodes1 rfl hcd1 hci
  have s8 : parentTree nodes1 L.length = none := by
    rw [parentTree_congr (n := nodes), hpar]
    rw [hnodes1, e1, take_app, take_app]
  have s9 : (⟨NoNodeIdentifier⟩ : TreeReference).isDefined = false := by simp [isDefined]
  -- destination
  have f1 : nodes1 = (L ++ c1 :: (flatF cks ++ M)) ++ p' :: (flatF K ++ R) := by
    simp [hnodes1]
  have hpi1 : p'.identifier ∉ ids (L ++ c1 :: (flatF cks ++ M)) := by
    simpa [hp', hc', hc1, TreeNode.retain] using hpi
  have s10 : (⟨p.identifier⟩ : TreeReference).node nodes1
      = .ok (L ++ c1 :: (flatF cks ++ M)).length := node_mid _ f1 rfl hpd hpi1
  have s11 : siblingLoop nodes1 index ((L ++ c1 :: (flatF cks ++ M)).length + 1)
      = .ok ((L ++ c1 :: (flatF cks ++ M)).length + 1 + (flatF (K.take index)).length) :=
    siblingLoop_mid (A := L ++ c1 :: (flatF cks ++ (M ++ [p']))) (F := K) (B := R) index
      (by simp [hnodes1]) (by simp; omega) hi
  have s12 : (⟨ch.identifier⟩ : TreeReference).numberOfChildren nodes1 = .ok cks.length := by
    rw [numberOfChildren_mid _ hnodes1 rfl hcd1 hci]; simp [hc1, hc', TreeNode.retain]
  have s13 : deepSize nodes1 L.length cks.length
      = .ok ((flatF cks).length + 1) := deepSize_mid hnodes1 rfl rfl
  set nodes2 := L ++ ((M ++ p' :: flatF (K.take index)) ++ ((c1 :: flatF cks) ++
      (flatF (K.drop index) ++ R))) with hnodes2
  have hk : flatF K = flatF (K.take index) ++ flatF (K.drop index) := by
    rw [← flatF_append, List.take_append_drop]
  have s14 : moveNodes nodes1 ((L ++ c1 :: (flatF cks ++ M)).length + 1
      + (flatF (K.take index)).length) L.length ((flatF cks).length + 1) = nodes2 := by
    have := moveNodes_right L (M ++ p' :: flatF (K.take index)) (c1 :: flatF cks)
      (flatF (K.drop index) ++ R)
      (d := (L ++ c1 :: (flatF cks ++ M)).length + 1 + (flatF (K.take index)).length)
      (s := L.length) (l := (flatF cks).length + 1)
      (by simp; omega) rfl (by simp)
    rw [hnodes2, ← this]
    congr 1
    simp [hnodes1, hk]
  have g1 : nodes2 = (L ++ M) ++ p' :: (flatF (K.take index) ++ ((c1 :: flatF cks) ++
      (flatF (K.drop index) ++ R))) := by
    simp [hnodes2]
  have hpi2 : p'.identifier ∉ ids (L ++ M) := by
    simp [hp'] at hpi ⊢; tauto
  have s15 : (⟨p.identifier⟩ : TreeReference).node nodes2 = .ok (L ++ M).length :=
    node_mid _ g1 rfl hpd hpi2
  have s16 := modifyAt_mid (fun y => y.incrementNumberOfChildren 1) g1 rfl
  have hix : (0 : Int) ≤ (index : Int) ∧ (index : Int) ≤ (K.length : Int) := by
    constructor <;> omega
  rw [addChildTreeAtIndex]
  simp only [s1, s2, s3, s3', s4, s5, s6, s7, s8, s9, s10, s11, s12, s13, s14, s15, s16, ok_bind,
    pure_eq_ok, if_true, parent, ofNode, move, destruct, Bool.false_eq_true, if_false, hix,
    and_self, Int.toNat_ofNat]
  simp [hi, hc1, hc', TreeNode.retain, TreeNode.incrementNumberOfChildren, hpl, hp']
  omega


theorem nodup_split {A B : List TreeNode} {x : TreeNode} (h : (ids (A ++ x :: B)).Nodup) :
    x.identifier ∉ ids A ∧ x.identifier ∉ ids B := by
  simp only [ids_append, ids_cons] at h
  have h1 := List.nodup_append.mp h
  have h2 := List.nodup_cons.mp h1.2.1
  refine ⟨fun hm => ?_, h2.1⟩
  exact h1.2.2 hm (by simp)

theorem add_insertSpan (L R : List TreeNode) (p : TreeNode) (K : List Tree) (ch : TreeNode)
    (cks : List Tree) (q index fuel v : Nat)
    (hq : q ≤ L.length ∨ L.length + (flat (.node p K)).length ≤ q)
    (hqR : q ≤ (L ++ (flat (.node p K) ++ R)).length)
    (hids : (ids (insertSpan (L ++ (flat (.node p K) ++ R)) q (flat (.node ch cks)))).Nodup)
    (hpd : p.identifier ≠ NoNodeIdentifier) (hpl : p.isAllocationFailure = false)
    (hcd : ch.identifier ≠ NoNodeIdentifier) (hcl : ch.isAllocationFailure = false)
    (hpar : parentTree (insertSpan (L ++ (flat (.node p K) ++ R)) q (flat (.node ch cks))) q
      = none)
    (hi : index ≤ K.length) :
    addChildTreeAtIndex (fuel + 1) ⟨p.identifier⟩ ⟨ch.identifier⟩ index K.length
        ⟨insertSpan (L ++ (flat (.node p K) ++ R)) q (flat (.node ch cks)), v⟩ =
      .ok ⟨L ++ (flat (.node p (K.take index ++ .node ch.retain cks :: K.drop index)) ++ R),
        v⟩ := by
  rcases hq with hq | hq
  · -- the child lies before the parent
    have hL : L = L.take q ++ L.drop q := (List.take_append_drop q L).symm
    have e : insertSpan (L ++ (flat (.node p K) ++ R)) q (flat (.node ch cks)) =
        L.take q ++ (flat (.node ch cks) ++ (L.drop q ++ (flat (.node p K) ++ R))) := by
      simp only [insertSpan]
      rw [List.take_append_of_le_length hq, List.drop_append_of_le_length hq]
    have hlen : (L.take q).length = q := by simp [hq]
    rw [e] at hids hpar ⊢
    have h1 := nodup_split (A := L.take q) (x := ({ ch with numberOfChildren := cks.length }))
      (B := flatF cks ++ (L.drop q ++ (flat (.node p K) ++ R))) (by simpa using hids)
    have h2 := nodup_split (A := L.take q ++ (flat (.node ch cks) ++ L.drop q))
      (x := ({ p with numberOfChildren := K.length })) (B := flatF K ++ R) (by simpa using hids)
    have := add_before (L.take q) (L.drop q) R p K ch cks index fuel v hpd hpl hcd hcl
      (by simpa using h2.1) (by simpa using h1.1) (by rw [hlen]; exact hpar) hi
    rw [this, ← List.append_assoc, List.take_append_drop]
  · -- the child lies after the parent
    obtain ⟨j, hj⟩ : ∃ j, q = (L ++ flat (.node p K)).length + j :=
      ⟨q - (L ++ flat (.node p K)).length, by simp at hq ⊢; omega⟩
    have hjR : j ≤ R.length := by simp at hqR hj; omega
    have e : insertSpan (L ++ (flat (.node p K) ++ R)) q (flat (.node ch cks)) =
        L ++ (flat (.node p K) ++ (R.take j ++ (flat (.node ch cks) ++ R.drop j))) := by
      have ht : (L ++ (flat (.node p K) ++ R)).take q
          = L ++ (flat (.node p K) ++ R.take j) := by
        rw [← List.append_assoc, hj, List.take_append, List.append_assoc]
      have hd : (L ++ (flat (.node p K) ++ R)).drop q = R.drop j := by
        rw [← List.append_assoc, hj, List.drop_append]
      simp only [insertSpan, ht, hd, List.append_assoc]
    rw [e] at hids hpar ⊢
    have h1 := nodup_split (A := L ++ (flat (.node p K) ++ R.take j))
      (x := ({ ch with numberOfChildren := cks.length }))
      (B := flatF cks ++ R.drop j) (by simpa using hids)
    have h2 := nodup_split (A := L)
      (x := ({ p with numberOfChildren := K.length }))
      (B := flatF K ++ (R.take j ++ (flat (.node ch cks) ++ R.drop j))) (by simpa using hids)
    have := add_after L (R.take j) (R.drop j) p K ch cks index fuel v hpd hpl hcd hcl
      (by simpa using h2.1) (by simpa using h1.1)
      (by
        rw [← hpar, hj]
        congr 1
        simp [hjR]) hi
    rw [this, List.take_append_drop]

theorem released_retain (ch : TreeNode) (cks : List Tree) (h0 : ch.retainCount ≠ 0) :
    released (.node ch.retain cks) = flat (.node ch cks) := by
  simp [released_node, TreeNode.retain, h0]

theorem release_flat' (t : Tree) (A B : List TreeNode) (fuel : Nat) (hf : height t ≤ fuel)
    {N : List TreeNode} {a : Nat} (hn : N = A ++ (flat t ++ B)) (ha : a = A.length) :
    release fuel N a =
      .ok (if t.root.retainCount - 1 = 0 then A ++ (B ++ releasedF t.children)
           else A ++ (flat (.node { t.root with retainCount := t.root.retainCount - 1 }
             t.children) ++ B)) := by
  subst hn ha; exact release_flat t A B fuel hf

theorem remove_closed (L R : List TreeNode) (p : TreeNode) (K1 K2 : List Tree) (ch : TreeNode)
    (cks : List Tree) (fuel v : Nat)
    (hids : (ids (L ++ (flat (.node p (K1 ++ .node ch cks :: K2)) ++ R))).Nodup)
    (hpd : p.identifier ≠ NoNodeIdentifier) (hpl : p.isAllocationFailure = false)
    (hcd : ch.identifier ≠ NoNodeIdentifier) (hc0 : ch.retainCount ≠ 0)
    (hf : height (.node ch cks) ≤ fuel) :
    removeTreeChildAtIndex fuel ⟨p.identifier⟩ K1.length
        ⟨L ++ (flat (.node p (K1 ++ .node ch cks :: K2)) ++ R), v⟩ =
      .ok ⟨L ++ (flat (.node p (K1 ++ K2)) ++ (R ++ released (.node ch cks))), v⟩ := by
  set n := (K1 ++ Tree.node ch cks :: K2).length with hn
  set p' : TreeNode := { p with numberOfChildren := n } with hp'
  set c' : TreeNode := { ch with numberOfChildren := cks.length } with hc'
  set nodes := L ++ (flat (.node p (K1 ++ .node ch cks :: K2)) ++ R) with hnodes
  have e1 : nodes = L ++ p' :: (flatF (K1 ++ .node ch cks :: K2) ++ R) := by
    simp [hnodes, hp', hn]
  have e2 : nodes = (L ++ p' :: flatF K1) ++ c' :: (flatF cks ++ (flatF K2 ++ R)) := by
    simp [e1, hc']
  have hP := nodup_split (A := L) (x := p') (B := flatF (K1 ++ .node ch cks :: K2) ++ R)
    (by rw [← e1]; exact hids)
  have hC := nodup_split (A := L ++ p' :: flatF K1) (x := c')
    (B := flatF cks ++ (flatF K2 ++ R)) (by rw [← e2]; exact hids)
  have hpi : p.identifier ∉ ids L := hP.1
  have hci : ch.identifier ∉ ids (L ++ p' :: flatF K1) := hC.1
  have hcB : ch.identifier ∉ ids (flatF cks ++ (flatF K2 ++ R)) := hC.2
  have s1 : (⟨p.identifier⟩ : TreeReference).isDefined = true := by simp [isDefined, hpd]
  have s2 : (⟨p.identifier⟩ : TreeReference).numberOfChildren nodes = .ok n :=
    numberOfChildren_mid _ e1 rfl hpd hpi
  have s3 : (⟨p.identifier⟩ : TreeReference).node nodes = .ok L.length :=
    node_mid _ e1 rfl hpd hpi
  have s4 : childAtIndex nodes L.length K1.length = .ok (L ++ p' :: flatF K1).length := by
    have := siblingLoop_mid (N := nodes) (A := L ++ [p']) (F := K1 ++ .node ch cks :: K2)
      (B := R) K1.length (a := L.length + 1) (by simp [e1]) (by simp) (by simp)
    rw [childAtIndex, this]
    simp; omega
  have s5 : nodeAt nodes (L ++ p' :: flatF K1).length = .ok c' := nodeAt_mid e2 rfl
  -- the local handle on the child
  set c1 : TreeNode := c'.retain with hc1
  set nodes1 := (L ++ p' :: flatF K1) ++ c1 :: (flatF cks ++ (flatF K2 ++ R)) with hnodes1
  have s6 : modifyAt nodes (L ++ p' :: flatF K1).length TreeNode.retain = .ok nodes1 :=
    modifyAt_mid _ e2 rfl
  have hc1i : c1.identifier = ch.identifier := by simp [hc1, hc', TreeNode.retain]
  have s7 : (⟨ch.identifier⟩ : TreeReference).isDefined = true := by simp [isDefined, hcd]
  have s8 : (⟨ch.identifier⟩ : TreeReference).node nodes1 = .ok (L ++ p' :: flatF K1).length :=
    node_mid _ hnodes1 hc1i.symm (by rw [hc1i]; exact hcd) (by rw [hc1i]; exact hci)
  have s9 : (⟨ch.identifier⟩ : TreeReference).numberOfChildren nodes1 = .ok cks.length := by
    rw [numberOfChildren_mid _ hnodes1 hc1i.symm (by rw [hc1i]; exact hcd)
      (by rw [hc1i]; exact hci)]
    simp [hc1, hc', TreeNode.retain]
  set nodes2 := (L ++ p' :: flatF K1) ++ ((flatF K2 ++ R) ++ flat (.node ch.retain cks))
    with hnodes2
  have s10 : move nodes1 (last nodes1) (L ++ p' :: flatF K1).length cks.length = .ok nodes2 :=
    move_mid_to_last (t := .node ch.retain cks) (by simp [hnodes1, hc1, hc', TreeNode.retain])
      rfl (by simp [Tree.children])
  have f2 : nodes2 = (L ++ p' :: (flatF K1 ++ (flatF K2 ++ R))) ++ c1 :: (flatF cks ++ []) := by
    simp [hnodes2, hc1, hc', TreeNode.retain]
  have hci2 : ch.identifier ∉ ids (L ++ p' :: (flatF K1 ++ (flatF K2 ++ R))) := by
    simp at hci hcB ⊢; tauto
  have s11 : (⟨ch.identifier⟩ : TreeReference).node nodes2
      = .ok (L ++ p' :: (flatF K1 ++ (flatF K2 ++ R))).length :=
    node_mid _ f2 hc1i.symm (by rw [hc1i]; exact hcd) (by rw [hc1i]; exact hci2)
  set nodes3 := (L ++ p' :: (flatF K1 ++ (flatF K2 ++ R))) ++ (flat (.node ch cks) ++ [])
    with hnodes3
  have s12 : release fuel nodes2 (L ++ p' :: (flatF K1 ++ (flatF K2 ++ R))).length
      = .ok nodes3 := by
    rw [release_flat' (.node ch.retain cks) (L ++ p' :: (flatF K1 ++ (flatF K2 ++ R))) [] fuel
      (by simpa using hf) (by simp [hnodes2]) rfl]
    simp [Tree.root, Tree.children, TreeNode.retain, hc0, hnodes3]
  have g3 : nodes3 = L ++ p' :: (flatF K1 ++ (flatF K2 ++ (R ++ flat (.node ch cks)))) := by
    simp [hnodes3]
  have s13 : (⟨p.identifier⟩ : TreeReference).node nodes3 = .ok L.length :=
    node_mid _ g3 rfl hpd hpi
  have s14 := modifyAt_mid (fun x => x.decrementNumberOfChildren 1) g3 rfl
  set p2 : TreeNode := p'.decrementNumberOfChildren 1 with hp2
  set nodes4 := L ++ p2 :: (flatF K1 ++ (flatF K2 ++ (R ++ flat (.node ch cks)))) with hnodes4
  have g4 : nodes4 = (L ++ p2 :: (flatF K1 ++ (flatF K2 ++ R))) ++ c' :: (flatF cks ++ []) := by
    simp [hnodes4, hc']
  have hci4 : ch.identifier ∉ ids (L ++ p2 :: (flatF K1 ++ (flatF K2 ++ R))) := by
    have : p2.identifier = p'.identifier := by
      simp only [hp2, TreeNode.decrementNumberOfChildren]; split <;> rfl
    simp at hci2 ⊢; rw [this]; tauto
  have s15 : (⟨ch.identifier⟩ : TreeReference).node nodes4
      = .ok (L ++ p2 :: (flatF K1 ++ (flatF K2 ++ R))).length :=
    node_mid _ g4 rfl hcd hci4
  have s16 : nodeAt nodes4 (L ++ p2 :: (flatF K1 ++ (flatF K2 ++ R))).length = .ok c' :=
    nodeAt_mid g4 rfl
  have s16' : c'.identifier = ch.identifier := rfl
  have s17 := release_flat' (.node ch cks) (L ++ p2 :: (flatF K1 ++ (flatF K2 ++ R))) [] fuel hf
    (N := nodes4) (by simp [hnodes4]) rfl
  have hin : (0 : Int) ≤ (K1.length : Int) ∧ (K1.length : Int) < (n : Int) := by
    constructor
    · omega
    · simp [hn]
  unfold removeTreeChildAtIndex
  simp only [s1, s2, hin, and_self, if_true, ok_bind, treeChildAtIndex, s3, s4, ofNode, s5, s6,
    pure_eq_ok, Int.toNat_ofNat, removeTreeChild, s7, s8, s9, s10, s11, s12, s13, s14, destruct,
    s15, s16, s16', s17]
  simp [released_node, Tree.root, Tree.children, hp2, hp', TreeNode.decrementNumberOfChildren,
    hpl, hn]
  split <;> simp

@[simp] theorem bal_nil : bal [] = 0 := rfl
@[simp] theorem bal_cons (x : TreeNode) (l : List TreeNode) :
    bal (x :: l) = 1 - (x.numberOfChildren : Int) + bal l := rfl
@[simp] theorem bal_append (a b : List TreeNode) : bal (a ++ b) = bal a + bal b := by
  induction a with
  | nil => simp
  | cons x a ih => simp [ih]; omega

@[simp] theorem goodWith_nil (d : Int) : goodWith d [] = True := rfl
theorem goodWith_cons (d : Int) (x : TreeNode) (l : List TreeNode) :
    goodWith d (x :: l) = (1 ≤ bal (x :: l) + d ∧ goodWith d l) := rfl

theorem goodWith_append (d : Int) (a b : List TreeNode) :
    goodWith d (a ++ b) ↔ goodWith (d + bal b) a ∧ goodWith d b := by
  induction a with
  | nil => simp
  | cons x a ih =>
    simp only [List.cons_append, goodWith_cons, ih, bal_cons, bal_append]
    constructor
    · rintro ⟨h1, h2, h3⟩; exact ⟨⟨by omega, h2⟩, h3⟩
    · rintro ⟨⟨h1, h2⟩, h3⟩; exact ⟨by omega, h2, h3⟩

theorem goodWith_mono {d e : Int} (h : d ≤ e) (l : List TreeNode) (hg : goodWith d l) :
    goodWith e l := by
  induction l with
  | nil => simp
  | cons x l ih =>
    rw [goodWith_cons] at hg ⊢
    exact ⟨by omega, ih hg.2⟩

mutual
theorem bal_flat (t : Tree) : bal (flat t) = 1 := by
  match t with
  | .node h ks => simp [bal_flatF ks]
theorem bal_flatF (F : List Tree) : bal (flatF F) = F.length := by
  match F with
  | [] => simp
  | t :: ts => simp [bal_flat t, bal_flatF ts]; omega
end

mutual
theorem goodWith_flat (t : Tree) (d : Int) (hd : 0 ≤ d) : goodWith d (flat t) := by
  match t with
  | .node h ks =>
    simp only [flat_node, goodWith_cons, bal_cons, bal_flatF]
    exact ⟨by omega, goodWith_flatF ks d hd⟩
theorem goodWith_flatF (F : List Tree) (d : Int) (hd : 0 ≤ d) : goodWith d (flatF F) := by
  match F with
  | [] => simp
  | t :: ts =>
    simp only [flatF_cons, goodWith_append, bal_flatF]
    exact ⟨goodWith_flat t _ (by omega), goodWith_flatF ts d hd⟩
end

theorem bal_nonneg_of_good {l : List TreeNode} (h : goodWith 0 l) : 0 ≤ bal l := by
  cases l with
  | nil => simp
  | cons x l => rw [goodWith_cons] at h; omega

theorem spanLength_isSome_of_le (l : List TreeNode) (k : Nat) (hg : goodWith 0 l)
    (hk : (k : Int) ≤ bal l) : (spanLength l k).isSome = true := by
  induction l generalizing k with
  | nil =>
    cases k with
    | zero => simp
    | succ k => simp at hk; omega
  | cons x l ih =>
    cases k with
    | zero => simp
    | succ k =>
      rw [goodWith_cons] at hg
      have := ih (k + x.numberOfChildren) hg.2 (by simp at hk ⊢; omega)
      rw [spanLength_cons]
      simpa using this

theorem le_bal_of_spanLength (l : List TreeNode) (k : Nat) (hg : goodWith 0 l)
    (hs : (spanLength l k).isSome = true) : (k : Int) ≤ bal l := by
  induction l generalizing k with
  | nil =>
    cases k with
    | zero => simp
    | succ k => simp [spanLength] at hs
  | cons x l ih =>
    cases k with
    | zero => simpa using bal_nonneg_of_good hg
    | succ k =>
      rw [goodWith_cons] at hg
      rw [spanLength_cons] at hs
      have := ih (k + x.numberOfChildren) hg.2 (by simpa using hs)
      simp at this ⊢; omega

theorem wellFormed_iff_good (l : List TreeNode) : wellFormed l = true ↔ goodWith 0 l := by
  induction l with
  | nil => simp [wellFormed]
  | cons x l ih =>
    simp only [wellFormed, Bool.and_eq_true, goodWith_cons, bal_cons, ih]
    constructor
    · rintro ⟨h1, h2⟩
      have := le_bal_of_spanLength l _ h2 h1
      exact ⟨by omega, h2⟩
    · rintro ⟨h1, h2⟩
      exact ⟨spanLength_isSome_of_le l _ h2 (by omega), h2⟩

theorem parentScan_none_iff (l : List TreeNode) (t : Nat) :
    parentScan l t = none ↔ goodWith (t : Int) l.reverse := by
  induction l generalizing t with
  | nil => simp [parentScan]
  | cons x l ih =>
    simp only [parentScan, List.reverse_cons, goodWith_append, goodWith_cons, bal_cons, bal_nil,
      goodWith_nil, and_true]
    by_cases h : t < x.numberOfChildren
    · simp only [h, if_true]
      constructor
      · intro h'; cases h'
      · rintro ⟨_, h2⟩; omega
    · simp only [h, if_false, ih]
      have e : ((t + 1 - x.numberOfChildren : Nat) : Int)
          = (t : Int) + (1 - (x.numberOfChildren : Int) + 0) := by omega
      rw [e]
      constructor
      · intro h'; exact ⟨h', by omega⟩
      · rintro ⟨h1, _⟩; exact h1

theorem parentTree_none_iff (nodes : List TreeNode) (a : Nat) :
    parentTree nodes a = none ↔ goodWith 0 (nodes.take a) := by
  simp only [parentTree, Option.map_eq_none']
  rw [parentScan_none_iff]
  simp

theorem flat_length_pos (t : Tree) : 0 < (flat t).length := by
  cases t; simp

theorem hasChildLoop_outside {N A B : List TreeNode} {F : List Tree} (k : Nat) {c b : Nat}
    (hn : N = A ++ (flatF F ++ B)) (hc : c = A.length) (hk : k ≤ F.length)
    (hb : b < A.length ∨ A.length + (flatF F).length ≤ b) :
    hasChildLoop N k c b = false := by
  induction k generalizing A F c with
  | zero => simp [hasChildLoop]
  | succ k ih =>
    cases F with
    | nil => simp at hk
    | cons t ts =>
      have hpos := flat_length_pos t
      have h1 : nextSibling N c = .ok (c + (flat t).length) :=
        nextSibling_mid (B := flatF ts ++ B) (by simp [hn]) hc
      have h2 := ih (A := A ++ flat t) (F := ts) (c := c + (flat t).length)
        (by simp [hn]) (by simp [hc]) (by simpa using hk)
        (by simp at hb ⊢; omega)
      have hne : c ≠ b := by simp at hb; omega
      simp [hasChildLoop, hne, h1, h2]

theorem take_drop_flatF (K : List Tree) (i : Nat) :
    flatF K = flatF (K.take i) ++ flatF (K.drop i) := by
  rw [← flatF_append, List.take_append_drop]

theorem merge_dst_child {N A B : List TreeNode} {y : TreeNode} {K : List Tree} (i : Nat)
    (hn : N = A ++ y :: (flatF K ++ B)) (hi : i ≤ K.length) :
    childAtIndex N A.length (Int.toNat i)
      = .ok (A.length + 1 + (flatF (K.take i)).length) := by
  simp only [Int.toNat_ofNat, childAtIndex]
  exact siblingLoop_mid (A := A ++ [y]) (F := K) (B := B) i (by simp [hn]) (by simp) hi

theorem merge_dst_last {N A B : List TreeNode} {y : TreeNode} {K : List Tree}
    (hn : N = A ++ y :: (flatF K ++ B)) (hp : y.numberOfChildren = K.length) :
    lastDescendant N A.length
      = .ok (A.length + 1 + (flatF (K.take K.length)).length - 1) := by
  have hns : nextSibling N A.length = .ok (A.length + (flat (.node y K)).length) :=
    nextSibling_mid (t := .node y K) (B := B)
      (by
        rw [hn]; simp only [flat_node, List.cons_append]
        congr 2
        cases y; simp at hp; simp [hp]) rfl
  simp only [lastDescendant, hns, ok_bind, pure_eq_ok]
  simp

theorem merge_after (L M R : List TreeNode) (p : TreeNode) (K : List Tree) (qh : TreeNode)
    (QK : List Tree) (i fuel v : Nat)
    (hids : (ids (L ++ (flat (.node p K) ++ (M ++ (flat (.node qh QK) ++ R))))).Nodup)
    (hpd : p.identifier ≠ NoNodeIdentifier) (hpl : p.isAllocationFailure = false)
    (hqd : qh.identifier ≠ NoNodeIdentifier) (hql : qh.isAllocationFailure = false ∨ QK = [])
    (hi : i ≤ K.length) :
    mergeTreeChildrenAtIndex fuel ⟨p.identifier⟩ ⟨qh.identifier⟩ i
        ⟨L ++ (flat (.node p K) ++ (M ++ (flat (.node qh QK) ++ R))), v⟩ =
      .ok ⟨L ++ (flat (.node p (K.take i ++ (QK ++ K.drop i)))
        ++ (M ++ (flat (.node qh []) ++ R))), v⟩ := by
  set p' : TreeNode := { p with numberOfChildren := K.length } with hp'
  set q' : TreeNode := { qh with numberOfChildren := QK.length } with hq'
  set nodes := L ++ (flat (.node p K) ++ (M ++ (flat (.node qh QK) ++ R))) with hnodes
  have e1 : nodes = L ++ p' :: (flatF K ++ (M ++ (q' :: (flatF QK ++ R)))) := by
    simp [hnodes, hp', hq']
  have e2 : nodes = (L ++ p' :: (flatF K ++ M)) ++ q' :: (flatF QK ++ R) := by
    simp [e1]
  have hP := nodup_split (A := L) (x := p') (B := flatF K ++ (M ++ (q' :: (flatF QK ++ R))))
    (by rw [← e1]; exact hids)
  have hQ := nodup_split (A := L ++ p' :: (flatF K ++ M)) (x := q') (B := flatF QK ++ R)
    (by rw [← e2]; exact hids)
  have hpi : p.identifier ∉ ids L := hP.1
  have hqi : qh.identifier ∉ ids (L ++ p' :: (flatF K ++ M)) := hQ.1
  have hk := take_drop_flatF K i
  have s1 : (⟨p.identifier⟩ : TreeReference).numberOfChildren nodes = .ok K.length :=
    numberOfChildren_mid _ e1 rfl hpd hpi
  have s2 : (⟨qh.identifier⟩ : TreeReference).numberOfChildren nodes = .ok QK.length :=
    numberOfChildren_mid _ e2 rfl hqd hqi
  have s3 : (⟨p.identifier⟩ : TreeReference).node nodes = .ok L.length :=
    node_mid _ e1 rfl hpd hpi
  have s4 := merge_dst_child (N := nodes) (A := L) (y := p') (K := K)
    (B := M ++ (q' :: (flatF QK ++ R))) i e1 hi
  have s4' := merge_dst_last (N := nodes) (A := L) (y := p') (K := K)
    (B := M ++ (q' :: (flatF QK ++ R))) e1 rfl
  have s4'' : L.length + 1 + (flatF (K.take i)).length - 1 + 1
      = L.length + 1 + (flatF (K.take i)).length := by omega
  have s5 : (⟨qh.identifier⟩ : TreeReference).node nodes
      = .ok (L ++ p' :: (flatF K ++ M)).length := node_mid _ e2 rfl hqd hqi
  have s6 : nodeAt nodes (L ++ p' :: (flatF K ++ M)).length = .ok q' := nodeAt_mid e2 rfl
  have s7 : deepSize nodes (L ++ p' :: (flatF K ++ M)).length q'.numberOfChildren
      = .ok ((flatF QK).length + 1) := deepSize_mid e2 rfl rfl
  set nodes1 := (L ++ p' :: flatF (K.take i)) ++ (flatF QK ++ ((flatF (K.drop i) ++ (M ++ [q']))
    ++ R)) with hnodes1
  have s8 : moveNodes nodes (L.length + 1 + (flatF (K.take i)).length)
      ((L ++ p' :: (flatF K ++ M)).length + 1) ((flatF QK).length + 1 - 1) = nodes1 := by
    have := moveNodes_left (L ++ p' :: flatF (K.take i)) (flatF (K.drop i) ++ (M ++ [q']))
      (flatF QK) R (d := L.length + 1 + (flatF (K.take i)).length)
      (s := (L ++ p' :: (flatF K ++ M)).length + 1) (l := (flatF QK).length + 1 - 1)
      (by simp; omega)
      (by
        have := congrArg List.length hk
        simp at this ⊢; omega)
      (by simp)
    rw [hnodes1, ← this]
    congr 1
    simp [e1, hk]
  have f1 : nodes1 = (L ++ p' :: (flatF (K.take i) ++ (flatF QK ++ (flatF (K.drop i) ++ M))))
      ++ q' :: ([] ++ R) := by
    simp [hnodes1]
  have f2 : nodes1 = L ++ p' :: (flatF (K.take i ++ (QK ++ K.drop i)) ++ (M ++ q' :: R)) := by
    simp [hnodes1]
  have hqi1 : qh.identifier ∉
      ids (L ++ p' :: (flatF (K.take i) ++ (flatF QK ++ (flatF (K.drop i) ++ M)))) := by
    have h2 := hQ.2
    rw [hk] at hqi
    simp at hqi h2 ⊢
    tauto
  have s9 : (⟨qh.identifier⟩ : TreeReference).node nodes1
      = .ok (L ++ p' :: (flatF (K.take i) ++ (flatF QK ++ (flatF (K.drop i) ++ M)))).length :=
    node_mid _ f1 rfl hqd hqi1
  have s10 := modifyAt_mid TreeNode.eraseNumberOfChildren f1 rfl
  set q0 : TreeNode := q'.eraseNumberOfChildren with hq0
  set nodes2 := (L ++ p' :: (flatF (K.take i) ++ (flatF QK ++ (flatF (K.drop i) ++ M))))
      ++ q0 :: ([] ++ R) with hnodes2
  have hq0i : q0.identifier = qh.identifier := by
    simp only [hq0, TreeNode.eraseNumberOfChildren]; split <;> rfl
  have hq0v : q0 = { qh with numberOfChildren := 0 } := by
    rcases hql with hql | hql
    · simp [hq0, hq', TreeNode.eraseNumberOfChildren, hql]
    · simp only [hq0, hq', TreeNode.eraseNumberOfChildren, hql, List.length_nil]
      split <;> rfl
  have g2 : nodes2 = L ++ p' :: (flatF (K.take i ++ (QK ++ K.drop i)) ++ (M ++ q0 :: R)) := by
    simp [hnodes2]
  have s11 : (⟨p.identifier⟩ : TreeReference).node nodes2 = .ok L.length :=
    node_mid _ g2 rfl hpd hpi
  have s12 : (⟨qh.identifier⟩ : TreeReference).node nodes2
      = .ok (L ++ p' :: (flatF (K.take i) ++ (flatF QK ++ (flatF (K.drop i) ++ M)))).length :=
    node_mid _ hnodes2 hq0i.symm (by rw [hq0i]; exact hqd) (by rw [hq0i]; exact hqi1)
  have s13 : hasChild nodes2 L.length
      (L ++ p' :: (flatF (K.take i) ++ (flatF QK ++ (flatF (K.drop i) ++ M)))).length
      = .ok false := by
    simp only [hasChild, nodeAt_mid g2 rfl, ok_bind, pure_eq_ok]
    congr 1
    apply hasChildLoop_outside (A := L ++ [p']) (F := K.take i ++ (QK ++ K.drop i))
      (B := M ++ q0 :: R) _ (by simp [g2]) (by simp)
    · simp [hp']; omega
    · right; simp; omega
  have s14 := modifyAt_mid (fun y => y.incrementNumberOfChildren QK.length) g2 rfl
  have hin : (0 : Int) ≤ (i : Int) ∧ (i : Int) ≤ (K.length : Int) := ⟨by omega, by omega⟩
  unfold mergeTreeChildrenAtIndex
  by_cases hlt : (i : Int) < (K.length : Int)
  · simp only [s1, s2, s3, s4, s5, s6, s7, s8, s9, s10, s11, s12, s13, s14, ok_bind, pure_eq_ok,
      hin, and_self, if_true, moveChildren, Bool.false_eq_true, if_false, hlt]
    simp [hq0v, hp', TreeNode.incrementNumberOfChildren, hpl]
    omega
  · have hik : i = K.length := by omega
    rw [← hik] at s4'
    simp only [s1, s2, s3, s4', s4'', s5, s6, s7, s8, s9, s10, s11, s12, s13, s14, ok_bind,
      pure_eq_ok, hin, and_self, if_true, moveChildren, Bool.false_eq_true, if_false, hlt]
    simp [hq0v, hp', TreeNode.incrementNumberOfChildren, hpl]
    omega

theorem merge_before (L M R : List TreeNode) (p : TreeNode) (K : List Tree) (qh : TreeNode)
    (QK : List Tree) (i fuel v : Nat)
    (hids : (ids (L ++ (flat (.node qh QK) ++ (M ++ (flat (.node p K) ++ R))))).Nodup)
    (hpd : p.identifier ≠ NoNodeIdentifier) (hpl : p.isAllocationFailure = false)
    (hqd : qh.identifier ≠ NoNodeIdentifier) (hql : qh.isAllocationFailure = false ∨ QK = [])
    (hi : i ≤ K.length) :
    mergeTreeChildrenAtIndex fuel ⟨p.identifier⟩ ⟨qh.identifier⟩ i
        ⟨L ++ (flat (.node qh QK) ++ (M ++ (flat (.node p K) ++ R))), v⟩ =
      .ok ⟨L ++ (flat (.node qh []) ++ (M ++ (flat (.node p (K.take i ++ (QK ++ K.drop i)))
        ++ R))), v⟩ := by
  set p' : TreeNode := { p with numberOfChildren := K.length } with hp'
  set q' : TreeNode := { qh with numberOfChildren := QK.length } with hq'
  set nodes := L ++ (flat (.node qh QK) ++ (M ++ (flat (.node p K) ++ R))) with hnodes
  have e1 : nodes = L ++ q' :: (flatF QK ++ (M ++ (p' :: (flatF K ++ R)))) := by
    simp [hnodes, hp', hq']
  have e2 : nodes = (L ++ q' :: (flatF QK ++ M)) ++ p' :: (flatF K ++ R) := by
    simp [e1]
  have hQ := nodup_split (A := L) (x := q') (B := flatF QK ++ (M ++ (p' :: (flatF K ++ R))))
    (by rw [← e1]; exact hids)
  have hP := nodup_split (A := L ++ q' :: (flatF QK ++ M)) (x := p') (B := flatF K ++ R)
    (by rw [← e2]; exact hids)
  have hqi : qh.identifier ∉ ids L := hQ.1
  have hpi : p.identifier ∉ ids (L ++ q' :: (flatF QK ++ M)) := hP.1
  have hk := take_drop_flatF K i
  have s1 : (⟨p.identifier⟩ : TreeReference).numberOfChildren nodes = .ok K.length :=
    numberOfChildren_mid _ e2 rfl hpd hpi
  have s2 : (⟨qh.identifier⟩ : TreeReference).numberOfChildren nodes = .ok QK.length :=
    numberOfChildren_mid _ e1 rfl hqd hqi
  have s3 : (⟨p.identifier⟩ : TreeReference).node nodes
      = .ok (L ++ q' :: (flatF QK ++ M)).length := node_mid _ e2 rfl hpd hpi
  have s4 := merge_dst_child (N := nodes) (A := L ++ q' :: (flatF QK ++ M)) (y := p')
    (K := K) (B := R) i e2 hi
  have s4' := merge_dst_last (N := nodes) (A := L ++ q' :: (flatF QK ++ M)) (y := p')
    (K := K) (B := R) e2 rfl
  have s4'' : (L ++ q' :: (flatF QK ++ M)).length + 1 + (flatF (K.take i)).length - 1 + 1
      = (L ++ q' :: (flatF QK ++ M)).length + 1 + (flatF (K.take i)).length := by omega
  have s5 : (⟨qh.identifier⟩ : TreeReference).node nodes = .ok L.length :=
    node_mid _ e1 rfl hqd hqi
  have s6 : nodeAt nodes L.length = .ok q' := nodeAt_mid e1 rfl
  have s7 : deepSize nodes L.length q'.numberOfChildren
      = .ok ((flatF QK).length + 1) := deepSize_mid e1 rfl rfl
  set nodes1 := (L ++ [q']) ++ ((M ++ p' :: flatF (K.take i)) ++ (flatF QK
    ++ (flatF (K.drop i) ++ R))) with hnodes1
  have s8 : moveNodes nodes ((L ++ q' :: (flatF QK ++ M)).length + 1
      + (flatF (K.take i)).length) (L.length + 1) ((flatF QK).length + 1 - 1) = nodes1 := by
    have := moveNodes_right (L ++ [q']) (M ++ p' :: flatF (K.take i)) (flatF QK)
      (flatF (K.drop i) ++ R)
      (d := (L ++ q' :: (flatF QK ++ M)).length + 1 + (flatF (K.take i)).length)
      (s := L.length + 1) (l := (flatF QK).length + 1 - 1)
      (by simp; omega) (by simp) (by simp)
    rw [hnodes1, ← this]
    congr 1
    simp [e1, hk]
  have f1 : nodes1 = L ++ q' :: ([] ++ (M ++ p' :: (flatF (K.take i ++ (QK ++ K.drop i))
      ++ R))) := by
    simp [hnodes1]
  have s9 : (⟨qh.identifier⟩ : TreeReference).node nodes1 = .ok L.length :=
    node_mid _ f1 rfl hqd hqi
  have s10 := modifyAt_mid TreeNode.eraseNumberOfChildren f1 rfl
  set q0 : TreeNode := q'.eraseNumberOfChildren with hq0
  set nodes2 := L ++ q0 :: ([] ++ (M ++ p' :: (flatF (K.take i ++ (QK ++ K.drop i)) ++ R)))
    with hnodes2
  have hq0i : q0.identifier = qh.identifier := by
    simp only [hq0, TreeNode.eraseNumberOfChildren]; split <;> rfl
  have hq0v : q0 = { qh with numberOfChildren := 0 } := by
    rcases hql with hql | hql
    · simp [hq0, hq', TreeNode.eraseNumberOfChildren, hql]
    · simp only [hq0, hq', TreeNode.eraseNumberOfChildren, hql, List.length_nil]
      split <;> rfl
  have g2 : nodes2 = (L ++ q0 :: M) ++ p' :: (flatF (K.take i ++ (QK ++ K.drop i)) ++ R) := by
    simp [hnodes2]
  have hpi2 : p.identifier ∉ ids (L ++ q0 :: M) := by
    simp [hq', hq0i] at hpi ⊢; tauto
  have s11 : (⟨p.identifier⟩ : TreeReference).node nodes2 = .ok (L ++ q0 :: M).length :=
    node_mid _ g2 rfl hpd hpi2
  have s12 : (⟨qh.identifier⟩ : TreeReference).node nodes2 = .ok L.length :=
    node_mid _ hnodes2 hq0i.symm (by rw [hq0i]; exact hqd) (by rw [hq0i]; exact hqi)
  have s13 : hasChild nodes2 (L ++ q0 :: M).length L.length = .ok false := by
    simp only [hasChild, nodeAt_mid g2 rfl, ok_bind, pure_eq_ok]
    congr 1
    apply hasChildLoop_outside (A := L ++ q0 :: (M ++ [p']))
      (F := K.take i ++ (QK ++ K.drop i)) (B := R) _ (by simp [hnodes2]) (by simp; omega)
    · simp [hp']; omega
    · left; simp
  have s14 := modifyAt_mid (fun y => y.incrementNumberOfChildren QK.length) g2 rfl
  have hin : (0 : Int) ≤ (i : Int) ∧ (i : Int) ≤ (K.length : Int) := ⟨by omega, by omega⟩
  unfold mergeTreeChildrenAtIndex
  by_cases hlt : (i : Int) < (K.length : Int)
  · simp only [s1, s2, s3, s4, s5, s6, s7, s8, s9, s10, s11, s12, s13, s14, ok_bind, pure_eq_ok,
      hin, and_self, if_true, moveChildren, Bool.false_eq_true, if_false, hlt]
    simp [hq0v, hp', TreeNode.incrementNumberOfChildren, hpl]
    omega
  · have hik : i = K.length := by omega
    rw [← hik] at s4'
    simp only [s1, s2, s3, s4', s4'', s5, s6, s7, s8, s9, s10, s11, s12, s13, s14, ok_bind,
      pure_eq_ok, hin, and_self, if_true, moveChildren, Bool.false_eq_true, if_false, hlt]
    simp [hq0v, hp', TreeNode.incrementNumberOfChildren, hpl]
    omega

theorem replace_after (L M R : List TreeNode) (p : TreeNode) (K1 K2 : List Tree)
    (oh : TreeNode) (oks : List Tree) (nh : TreeNode) (nks : List Tree) (fuel v : Nat)
    (hids : (ids (L ++ (flat (.node p (K1 ++ .node oh oks :: K2))
      ++ (M ++ (flat (.node nh nks) ++ R))))).Nodup)
    (hpd : p.identifier ≠ NoNodeIdentifier)
    (hnd : nh.identifier ≠ NoNodeIdentifier) (hnl : nh.isAllocationFailure = false)
    (hod : oh.identifier ≠ NoNodeIdentifier) (ho0 : oh.retainCount ≠ 0)
    (hpar : parentTree (L ++ (flat (.node p (K1 ++ .node oh oks :: K2))
      ++ (M ++ (flat (.node nh nks) ++ R))))
      (L.length + (flat (.node p (K1 ++ .node oh oks :: K2))).length + M.length) = none)
    (hf : height (.node oh oks) ≤ fuel) :
    replaceTreeChildAtIndex fuel ⟨p.identifier⟩ K1.length ⟨nh.identifier⟩
        ⟨L ++ (flat (.node p (K1 ++ .node oh oks :: K2)) ++ (M ++ (flat (.node nh nks) ++ R))),
          v⟩ =
      .ok ⟨L ++ (flat (.node p (K1 ++ .node nh.retain nks :: K2))
        ++ (M ++ (R ++ released (.node oh oks)))), v⟩ := by
  set n := (K1 ++ Tree.node oh oks :: K2).length with hn
  set p' : TreeNode := { p with numberOfChildren := n } with hp'
  set o' : TreeNode := { oh with numberOfChildren := oks.length } with ho'
  set n' : TreeNode := { nh with numberOfChildren := nks.length } with hn'
  set nodes := L ++ (flat (.node p (K1 ++ .node oh oks :: K2))
    ++ (M ++ (flat (.node nh nks) ++ R))) with hnodes
  have e1 : nodes = L ++ p' :: (flatF (K1 ++ .node oh oks :: K2)
      ++ (M ++ (n' :: (flatF nks ++ R)))) := by
    simp [hnodes, hp', hn, hn']
  have e2 : nodes = (L ++ p' :: flatF K1) ++ o' :: (flatF oks ++ (flatF K2
      ++ (M ++ (n' :: (flatF nks ++ R))))) := by
    simp [e1, ho']
  have e3 : nodes = (L ++ p' :: (flatF K1 ++ (o' :: (flatF oks ++ (flatF K2 ++ M)))))
      ++ n' :: (flatF nks ++ R) := by
    simp [e2]
  have hP := nodup_split (x := p') (by rw [← e1]; exact hids)
  have hO := nodup_split (x := o') (by rw [← e2]; exact hids)
  have hN := nodup_split (x := n') (by rw [← e3]; exact hids)
  have hpi : p.identifier ∉ ids L := hP.1
  have hoi : oh.identifier ∉ ids (L ++ p' :: flatF K1) := hO.1
  have hoB := hO.2
  have hni : nh.identifier ∉ ids (L ++ p' :: (flatF K1 ++ (o' :: (flatF oks ++ (flatF K2
    ++ M))))) := hN.1
  have hnB := hN.2
  have s1 : (⟨p.identifier⟩ : TreeReference).isDefined = true := by simp [isDefined, hpd]
  have s2 : (⟨nh.identifier⟩ : TreeReference).isAllocationFailure nodes = .ok false := by
    rw [isAllocationFailure_mid _ e3 rfl hnd hni]; simp [hn', hnl]
  have s3 : (⟨nh.identifier⟩ : TreeReference).node nodes
      = .ok (L ++ p' :: (flatF K1 ++ (o' :: (flatF oks ++ (flatF K2 ++ M))))).length :=
    node_mid _ e3 rfl hnd hni
  have s4 : parentTree nodes
      (L ++ p' :: (flatF K1 ++ (o' :: (flatF oks ++ (flatF K2 ++ M))))).length = none := by
    rw [← hpar]; congr 1; simp [hp', hn]; omega
  have s5 : (⟨NoNodeIdentifier⟩ : TreeReference).isDefined = false := by simp [isDefined]
  have s6 : (⟨p.identifier⟩ : TreeReference).numberOfChildren nodes = .ok n :=
    numberOfChildren_mid _ e1 rfl hpd hpi
  have s7 : (⟨p.identifier⟩ : TreeReference).node nodes = .ok L.length :=
    node_mid _ e1 rfl hpd hpi
  have s8 : childAtIndex nodes L.length K1.length = .ok (L ++ p' :: flatF K1).length := by
    have := siblingLoop_mid (N := nodes) (A := L ++ [p']) (F := K1 ++ .node oh oks :: K2)
      (B := M ++ (n' :: (flatF nks ++ R))) K1.length (a := L.length + 1) (by simp [e1])
      (by simp) (by simp)
    rw [childAtIndex, this]
    simp; omega
  have s9 : nodeAt nodes (L ++ p' :: flatF K1).length = .ok o' := nodeAt_mid e2 rfl
  -- the local handle on the old child
  set o1 : TreeNode := o'.retain with ho1
  set nodes1 := (L ++ p' :: flatF K1) ++ o1 :: (flatF oks ++ (flatF K2
      ++ (M ++ (n' :: (flatF nks ++ R))))) with hnodes1
  have s10 : modifyAt nodes (L ++ p' :: flatF K1).length TreeNode.retain = .ok nodes1 :=
    modifyAt_mid _ e2 rfl
  have ho1i : o1.identifier = oh.identifier := by simp [ho1, ho', TreeNode.retain]
  have s11 : (⟨oh.identifier⟩ : TreeReference).node nodes1 = .ok (L ++ p' :: flatF K1).length :=
    node_mid _ hnodes1 ho1i.symm (by rw [ho1i]; exact hod) (by rw [ho1i]; exact hoi)
  have s12 : nextSibling nodes1 (L ++ p' :: flatF K1).length
      = .ok ((L ++ p' :: flatF K1).length + (flat (.node oh.retain oks)).length) :=
    nextSibling_mid (t := .node oh.retain oks)
      (B := flatF K2 ++ (M ++ (n' :: (flatF nks ++ R))))
      (by simp [hnodes1, ho1, ho', TreeNode.retain]) rfl
  have f1 : nodes1 = (L ++ p' :: (flatF K1 ++ (o1 :: (flatF oks ++ (flatF K2 ++ M)))))
      ++ n' :: (flatF nks ++ R) := by
    simp [hnodes1]
  have hni1 : nh.identifier ∉ ids (L ++ p' :: (flatF K1 ++ (o1 :: (flatF oks ++ (flatF K2
      ++ M))))) := by
    simp [ho1i] at hni ⊢; simpa [ho'] using hni
  have s13 : (⟨nh.identifier⟩ : TreeReference).node nodes1
      = .ok (L ++ p' :: (flatF K1 ++ (o1 :: (flatF oks ++ (flatF K2 ++ M))))).length :=
    node_mid _ f1 rfl hnd hni1
  have s14 : (⟨nh.identifier⟩ : TreeReference).numberOfChildren nodes1 = .ok nks.length :=
    numberOfChildren_mid _ f1 rfl hnd hni1
  have s15 : deepSize nodes1
      (L ++ p' :: (flatF K1 ++ (o1 :: (flatF oks ++ (flatF K2 ++ M))))).length nks.length
      = .ok ((flatF nks).length + 1) := deepSize_mid f1 rfl rfl
  set nodes2 := (L ++ p' :: (flatF K1 ++ (o1 :: flatF oks))) ++ ((n' :: flatF nks)
      ++ ((flatF K2 ++ M) ++ R)) with hnodes2
  have s16 : moveNodes nodes1
      ((L ++ p' :: flatF K1).length + (flat (.node oh.retain oks)).length)
      (L ++ p' :: (flatF K1 ++ (o1 :: (flatF oks ++ (flatF K2 ++ M))))).length
      ((flatF nks).length + 1) = nodes2 := by
    have := moveNodes_left (L ++ p' :: (flatF K1 ++ (o1 :: flatF oks))) (flatF K2 ++ M)
      (n' :: flatF nks) R
      (d := (L ++ p' :: flatF K1).length + (flat (.node oh.retain oks)).length)
      (s := (L ++ p' :: (flatF K1 ++ (o1 :: (flatF oks ++ (flatF K2 ++ M))))).length)
      (l := (flatF nks).length + 1)
      (by simp; omega) (by simp; omega) (by simp)
    rw [hnodes2, ← this]
    congr 1
    simp [hnodes1]
  have s16' : move nodes1
      ((L ++ p' :: flatF K1).length + (flat (.node oh.retain oks)).length)
      (L ++ p' :: (flatF K1 ++ (o1 :: (flatF oks ++ (flatF K2 ++ M))))).length nks.length
      = .ok nodes2 := by
    simp only [move, s15, s16, ok_bind, pure_eq_ok]
  -- the tree now owns the new child
  have g1 : nodes2 = (L ++ p' :: (flatF K1 ++ (o1 :: flatF oks))) ++ n' :: (flatF nks
      ++ (flatF K2 ++ (M ++ R))) := by
    simp [hnodes2]
  have hni2 : nh.identifier ∉ ids (L ++ p' :: (flatF K1 ++ (o1 :: flatF oks))) := by
    simp at hni1 ⊢; tauto
  have s17 : (⟨nh.identifier⟩ : TreeReference).node nodes2
      = .ok (L ++ p' :: (flatF K1 ++ (o1 :: flatF oks))).length := node_mid _ g1 rfl hnd hni2
  have s18 := modifyAt_mid TreeNode.retain g1 rfl
  set n1 : TreeNode := n'.retain with hn1
  set nodes3 := (L ++ p' :: (flatF K1 ++ (o1 :: flatF oks))) ++ n1 :: (flatF nks
      ++ (flatF K2 ++ (M ++ R))) with hnodes3
  have g3 : nodes3 = (L ++ p' :: flatF K1) ++ (flat (.node oh.retain oks)
      ++ (n1 :: (flatF nks ++ (flatF K2 ++ (M ++ R))))) := by
    simp [hnodes3, ho1, ho', TreeNode.retain]
  have g3' : nodes3 = (L ++ p' :: flatF K1) ++ o1 :: (flatF oks
      ++ (n1 :: (flatF nks ++ (flatF K2 ++ (M ++ R))))) := by
    simp [hnodes3]
  have s19 : (⟨oh.identifier⟩ : TreeReference).node nodes3 = .ok (L ++ p' :: flatF K1).length :=
    node_mid _ g3' ho1i.symm (by rw [ho1i]; exact hod) (by rw [ho1i]; exact hoi)
  have s20 : (⟨oh.identifier⟩ : TreeReference).numberOfChildren nodes3 = .ok oks.length := by
    rw [numberOfChildren_mid _ g3' ho1i.symm (by rw [ho1i]; exact hod) (by rw [ho1i]; exact hoi)]
    simp [ho1, ho', TreeNode.retain]
  have s21 : move nodes3 (last nodes3) (L ++ p' :: flatF K1).length oks.length
      = .ok ((L ++ p' :: flatF K1) ++ ((n1 :: (flatF nks ++ (flatF K2 ++ (M ++ R))))
        ++ flat (.node oh.retain oks))) :=
    move_mid_to_last g3 rfl (by simp [Tree.children])
  set B4 := L ++ p' :: (flatF K1 ++ (n1 :: (flatF nks ++ (flatF K2 ++ (M ++ R))))) with hB4
  set nodes4 := (L ++ p' :: flatF K1) ++ ((n1 :: (flatF nks ++ (flatF K2 ++ (M ++ R))))
        ++ flat (.node oh.retain oks)) with hnodes4
  have g4 : nodes4 = B4 ++ o1 :: (flatF oks ++ []) := by
    simp [hnodes4, hB4, ho1, ho', TreeNode.retain]
  have hn1i : n1.identifier = nh.identifier := by simp [hn1, hn', TreeNode.retain]
  have hoi4 : oh.identifier ∉ ids B4 := by
    simp [hB4, hn1i, hn'] at hoi hoB ⊢; tauto
  have s22 : (⟨oh.identifier⟩ : TreeReference).node nodes4 = .ok B4.length :=
    node_mid _ g4 ho1i.symm (by rw [ho1i]; exact hod) (by rw [ho1i]; exact hoi4)
  have s23 : release fuel nodes4 B4.length = .ok (B4 ++ (flat (.node oh oks) ++ [])) := by
    rw [release_flat' (.node oh.retain oks) B4 [] fuel (by simpa using hf)
      (by simp [hnodes4, hB4]) rfl]
    simp [Tree.root, Tree.children, TreeNode.retain, ho0]
  have g5 : B4 ++ (flat (.node oh oks) ++ []) = B4 ++ o' :: (flatF oks ++ []) := by
    simp [ho']
  have s24 : (⟨oh.identifier⟩ : TreeReference).isDefined = true := by simp [isDefined, hod]
  have s25 : (⟨oh.identifier⟩ : TreeReference).node (B4 ++ (flat (.node oh oks) ++ []))
      = .ok B4.length := node_mid _ g5 rfl hod hoi4
  have s26 : nodeAt (B4 ++ (flat (.node oh oks) ++ [])) B4.length = .ok o' := nodeAt_mid g5 rfl
  have s26' : o'.identifier = oh.identifier := rfl
  have s27 := release_flat (.node oh oks) B4 [] fuel hf
  have hin : (0 : Int) ≤ (K1.length : Int) ∧ (K1.length : Int) < (n : Int) := by
    constructor
    · omega
    · simp [hn]
  unfold replaceTreeChildAtIndex
  simp only [s1, s2, s3, s4, s5, s6, s7, s8, s9, s10, s11, s12, s13, s14, s16', s17, s18, s19,
    s20, s21, s22, s23, s24, s25, s26, s26', s27, ok_bind, pure_eq_ok, hin, and_self, if_true,
    Bool.false_eq_true, if_false, parent, ofNode, treeChildAtIndex, destruct,
    Int.toNat_ofNat]
  simp [released_node, Tree.root, Tree.children, hB4, hp', hn, hn1, hn', TreeNode.retain]
  split <;> simp

theorem replace_before (L M R : List TreeNode) (p : TreeNode) (K1 K2 : List Tree)
    (oh : TreeNode) (oks : List Tree) (nh : TreeNode) (nks : List Tree) (fuel v : Nat)
    (hids : (ids (L ++ (flat (.node nh nks) ++ (M
      ++ (flat (.node p (K1 ++ .node oh oks :: K2)) ++ R))))).Nodup)
    (hpd : p.identifier ≠ NoNodeIdentifier)
    (hnd : nh.identifier ≠ NoNodeIdentifier) (hnl : nh.isAllocationFailure = false)
    (hod : oh.identifier ≠ NoNodeIdentifier) (ho0 : oh.retainCount ≠ 0)
    (hpar : parentTree (L ++ (flat (.node nh nks) ++ (M
      ++ (flat (.node p (K1 ++ .node oh oks :: K2)) ++ R)))) L.length = none)
    (hf : height (.node oh oks) ≤ fuel) :
    replaceTreeChildAtIndex fuel ⟨p.identifier⟩ K1.length ⟨nh.identifier⟩
        ⟨L ++ (flat (.node nh nks) ++ (M ++ (flat (.node p (K1 ++ .node oh oks :: K2)) ++ R))),
          v⟩ =
      .ok ⟨L ++ (M ++ (flat (.node p (K1 ++ .node nh.retain nks :: K2))
        ++ (R ++ released (.node oh oks)))), v⟩ := by
  set n := (K1 ++ Tree.node oh oks :: K2).length with hn
  set p' : TreeNode := { p with numberOfChildren := n } with hp'
  set o' : TreeNode := { oh with numberOfChildren := oks.length } with ho'
  set n' : TreeNode := { nh with numberOfChildren := nks.length } with hn'
  set nodes := L ++ (flat (.node nh nks) ++ (M
      ++ (flat (.node p (K1 ++ .node oh oks :: K2)) ++ R))) with hnodes
  set LP := L ++ n' :: (flatF nks ++ M) with hLP
  have e0 : nodes = L ++ n' :: (flatF nks ++ (M ++ (p' :: (flatF (K1 ++ .node oh oks :: K2)
      ++ R)))) := by
    simp [hnodes, hp', hn, hn']
  have e1 : nodes = LP ++ p' :: (flatF (K1 ++ .node oh oks :: K2) ++ R) := by
    simp [e0, hLP]
  have e2 : nodes = (LP ++ p' :: flatF K1) ++ o' :: (flatF oks ++ (flatF K2 ++ R)) := by
    simp [e1, ho']
  have hP := nodup_split (x := p') (by rw [← e1]; exact hids)
  have hO := nodup_split (x := o') (by rw [← e2]; exact hids)
  have hN := nodup_split (x := n') (by rw [← e0]; exact hids)
  have hpi : p.identifier ∉ ids LP := hP.1
  have hoi : oh.identifier ∉ ids (LP ++ p' :: flatF K1) := hO.1
  have hoB := hO.2
  have hni : nh.identifier ∉ ids L := hN.1
  have hnB := hN.2
  have s1 : (⟨p.identifier⟩ : TreeReference).isDefined = true := by simp [isDefined, hpd]
  have s2 : (⟨nh.identifier⟩ : TreeReference).isAllocationFailure nodes = .ok false := by
    rw [isAllocationFailure_mid _ e0 rfl hnd hni]; simp [hn', hnl]
  have s3 : (⟨nh.identifier⟩ : TreeReference).node nodes = .ok L.length :=
    node_mid _ e0 rfl hnd hni
  have s4 : parentTree nodes L.length = none := hpar
  have s5 : (⟨NoNodeIdentifier⟩ : TreeReference).isDefined = false := by simp [isDefined]
  have s6 : (⟨p.identifier⟩ : TreeReference).numberOfChildren nodes = .ok n :=
    numberOfChildren_mid _ e1 rfl hpd hpi
  have s7 : (⟨p.identifier⟩ : TreeReference).node nodes = .ok LP.length :=
    node_mid _ e1 rfl hpd hpi
  have s8 : childAtIndex nodes LP.length K1.length = .ok (LP ++ p' :: flatF K1).length := by
    have := siblingLoop_mid (N := nodes) (A := LP ++ [p']) (F := K1 ++ .node oh oks :: K2)
      (B := R) K1.length (a := LP.length + 1) (by simp [e1])
      (by simp) (by simp)
    rw [childAtIndex, this]
    simp; omega
  have s9 : nodeAt nodes (LP ++ p' :: flatF K1).length = .ok o' := nodeAt_mid e2 rfl
  -- the local handle on the old child
  set o1 : TreeNode := o'.retain with ho1
  set nodes1 := (LP ++ p' :: flatF K1) ++ o1 :: (flatF oks ++ (flatF K2 ++ R)) with hnodes1
  have s10 : modifyAt nodes (LP ++ p' :: flatF K1).length TreeNode.retain = .ok nodes1 :=
    modifyAt_mid _ e2 rfl
  have ho1i : o1.identifier = oh.identifier := by simp [ho1, ho', TreeNode.retain]
  have s11 : (⟨oh.identifier⟩ : TreeReference).node nodes1 = .ok (LP ++ p' :: flatF K1).length :=
    node_mid _ hnodes1 ho1i.symm (by rw [ho1i]; exact hod) (by rw [ho1i]; exact hoi)
  have s12 : nextSibling nodes1 (LP ++ p' :: flatF K1).length
      = .ok ((LP ++ p' :: flatF K1).length + (flat (.node oh.retain oks)).length) :=
    nextSibling_mid (t := .node oh.retain oks) (B := flatF K2 ++ R)
      (by simp [hnodes1, ho1, ho', TreeNode.retain]) rfl
  have f1 : nodes1 = L ++ n' :: (flatF nks ++ ((M ++ p' :: (flatF K1 ++ o1 :: flatF oks))
      ++ (flatF K2 ++ R))) := by
    simp [hnodes1, hLP]
  have s13 : (⟨nh.identifier⟩ : TreeReference).node nodes1 = .ok L.length :=
    node_mid _ f1 rfl hnd hni
  have s14 : (⟨nh.identifier⟩ : TreeReference).numberOfChildren nodes1 = .ok nks.length :=
    numberOfChildren_mid _ f1 rfl hnd hni
  have s15 : deepSize nodes1 L.length nks.length = .ok ((flatF nks).length + 1) :=
    deepSize_mid f1 rfl rfl
  set nodes2 := L ++ ((M ++ p' :: (flatF K1 ++ o1 :: flatF oks)) ++ ((n' :: flatF nks)
      ++ (flatF K2 ++ R))) with hnodes2
  have s16 : moveNodes nodes1
      ((LP ++ p' :: flatF K1).length + (flat (.node oh.retain oks)).length) L.length
      ((flatF nks).length + 1) = nodes2 := by
    have := moveNodes_right L (M ++ p' :: (flatF K1 ++ o1 :: flatF oks)) (n' :: flatF nks)
      (flatF K2 ++ R)
      (d := (LP ++ p' :: flatF K1).length + (flat (.node oh.retain oks)).length)
      (s := L.length) (l := (flatF nks).length + 1)
      (by simp [hLP]; omega) rfl (by simp)
    rw [hnodes2, ← this]
    congr 1
  have s16' : move nodes1
      ((LP ++ p' :: flatF K1).length + (flat (.node oh.retain oks)).length) L.length nks.length
      = .ok nodes2 := by
    simp only [move, s15, s16, ok_bind, pure_eq_ok]
  -- the tree now owns the new child
  have g1 : nodes2 = (L ++ (M ++ p' :: (flatF K1 ++ (o1 :: flatF oks)))) ++ n' :: (flatF nks
      ++ (flatF K2 ++ R)) := by
    simp [hnodes2]
  have hni2 : nh.identifier ∉ ids (L ++ (M ++ p' :: (flatF K1 ++ (o1 :: flatF oks)))) := by
    simp [ho1i, ho', hp'] at hni hnB ⊢; tauto
  have s17 : (⟨nh.identifier⟩ : TreeReference).node nodes2
      = .ok (L ++ (M ++ p' :: (flatF K1 ++ (o1 :: flatF oks)))).length :=
    node_mid _ g1 rfl hnd hni2
  have s18 := modifyAt_mid TreeNode.retain g1 rfl
  set n1 : TreeNode := n'.retain with hn1
  set nodes3 := (L ++ (M ++ p' :: (flatF K1 ++ (o1 :: flatF oks)))) ++ n1 :: (flatF nks
      ++ (flatF K2 ++ R)) with hnodes3
  have g3 : nodes3 = (L ++ (M ++ p' :: flatF K1)) ++ (flat (.node oh.retain oks)
      ++ (n1 :: (flatF nks ++ (flatF K2 ++ R)))) := by
    simp [hnodes3, ho1, ho', TreeNode.retain]
  have g3' : nodes3 = (L ++ (M ++ p' :: flatF K1)) ++ o1 :: (flatF oks
      ++ (n1 :: (flatF nks ++ (flatF K2 ++ R)))) := by
    simp [hnodes3]
  have hoi3 : oh.identifier ∉ ids (L ++ (M ++ p' :: flatF K1)) := by
    simp [hLP] at hoi ⊢; tauto
  have s19 : (⟨oh.identifier⟩ : TreeReference).node nodes3
      = .ok (L ++ (M ++ p' :: flatF K1)).length :=
    node_mid _ g3' ho1i.symm (by rw [ho1i]; exact hod) (by rw [ho1i]; exact hoi3)
  have s20 : (⟨oh.identifier⟩ : TreeReference).numberOfChildren nodes3 = .ok oks.length := by
    rw [numberOfChildren_mid _ g3' ho1i.symm (by rw [ho1i]; exact hod)
      (by rw [ho1i]; exact hoi3)]
    simp [ho1, ho', TreeNode.retain]
  have s21 : move nodes3 (last nodes3) (L ++ (M ++ p' :: flatF K1)).length oks.length
      = .ok ((L ++ (M ++ p' :: flatF K1)) ++ ((n1 :: (flatF nks ++ (flatF K2 ++ R)))
        ++ flat (.node oh.retain oks))) :=
    move_mid_to_last g3 rfl (by simp [Tree.children])
  set B4 := L ++ (M ++ p' :: (flatF K1 ++ (n1 :: (flatF nks ++ (flatF K2 ++ R))))) with hB4
  set nodes4 := (L ++ (M ++ p' :: flatF K1)) ++ ((n1 :: (flatF nks ++ (flatF K2 ++ R)))
        ++ flat (.node oh.retain oks)) with hnodes4
  have g4 : nodes4 = B4 ++ o1 :: (flatF oks ++ []) := by
    simp [hnodes4, hB4, ho1, ho', TreeNode.retain]
  have hn1i : n1.identifier = nh.identifier := by simp [hn1, hn', TreeNode.retain]
  have hoi4 : oh.identifier ∉ ids B4 := by
    simp [hB4, hLP, hn1i, hn'] at hoi hoB ⊢; tauto
  have s22 : (⟨oh.identifier⟩ : TreeReference).node nodes4 = .ok B4.length :=
    node_mid _ g4 ho1i.symm (by rw [ho1i]; exact hod) (by rw [ho1i]; exact hoi4)
  have s23 : release fuel nodes4 B4.length = .ok (B4 ++ (flat (.node oh oks) ++ [])) := by
    rw [release_flat' (.node oh.retain oks) B4 [] fuel (by simpa using hf)
      (by simp [hnodes4, hB4]) rfl]
    simp [Tree.root, Tree.children, TreeNode.retain, ho0]
  have g5 : B4 ++ (flat (.node oh oks) ++ []) = B4 ++ o' :: (flatF oks ++ []) := by
    simp [ho']
  have s24 : (⟨oh.identifier⟩ : TreeReference).isDefined = true := by simp [isDefined, hod]
  have s25 : (⟨oh.identifier⟩ : TreeReference).node (B4 ++ (flat (.node oh oks) ++ []))
      = .ok B4.length := node_mid _ g5 rfl hod hoi4
  have s26 : nodeAt (B4 ++ (flat (.node oh oks) ++ [])) B4.length = .ok o' := nodeAt_mid g5 rfl
  have s26' : o'.identifier = oh.identifier := rfl
  have s27 := release_flat (.node oh oks) B4 [] fuel hf
  have hin : (0 : Int) ≤ (K1.length : Int) ∧ (K1.length : Int) < (n : Int) := by
    constructor
    · omega
    · simp [hn]
  unfold replaceTreeChildAtIndex
  simp only [s1, s2, s3, s4, s5, s6, s7, s8, s9, s10, s11, s12, s13, s14, s16', s17, s18, s19,
    s20, s21, s22, s23, s24, s25, s26, s26', s27, ok_bind, pure_eq_ok, hin, and_self, if_true,
    Bool.false_eq_true, if_false, parent, ofNode, treeChildAtIndex, destruct,
    Int.toNat_ofNat]
  simp [released_node, Tree.root, Tree.children, hB4, hp', hn, hn1, hn', TreeNode.retain]
  split <;> simp

theorem insertSpan_before {L X : List TreeNode} {q : Nat} (S : List TreeNode)
    (hq : q ≤ L.length) :
    insertSpan (L ++ X) q S = L.take q ++ (S ++ (L.drop q ++ X)) := by
  simp only [insertSpan]
  rw [List.take_append_of_le_length hq, List.drop_append_of_le_length hq]

theorem insertSpan_after {L X R : List TreeNode} (S : List TreeNode) (j : Nat) :
    insertSpan (L ++ (X ++ R)) ((L ++ X).length + j) S
      = L ++ (X ++ (R.take j ++ (S ++ R.drop j))) := by
  have ht : (L ++ (X ++ R)).take ((L ++ X).length + j) = L ++ (X ++ R.take j) := by
    rw [← List.append_assoc, List.take_append, List.append_assoc]
  have hd : (L ++ (X ++ R)).drop ((L ++ X).length + j) = R.drop j := by
    rw [← List.append_assoc, List.drop_append]
  simp only [insertSpan, ht, hd, List.append_assoc]

theorem replace_insertSpan (L R : List TreeNode) (p : TreeNode) (K1 K2 : List Tree)
    (oh : TreeNode) (oks : List Tree) (nh : TreeNode) (nks : List Tree) (q fuel v : Nat)
    (hq : q ≤ L.length ∨ L.length + (flat (.node p (K1 ++ .node oh oks :: K2))).length ≤ q)
    (hqR : q ≤ (L ++ (flat (.node p (K1 ++ .node oh oks :: K2)) ++ R)).length)
    (hids : (ids (insertSpan (L ++ (flat (.node p (K1 ++ .node oh oks :: K2)) ++ R)) q
      (flat (.node nh nks)))).Nodup)
    (hpd : p.identifier ≠ NoNodeIdentifier)
    (hnd : nh.identifier ≠ NoNodeIdentifier) (hnl : nh.isAllocationFailure = false)
    (hod : oh.identifier ≠ NoNodeIdentifier) (ho0 : oh.retainCount ≠ 0)
    (hpar : parentTree (insertSpan (L ++ (flat (.node p (K1 ++ .node oh oks :: K2)) ++ R)) q
      (flat (.node nh nks))) q = none)
    (hf : height (.node oh oks) ≤ fuel) :
    replaceTreeChildAtIndex fuel ⟨p.identifier⟩ K1.length ⟨nh.identifier⟩
        ⟨insertSpan (L ++ (flat (.node p (K1 ++ .node oh oks :: K2)) ++ R)) q
          (flat (.node nh nks)), v⟩ =
      .ok ⟨L ++ (flat (.node p (K1 ++ .node nh.retain nks :: K2))
        ++ (R ++ released (.node oh oks))), v⟩ := by
  rcases hq with hq | hq
  · have hlen : (L.take q).length = q := by simp [hq]
    rw [insertSpan_before _ hq] at hids hpar ⊢
    rw [replace_before (L.take q) (L.drop q) R p K1 K2 oh oks nh nks fuel v hids hpd hnd hnl hod
      ho0 (by rw [hlen]; exact hpar) hf, ← List.append_assoc, List.take_append_drop]
  · obtain ⟨j, hj⟩ : ∃ j, q = (L ++ flat (.node p (K1 ++ .node oh oks :: K2))).length + j :=
      ⟨q - (L ++ flat (.node p (K1 ++ .node oh oks :: K2))).length, by simp at hq ⊢; omega⟩
    have hjR : j ≤ R.length := by simp at hqR hj; omega
    rw [hj, insertSpan_after] at hids hpar ⊢
    rw [replace_after L (R.take j) (R.drop j) p K1 K2 oh oks nh nks fuel v hids hpd hnd hnl hod
      ho0 (by rw [← hpar]; congr 1; simp [hjR]) hf, ← List.append_assoc (R.take j),
      List.take_append_drop]

theorem good_replace_subtree {L R : List TreeNode} (t t' : Tree)
    (h : goodWith 0 (L ++ (flat t ++ R))) : goodWith 0 (L ++ (flat t' ++ R)) := by
  simp only [goodWith_append, bal_append, bal_flat] at h ⊢
  exact ⟨h.1, goodWith_flat t' _ (by have := bal_nonneg_of_good h.2.2; omega), h.2.2⟩

theorem remove_then_add (L R : List TreeNode) (p : TreeNode) (K1 K2 : List Tree) (ch : TreeNode)
    (cks : List Tree) (fuel v : Nat)
    (hwf : wellFormed (L ++ (flat (.node p (K1 ++ .node ch cks :: K2)) ++ R)) = true)
    (hids : (ids (L ++ (flat (.node p (K1 ++ .node ch cks :: K2)) ++ R))).Nodup)
    (hpd : p.identifier ≠ NoNodeIdentifier) (hpl : p.isAllocationFailure = false)
    (hcd : ch.identifier ≠ NoNodeIdentifier) (hcl : ch.isAllocationFailure = false)
    (hrc : 2 ≤ ch.retainCount) (hf : height (.node ch cks) ≤ fuel) :
    (removeTreeChildAtIndex fuel ⟨p.identifier⟩ K1.length
        ⟨L ++ (flat (.node p (K1 ++ .node ch cks :: K2)) ++ R), v⟩ >>=
      addChildTreeAtIndex (fuel + 1) ⟨p.identifier⟩ ⟨ch.identifier⟩ K1.length
        ((K1 ++ K2).length : Nat)) =
      .ok ⟨L ++ (flat (.node p (K1 ++ .node ch cks :: K2)) ++ R), v⟩ := by
  set c1 : TreeNode := { ch with retainCount := ch.retainCount - 1 } with hc1
  have hrel : released (.node ch cks) = flat (.node c1 cks) ++ [] := by
    have : ¬ (ch.retainCount - 1 = 0) := by omega
    simp [released_node, this, hc1]
  rw [remove_closed L R p K1 K2 ch cks fuel v hids hpd hpl hcd (by omega) hf, hrel]
  simp only [ok_bind]
  have e0 : L ++ (flat (.node p (K1 ++ .node ch cks :: K2)) ++ R)
      = (L ++ { p with numberOfChildren := (K1 ++ .node ch cks :: K2).length }
          :: flatF K1) ++ { ch with numberOfChildren := cks.length }
          :: (flatF cks ++ (flatF K2 ++ R)) := by simp
  have e1 : L ++ (flat (.node p (K1 ++ .node ch cks :: K2)) ++ R)
      = L ++ { p with numberOfChildren := (K1 ++ .node ch cks :: K2).length }
          :: (flatF (K1 ++ .node ch cks :: K2) ++ R) := by simp
  have hC := nodup_split (by rw [← e0]; exact hids)
  have hP := nodup_split (by rw [← e1]; exact hids)
  have hgood : goodWith 0 (L ++ (flat (.node p (K1 ++ K2)) ++ R)) :=
    good_replace_subtree _ _ ((wellFormed_iff_good _).mp hwf)
  have hpar : parentTree (L ++ (flat (.node p (K1 ++ K2)) ++ (R ++ (flat (.node c1 cks) ++ []))))
      (L.length + (flat (.node p (K1 ++ K2))).length + R.length) = none := by
    rw [parentTree_none_iff]
    have : (L ++ (flat (.node p (K1 ++ K2)) ++ (R ++ (flat (.node c1 cks) ++ [])))).take
        (L.length + (flat (.node p (K1 ++ K2))).length + R.length)
        = L ++ (flat (.node p (K1 ++ K2)) ++ R) := by
      have := take_app (L ++ (flat (.node p (K1 ++ K2)) ++ R)) (flat (.node c1 cks) ++ [])
      simp only [List.length_append, List.append_assoc] at this
      rw [← this]
      congr 1
      omega
    rw [this]; exact hgood
  have := add_after L R [] p (K1 ++ K2) c1 cks K1.length fuel v hpd hpl (by simpa [hc1] using hcd)
    (by simpa [hc1] using hcl) hP.1
    (by
      have h1 := hC.1
      have h2 := hC.2
      simp [hc1] at h1 h2 ⊢
      tauto)
    hpar (by simp)
  rw [this]
  have hc : c1.retain = ch := by
    cases ch; simp [hc1, TreeNode.retain]
  simp [hc]

mutual
theorem bal_released_nonneg (t : Tree) : 0 ≤ bal (released t) := by
  match t with
  | .node h ks =>
    rw [released_node]
    split
    · exact bal_releasedF_nonneg ks
    · rw [bal_flat]; omega
theorem bal_releasedF_nonneg (F : List Tree) : 0 ≤ bal (releasedF F) := by
  match F with
  | [] => simp
  | t :: ts =>
    have h1 := bal_released_nonneg t
    have h2 := bal_releasedF_nonneg ts
    simp only [releasedF_cons, bal_append]
    omega
end

mutual
theorem goodWith_released (t : Tree) (d : Int) (hd : 0 ≤ d) : goodWith d (released t) := by
  match t with
  | .node h ks =>
    rw [released_node]
    split
    · exact goodWith_releasedF ks d hd
    · exact goodWith_flat _ d hd
theorem goodWith_releasedF (F : List Tree) (d : Int) (hd : 0 ≤ d) :
    goodWith d (releasedF F) := by
  match F with
  | [] => simp
  | t :: ts =>
    simp only [releasedF_cons, goodWith_append]
    exact ⟨goodWith_released t _ (by have := bal_releasedF_nonneg ts; omega),
      goodWith_releasedF ts d hd⟩
end

theorem good_append_tail {X Y : List TreeNode} (hX : goodWith 0 X) (hY : goodWith 0 Y)
    (hb : 0 ≤ bal Y) : goodWith 0 (X ++ Y) := by
  rw [goodWith_append]
  exact ⟨goodWith_mono (by omega) X hX, hY⟩

/-- Taking a parentless subtree out of a well-formed arena leaves a well-formed arena. -/
theorem good_of_insertSpan {rest S : List TreeNode} {q : Nat}
    (hwf : goodWith 0 (insertSpan rest q S))
    (hpar : parentTree (insertSpan rest q S) q = none) (hq : q ≤ rest.length) :
    goodWith 0 rest := by
  rw [parentTree_none_iff] at hpar
  have ht : (insertSpan rest q S).take q = rest.take q := by
    have := take_app (rest.take q) (S ++ rest.drop q)
    simp only [insertSpan]
    rw [List.length_take, Nat.min_eq_left hq] at this
    exact this
  rw [ht] at hpar
  simp only [insertSpan, goodWith_append] at hwf
  have hd : goodWith 0 (rest.drop q) := hwf.2.2
  have := good_append_tail hpar hd (bal_nonneg_of_good hd)
  rwa [List.take_append_drop] at this

theorem wf_add (L R : List TreeNode) (p : TreeNode) (K K' : List Tree) (S : List TreeNode)
    (q : Nat) (hq : q ≤ (L ++ (flat (.node p K) ++ R)).length)
    (hwf : wellFormed (insertSpan (L ++ (flat (.node p K) ++ R)) q S) = true)
    (hpar : parentTree (insertSpan (L ++ (flat (.node p K) ++ R)) q S) q = none) :
    wellFormed (L ++ (flat (.node p K') ++ R)) = true := by
  rw [wellFormed_iff_good] at hwf ⊢
  exact good_replace_subtree _ _ (good_of_insertSpan hwf hpar hq)

theorem wf_remove (L R : List TreeNode) (p : TreeNode) (K K' : List Tree) (c : Tree)
    (hwf : wellFormed (L ++ (flat (.node p K) ++ R)) = true) :
    wellFormed (L ++ (flat (.node p K') ++ (R ++ released c))) = true := by
  rw [wellFormed_iff_good] at hwf ⊢
  have h1 := good_replace_subtree (.node p K) (.node p K') hwf
  have := good_append_tail h1 (goodWith_released c 0 (le_refl _)) (bal_released_nonneg c)
  simpa using this

theorem wf_replace (L R : List TreeNode) (p : TreeNode) (K K' : List Tree) (S : List TreeNode)
    (c : Tree) (q : Nat) (hq : q ≤ (L ++ (flat (.node p K) ++ R)).length)
    (hwf : wellFormed (insertSpan (L ++ (flat (.node p K) ++ R)) q S) = true)
    (hpar : parentTree (insertSpan (L ++ (flat (.node p K) ++ R)) q S) q = none) :
    wellFormed (L ++ (flat (.node p K') ++ (R ++ released c))) = true := by
  have h0 := wf_add L R p K K S q hq hwf hpar
  exact wf_remove L R p K K' c h0

theorem wf_merge (L M R : List TreeNode) (s t s' t' : Tree)
    (hwf : wellFormed (L ++ (flat s ++ (M ++ (flat t ++ R)))) = true) :
    wellFormed (L ++ (flat s' ++ (M ++ (flat t' ++ R)))) = true := by
  rw [wellFormed_iff_good] at hwf ⊢
  have h1 := good_replace_subtree (R := M ++ (flat t ++ R)) s s' hwf
  have h2 : goodWith 0 ((L ++ (flat s' ++ M)) ++ (flat t ++ R)) := by simpa using h1
  have h3 := good_replace_subtree t t' h2
  simpa using h3

@[simp] theorem pathBefore_nil : pathBefore [] = [] := rfl
@[simp] theorem pathBefore_cons (f : Frame) (rest : List Frame) :
    pathBefore (f :: rest) = pathBefore rest ++ (f.root :: flatF f.left) := rfl
@[simp] theorem pathAfter_nil : pathAfter [] = [] := rfl
@[simp] theorem pathAfter_cons (f : Frame) (rest : List Frame) :
    pathAfter (f :: rest) = flatF f.right ++ pathAfter rest := rfl
@[simp] theorem pathIds_nil : pathIds [] = [] := rfl
@[simp] theorem pathIds_cons (f : Frame) (rest : List Frame) :
    pathIds (f :: rest) = f.hdr.identifier :: pathIds rest := rfl
@[simp] theorem pathKids_nil : pathKids [] = [] := rfl
@[simp] theorem pathKids_cons (f : Frame) (rest : List Frame) :
    pathKids (f :: rest) = flatF (f.left ++ f.right) ++ pathKids rest := rfl

mutual
theorem mem_ids_released (t : Tree) (i : Int) (h : i ∈ ids (released t)) : i ∈ ids (flat t) := by
  match t with
  | .node x ks =>
    rw [released_node] at h
    split at h
    · have := mem_ids_releasedF ks i h
      simp [this]
    · simpa using h
theorem mem_ids_releasedF (F : List Tree) (i : Int) (h : i ∈ ids (releasedF F)) :
    i ∈ ids (flatF F) := by
  match F with
  | [] => simp at h
  | t :: ts =>
    simp only [releasedF_cons, ids_append, List.mem_append] at h
    simp only [flatF_cons, ids_append, List.mem_append]
    rcases h with h | h
    · exact Or.inl (mem_ids_released t i h)
    · exact Or.inr (mem_ids_releasedF ts i h)
end

theorem mem_ids_pathBefore (path : List Frame) (i : Int) (h : i ∈ ids (pathBefore path)) :
    i ∈ pathIds path ∨ i ∈ ids (pathKids path) := by
  induction path with
  | nil => simp at h
  | cons f rest ih =>
    simp only [pathBefore_cons, ids_append, ids_cons, List.mem_append, List.mem_cons] at h
    simp only [pathIds_cons, pathKids_cons, flatF_append, ids_append, List.mem_append,
      List.mem_cons]
    rcases h with h | h | h
    · rcases ih h with h | h
      · exact Or.inl (Or.inr h)
      · exact Or.inr (Or.inr h)
    · exact Or.inl (Or.inl h)
    · exact Or.inr (Or.inl (Or.inl h))

theorem mem_ids_pathAfter (path : List Frame) (i : Int) (h : i ∈ ids (pathAfter path)) :
    i ∈ ids (pathKids path) := by
  induction path with
  | nil => simp at h
  | cons f rest ih =>
    simp only [pathAfter_cons, ids_append, List.mem_append] at h
    simp only [pathKids_cons, flatF_append, ids_append, List.mem_append]
    rcases h with h | h
    · exact Or.inl (Or.inr h)
    · exact Or.inr (ih h)

theorem parentScan_path (A0 : List TreeNode) (f : Frame) (rest : List Frame) (y : TreeNode)
    (hy : y.numberOfChildren = f.left.length + 1 + f.right.length) :
    parentScan (A0 ++ (pathBefore rest ++ (y :: flatF f.left))).reverse 0
      = some ((A0 ++ pathBefore rest).length, f.left.length) := by
  simp only [List.reverse_append, List.reverse_cons, List.append_assoc, List.singleton_append]
  rw [parentScan_flatF]
  simp only [parentScan, Nat.zero_add]
  rw [if_pos (by omega)]
  simp
  omega

theorem rcad_closed (F : List Tree) (A : List TreeNode) (x : TreeNode) (B : List TreeNode)
    (fuel : Nat) (hf : heightF F ≤ fuel) {N : List TreeNode} {a n : Nat}
    (hn : N = A ++ x :: (flatF F ++ B)) (ha : a = A.length) (hk : n = F.length) :
    releaseChildrenAndDestroy fuel N a n = .ok (A ++ (B ++ releasedF F)) := by
  subst hn ha hk
  simp only [releaseChildrenAndDestroy, releaseChildren, releaseLoop_flatF F A x B fuel hf,
    ok_bind]
  exact discardTreeNode_mid rfl rfl

theorem modifyAt_last (N : List TreeNode) (x : TreeNode) (f : TreeNode → TreeNode) {a : Nat}
    (ha : a = N.length) : modifyAt (N ++ [x]) a f = .ok (N ++ [f x]) :=
  modifyAt_mid f rfl ha

theorem sentinel_create (N : List TreeNode) (h : TreeNode) :
    modifyAt (deepCopyStatic N h.failedAllocationStaticNode).2
      (deepCopyStatic N h.failedAllocationStaticNode).1 (fun y => y.rename h.identifier)
      = .ok (N ++ [sentinel h 0]) := by
  simp only [deepCopyStatic]
  rw [modifyAt_last _ _ _ rfl]
  simp [TreeNode.rename, TreeNode.failedAllocationStaticNode, sentinel]

theorem parentTree_root {N A0 B : List TreeNode} {a : Nat} (hg : goodWith 0 A0)
    (hn : N = A0 ++ B) (ha : a = A0.length) : parentTree N a = none := by
  rw [parentTree_none_iff]
  subst hn ha
  rw [take_app]
  exact hg

theorem isDefined_of_ne {i : Int} (h : i ≠ NoNodeIdentifier) :
    (⟨i⟩ : TreeReference).isDefined = true := by
  simp [isDefined, h]

theorem rwaf_root (h : TreeNode) (Ks : List Tree) (A0 B : List TreeNode) (fuel v : Nat)
    (hd : h.identifier ≠ NoNodeIdentifier) (hl : h.isAllocationFailure = false)
    (hA : h.identifier ∉ ids A0) (hg : goodWith 0 A0) (hf : heightF Ks + 1 ≤ fuel) :
    replaceWithAllocationFailure fuel ⟨h.identifier⟩ Ks.length
        ⟨A0 ++ (h :: (flatF Ks ++ B)), v⟩
      = .error .undefinedHandle := by
  obtain ⟨fuel, rfl⟩ : ∃ k, fuel = k + 1 := ⟨fuel - 1, by omega⟩
  set nodes := A0 ++ (h :: (flatF Ks ++ B)) with hnodes
  have s1 : (⟨h.identifier⟩ : TreeReference).isAllocationFailure nodes = .ok false := by
    rw [isAllocationFailure_mid _ hnodes rfl hd hA, hl]
  have s2 := isDefined_of_ne hd
  have s3 : (⟨h.identifier⟩ : TreeReference).node nodes = .ok A0.length :=
    node_mid _ hnodes rfl hd hA
  have s4 : parentTree nodes A0.length = none := parentTree_root hg hnodes rfl
  have s5 : (⟨NoNodeIdentifier⟩ : TreeReference).isDefined = false := by simp [isDefined]
  have s6 : nodeAt nodes A0.length = .ok h := nodeAt_mid hnodes rfl
  have s7 : releaseChildrenAndDestroy fuel nodes A0.length (Int.toNat (Ks.length : Int))
      = .ok (A0 ++ (B ++ releasedF Ks)) :=
    rcad_closed Ks A0 h B fuel (by omega) hnodes rfl (by simp)
  have s8 := sentinel_create (A0 ++ (B ++ releasedF Ks)) h
  have s9 : modifyAt (A0 ++ (B ++ releasedF Ks) ++ [sentinel h 0])
      (deepCopyStatic (A0 ++ (B ++ releasedF Ks)) h.failedAllocationStaticNode).1
      (fun y => y.setReferenceCounter h.retainCount)
      = .ok ((A0 ++ (B ++ releasedF Ks)) ++ [sentinel h h.retainCount]) := by
    rw [modifyAt_last _ _ _ (by simp [deepCopyStatic])]
    simp [sentinel, TreeNode.setReferenceCounter]
  rw [replaceWithAllocationFailure]
  simp only [s1, s2, s3, s4, s5, s6, s7, s8, s9, ok_bind, pure_eq_ok, Bool.false_eq_true,
    if_false, if_true, parent, ofNode, decrementNumberOfChildren, destruct]
  simp [node, s5]

theorem rwaf_step (f : Frame) (rest : List Frame) (h : TreeNode) (Ks : List Tree)
    (A0 B : List TreeNode) (fuel v : Nat)
    (hd : h.identifier ≠ NoNodeIdentifier) (hl : h.isAllocationFailure = false)
    (hfd : f.hdr.identifier ≠ NoNodeIdentifier) (hfl : f.hdr.isAllocationFailure = false)
    (hh1 : h.identifier ∉ ids (A0 ++ pathBefore rest)) (hh2 : h.identifier ≠ f.hdr.identifier)
    (hh3 : h.identifier ∉ ids (flatF f.left)) (hh4 : h.identifier ∉ ids (flatF f.right))
    (hh5 : h.identifier ∉ ids (pathAfter rest)) (hh6 : h.identifier ∉ ids B)
    (hh7 : h.identifier ∉ ids (flatF Ks))
    (hf1 : f.hdr.identifier ∉ ids (A0 ++ pathBefore rest))
    (hfuel : heightF Ks ≤ fuel + 1)
    (IH : replaceWithAllocationFailure fuel ⟨f.hdr.identifier⟩ ((f.left ++ f.right).length : Nat)
        ⟨A0 ++ (pathBefore rest ++ (f.root.retain :: (flatF (f.left ++ f.right)
          ++ (pathAfter rest ++ (B ++ (releasedF Ks ++ [sentinel h h.retainCount])))))), v⟩
      = .error .undefinedHandle) :
    replaceWithAllocationFailure (fuel + 2) ⟨h.identifier⟩ Ks.length
        ⟨A0 ++ (pathBefore (f :: rest) ++ (h :: (flatF Ks ++ (pathAfter (f :: rest) ++ B)))), v⟩
      = .error .undefinedHandle := by
  set PB := A0 ++ pathBefore rest with hPB
  set fr := f.root with hfr
  set fr1 := fr.retain with hfr1
  set POST := flatF f.right ++ (pathAfter rest ++ B) with hPOST
  set nodes := A0 ++ (pathBefore (f :: rest) ++ (h :: (flatF Ks ++ (pathAfter (f :: rest) ++ B))))
    with hnodes
  have hfri : fr.identifier = f.hdr.identifier := rfl
  have hfr1i : fr1.identifier = f.hdr.identifier := rfl
  have e1 : nodes = (PB ++ fr :: flatF f.left) ++ h :: (flatF Ks ++ POST) := by
    simp [hnodes, hPB, hPOST, hfr]
  have e2 : nodes = PB ++ fr :: (flatF f.left ++ (h :: (flatF Ks ++ POST))) := by
    simp [e1]
  have hhPRE : h.identifier ∉ ids (PB ++ fr :: flatF f.left) := by
    simp [hfri] at hh1 hh3 ⊢; tauto
  have hhPRE1 : h.identifier ∉ ids (PB ++ fr1 :: flatF f.left) := by
    simp [hfr1i] at hh1 hh3 ⊢; tauto
  have s1 : (⟨h.identifier⟩ : TreeReference).isAllocationFailure nodes = .ok false := by
    rw [isAllocationFailure_mid _ e1 rfl hd hhPRE, hl]
  have s2 := isDefined_of_ne hd
  have s3 : (⟨h.identifier⟩ : TreeReference).node nodes = .ok (PB ++ fr :: flatF f.left).length :=
    node_mid _ e1 rfl hd hhPRE
  have s4 : parentTree nodes (PB ++ fr :: flatF f.left).length = some PB.length := by
    simp only [parentTree]
    rw [e1, take_app, hPB, List.append_assoc,
      parentScan_path A0 f rest fr (by simp [hfr, Frame.root])]
    rfl
  have s5 : nodeAt nodes PB.length = .ok fr := nodeAt_mid e2 rfl
  set nodes1 := PB ++ fr1 :: (flatF f.left ++ (h :: (flatF Ks ++ POST))) with hnodes1
  have s6 : modifyAt nodes PB.length TreeNode.retain = .ok nodes1 := modifyAt_mid _ e2 rfl
  have s6' : fr.identifier = f.hdr.identifier := rfl
  have s7 := isDefined_of_ne hfd
  have f1 : nodes1 = (PB ++ fr1 :: flatF f.left) ++ h :: (flatF Ks ++ POST) := by
    simp [hnodes1]
  have s8 : (⟨h.identifier⟩ : TreeReference).node nodes1
      = .ok (PB ++ fr1 :: flatF f.left).length := node_mid _ f1 rfl hd hhPRE1
  have s9 : nodeAt nodes1 (PB ++ fr1 :: flatF f.left).length = .ok h := nodeAt_mid f1 rfl
  have s10 : indexInParent nodes1 (PB ++ fr1 :: flatF f.left).length = (f.left.length : Int) := by
    simp only [indexInParent]
    rw [f1, take_app, hPB, List.append_assoc,
      parentScan_path A0 f rest fr1 (by simp [hfr1, hfr, Frame.root, TreeNode.retain])]
  set N2 := (PB ++ fr1 :: flatF f.left) ++ (POST ++ releasedF Ks) with hN2
  have s11 : releaseChildrenAndDestroy (fuel + 1) nodes1 (PB ++ fr1 :: flatF f.left).length
      (Int.toNat (Ks.length : Int)) = .ok N2 :=
    rcad_closed Ks _ h POST (fuel + 1) (by omega) f1 rfl (by simp)
  have s12 := sentinel_create N2 h
  have s13 : modifyAt (N2 ++ [sentinel h 0])
      (deepCopyStatic N2 h.failedAllocationStaticNode).1
      (fun y => y.setReferenceCounter (h.retainCount - 1))
      = .ok (N2 ++ [sentinel h (h.retainCount - 1)]) := by
    rw [modifyAt_last _ _ _ (by simp [deepCopyStatic])]
    simp [sentinel, TreeNode.setReferenceCounter]
  have s14 : nodeAt (N2 ++ [sentinel h (h.retainCount - 1)])
      (deepCopyStatic N2 h.failedAllocationStaticNode).1
      = .ok (sentinel h (h.retainCount - 1)) :=
    nodeAt_mid rfl (by simp [deepCopyStatic])
  set nodes3 := N2 ++ [sentinel h h.retainCount] with hnodes3
  have s15 : modifyAt (N2 ++ [sentinel h (h.retainCount - 1)])
      (deepCopyStatic N2 h.failedAllocationStaticNode).1 TreeNode.retain = .ok nodes3 := by
    rw [modifyAt_last _ _ _ (by simp [deepCopyStatic])]
    simp [sentinel, TreeNode.retain, hnodes3]
  have s15' : (sentinel h (h.retainCount - 1)).identifier = h.identifier := rfl
  have g1 : nodes3 = PB ++ fr1 :: (flatF f.left ++ (POST ++ (releasedF Ks
      ++ [sentinel h h.retainCount]))) := by
    simp [hnodes3, hN2]
  have s16 : (⟨f.hdr.identifier⟩ : TreeReference).numberOfChildren nodes3
      = .ok (f.left.length + 1 + f.right.length) := by
    rw [numberOfChildren_mid _ g1 hfr1i.symm (by rw [hfr1i]; exact hfd)
      (by rw [hfr1i]; exact hf1)]
    rfl
  have s17 : (⟨f.hdr.identifier⟩ : TreeReference).node nodes3 = .ok PB.length :=
    node_mid _ g1 hfr1i.symm (by rw [hfr1i]; exact hfd) (by rw [hfr1i]; exact hf1)
  have s18 : nodeAt nodes3 PB.length = .ok fr1 := nodeAt_mid g1 rfl
  have s18' : fr1.isAllocationFailure = false := hfl
  have hhN2 : h.identifier ∉ ids N2 := by
    have := fun hm => hh7 (mem_ids_releasedF Ks _ hm)
    simp [hN2, hPOST, hfr1i] at hh1 hh3 hh4 hh5 hh6 ⊢
    tauto
  have s19 : (⟨h.identifier⟩ : TreeReference).isAllocationFailure nodes3 = .ok true := by
    rw [isAllocationFailure_mid (x := sentinel h h.retainCount) (B := []) _ hnodes3 rfl hd hhN2]
    rfl
  have hcast : ((f.left.length + 1 + f.right.length : Nat) : Int) - 1
      = (((f.left ++ f.right).length : Nat) : Int) := by
    simp; omega
  have g2 : nodes3 = A0 ++ (pathBefore rest ++ (f.root.retain :: (flatF (f.left ++ f.right)
      ++ (pathAfter rest ++ (B ++ (releasedF Ks ++ [sentinel h h.retainCount])))))) := by
    simp [g1, hPB, hPOST, hfr1, hfr]
  rw [← g2] at IH
  have hidx : (0 : Int) ≤ (f.left.length : Int) := by omega
  rw [replaceWithAllocationFailure]
  simp only [s1, s2, s3, s4, s5, s6, s6', s7, s8, s9, s10, s11, s12, s13, s14, s15, s15', s16,
    ok_bind, pure_eq_ok, Bool.false_eq_true, if_false, if_true, parent, ofNode, hidx, hcast]
  rw [addChildTreeAtIndex]
  simp only [s7, s17, s18, s18', s19, IH, ok_bind, pure_eq_ok, Bool.false_eq_true, if_false,
    if_true, error_bind]

theorem rwaf_closed (path : List Frame) :
    ∀ (h : TreeNode) (Ks : List Tree) (A0 B : List TreeNode) (fuel v : Nat),
      h.identifier ≠ NoNodeIdentifier → h.isAllocationFailure = false →
      (h.identifier :: pathIds path).Nodup →
      (∀ i ∈ h.identifier :: pathIds path,
        i ∉ ids A0 ∧ i ∉ ids B ∧ i ∉ ids (flatF Ks) ∧ i ∉ ids (pathKids path)) →
      (∀ g ∈ path, g.hdr.identifier ≠ NoNodeIdentifier ∧ g.hdr.isAllocationFailure = false) →
      goodWith 0 A0 → fuelFor path Ks ≤ fuel →
      replaceWithAllocationFailure fuel ⟨h.identifier⟩ Ks.length
          ⟨A0 ++ (pathBefore path ++ (h :: (flatF Ks ++ (pathAfter path ++ B)))), v⟩
        = .error .undefinedHandle := by
  induction path with
  | nil =>
    intro h Ks A0 B fuel v hd hl _ hfresh _ hg hfuel
    have := rwaf_root h Ks A0 B fuel v hd hl (hfresh _ (by simp)).1 hg
      (by simpa [fuelFor] using hfuel)
    simpa using this
  | cons f rest ih =>
    intro h Ks A0 B fuel v hd hl hn hfresh hok hg hfuel
    have hF : fuelFor rest (f.left ++ f.right) + 2 ≤ fuel ∧ heightF Ks + 1 ≤ fuel := by
      simp only [fuelFor] at hfuel
      omega
    obtain ⟨fuel, rfl⟩ : ∃ k, fuel = k + 2 := ⟨fuel - 2, by omega⟩
    have hfok := hok f (by simp)
    have hhf := hfresh h.identifier (by simp)
    have hff := hfresh f.hdr.identifier (by simp)
    have hn' : (f.hdr.identifier :: pathIds rest).Nodup := (List.nodup_cons.mp hn).2
    have hhn : h.identifier ∉ f.hdr.identifier :: pathIds rest := (List.nodup_cons.mp hn).1
    have hfn : f.hdr.identifier ∉ pathIds rest := (List.nodup_cons.mp hn').1
    have hhk : h.identifier ∉ ids (flatF f.left) ∧ h.identifier ∉ ids (flatF f.right)
        ∧ h.identifier ∉ ids (pathKids rest) := by
      have := hhf.2.2.2
      simp at this ⊢; tauto
    have hfk : f.hdr.identifier ∉ ids (flatF (f.left ++ f.right))
        ∧ f.hdr.identifier ∉ ids (pathKids rest) := by
      have := hff.2.2.2
      simp at this ⊢; tauto
    have hhpb : h.identifier ∉ ids (A0 ++ pathBefore rest) := by
      intro hm
      simp only [ids_append, List.mem_append] at hm
      rcases hm with hm | hm
      · exact hhf.1 hm
      · rcases mem_ids_pathBefore rest _ hm with hm | hm
        · exact hhn (by simp [hm])
        · exact hhk.2.2 hm
    have hfpb : f.hdr.identifier ∉ ids (A0 ++ pathBefore rest) := by
      intro hm
      simp only [ids_append, List.mem_append] at hm
      rcases hm with hm | hm
      · exact hff.1 hm
      · rcases mem_ids_pathBefore rest _ hm with hm | hm
        · exact hfn hm
        · exact hfk.2 hm
    have hne : h.identifier ≠ f.hdr.identifier := by
      intro he; exact hhn (by simp [he])
    have IH := ih f.root.retain (f.left ++ f.right) A0
      (B ++ (releasedF Ks ++ [sentinel h h.retainCount])) fuel v hfok.1 hfok.2 hn'
      (by
        intro i hi
        have hi' := hfresh i (by simp only [pathIds_cons, List.mem_cons] at hi ⊢; tauto)
        have hih : i ≠ h.identifier := by
          intro he; subst he; exact hhn hi
        refine ⟨hi'.1, ?_, ?_, ?_⟩
        · intro hm
          simp only [ids_append, ids_cons, ids_nil, List.mem_append, List.mem_singleton] at hm
          rcases hm with hm | hm | hm
          · exact hi'.2.1 hm
          · exact hi'.2.2.1 (mem_ids_releasedF Ks _ hm)
          · exact hih (by simpa [sentinel] using hm)
        · have := hi'.2.2.2
          simp at this ⊢; tauto
        · have := hi'.2.2.2
          simp at this ⊢; tauto)
      (fun g hg' => hok g (by simp [hg'])) hg (by omega)
    exact rwaf_step f rest h Ks A0 B fuel v hd hl hfok.1 hfok.2 hhpb hne hhk.1 hhk.2.1
      (fun hm => hhk.2.2 (mem_ids_pathAfter rest _ hm)) hhf.2.1 hhf.2.2.1 hfpb (by omega) IH

theorem add_failure_child (path : List Frame) (p : TreeNode) (K : List Tree)
    (A0 B : List TreeNode) (t : TreeReference) (index : Int) (fuel v : Nat)
    (hpd : p.identifier ≠ NoNodeIdentifier) (hpl : p.isAllocationFailure = false)
    (hn : (p.identifier :: pathIds path).Nodup)
    (hfresh : ∀ i ∈ p.identifier :: pathIds path,
      i ∉ ids A0 ∧ i ∉ ids B ∧ i ∉ ids (flatF K) ∧ i ∉ ids (pathKids path))
    (hok : ∀ g ∈ path, g.hdr.identifier ≠ NoNodeIdentifier ∧ g.hdr.isAllocationFailure = false)
    (hroot : parentTree (A0 ++ (pathBefore path ++ (flat (.node p K) ++ (pathAfter path ++ B))))
      A0.length = none)
    (ht : t.isAllocationFailure
      (A0 ++ (pathBefore path ++ (flat (.node p K) ++ (pathAfter path ++ B)))) = .ok true)
    (hfuel : fuelFor path K ≤ fuel) :
    addChildTreeAtIndex (fuel + 1) ⟨p.identifier⟩ t index K.length
        ⟨A0 ++ (pathBefore path ++ (flat (.node p K) ++ (pathAfter path ++ B))), v⟩
      = .error .undefinedHandle := by
  have hg : goodWith 0 A0 := by
    rw [parentTree_none_iff, take_app] at hroot
    exact hroot
  have hpf := hfresh p.identifier (by simp)
  have hpb : p.identifier ∉ ids (A0 ++ pathBefore path) := by
    intro hm
    simp only [ids_append, List.mem_append] at hm
    rcases hm with hm | hm
    · exact hpf.1 hm
    · rcases mem_ids_pathBefore path _ hm with hm | hm
      · exact (List.nodup_cons.mp hn).1 hm
      · exact hpf.2.2.2 hm
  set nodes := A0 ++ (pathBefore path ++ (flat (.node p K) ++ (pathAfter path ++ B))) with hnodes
  have e1 : nodes = (A0 ++ pathBefore path) ++ (Tree.node p K).root
      :: (flatF K ++ (pathAfter path ++ B)) := by
    simp [hnodes, Tree.root]
  have e2 : nodes = A0 ++ (pathBefore path ++ ((Tree.node p K).root
      :: (flatF K ++ (pathAfter path ++ B)))) := by
    simp [hnodes, Tree.root]
  have s1 := isDefined_of_ne hpd
  have s2 : (⟨p.identifier⟩ : TreeReference).node nodes = .ok (A0 ++ pathBefore path).length :=
    node_mid _ e1 rfl hpd hpb
  have s3 : nodeAt nodes (A0 ++ pathBefore path).length = .ok (Tree.node p K).root :=
    nodeAt_mid e1 rfl
  have s3' : (Tree.node p K).root.isAllocationFailure = false := hpl
  have s4 := rwaf_closed path (Tree.node p K).root K A0 B fuel v hpd hpl hn hfresh hok hg hfuel
  rw [← e2] at s4
  rw [addChildTreeAtIndex]
  simp only [s1, s2, s3, s3', ht, ok_bind, pure_eq_ok, if_true, Bool.false_eq_true, if_false]
  exact s4

theorem replace_failure_child (path : List Frame) (p : TreeNode) (K : List Tree)
    (A0 B : List TreeNode) (newChild : TreeReference) (oldChildIndex : Int) (fuel v : Nat)
    (hpd : p.identifier ≠ NoNodeIdentifier) (hpl : p.isAllocationFailure = false)
    (hn : (p.identifier :: pathIds path).Nodup)
    (hfresh : ∀ i ∈ p.identifier :: pathIds path,
      i ∉ ids A0 ∧ i ∉ ids B ∧ i ∉ ids (flatF K) ∧ i ∉ ids (pathKids path))
    (hok : ∀ g ∈ path, g.hdr.identifier ≠ NoNodeIdentifier ∧ g.hdr.isAllocationFailure = false)
    (hroot : parentTree (A0 ++ (pathBefore path ++ (flat (.node p K) ++ (pathAfter path ++ B))))
      A0.length = none)
    (ht : newChild.isAllocationFailure
      (A0 ++ (pathBefore path ++ (flat (.node p K) ++ (pathAfter path ++ B)))) = .ok true)
    (hfuel : fuelFor path K ≤ fuel) :
    replaceTreeChildAtIndex fuel ⟨p.identifier⟩ oldChildIndex newChild
        ⟨A0 ++ (pathBefore path ++ (flat (.node p K) ++ (pathAfter path ++ B))), v⟩
      = .error .undefinedHandle := by
  have hg : goodWith 0 A0 := by
    rw [parentTree_none_iff, take_app] at hroot
    exact hroot
  have hpf := hfresh p.identifier (by simp)
  have hpb : p.identifier ∉ ids (A0 ++ pathBefore path) := by
    intro hm
    simp only [ids_append, List.mem_append] at hm
    rcases hm with hm | hm
    · exact hpf.1 hm
    · rcases mem_ids_pathBefore path _ hm with hm | hm
      · exact (List.nodup_cons.mp hn).1 hm
      · exact hpf.2.2.2 hm
  set nodes := A0 ++ (pathBefore path ++ (flat (.node p K) ++ (pathAfter path ++ B))) with hnodes
  have e1 : nodes = (A0 ++ pathBefore path) ++ (Tree.node p K).root
      :: (flatF K ++ (pathAfter path ++ B)) := by
    simp [hnodes, Tree.root]
  have e2 : nodes = A0 ++ (pathBefore path ++ ((Tree.node p K).root
      :: (flatF K ++ (pathAfter path ++ B)))) := by
    simp [hnodes, Tree.root]
  have s1 := isDefined_of_ne hpd
  have s2 : (⟨p.identifier⟩ : TreeReference).numberOfChildren nodes = .ok K.length := by
    rw [numberOfChildren_mid _ e1 rfl hpd hpb]
    rfl
  have s4 := rwaf_closed path (Tree.node p K).root K A0 B fuel v hpd hpl hn hfresh hok hg hfuel
  rw [← e2] at s4
  unfold replaceTreeChildAtIndex
  simp only [s1, s2, ht, ok_bind, pure_eq_ok, if_true]
  exact s4

theorem parentScan_child (X : List TreeNode) (p' : TreeNode) (K1 : List Tree)
    (hk : K1.length < p'.numberOfChildren) :
    parentScan (X ++ p' :: flatF K1).reverse 0 = some (X.length, K1.length) := by
  have e : (X ++ p' :: flatF K1).reverse = (flatF K1).reverse ++ (p' :: X.reverse) := by simp
  rw [e, parentScan_flatF K1 _ 0]
  simp [parentScan, hk]

theorem map_set_same {β : Type} (f : TreeNode → β) (g : TreeNode → TreeNode)
    (hfg : ∀ x, f (g x) = f x) :
    ∀ (l : List TreeNode) (a : Nat) (x : TreeNode), l[a]? = some x →
      (l.set a (g x)).map f = l.map f := by
  intro l
  induction l with
  | nil => intro a x h; simp at h
  | cons y l ih =>
    intro a x h
    cases a with
    | zero =>
      simp only [List.getElem?_cons_zero, Option.some.injEq] at h
      subst h
      simp [hfg]
    | succ a =>
      simp only [List.getElem?_cons_succ] at h
      simp [ih a x h]

theorem nodeForIdentifier_ids (l1 : List TreeNode) :
    ∀ (l2 : List TreeNode) (i : Int), ids l1 = ids l2 →
      nodeForIdentifier l1 i = nodeForIdentifier l2 i := by
  induction l1 with
  | nil =>
    intro l2 i h
    cases l2 with
    | nil => rfl
    | cons y l2 => simp [ids] at h
  | cons x l1 ih =>
    intro l2 i h
    cases l2 with
    | nil => simp [ids] at h
    | cons y l2 =>
      simp only [ids_cons, List.cons.injEq] at h
      simp only [nodeForIdentifier, h.1, ih l2 i h.2]

theorem node_ids (r : TreeReference) {l1 l2 : List TreeNode} (h : ids l1 = ids l2) :
    r.node l1 = r.node l2 := by
  simp only [node, nodeForIdentifier_ids l1 l2 _ h]

theorem mem_of_getElem? {l : List TreeNode} {a : Nat} {x : TreeNode} (h : l[a]? = some x) :
    x ∈ l := by
  rw [List.getElem?_eq_some] at h
  obtain ⟨_, rfl⟩ := h
  exact List.getElem_mem _

theorem cloneSpan_length (l : List TreeNode) : ∀ b : Int, (cloneSpan b l).length = l.length := by
  induction l with
  | nil => intro b; rfl
  | cons x l ih => intro b; simp [cloneSpan, ih]

theorem cloneSpan_append (l1 : List TreeNode) :
    ∀ (b : Int) (l2 : List TreeNode),
      cloneSpan b (l1 ++ l2) = cloneSpan b l1 ++ cloneSpan (b + l1.length) l2 := by
  induction l1 with
  | nil => intro b l2; simp [cloneSpan]
  | cons x l1 ih =>
    intro b l2
    have e : b + ((l1.length : Int) + 1) = b + 1 + (l1.length : Int) := by omega
    have := ih (b + 1) l2
    simp only [List.cons_append, cloneSpan, List.length_cons, Nat.cast_add, Nat.cast_one, e,
      List.append_eq, this]

mutual
theorem flat_cloneTree (t : Tree) (b : Int) : flat (cloneTree b t) = cloneSpan b (flat t) := by
  match t with
  | .node h ks =>
    simp only [cloneTree, flat_node, cloneSpan, flat_cloneForest ks (b + 1)]
    have : (cloneForest (b + 1) ks).length = ks.length := cloneForest_length ks (b + 1)
    rw [this]
theorem flat_cloneForest (F : List Tree) (b : Int) :
    flatF (cloneForest b F) = cloneSpan b (flatF F) := by
  match F with
  | [] => simp [cloneForest, cloneSpan]
  | t :: ts =>
    simp only [cloneForest, flatF_cons, cloneSpan_append, flat_cloneTree t b,
      flat_cloneForest ts (b + (flat t).length)]
theorem cloneForest_length (F : List Tree) (b : Int) : (cloneForest b F).length = F.length := by
  match F with
  | [] => simp [cloneForest]
  | t :: ts => simp [cloneForest, cloneForest_length ts (b + (flat t).length)]
end

mutual
theorem height_cloneTree (t : Tree) (b : Int) : height (cloneTree b t) = height t := by
  match t with
  | .node h ks => simp only [cloneTree, height_node, heightF_cloneForest ks (b + 1)]
theorem heightF_cloneForest (F : List Tree) (b : Int) :
    heightF (cloneForest b F) = heightF F := by
  match F with
  | [] => simp [cloneForest]
  | t :: ts =>
    simp only [cloneForest, heightF_cons, height_cloneTree t b,
      heightF_cloneForest ts (b + (flat t).length)]
end

mutual
theorem released_cloneTree (t : Tree) (b : Int) : released (cloneTree b t) = [] := by
  match t with
  | .node h ks =>
    simp only [cloneTree, released_node]
    simp [releasedF_cloneForest ks (b + 1)]
theorem releasedF_cloneForest (F : List Tree) (b : Int) : releasedF (cloneForest b F) = [] := by
  match F with
  | [] => simp [cloneForest]
  | t :: ts =>
    simp only [cloneForest, releasedF_cons, released_cloneTree t b,
      releasedF_cloneForest ts (b + (flat t).length), List.append_nil]
end

theorem cloneSpan_counters (l : List TreeNode) :
    ∀ b : Int, (cloneSpan b l).map (fun y => y.setReferenceCounter 1) = cloneSpan b l := by
  induction l with
  | nil => intro b; rfl
  | cons x l ih =>
    intro b
    have := ih (b + 1)
    simp only [TreeNode.setReferenceCounter] at this
    simp [cloneSpan, TreeNode.setReferenceCounter, this]

theorem cloneSpan_ids_ge (l : List TreeNode) :
    ∀ (b : Int) (i : Int), i ∈ ids (cloneSpan b l) → b ≤ i := by
  induction l with
  | nil => intro b i h; simp [cloneSpan, ids] at h
  | cons x l ih =>
    intro b i h
    simp only [cloneSpan, ids_cons, List.mem_cons] at h
    rcases h with h | h
    · omega
    · have := ih (b + 1) i h
      omega

theorem cloneSpan_shape (l : List TreeNode) :
    ∀ b : Int,
      (cloneSpan b l).map (fun y => (y.numberOfChildren, y.isAllocationFailure, y.content))
        = l.map (fun y => (y.numberOfChildren, y.isAllocationFailure, y.content)) := by
  induction l with
  | nil => intro b; rfl
  | cons x l ih => intro b; simp [cloneSpan, ih]

theorem foldl_max_le (l : List Int) : ∀ (m : Int), m ≤ l.foldl max m ∧ ∀ i ∈ l, i ≤ l.foldl max m := by
  induction l with
  | nil => intro m; simp
  | cons x l ih =>
    intro m
    simp only [List.foldl_cons, List.mem_cons]
    have h := ih (max m x)
    refine ⟨le_trans (le_max_left m x) h.1, ?_⟩
    intro i hi
    rcases hi with rfl | hi
    · exact le_trans (le_max_right m i) h.1
    · exact h.2 i hi

theorem freshIdentifier_gt (N : List TreeNode) : ∀ i ∈ ids N, i < freshIdentifier N := by
  intro i hi
  have := (foldl_max_le (N.map (fun x => x.identifier)) (-1)).2 i hi
  simp only [freshIdentifier]
  omega

theorem freshIdentifier_nonneg (N : List TreeNode) : 0 ≤ freshIdentifier N := by
  have := (foldl_max_le (N.map (fun x => x.identifier)) (-1)).1
  simp only [freshIdentifier]
  omega

theorem freshIdentifier_not_mem (N : List TreeNode) : freshIdentifier N ∉ ids N := by
  intro h
  have := freshIdentifier_gt N _ h
  omega

theorem deepCopy_flat (L R : List TreeNode) (t : Tree) :
    deepCopy (L ++ (flat t ++ R)) L.length
      = .ok ((L ++ (flat t ++ R)).length,
          (L ++ (flat t ++ R)) ++ cloneSpan (freshIdentifier (L ++ (flat t ++ R))) (flat t)) := by
  cases t with
  | node h K =>
    have e1 : L ++ (flat (.node h K) ++ R)
        = L ++ (Tree.node h K).root :: (flatF K ++ R) := by simp [Tree.root]
    have s1 : nodeAt (L ++ (flat (.node h K) ++ R)) L.length = .ok (Tree.node h K).root :=
      nodeAt_mid e1 rfl
    have s2 : deepSize (L ++ (flat (.node h K) ++ R)) L.length
        (Tree.node h K).root.numberOfChildren = .ok ((flatF K).length + 1) :=
      deepSize_mid e1 rfl rfl
    have s3 : ((L ++ (flat (.node h K) ++ R)).drop L.length).take ((flatF K).length + 1)
        = flat (.node h K) := by
      rw [drop_app]
      have : (flatF K).length + 1 = (flat (.node h K)).length := by simp
      rw [this, take_app]
    simp only [deepCopy, s1, s2, s3, ok_bind, pure_eq_ok]

theorem deepReset_clone (N : List TreeNode) (t : Tree) (b : Int) :
    (deepResetReferenceCounter (N ++ cloneSpan b (flat t)) N.length
      >>= fun nodes => ofNode nodes (some N.length))
      = .ok (⟨b⟩, N ++ cloneSpan b (flat t)) := by
  cases t with
  | node h K =>
    have hC : cloneSpan b (flat (.node h K))
        = (cloneTree b (.node h K)).root :: flatF (cloneTree b (.node h K)).children := by
      rw [← flat_cloneTree, flat_eq]
    have hK : (cloneTree b (.node h K)).children = cloneForest (b + 1) K := rfl
    have hR : (cloneTree b (.node h K)).root.numberOfChildren
        = (cloneTree b (.node h K)).children.length := rfl
    have hR1 : (cloneTree b (.node h K)).root.retainCount = 1 := rfl
    have hR2 : (cloneTree b (.node h K)).root.identifier = b := rfl
    rw [hC]
    generalize (cloneTree b (.node h K)).root = c0 at hR hR1 hR2 ⊢
    generalize (cloneTree b (.node h K)).children = CK at hK hR ⊢
    have hCK := hK.symm
    have hn0 := hR
    have hr0 := hR1
    have hi0 := hR2
    have g1 : N ++ c0 :: flatF CK = N ++ c0 :: (flatF CK ++ []) := by simp
    have s1 : nodeAt (N ++ c0 :: flatF CK) N.length = .ok c0 := nodeAt_mid g1 rfl
    have s2 : deepSize (N ++ c0 :: flatF CK) N.length c0.numberOfChildren
        = .ok ((flatF CK).length + 1) := deepSize_mid g1 rfl hn0
    have s3 : (N ++ c0 :: flatF CK).take N.length = N := take_app _ _
    have s4 : ((N ++ c0 :: flatF CK).drop N.length).take ((flatF CK).length + 1)
        = c0 :: flatF CK := by
      rw [drop_app]
      simp
    have s5 : (N ++ c0 :: flatF CK).drop (N.length + ((flatF CK).length + 1)) = [] := by
      simp
    have s6 : resetCounters (c0 :: flatF CK) = c0.setReferenceCounter 0 :: flatF CK := by
      simp only [resetCounters, ← hCK, flat_cloneForest, cloneSpan_counters]
    have g2 : N ++ (c0.setReferenceCounter 0 :: flatF CK ++ [])
        = N ++ c0.setReferenceCounter 0 :: (flatF CK ++ []) := by simp
    have s7 : nodeAt (N ++ (c0.setReferenceCounter 0 :: flatF CK ++ [])) N.length
        = .ok (c0.setReferenceCounter 0) := nodeAt_mid g2 rfl
    have s8 : modifyAt (N ++ (c0.setReferenceCounter 0 :: flatF CK ++ [])) N.length
        TreeNode.retain = .ok (N ++ (c0.setReferenceCounter 0).retain :: (flatF CK ++ [])) :=
      modifyAt_mid _ g2 rfl
    have s9 : (c0.setReferenceCounter 0).retain = c0 := by
      cases c0
      simp only [TreeNode.setReferenceCounter, TreeNode.retain] at hr0 ⊢
      simp [hr0]
    have s10 : (c0.setReferenceCounter 0).identifier = b := hi0
    simp only [deepResetReferenceCounter, s1, s2, s3, s4, s5, s6, ok_bind, pure_eq_ok, ofNode,
      s7, s8, s9, s10]
    simp

theorem treeClone_closed (L R : List TreeNode) (h : TreeNode) (K : List Tree) (v : Nat)
    (hd : h.identifier ≠ NoNodeIdentifier) (hl : h.isAllocationFailure = false)
    (hL : h.identifier ∉ ids L) :
    treeClone ⟨h.identifier⟩ ⟨L ++ (flat (.node h K) ++ R), v⟩
      = .ok (⟨freshIdentifier (L ++ (flat (.node h K) ++ R))⟩,
          ⟨(L ++ (flat (.node h K) ++ R))
            ++ cloneSpan (freshIdentifier (L ++ (flat (.node h K) ++ R))) (flat (.node h K)),
            v⟩) := by
  set N := L ++ (flat (.node h K) ++ R) with hN
  have e1 : N = L ++ (Tree.node h K).root :: (flatF K ++ R) := by simp [hN, Tree.root]
  have s1 := isDefined_of_ne hd
  have s2 : (⟨h.identifier⟩ : TreeReference).node N = .ok L.length := node_mid _ e1 rfl hd hL
  have s3 : nodeAt N L.length = .ok (Tree.node h K).root := nodeAt_mid e1 rfl
  have s3' : (Tree.node h K).root.isAllocationFailure = false := hl
  have s4 := deepCopy_flat L R (.node h K)
  rw [← hN] at s4
  have s5 := deepReset_clone N (.node h K) (freshIdentifier N)
  unfold treeClone
  simp only [s1, s2, s3, s3', s4, ok_bind, pure_eq_ok, Bool.not_true, Bool.false_eq_true,
    if_false]
  cases hr : deepResetReferenceCounter (N ++ cloneSpan (freshIdentifier N)
      (flat (.node h K))) N.length with
  | error e =>
    rw [hr] at s5
    cases s5
  | ok nodes =>
    rw [hr] at s5
    simp only [ok_bind] at s5 ⊢
    simp only [s5, ok_bind]

theorem destruct_clone (N : List TreeNode) (t : Tree) (fuel v : Nat)
    (hf : height t ≤ fuel) :
    destruct fuel ⟨freshIdentifier N⟩ ⟨N ++ cloneSpan (freshIdentifier N) (flat t), v⟩
      = .ok ⟨N, v⟩ := by
  have hfd : freshIdentifier N ≠ NoNodeIdentifier := by
    have := freshIdentifier_nonneg N
    simp only [NoNodeIdentifier]
    omega
  cases t with
  | node h K =>
    set b := freshIdentifier N with hb
    set CT := cloneTree b (.node h K) with hCT
    have hC : cloneSpan b (flat (.node h K)) = flat CT := (flat_cloneTree _ _).symm
    have g1 : N ++ cloneSpan b (flat (.node h K)) = N ++ CT.root :: (flatF CT.children ++ []) := by
      rw [hC]
      simp [hCT, cloneTree, Tree.root, Tree.children]
    have g2 : N ++ cloneSpan b (flat (.node h K)) = N ++ (flat CT ++ []) := by
      rw [hC]
      simp
    have hid : CT.root.identifier = b := by simp [hCT, cloneTree, Tree.root]
    have hrc : CT.root.retainCount - 1 = 0 := by simp [hCT, cloneTree, Tree.root]
    have s1 := isDefined_of_ne hfd
    have s2 : (⟨b⟩ : TreeReference).node (N ++ cloneSpan b (flat (.node h K))) = .ok N.length :=
      node_mid _ g1 hid.symm (by rw [hid]; exact hfd)
        (by rw [hid]; exact freshIdentifier_not_mem N)
    have s3 : nodeAt (N ++ cloneSpan b (flat (.node h K))) N.length = .ok CT.root :=
      nodeAt_mid g1 rfl
    have s4 := release_flat' CT N [] fuel (by rw [hCT, height_cloneTree]; exact hf) g2 rfl
    have s5 : releasedF CT.children = [] := by
      simp [hCT, cloneTree, Tree.children, releasedF_cloneForest]
    simp only [destruct, s1, s2, s3, hid, s4, hrc, s5, ok_bind, pure_eq_ok, if_true]
    simp

theorem nodeForIdentifier_some (l : List TreeNode) :
    ∀ (i : Int) (a : Nat), nodeForIdentifier l i = some a →
      ∃ x, l[a]? = some x ∧ x.identifier = i := by
  induction l with
  | nil => intro i a h; simp [nodeForIdentifier] at h
  | cons y l ih =>
    intro i a h
    simp only [nodeForIdentifier] at h
    by_cases hy : y.identifier = i
    · simp only [hy, if_true, Option.some.injEq] at h
      subst h
      exact ⟨y, by simp, hy⟩
    · simp only [hy, if_false] at h
      cases hr : nodeForIdentifier l i with
      | none => simp [hr] at h
      | some b =>
        simp only [hr, Option.some.injEq] at h
        subst h
        obtain ⟨x, hx, hxi⟩ := ih i b hr
        exact ⟨x, by simpa using hx, hxi⟩

theorem node_some {r : TreeReference} {nodes : List TreeNode} {a : Nat}
    (h : r.node nodes = .ok a) :
    r.isDefined = true ∧ nodeForIdentifier nodes r.m_identifier = some a
      ∧ ∃ x, nodes[a]? = some x ∧ x.identifier = r.m_identifier := by
  unfold node at h
  cases hd : r.isDefined with
  | false => simp [hd] at h
  | true =>
    simp only [hd, if_true] at h
    cases hr : nodeForIdentifier nodes r.m_identifier with
    | none => simp [hr] at h
    | some b =>
      simp only [hr, Except.ok.injEq] at h
      subst h
      exact ⟨rfl, rfl, nodeForIdentifier_some nodes _ _ hr⟩

theorem treeClone_undefined (self : TreeReference) (pool : TreePool)
    (h : self.isDefined = false) : treeClone self pool = .ok (⟨NoNodeIdentifier⟩, pool) := by
  simp [treeClone, h, ofNode]

theorem treeClone_failure (self : TreeReference) (nodes : List TreeNode) (v : Nat)
    (h : self.isAllocationFailure nodes = .ok true) :
    ∃ a x, self.node nodes = .ok a ∧ nodes[a]? = some x ∧ x.isAllocationFailure = true
      ∧ treeClone self ⟨nodes, v⟩ = .ok (self, ⟨nodes.set a x.retain, v⟩) := by
  unfold isAllocationFailure at h
  cases hd : self.isDefined with
  | false => simp [hd] at h
  | true =>
    simp only [hd, if_true] at h
    cases hn : self.node nodes with
    | error e => simp [hn] at h
    | ok a =>
      obtain ⟨_, hlook, x, hx, hxi⟩ := node_some hn
      have hat : nodeAt nodes a = .ok x := by simp [nodeAt, hx]
      simp only [hn, hat, ok_bind, pure_eq_ok, Except.ok.injEq] at h
      refine ⟨a, x, rfl, hx, h, ?_⟩
      have hself : (⟨x.identifier⟩ : TreeReference) = self := by
        cases self
        simp only [TreeReference.mk.injEq]
        exact hxi
      simp only [treeClone, hd, hn, hat, h, TreeNode.allocationFailureNodeIdentifier, hxi, hlook,
        ofNode, modifyAt, hx, ok_bind, pure_eq_ok, Bool.not_true, Bool.false_eq_true, if_false,
        if_true, hself]

theorem setTo_same (fuel : Nat) (self tr : TreeReference) (pool : TreePool)
    (h : self.m_identifier = tr.m_identifier) : setTo fuel self tr pool = .ok (self, pool) := by
  simp [setTo, h]

theorem setTo_steps (fuel : Nat) (self tr : TreeReference) (pool : TreePool)
    (he : self.m_identifier ≠ tr.m_identifier) :
    setTo fuel self tr pool =
      ((if tr.isDefined then tr.node pool.nodes >>= fun b => modifyAt pool.nodes b TreeNode.retain
        else .ok pool.nodes) >>= fun retained =>
      (if self.isDefined then self.node pool.nodes >>= fun a => release fuel retained a
        else .ok retained) >>= fun released =>
      .ok (tr, { pool with nodes := released })) := by
  unfold setTo
  simp only [he, if_false]
  cases hd : tr.isDefined with
  | false =>
    have htr : (⟨NoNodeIdentifier⟩ : TreeReference) = tr := by
      cases tr
      simp only [isDefined, ne_eq, decide_not, Bool.not_eq_false', decide_eq_true_eq] at hd
      simp [hd]
    simp only [Bool.false_eq_true, if_false, pure_eq_ok, ok_bind, htr]
    cases hs : self.isDefined with
    | false => simp
    | true =>
      simp only [if_true, node, hs]
      cases nodeForIdentifier pool.nodes self.m_identifier <;> rfl
  | true =>
    have htr : (⟨tr.m_identifier⟩ : TreeReference) = tr := rfl
    simp only [if_true, setIdentifierAndRetain, htr]
    cases hn : tr.node pool.nodes with
    | error e => rfl
    | ok b =>
      simp only [ok_bind]
      cases hm : modifyAt pool.nodes b TreeNode.retain with
      | error e => rfl
      | ok n1 =>
        simp only [ok_bind, pure_eq_ok]
        cases hs : self.isDefined with
        | false => simp
        | true =>
          simp only [if_true, node, hs]
          cases nodeForIdentifier pool.nodes self.m_identifier <;> rfl

theorem setTo_identifier (fuel : Nat) (self tr : TreeReference) (pool : TreePool)
    (r : TreeReference) (pool' : TreePool) (h : setTo fuel self tr pool = .ok (r, pool')) :
    r.m_identifier = tr.m_identifier := by
  by_cases he : self.m_identifier = tr.m_identifier
  · rw [setTo_same fuel self tr pool he] at h
    simp only [Except.ok.injEq, Prod.mk.injEq] at h
    rw [← h.1, he]
  · rw [setTo_steps fuel self tr pool he] at h
    cases h1 : (if tr.isDefined then
          tr.node pool.nodes >>= fun b => modifyAt pool.nodes b TreeNode.retain
        else .ok pool.nodes) with
    | error e =>
      rw [h1] at h
      cases h
    | ok retained =>
      rw [h1] at h
      simp only [ok_bind] at h
      cases h2 : (if self.isDefined then
            self.node pool.nodes >>= fun a => release fuel retained a
          else .ok retained) with
      | error e =>
        rw [h2] at h
        cases h
      | ok released =>
        rw [h2] at h
        simp only [ok_bind, pure_eq_ok, Except.ok.injEq, Prod.mk.injEq] at h
        rw [← h.1]

theorem setTo_counts (fuel : Nat) (self tr : TreeReference) (nodes : List TreeNode) (v : Nat)
    (a b : Nat) (x y : TreeNode)
    (he : self.m_identifier ≠ tr.m_identifier)
    (ha : self.node nodes = .ok a) (hb : tr.node nodes = .ok b)
    (hx : nodes[a]? = some x) (hy : nodes[b]? = some y) (hrc : x.retainCount ≠ 1) :
    setTo (fuel + 1) self tr ⟨nodes, v⟩
      = .ok (tr, ⟨(nodes.set b y.retain).set a { x with retainCount := x.retainCount - 1 },
          v⟩) := by
  obtain ⟨hsd, _, x', hx', hxi⟩ := node_some ha
  obtain ⟨htd, _, y', hy', hyi⟩ := node_some hb
  have ex : x' = x := by rw [hx] at hx'; injection hx' with h; exact h.symm
  have ey : y' = y := by rw [hy] at hy'; injection hy' with h; exact h.symm
  subst ex ey
  have hab : a ≠ b := by
    intro hab
    subst hab
    rw [hx] at hy
    injection hy with h
    subst h
    exact he (hxi.symm.trans hyi)
  have s1 : modifyAt nodes b TreeNode.retain = .ok (nodes.set b y'.retain) := by
    simp [modifyAt, hy]
  have s2 : (nodes.set b y'.retain)[a]? = some x' := by
    rw [List.getElem?_set_ne (Ne.symm hab)]
    exact hx
  have s3 : release (fuel + 1) (nodes.set b y'.retain) a
      = .ok ((nodes.set b y'.retain).set a { x' with retainCount := x'.retainCount - 1 }) := by
    have : x'.retainCount - 1 ≠ 0 := by omega
    simp [release, nodeAt, modifyAt, s2, this]
  rw [setTo_steps (fuel + 1) self tr ⟨nodes, v⟩ he]
  simp only [hsd, htd, ha, hb, s1, s3, ok_bind, pure_eq_ok, if_true]

theorem clone_node (N : List TreeNode) (t : Tree) :
    (⟨freshIdentifier N⟩ : TreeReference).node (N ++ cloneSpan (freshIdentifier N) (flat t))
      = .ok N.length := by
  have hfd : freshIdentifier N ≠ NoNodeIdentifier := by
    have := freshIdentifier_nonneg N
    simp only [NoNodeIdentifier]
    omega
  have g1 : N ++ cloneSpan (freshIdentifier N) (flat t)
      = N ++ (cloneTree (freshIdentifier N) t).root
        :: (flatF (cloneTree (freshIdentifier N) t).children ++ []) := by
    rw [← flat_cloneTree, flat_eq]
    simp
  have hid : (cloneTree (freshIdentifier N) t).root.identifier = freshIdentifier N := by
    cases t
    rfl
  exact node_mid _ g1 hid.symm (by rw [hid]; exact hfd)
    (by rw [hid]; exact freshIdentifier_not_mem N)

theorem spanLength_counts (l1 : List TreeNode) :
    ∀ (l2 : List TreeNode) (k : Nat),
      l1.map (fun x => x.numberOfChildren) = l2.map (fun x => x.numberOfChildren) →
      spanLength l1 k = spanLength l2 k := by
  induction l1 with
  | nil =>
    intro l2 k h
    cases l2 with
    | nil => rfl
    | cons y l2 => simp at h
  | cons x l1 ih =>
    intro l2 k h
    cases l2 with
    | nil => simp at h
    | cons y l2 =>
      simp only [List.map_cons, List.cons.injEq] at h
      cases k with
      | zero => rfl
      | succ k => simp only [spanLength, h.1, ih l2 _ h.2]

theorem release_keep_at (fuel : Nat) (nodes : List TreeNode) (a : Nat) (x : TreeNode)
    (hx : nodes[a]? = some x) (hrc : x.retainCount ≠ 1) :
    release (fuel + 1) nodes a
      = .ok (nodes.set a { x with retainCount := x.retainCount - 1 }) := by
  have : x.retainCount - 1 ≠ 0 := by omega
  simp [release, nodeAt, modifyAt, hx, this]

theorem spanLength_good (S : List TreeNode) :
    ∀ (R : List TreeNode) (k : Nat), goodWith 0 S → bal S = (k : Int) →
      spanLength (S ++ R) k = some S.length := by
  induction S with
  | nil =>
    intro R k _ hb
    simp only [bal_nil] at hb
    have : k = 0 := by omega
    subst this
    cases R <;> simp [spanLength]
  | cons x S ih =>
    intro R k hg hb
    rw [goodWith_cons] at hg
    simp only [bal_cons] at hb
    have h1 := hg.1
    simp only [bal_cons] at h1
    obtain ⟨k', rfl⟩ : ∃ k', k = k' + 1 := ⟨k - 1, by omega⟩
    rw [List.cons_append, spanLength_cons, ih R (k' + x.numberOfChildren) hg.2 (by push_cast at hb ⊢; omega)]
    simp

theorem spanLength_split (l : List TreeNode) :
    ∀ (k n : Nat), spanLength l k = some n →
      ∃ S R, l = S ++ R ∧ S.length = n ∧ goodWith 0 S ∧ bal S = (k : Int) := by
  induction l with
  | nil =>
    intro k n h
    cases k with
    | zero => simp [spanLength] at h; subst h; exact ⟨[], [], by simp⟩
    | succ k => simp [spanLength] at h
  | cons x l ih =>
    intro k n h
    cases k with
    | zero =>
      simp [spanLength] at h; subst h
      exact ⟨[], x :: l, by simp⟩
    | succ k =>
      rw [spanLength_cons] at h
      cases hr : spanLength l (k + x.numberOfChildren) with
      | none => simp [hr] at h
      | some m =>
        simp only [hr, Option.map_some', Option.some.injEq] at h
        obtain ⟨S, R, hl, hlen, hg, hb⟩ := ih _ _ hr
        refine ⟨x :: S, R, by simp [hl], by simp [hlen, h], ?_, ?_⟩
        · rw [goodWith_cons]
          refine ⟨?_, hg⟩
          simp only [bal_cons, hb]; push_cast; omega
        · simp only [bal_cons, hb]; push_cast; omega

theorem forest_of_good (S : List TreeNode) :
    ∀ k : Nat, goodWith 0 S → bal S = (k : Int) → ∃ F : List Tree, F.length = k ∧ flatF F = S := by
  induction S with
  | nil =>
    intro k _ hb
    simp only [bal_nil] at hb
    exact ⟨[], by simp; omega, by simp [flatF]⟩
  | cons x S ih =>
    intro k hg hb
    rw [goodWith_cons] at hg
    simp only [bal_cons] at hb
    have h1 := hg.1
    simp only [bal_cons] at h1
    obtain ⟨F, hF, hfl⟩ := ih (k - 1 + x.numberOfChildren) hg.2 (by push_cast; omega)
    refine ⟨.node x (F.take x.numberOfChildren) :: F.drop x.numberOfChildren, ?_, ?_⟩
    · simp only [List.length_cons, List.length_drop, hF]; omega
    · have hlen : (F.take x.numberOfChildren).length = x.numberOfChildren := by
        rw [List.length_take, hF]; omega
      simp only [flatF_cons, flat_node, hlen, List.cons_append]
      rw [← take_drop_flatF, hfl]

/-- In a well-formed arena every record heads the layout of a subtree. -/
theorem tree_at {N : List TreeNode} {a : Nat} {x : TreeNode} (hg : goodWith 0 N)
    (hx : N[a]? = some x) :
    ∃ A F R, N = A ++ (x :: (flatF F ++ R)) ∧ A.length = a ∧ F.length = x.numberOfChildren := by
  have ha : a < N.length := by
    rcases Nat.lt_or_ge a N.length with h | h
    · exact h
    · rw [List.getElem?_eq_none h] at hx; cases hx
  have hsplit : N = N.take a ++ (x :: N.drop (a + 1)) := by
    have h1 : N.drop a = x :: N.drop (a + 1) := by
      rw [List.drop_eq_getElem_cons ha]
      congr 1
      rw [List.getElem?_eq_getElem ha] at hx
      injection hx
    rw [← h1, List.take_append_drop]
  rw [hsplit, goodWith_append, goodWith_cons] at hg
  obtain ⟨_, h1, h2⟩ := hg
  simp only [bal_cons] at h1
  have hs := spanLength_isSome_of_le (N.drop (a + 1)) x.numberOfChildren h2 (by omega)
  obtain ⟨n, hn⟩ := Option.isSome_iff_exists.mp hs
  obtain ⟨S, R, hl, _, hgS, hbS⟩ := spanLength_split _ _ _ hn
  obtain ⟨F, hF, hfl⟩ := forest_of_good S _ hgS hbS
  refine ⟨N.take a, F, R, ?_, ?_, hF⟩
  · rw [hfl, ← hl]; exact hsplit
  · rw [List.length_take]; omega

/-- What the backward scan for the parent finds: the parent record, followed up to the node
by complete subtrees only, fewer than the parent has children. -/
theorem parentScan_some (l : List TreeNode) :
    ∀ (t ga j : Nat), parentScan l t = some (ga, j) →
      ∃ A1 g C, l.reverse = A1 ++ g :: C ∧ A1.length = ga ∧ goodWith (t : Int) C
        ∧ bal C + (t : Int) = (j : Int) ∧ j < g.numberOfChildren := by
  induction l with
  | nil => intro t ga j h; simp [parentScan] at h
  | cons x l ih =>
    intro t ga j h
    simp only [parentScan] at h
    by_cases hx : t < x.numberOfChildren
    · simp only [hx, if_true, Option.some.injEq, Prod.mk.injEq] at h
      obtain ⟨h1, h2⟩ := h
      subst h1 h2
      exact ⟨l.reverse, x, [], by simp, by simp, by simp, by simp, hx⟩
    · simp only [hx, if_false] at h
      obtain ⟨A1, g, C, hl, hlen, hg, hb, hj⟩ := ih _ _ _ h
      refine ⟨A1, g, C ++ [x], by simp [hl], hlen, ?_, ?_, hj⟩
      · rw [goodWith_append]
        refine ⟨?_, ?_⟩
        · refine goodWith_mono ?_ C hg
          simp only [bal_cons, bal_nil]; omega
        · rw [goodWith_cons]
          simp only [bal_cons, bal_nil, goodWith_nil, and_true]
          omega
      · simp only [bal_append, bal_cons, bal_nil]
        omega

/-- The parent of a node of a well-formed arena, as subtrees: the children of the parent that
stand before the node. -/
theorem parent_at {N : List TreeNode} {a ga j : Nat}
    (hscan : parentScan (N.take a).reverse 0 = some (ga, j)) :
    ∃ A1 g G1, N.take a = A1 ++ g :: flatF G1 ∧ A1.length = ga ∧ G1.length = j
      ∧ j < g.numberOfChildren := by
  obtain ⟨A1, g, C, hl, hlen, hg, hb, hj⟩ := parentScan_some _ _ _ _ hscan
  rw [List.reverse_reverse] at hl
  obtain ⟨G1, hG, hfl⟩ := forest_of_good C j hg (by simpa using hb)
  exact ⟨A1, g, G1, by rw [hl, hfl], hlen, hG, hj⟩

theorem height_le_length (t : Tree) : height t ≤ (flat t).length := by
  have key : ∀ n (t : Tree), (flat t).length ≤ n → height t ≤ (flat t).length := by
    intro n
    induction n with
    | zero => intro t h; have := flat_length_pos t; omega
    | succ n ih =>
      intro t h
      match t with
      | .node x ks =>
        simp only [flat_node, List.length_cons, height] at h ⊢
        have : ∀ ks : List Tree, (flatF ks).length ≤ n → heightF ks ≤ (flatF ks).length := by
          intro ks
          induction ks with
          | nil => intro _; simp
          | cons u us ihu =>
            intro hk
            simp only [flatF_cons, List.length_append, heightF_cons] at hk ⊢
            have h1 := ih u (by omega)
            have h2 := ihu (by omega)
            omega
        have := this ks (by omega)
        omega
  exact key _ t (Nat.le_refl _)

/-! ## Records at an address -/

theorem flat_node_eq {x : TreeNode} {F : List Tree} (h : F.length = x.numberOfChildren) :
    flat (.node x F) = x :: flatF F := by
  simp [h]

theorem getElem?_split {N : List TreeNode} {a : Nat} {x : TreeNode} (hx : N[a]? = some x) :
    N = N.take a ++ x :: N.drop (a + 1) ∧ (N.take a).length = a ∧ a < N.length := by
  have ha : a < N.length := by
    rcases Nat.lt_or_ge a N.length with h | h
    · exact h
    · rw [List.getElem?_eq_none h] at hx; cases hx
  refine ⟨?_, by rw [List.length_take]; omega, ha⟩
  have h1 : N.drop a = x :: N.drop (a + 1) := by
    rw [List.drop_eq_getElem_cons ha]
    congr 1
    rw [List.getElem?_eq_getElem ha] at hx
    injection hx
  rw [← h1, List.take_append_drop]

theorem nodeAt_get {N : List TreeNode} {a : Nat} {x : TreeNode} (hx : N[a]? = some x) :
    nodeAt N a = .ok x := by
  simp [nodeAt, hx]

theorem modifyAt_get {N : List TreeNode} {a : Nat} {x : TreeNode} (f : TreeNode → TreeNode)
    (hx : N[a]? = some x) : modifyAt N a f = .ok (N.set a (f x)) := by
  simp [modifyAt, hx]

namespace TreeReference

theorem node_at {N : List TreeNode} {a : Nat} {x : TreeNode} (r : TreeReference)
    (hids : (ids N).Nodup) (hx : N[a]? = some x) (hr : r.m_identifier = x.identifier)
    (hd : x.identifier ≠ NoNodeIdentifier) : r.node N = .ok a := by
  obtain ⟨hs, hl, _⟩ := getElem?_split hx
  have hn := nodup_split (A := N.take a) (x := x) (B := N.drop (a + 1)) (by rw [← hs]; exact hids)
  have := node_mid r hs hr hd hn.1
  rwa [hl] at this

theorem numberOfChildren_at {N : List TreeNode} {a : Nat} {x : TreeNode} (r : TreeReference)
    (hn : r.node N = .ok a) (hx : N[a]? = some x) :
    r.numberOfChildren N = .ok x.numberOfChildren := by
  simp [numberOfChildren, hn, nodeAt, hx]

theorem isAllocationFailure_at {N : List TreeNode} {a : Nat} {x : TreeNode} (r : TreeReference)
    (hn : r.node N = .ok a) (hx : N[a]? = some x) :
    r.isAllocationFailure N = .ok x.isAllocationFailure := by
  have hd := (node_some hn).1
  simp [isAllocationFailure, hd, hn, nodeAt, hx]

end TreeReference

/-! ## Well-formedness, record by record -/

theorem good_iff_drop (l : List TreeNode) (d : Int) :
    goodWith d l ↔ ∀ i, i < l.length → 1 ≤ bal (l.drop i) + d := by
  induction l with
  | nil => simp
  | cons x l ih =>
    rw [goodWith_cons, ih]
    constructor
    · rintro ⟨h1, h2⟩ i hi
      cases i with
      | zero => simpa using h1
      | succ i => simpa using h2 i (by simpa using hi)
    · intro h
      refine ⟨by simpa using h 0 (by simp), fun i hi => ?_⟩
      simpa using h (i + 1) (by simpa using hi)

theorem bal_counts (l1 : List TreeNode) :
    ∀ l2 : List TreeNode,
      l1.map (fun x => x.numberOfChildren) = l2.map (fun x => x.numberOfChildren) →
      bal l1 = bal l2 := by
  induction l1 with
  | nil => intro l2 h; cases l2 with
    | nil => rfl
    | cons y l2 => simp at h
  | cons x l1 ih =>
    intro l2 h
    cases l2 with
    | nil => simp at h
    | cons y l2 =>
      simp only [List.map_cons, List.cons.injEq] at h
      simp only [bal_cons, h.1, ih l2 h.2]

theorem goodWith_counts (l1 : List TreeNode) :
    ∀ (l2 : List TreeNode) (d : Int),
      l1.map (fun x => x.numberOfChildren) = l2.map (fun x => x.numberOfChildren) →
      (goodWith d l1 ↔ goodWith d l2) := by
  induction l1 with
  | nil => intro l2 d h; cases l2 with
    | nil => rfl
    | cons y l2 => simp at h
  | cons x l1 ih =>
    intro l2 d h
    cases l2 with
    | nil => simp at h
    | cons y l2 =>
      have hb := bal_counts _ _ h
      simp only [List.map_cons, List.cons.injEq] at h
      rw [goodWith_cons, goodWith_cons, hb, ih l2 d h.2]

theorem map_set_eq {β : Type} (f : TreeNode → β) :
    ∀ (l : List TreeNode) (a : Nat) (x y : TreeNode), l[a]? = some x → f y = f x →
      (l.set a y).map f = l.map f := by
  intro l
  induction l with
  | nil => intro a x y h; simp at h
  | cons z l ih =>
    intro a x y h hf
    cases a with
    | zero =>
      simp only [List.getElem?_cons_zero, Option.some.injEq] at h
      subst h
      simp [hf]
    | succ a =>
      simp only [List.getElem?_cons_succ] at h
      simp [ih a x y h hf]

theorem good_set_same {l : List TreeNode} {a : Nat} {x y : TreeNode} (d : Int)
    (hx : l[a]? = some x) (hc : y.numberOfChildren = x.numberOfChildren) :
    goodWith d (l.set a y) ↔ goodWith d l :=
  goodWith_counts _ _ d (map_set_eq (fun z => z.numberOfChildren) l a x y hx hc)

theorem ids_set_same {l : List TreeNode} {a : Nat} {x y : TreeNode}
    (hx : l[a]? = some x) (hc : y.identifier = x.identifier) :
    ids (l.set a y) = ids l :=
  map_set_eq (fun z => z.identifier) l a x y hx hc

/-! ## Moving a run of records keeps the records -/

theorem moveNodes_perm (l : List TreeNode) (dst src len : Nat) :
    (moveNodes l dst src len).Perm l := by
  unfold moveNodes
  split
  · rename_i h
    have e : l = l.take dst ++ ((l.drop dst).take (src - dst)
        ++ ((l.drop src).take len ++ l.drop (src + len))) := by
      have h1 : l.drop dst = (l.drop dst).take (src - dst) ++ (l.drop dst).drop (src - dst) :=
        (List.take_append_drop _ _).symm
      have h2 : (l.drop dst).drop (src - dst) = l.drop src := by
        rw [List.drop_drop, show dst + (src - dst) = src by omega]
      have h3 : l.drop src = (l.drop src).take len ++ (l.drop src).drop len :=
        (List.take_append_drop _ _).symm
      have h4 : (l.drop src).drop len = l.drop (src + len) := by
        rw [List.drop_drop]
      rw [h4] at h3
      rw [h2] at h1
      conv_lhs => rw [← List.take_append_drop dst l, h1, h3]
    conv_rhs => rw [e]
    simp only [List.append_assoc]
    refine List.Perm.append_left _ ?_
    rw [← List.append_assoc, ← List.append_assoc]
    exact List.Perm.append_right _ List.perm_append_comm
  · split
    · rename_i h1 h
      have e : l = l.take src ++ ((l.drop src).take len
          ++ ((l.drop (src + len)).take (dst - (src + len)) ++ l.drop dst)) := by
        have h3 : l.drop src = (l.drop src).take len ++ l.drop (src + len) := by
          have := (List.take_append_drop len (l.drop src)).symm
          rwa [List.drop_drop] at this
        have h5 : l.drop (src + len) = (l.drop (src + len)).take (dst - (src + len))
            ++ l.drop dst := by
          have := (List.take_append_drop (dst - (src + len)) (l.drop (src + len))).symm
          rw [List.drop_drop] at this
          rwa [show src + len + (dst - (src + len)) = dst by omega] at this
        conv_lhs => rw [← List.take_append_drop src l, h3, h5]
      conv_rhs => rw [e]
      simp only [List.append_assoc]
      refine List.Perm.append_left _ ?_
      rw [← List.append_assoc, ← List.append_assoc]
      exact List.Perm.append_right _ List.perm_append_comm
    · exact List.Perm.refl _

theorem ids_moveNodes_nodup {l : List TreeNode} (dst src len : Nat) (h : (ids l).Nodup) :
    (ids (moveNodes l dst src len)).Nodup :=
  ((moveNodes_perm l dst src len).map _).nodup_iff.mpr h

theorem mem_moveNodes {l : List TreeNode} (dst src len : Nat) (x : TreeNode) :
    x ∈ moveNodes l dst src len ↔ x ∈ l :=
  (moveNodes_perm l dst src len).mem_iff

/-! ## Detaching a subtree -/

/-- `removeTreeChild` on a node stored after the receiver: the subtree goes to the tail of
the arena and is released there, and the receiver counts one child less. -/
theorem removeTreeChild_closed (M1 M2 M3 : List TreeNode) (x y : TreeNode) (Ft : List Tree)
    (fuel v : Nat) (hFt : Ft.length = y.numberOfChildren)
    (hids : (ids (M1 ++ x :: (M2 ++ (y :: (flatF Ft ++ M3))))).Nodup)
    (hxd : x.identifier ≠ NoNodeIdentifier) (hyd : y.identifier ≠ NoNodeIdentifier)
    (hf : height (.node y Ft) ≤ fuel) :
    removeTreeChild fuel ⟨x.identifier⟩ ⟨y.identifier⟩
        ⟨M1 ++ x :: (M2 ++ (y :: (flatF Ft ++ M3))), v⟩ =
      .ok ⟨M1 ++ x.decrementNumberOfChildren 1 :: (M2 ++ (M3 ++ released (.node y Ft))), v⟩ := by
  set nodes := M1 ++ x :: (M2 ++ (y :: (flatF Ft ++ M3))) with hnodes
  have e2 : nodes = (M1 ++ x :: M2) ++ y :: (flatF Ft ++ M3) := by simp [hnodes]
  have hP := nodup_split (A := M1) (x := x) (B := M2 ++ (y :: (flatF Ft ++ M3))) hids
  have hC := nodup_split (A := M1 ++ x :: M2) (x := y) (B := flatF Ft ++ M3)
    (by rw [← e2]; exact hids)
  have s1 : (⟨x.identifier⟩ : TreeReference).isDefined = true := by simp [isDefined, hxd]
  have s2 : (⟨y.identifier⟩ : TreeReference).node nodes = .ok (M1 ++ x :: M2).length :=
    node_mid _ e2 rfl hyd hC.1
  have s3 : (⟨y.identifier⟩ : TreeReference).numberOfChildren nodes = .ok Ft.length := by
    rw [numberOfChildren_mid _ e2 rfl hyd hC.1, hFt]
  have s4 : move nodes (last nodes) (M1 ++ x :: M2).length Ft.length
      = .ok ((M1 ++ x :: M2) ++ (M3 ++ flat (.node y Ft))) :=
    move_mid_to_last (t := .node y Ft) (by rw [flat_node_eq hFt, e2]; simp) rfl
      (by simp [Tree.children])
  have f2 : (M1 ++ x :: M2) ++ (M3 ++ flat (.node y Ft))
      = (M1 ++ x :: (M2 ++ M3)) ++ y :: (flatF Ft ++ []) := by
    rw [flat_node_eq hFt]; simp
  have hy2 : y.identifier ∉ ids (M1 ++ x :: (M2 ++ M3)) := by
    have h1 := hC.1
    have h2 := hC.2
    simp [ids] at h1 h2 ⊢
    tauto
  have s5 : (⟨y.identifier⟩ : TreeReference).node ((M1 ++ x :: M2) ++ (M3 ++ flat (.node y Ft)))
      = .ok (M1 ++ x :: (M2 ++ M3)).length :=
    node_mid _ f2 rfl hyd hy2
  have s6 : release fuel ((M1 ++ x :: M2) ++ (M3 ++ flat (.node y Ft)))
      (M1 ++ x :: (M2 ++ M3)).length
      = .ok (M1 ++ x :: (M2 ++ (M3 ++ released (.node y Ft)))) := by
    rw [release_flat' (.node y Ft) (M1 ++ x :: (M2 ++ M3)) [] fuel hf (by simp) rfl]
    simp only [released_node, Tree.root, Tree.children]
    split <;> simp
  have s7 : (⟨x.identifier⟩ : TreeReference).node
      (M1 ++ x :: (M2 ++ (M3 ++ released (.node y Ft)))) = .ok M1.length :=
    node_mid _ rfl rfl hxd hP.1
  have s8 := modifyAt_mid (N := M1 ++ x :: (M2 ++ (M3 ++ released (.node y Ft))))
    (fun z => z.decrementNumberOfChildren 1) rfl rfl
  unfold removeTreeChild
  simp only [s1, s2, s3, s4, s5, s6, s7, s8, if_true, ok_bind, pure_eq_ok]

/-! ## Walking over siblings -/

theorem siblingLoop_total {N : List TreeNode} {a : Nat} (i : Nat) (ha : a ≤ N.length)
    (hg : goodWith 0 (N.drop a)) (hi : (i : Int) ≤ bal (N.drop a)) :
    ∃ n, siblingLoop N i a = .ok (a + n) ∧ a + n ≤ N.length
      ∧ bal ((N.drop a).take n) = (i : Int) ∧ goodWith 0 ((N.drop a).take n) := by
  have hs := spanLength_isSome_of_le (N.drop a) i hg hi
  obtain ⟨n, hn⟩ := Option.isSome_iff_exists.mp hs
  obtain ⟨S, R, hl, hlen, hgS, hbS⟩ := spanLength_split _ _ _ hn
  obtain ⟨F, hF, hfl⟩ := forest_of_good S i hgS hbS
  have hN : N = N.take a ++ (flatF F ++ R) := by
    rw [hfl, ← hl, List.take_append_drop]
  have hta : (N.take a).length = a := by rw [List.length_take]; omega
  have h1 := siblingLoop_mid (N := N) (A := N.take a) (F := F) (B := R) i (a := a) hN hta.symm
    (by omega)
  have hSn : (N.drop a).take n = S := by
    rw [hl, ← hlen]; exact take_app S R
  refine ⟨n, ?_, ?_, by rw [hSn]; exact hbS, by rw [hSn]; exact hgS⟩
  · rw [h1, ← hF, List.take_length, hfl, hlen]
  · have : (N.drop a).length = S.length + R.length := by rw [hl]; simp
    rw [List.length_drop] at this
    omega

/-! ## Inserting a run of records -/

theorem insertSpan_get_lt {X S : List TreeNode} {q i : Nat} (hi : i < q) (hq : q ≤ X.length) :
    (insertSpan X q S)[i]? = X[i]? := by
  unfold insertSpan
  rw [List.getElem?_append_left (by rw [List.length_take]; omega), List.getElem?_take_of_lt hi]

theorem insertSpan_get_mid {X S : List TreeNode} {q j : Nat} (hq : q ≤ X.length)
    (hj : j < S.length) : (insertSpan X q S)[q + j]? = S[j]? := by
  unfold insertSpan
  have hl : (X.take q).length = q := by rw [List.length_take]; omega
  rw [List.getElem?_append_right (by omega), hl, List.getElem?_append_left (by omega)]
  congr 1; omega

theorem insertSpan_get_ge {X S : List TreeNode} {q i : Nat} (hi : q ≤ i) (hq : q ≤ X.length) :
    (insertSpan X q S)[i + S.length]? = X[i]? := by
  unfold insertSpan
  have hl : (X.take q).length = q := by rw [List.length_take]; omega
  rw [List.getElem?_append_right (by omega), hl, List.getElem?_append_right (by omega),
    List.getElem?_drop]
  congr 1; omega

theorem insertSpan_perm (X S : List TreeNode) (q : Nat) : (insertSpan X q S).Perm (X ++ S) := by
  unfold insertSpan
  conv_rhs => rw [← List.take_append_drop q X]
  rw [List.append_assoc]
  exact List.Perm.append_left _ List.perm_append_comm

theorem moveNodes_from_tail (X S : List TreeNode) (d : Nat) :
    moveNodes (X ++ S) d X.length S.length = insertSpan X (min d X.length) S := by
  by_cases h : d ≤ X.length
  · rw [Nat.min_eq_left h]
    have e : X ++ S = X.take d ++ (X.drop d ++ (S ++ [])) := by
      rw [← List.append_assoc, List.take_append_drop]; simp
    have := moveNodes_left (X.take d) (X.drop d) S [] (d := d) (s := X.length) (l := S.length)
      (by rw [List.length_take]; omega) (by simp; omega) rfl
    rw [← e] at this
    rw [this]; simp [insertSpan]
  · rw [Nat.min_eq_right (by omega)]
    have hi : insertSpan X X.length S = X ++ S := by simp [insertSpan]
    rw [hi]
    unfold moveNodes
    rw [if_neg h]
    split
    · rename_i h2
      have h3 : (X ++ S).drop (X.length + S.length) = [] :=
        List.drop_eq_nil_of_le (by simp)
      have h4 : (X ++ S).drop d = [] := List.drop_eq_nil_of_le (by simp; omega)
      rw [h3, h4, take_app, drop_app]
      simp
    · rfl

/-! ## Well-formedness under the edits -/

theorem good_insert_inc {X S : List TreeNode} {pa q k : Nat} {x x2 : TreeNode}
    (hX : goodWith 0 X) (hx : X[pa]? = some x) (hq : pa < q)
    (hS : goodWith 0 S) (hb : bal S = (k : Int))
    (hc : x2.numberOfChildren = x.numberOfChildren + k) :
    goodWith 0 ((insertSpan X q S).set pa x2) := by
  obtain ⟨hs, hl, hlt⟩ := getElem?_split hx
  set X1 := X.take pa with hX1
  set X2 := X.drop (pa + 1) with hX2
  obtain ⟨j, hj⟩ : ∃ j, q = (X1 ++ [x]).length + j := ⟨q - (pa + 1), by simp [hl]; omega⟩
  have e : insertSpan X q S = X1 ++ ([x] ++ (X2.take j ++ (S ++ X2.drop j))) := by
    rw [hj]
    conv_lhs => rw [hs]
    exact insertSpan_after (L := X1) (X := [x]) (R := X2) S j
  have e2 : (insertSpan X q S).set pa x2 = X1 ++ x2 :: (X2.take j ++ (S ++ X2.drop j)) := by
    rw [e, ← hl]; simp
  rw [e2]
  rw [hs, goodWith_append, goodWith_cons] at hX
  obtain ⟨h1, h2, h3⟩ := hX
  have h3' : goodWith 0 (X2.take j ++ X2.drop j) := by rwa [List.take_append_drop]
  have hbX : bal (X2.take j) + bal (X2.drop j) = bal X2 := by
    rw [← bal_append, List.take_append_drop]
  rw [goodWith_append] at h3'
  simp only [bal_cons] at h1 h2
  rw [goodWith_append, goodWith_cons, goodWith_append, goodWith_append]
  simp only [bal_cons, bal_append, hc, hb]
  have hd := bal_nonneg_of_good h3'.2
  refine ⟨?_, ?_, ?_, ?_, h3'.2⟩
  · refine goodWith_mono ?_ _ h1; push_cast; omega
  · push_cast; omega
  · exact goodWith_mono (by omega) _ h3'.1
  · exact goodWith_mono (by omega) _ hS

theorem good_insert {X S : List TreeNode} (q : Nat) (hX : goodWith 0 X) (hS : goodWith 0 S)
    (hb : 0 ≤ bal S) : goodWith 0 (insertSpan X q S) := by
  unfold insertSpan
  have h3 : goodWith 0 (X.take q ++ X.drop q) := by rwa [List.take_append_drop]
  rw [goodWith_append] at h3
  rw [goodWith_append, goodWith_append]
  simp only [bal_append]
  have hd := bal_nonneg_of_good h3.2
  exact ⟨goodWith_mono (by omega) _ h3.1, goodWith_mono (by omega) _ hS, h3.2⟩

theorem good_detach {A1 C S D : List TreeNode} {g g2 : TreeNode}
    (h : goodWith 0 (A1 ++ g :: (C ++ (S ++ D)))) (hC : goodWith 0 C) (hS : bal S = 1)
    (hg : g2.numberOfChildren + 1 = g.numberOfChildren) :
    goodWith 0 (A1 ++ g2 :: (C ++ D)) := by
  rw [goodWith_append, goodWith_cons, goodWith_append, goodWith_append] at h
  obtain ⟨h1, h2, _, _, h5⟩ := h
  simp only [bal_cons, bal_append, hS] at h1 h2
  rw [goodWith_append, goodWith_cons, goodWith_append]
  simp only [bal_cons, bal_append]
  have hd := bal_nonneg_of_good h5
  refine ⟨?_, ?_, ?_, h5⟩
  · refine goodWith_mono ?_ _ h1; rw [← hg]; push_cast; omega
  · rw [← hg] at h2; push_cast at h2; omega
  · exact goodWith_mono (by omega) _ hC

theorem good_decrement {A1 B : List TreeNode} {g g2 : TreeNode}
    (h : goodWith 0 (A1 ++ g :: B)) (hg : g2.numberOfChildren ≤ g.numberOfChildren) :
    goodWith 0 (A1 ++ g2 :: B) := by
  rw [goodWith_append, goodWith_cons] at h ⊢
  obtain ⟨h1, h2, h3⟩ := h
  simp only [bal_cons] at h1 h2 ⊢
  exact ⟨goodWith_mono (by omega) _ h1, by omega, h3⟩

/-- Where a record stored outside of a run `S` stands once the run is taken out and one record
before the run is rewritten. -/
theorem locate_detached (A1 C S D : List TreeNode) (g g2 x : TreeNode) (pa : Nat)
    (hx : (A1 ++ g :: (C ++ (S ++ D)))[pa]? = some x)
    (hnot : pa < (A1 ++ g :: C).length ∨ (A1 ++ g :: C).length + S.length ≤ pa) :
    ∃ pa' x', (A1 ++ g2 :: (C ++ D))[pa']? = some x'
      ∧ ((pa' = A1.length ∧ x = g ∧ x' = g2) ∨ (pa' ≠ A1.length ∧ x' = x))
      ∧ (pa' = pa ∨ (pa' + S.length = pa ∧ (A1 ++ g :: C).length ≤ pa')) := by
  rcases hnot with h | h
  · rcases Nat.lt_trichotomy pa A1.length with h1 | h1 | h1
    · refine ⟨pa, x, ?_, Or.inr ⟨by omega, rfl⟩, Or.inl rfl⟩
      rw [List.getElem?_append_left h1] at hx ⊢
      exact hx
    · subst h1
      have hx2 := getElem?_mid (N := A1 ++ g :: (C ++ (S ++ D))) (x := g) rfl rfl
      rw [hx2] at hx
      injection hx with hx
      exact ⟨A1.length, g2, getElem?_mid rfl rfl, Or.inl ⟨rfl, hx.symm, rfl⟩, Or.inl rfl⟩
    · refine ⟨pa, x, ?_, Or.inr ⟨by omega, rfl⟩, Or.inl rfl⟩
      simp only [List.length_append, List.length_cons] at h
      rw [List.getElem?_append_right (by omega)] at hx ⊢
      obtain ⟨k, hk⟩ : ∃ k, pa - A1.length = k + 1 := ⟨pa - A1.length - 1, by omega⟩
      rw [hk, List.getElem?_cons_succ] at hx ⊢
      rw [List.getElem?_append_left (by omega)] at hx ⊢
      exact hx
  · simp only [List.length_append, List.length_cons] at h
    refine ⟨pa - S.length, x, ?_, Or.inr ⟨by omega, rfl⟩,
      Or.inr ⟨by omega, by simp only [List.length_append, List.length_cons]; omega⟩⟩
    rw [List.getElem?_append_right (by omega)] at hx ⊢
    obtain ⟨k, hk⟩ : ∃ k, pa - A1.length = k + 1 := ⟨pa - A1.length - 1, by omega⟩
    obtain ⟨k', hk'⟩ : ∃ k', pa - S.length - A1.length = k' + 1 :=
      ⟨pa - S.length - A1.length - 1, by omega⟩
    rw [hk, List.getElem?_cons_succ] at hx
    rw [hk', List.getElem?_cons_succ]
    rw [List.getElem?_append_right (by omega), List.getElem?_append_right (by omega)] at hx
    rw [List.getElem?_append_right (by omega), ← hx]
    congr 1; omega

/-- `addChildTreeAtIndex` with a child that has a parent: the child is detached, put among
the children of the receiver, and the arena stays well-formed. -/
theorem add_with_parent (A1 D : List TreeNode) (g y : TreeNode) (G1 Ft : List Tree)
    (P : TreeReference) (pa : Nat) (x : TreeNode) (index fuel v : Nat)
    (hFt : Ft.length = y.numberOfChildren) (hj : G1.length < g.numberOfChildren)
    (hgood : goodWith 0 (A1 ++ g :: (flatF G1 ++ (y :: (flatF Ft ++ D)))))
    (hids : (ids (A1 ++ g :: (flatF G1 ++ (y :: (flatF Ft ++ D))))).Nodup)
    (hgd : g.identifier ≠ NoNodeIdentifier) (hgl : g.isAllocationFailure = false)
    (hg0 : g.retainCount ≠ 0)
    (hyd : y.identifier ≠ NoNodeIdentifier) (hyl : y.isAllocationFailure = false)
    (hy0 : y.retainCount ≠ 0)
    (hP : P.node (A1 ++ g :: (flatF G1 ++ (y :: (flatF Ft ++ D)))) = .ok pa)
    (hx : (A1 ++ g :: (flatF G1 ++ (y :: (flatF Ft ++ D))))[pa]? = some x)
    (hxl : x.isAllocationFailure = false)
    (hnot : pa < (A1 ++ g :: flatF G1).length
      ∨ (A1 ++ g :: flatF G1).length + (y :: flatF Ft).length ≤ pa)
    (hi : index ≤ x.numberOfChildren) (hf : height (.node y Ft) ≤ fuel) :
    ∃ pool, addChildTreeAtIndex (fuel + 1) P ⟨y.identifier⟩ index x.numberOfChildren
        ⟨A1 ++ g :: (flatF G1 ++ (y :: (flatF Ft ++ D))), v⟩ = .ok pool
      ∧ goodWith 0 pool.nodes := by
  set U := A1 ++ g :: flatF G1 with hU
  set S := y :: flatF Ft with hS
  set N := A1 ++ g :: (flatF G1 ++ (y :: (flatF Ft ++ D))) with hN
  have e2 : N = U ++ y :: (flatF Ft ++ D) := by simp [hN, hU]
  have e3 : N = A1 ++ g :: (flatF G1 ++ (S ++ D)) := by simp [hN, hS]
  have hC := nodup_split (A := U) (x := y) (B := flatF Ft ++ D) (by rw [← e2]; exact hids)
  obtain ⟨hPd, _, x0, hx0, hx0id⟩ := node_some hP
  rw [hx] at hx0
  injection hx0 with hx0
  subst hx0
  have hPid : P.m_identifier ≠ NoNodeIdentifier := by
    simpa [isDefined] using hPd
  have hxd : x.identifier ≠ NoNodeIdentifier := by rw [hx0id]; exact hPid
  have hfuel : ∃ f, fuel = f + 1 := by
    refine ⟨fuel - 1, ?_⟩
    simp only [height] at hf
    omega
  obtain ⟨f, hfe⟩ := hfuel
  have hbS : bal S = 1 := by
    have := bal_flat (.node y Ft)
    rwa [flat_node_eq hFt] at this
  have hgS : goodWith 0 S := by
    have := goodWith_flat (.node y Ft) 0 (le_refl _)
    rwa [flat_node_eq hFt] at this
  -- the guards
  have s2 : nodeAt N pa = .ok x := nodeAt_get hx
  have s3 : (⟨y.identifier⟩ : TreeReference).isAllocationFailure N = .ok false := by
    rw [isAllocationFailure_mid _ e2 rfl hyd hC.1, hyl]
  have hix : (0 : Int) ≤ (index : Int) ∧ (index : Int) ≤ (x.numberOfChildren : Int) := by
    constructor <;> omega
  -- retain the child
  have s4 : (⟨y.identifier⟩ : TreeReference).node N = .ok U.length := node_mid _ e2 rfl hyd hC.1
  set Na := U ++ y.retain :: (flatF Ft ++ D) with hNa
  have s5 : modifyAt N U.length TreeNode.retain = .ok Na := modifyAt_mid _ e2 rfl
  -- the handle on the parent
  have s6 : (⟨y.identifier⟩ : TreeReference).node Na = .ok U.length :=
    node_mid _ hNa rfl hyd hC.1
  have s7 : parentTree Na U.length = some A1.length := by
    unfold parentTree
    rw [hNa, take_app, hU, parentScan_child A1 g G1 hj]
    rfl
  have ea : Na = A1 ++ g :: (flatF G1 ++ (y.retain :: (flatF Ft ++ D))) := by simp [hNa, hU]
  have s8 : nodeAt Na A1.length = .ok g := nodeAt_mid ea rfl
  set Nb := A1 ++ g.retain :: (flatF G1 ++ (y.retain :: (flatF Ft ++ D))) with hNb
  have s9 : modifyAt Na A1.length TreeNode.retain = .ok Nb := modifyAt_mid _ ea rfl
  have s10 : (⟨g.identifier⟩ : TreeReference).isDefined = true := by simp [isDefined, hgd]
  -- detach
  have hidsb : (ids Nb).Nodup := by
    have : ids Nb = ids N := by simp [hNb, hN, ids, TreeNode.retain]
    rw [this]; exact hids
  have hfy : height (.node y.retain Ft) ≤ fuel := by simpa [height] using hf
  set g2 : TreeNode := g.retain.decrementNumberOfChildren 1 with hg2
  have hg2c : g2.numberOfChildren + 1 = g.numberOfChildren := by
    simp only [hg2, TreeNode.decrementNumberOfChildren, TreeNode.retain, hgl]
    simp; omega
  have hg2i : g2.identifier = g.identifier := by
    simp [hg2, TreeNode.decrementNumberOfChildren, TreeNode.retain, hgl]
  have hg2r : g2.retainCount = g.retainCount + 1 := by
    simp [hg2, TreeNode.decrementNumberOfChildren, TreeNode.retain, hgl]
  have hg2l : g2.isAllocationFailure = false := by
    simp [hg2, TreeNode.decrementNumberOfChildren, TreeNode.retain, hgl]
  set X := A1 ++ g2 :: (flatF G1 ++ D) with hX
  have s11 : removeTreeChild fuel ⟨g.identifier⟩ ⟨y.identifier⟩ ⟨Nb, v⟩ = .ok ⟨X ++ S, v⟩ := by
    have := removeTreeChild_closed A1 (flatF G1) D g.retain y.retain Ft fuel v
      (by simpa [TreeNode.retain] using hFt) hidsb (by simpa [TreeNode.retain] using hgd)
      (by simpa [TreeNode.retain] using hyd) hfy
    simp only [show g.retain.identifier = g.identifier from rfl,
      show y.retain.identifier = y.identifier from rfl] at this
    rw [this, released_retain y Ft hy0, flat_node_eq hFt]
    simp [hX, hS, hg2]
  -- the receiver after the detachment
  obtain ⟨pa', x', hx', hcase, hpos⟩ := locate_detached A1 (flatF G1) S D g g2 x pa
    (by rw [← e3]; exact hx) hnot
  have hx'i : x'.identifier = x.identifier := by
    rcases hcase with ⟨_, h1, h2⟩ | ⟨_, h2⟩
    · rw [h2, h1, hg2i]
    · rw [h2]
  have hx'l : x'.isAllocationFailure = false := by
    rcases hcase with ⟨_, h1, h2⟩ | ⟨_, h2⟩
    · rw [h2, hg2l]
    · rw [h2, hxl]
  have hx'c : x.numberOfChildren ≤ x'.numberOfChildren + 1 := by
    rcases hcase with ⟨_, h1, h2⟩ | ⟨_, h2⟩
    · rw [h2, h1]; omega
    · rw [h2]; omega
  rw [← hX] at hx'
  obtain ⟨hXs, hXl, hpa'⟩ := getElem?_split hx'
  have hXg : goodWith 0 X := good_detach (by rw [← e3]; exact hgood)
    (goodWith_flatF G1 0 (le_refl _)) hbS hg2c
  have hN3g : goodWith 0 (X ++ S) := good_append_tail hXg hgS (by rw [hbS]; decide)
  have hN3i : (ids (X ++ S)).Nodup := by
    have hp : (ids (X ++ S)).Perm (ids N) := by
      rw [e3]
      simp only [hX, ids, List.map_append, List.map_cons, hg2i, List.append_assoc,
        List.cons_append]
      refine List.Perm.append_left _ (List.Perm.cons _ (List.Perm.append_left _ ?_))
      exact List.perm_append_comm
    exact hp.nodup_iff.mpr hids
  have hx'3 : (X ++ S)[pa']? = some x' := by
    rw [List.getElem?_append_left hpa']; exact hx'
  have s12 : P.node (X ++ S) = .ok pa' :=
    node_at P hN3i hx'3 (by rw [hx'i]; exact hx0id.symm) (by rw [hx'i]; exact hxd)
  -- the destination
  have hdrop : (X ++ S).drop (pa' + 1) = X.drop (pa' + 1) ++ S := by
    rw [List.drop_append_of_le_length (by omega)]
  have hXd : goodWith 0 (x' :: X.drop (pa' + 1)) := by
    rw [hXs, goodWith_append] at hXg
    exact hXg.2
  have hwalk := siblingLoop_total (N := X ++ S) (a := pa' + 1) index
    (by simp; omega)
    (by
      rw [hdrop]
      rw [goodWith_cons] at hXd
      exact good_append_tail hXd.2 hgS (by rw [hbS]; decide))
    (by
      rw [hdrop, bal_append, hbS]
      rw [goodWith_cons] at hXd
      have := hXd.1
      simp only [bal_cons] at this
      omega)
  obtain ⟨n, s13, hn, _, _⟩ := hwalk
  have hN3e : X ++ S = X ++ y :: (flatF Ft ++ []) := by simp [hS]
  have hyX : y.identifier ∉ ids X := by
    have h1 := not_mem_ids hC.1
    have h2 := not_mem_ids hC.2
    intro hmem
    obtain ⟨z, hz, hzi⟩ := List.mem_map.mp hmem
    rw [hX] at hz
    rcases List.mem_append.mp hz with hz | hz
    · exact h1 z (List.mem_append_left _ hz) hzi
    · rcases List.mem_cons.mp hz with hz | hz
      · subst hz
        exact h1 g (by simp [hU]) (by rw [← hg2i]; exact hzi)
      · rcases List.mem_append.mp hz with hz | hz
        · exact h1 z (by simp [hU, hz]) hzi
        · exact h2 z (List.mem_append_right _ hz) hzi
  have s14 : (⟨y.identifier⟩ : TreeReference).node (X ++ S) = .ok X.length :=
    node_mid _ hN3e rfl hyd hyX
  have s15 : (⟨y.identifier⟩ : TreeReference).numberOfChildren (X ++ S) = .ok Ft.length := by
    rw [numberOfChildren_mid _ hN3e rfl hyd hyX, hFt]
  have s16 : deepSize (X ++ S) X.length Ft.length = .ok ((flatF Ft).length + 1) :=
    deepSize_mid hN3e rfl rfl
  set q := min (pa' + 1 + n) X.length with hq
  have hqlt : pa' < q := by rw [hq]; omega
  have hqX : q ≤ X.length := by rw [hq]; omega
  have s17 : moveNodes (X ++ S) (pa' + 1 + n) X.length ((flatF Ft).length + 1)
      = insertSpan X q S := by
    have := moveNodes_from_tail X S (pa' + 1 + n)
    simpa [hS] using this
  -- the count of the receiver
  have hN4i : (ids (insertSpan X q S)).Nodup :=
    (((insertSpan_perm X S q).map _).nodup_iff).mpr hN3i
  have hx'4 : (insertSpan X q S)[pa']? = some x' := by
    rw [insertSpan_get_lt hqlt hqX]; exact hx'
  have s18 : P.node (insertSpan X q S) = .ok pa' :=
    node_at P hN4i hx'4 (by rw [hx'i]; exact hx0id.symm) (by rw [hx'i]; exact hxd)
  set x2 : TreeNode := x'.incrementNumberOfChildren 1 with hx2
  have hx2c : x2.numberOfChildren = x'.numberOfChildren + 1 := by
    simp [hx2, TreeNode.incrementNumberOfChildren, hx'l]
  have hx2i : x2.identifier = x'.identifier := by
    simp [hx2, TreeNode.incrementNumberOfChildren, hx'l]
  have hx2r : x2.retainCount = x'.retainCount := by
    simp [hx2, TreeNode.incrementNumberOfChildren, hx'l]
  have s19 : modifyAt (insertSpan X q S) pa' (fun z => z.incrementNumberOfChildren 1)
      = .ok ((insertSpan X q S).set pa' x2) := modifyAt_get _ hx'4
  set N5 := (insertSpan X q S).set pa' x2 with hN5
  have hN5g : goodWith 0 N5 :=
    good_insert_inc hXg hx' hqlt hgS (k := 1) (by rw [hbS]; rfl) hx2c
  have hN5i : (ids N5).Nodup := by
    rw [hN5, ids_set_same hx'4 hx2i]; exact hN4i
  -- the handle on the former parent goes away
  have hgX : X[A1.length]? = some g2 := getElem?_mid rfl rfl
  obtain ⟨ag, hag4⟩ : ∃ ag, (insertSpan X q S)[ag]? = some g2 := by
    by_cases h : A1.length < q
    · exact ⟨A1.length, by rw [insertSpan_get_lt h hqX]; exact hgX⟩
    · exact ⟨A1.length + S.length, by rw [insertSpan_get_ge (by omega) hqX]; exact hgX⟩
  obtain ⟨rg, hrg, hrgi, hrgr⟩ : ∃ rg, N5[ag]? = some rg ∧ rg.identifier = g.identifier
      ∧ rg.retainCount = g.retainCount + 1 := by
    by_cases h : pa' = ag
    · subst h
      rw [hx'4] at hag4
      injection hag4 with hag4
      refine ⟨x2, ?_, by rw [hx2i, hag4, hg2i], by rw [hx2r, hag4, hg2r]⟩
      rw [hN5, List.getElem?_set_self]
      have : pa' < (insertSpan X q S).length := by
        rcases Nat.lt_or_ge pa' (insertSpan X q S).length with h | h
        · exact h
        · rw [List.getElem?_eq_none h] at hx'4; cases hx'4
      simp [this]
    · exact ⟨g2, by rw [hN5, List.getElem?_set_ne h]; exact hag4, hg2i, hg2r⟩
  have s20 : (⟨g.identifier⟩ : TreeReference).node N5 = .ok ag :=
    node_at _ hN5i hrg hrgi.symm (by rw [hrgi]; exact hgd)
  have s21 : nodeAt N5 ag = .ok rg := nodeAt_get hrg
  have s22 : release (f + 1) N5 ag
      = .ok (N5.set ag { rg with retainCount := rg.retainCount - 1 }) :=
    release_keep_at f N5 ag rg hrg (by rw [hrgr]; omega)
  refine ⟨⟨N5.set ag { rg with retainCount := rg.retainCount - 1 }, v⟩, ?_, ?_⟩
  · rw [addChildTreeAtIndex]
    simp only [hPd, hP, s2, hxl, s3, hix, s4, s5, parent, s6, s7, ofNode, s8, s9, s10, s11, s12,
      s13, s14, s15, move, s16, s17, s18, s19, destruct, s20, s21, hrgi, ok_bind, pure_eq_ok,
      if_true, Bool.false_eq_true, if_false, and_self, Int.toNat_ofNat]
    rw [hfe, s22]
    simp only [ok_bind, pure_eq_ok, hrgi]
  · exact (good_set_same (y := { rg with retainCount := rg.retainCount - 1 }) 0 hrg rfl).mpr hN5g

theorem handle_eq {t : TreeReference} {i : Int} (h : i = t.m_identifier) : t = ⟨i⟩ := by
  cases t; simp at h; simp [h]

theorem inSubtree_false {N A D : List TreeNode} {y : TreeNode} {Ft : List Tree} {pa : Nat}
    (hFt : Ft.length = y.numberOfChildren) (hN : N = A ++ (y :: (flatF Ft ++ D)))
    (h : inSubtree N A.length pa = false) :
    pa < A.length ∨ A.length + (y :: flatF Ft).length ≤ pa := by
  have hns := nextSibling_mid (N := N) (A := A) (B := D) (t := .node y Ft) (a := A.length)
    (by rw [flat_node_eq hFt, hN]; simp) rfl
  rw [flat_node_eq hFt] at hns
  simp only [inSubtree, hns, decide_eq_false_iff_not, not_and, not_lt] at h
  rcases Nat.lt_or_ge pa A.length with h1 | h1
  · exact Or.inl h1
  · exact Or.inr (h h1)

/-- `addChildTreeAtIndex` keeps a well-formed arena well-formed whenever the child is not
the receiver nor one of its ancestors. -/
theorem add_general (fuel : Nat) (P t : TreeReference) (pool : TreePool) (pa ta index : Nat)
    (x y : TreeNode)
    (hgood : goodWith 0 pool.nodes) (hids : (ids pool.nodes).Nodup)
    (hall : ∀ z ∈ pool.nodes, z.identifier ≠ NoNodeIdentifier ∧ z.retainCount ≠ 0
      ∧ (z.isAllocationFailure = true → z.numberOfChildren = 0))
    (hP : P.node pool.nodes = .ok pa) (hx : pool.nodes[pa]? = some x)
    (hxl : x.isAllocationFailure = false)
    (ht : t.node pool.nodes = .ok ta) (hy : pool.nodes[ta]? = some y)
    (hyl : y.isAllocationFailure = false)
    (hnot : inSubtree pool.nodes ta pa = false)
    (hi : index ≤ x.numberOfChildren) (hf : pool.nodes.length ≤ fuel) :
    ∃ pool', addChildTreeAtIndex fuel P t index x.numberOfChildren pool = .ok pool'
      ∧ goodWith 0 pool'.nodes := by
  obtain ⟨N, v⟩ := pool
  simp only at hgood hids hall hP hx ht hy hnot hf ⊢
  obtain ⟨hPd, _, x0, hx0, hxid⟩ := node_some hP
  rw [hx] at hx0; injection hx0 with hx0; subst hx0
  obtain ⟨htd, _, y0, hy0, hyid⟩ := node_some ht
  rw [hy] at hy0; injection hy0 with hy0; subst hy0
  have hPe := handle_eq hxid
  have hte := handle_eq hyid
  subst hPe hte
  have hxa := hall x (mem_of_getElem? hx)
  have hya := hall y (mem_of_getElem? hy)
  obtain ⟨A, Ft, D, hN, hA, hFt⟩ := tree_at hgood hy
  have hAt : N.take ta = A := by rw [hN, ← hA]; exact take_app A _
  have hnot' := inSubtree_false hFt hN (by rw [hA]; exact hnot)
  have hNl : N.length = A.length + (flatF Ft).length + 1 + D.length := by
    rw [hN]; simp; omega
  have hh := height_le_length (.node y Ft)
  rw [flat_node_eq hFt] at hh
  simp only [List.length_cons] at hh hnot'
  have hgA : goodWith 0 (A ++ (y :: flatF Ft ++ D)) := by
    rw [hN] at hgood; simpa using hgood
  have hgD : goodWith 0 D := by
    rw [goodWith_append, goodWith_append] at hgA
    exact hgA.2.2
  cases hscan : parentScan (N.take ta).reverse 0 with
  | none =>
    have hpar : parentTree N ta = none := by simp [parentTree, hscan]
    have hgA' : goodWith 0 A := by
      rw [parentTree_none_iff, hAt] at hpar; exact hpar
    obtain ⟨f, hfe⟩ : ∃ f, fuel = f + 1 := ⟨fuel - 1, by omega⟩
    have hXg : goodWith 0 (A ++ D) := good_append_tail hgA' hgD (bal_nonneg_of_good hgD)
    rcases hnot' with hlt | hge
    · -- the receiver stands before the child
      have hxA : A[pa]? = some x := by
        rw [hN, List.getElem?_append_left (by omega)] at hx; exact hx
      obtain ⟨L, K, M, hAe, hL, hK⟩ := tree_at hgA' hxA
      have hNe : N = L ++ (flat (.node x K) ++ (M ++ (flat (.node y Ft) ++ D))) := by
        rw [hN, hAe, flat_node_eq hK, flat_node_eq hFt]; simp
      have hids' := hids
      rw [hNe] at hids'
      have e1 : L ++ (flat (.node x K) ++ (M ++ (flat (.node y Ft) ++ D)))
          = L ++ x :: (flatF K ++ (M ++ (flat (.node y Ft) ++ D))) := by
        rw [flat_node_eq hK]; simp
      have e2 : L ++ (flat (.node x K) ++ (M ++ (flat (.node y Ft) ++ D)))
          = (L ++ (flat (.node x K) ++ M)) ++ y :: (flatF Ft ++ D) := by
        rw [flat_node_eq hFt]; simp
      have h1 := nodup_split (A := L) (x := x) (by rw [← e1]; exact hids')
      have h2 := nodup_split (A := L ++ (flat (.node x K) ++ M)) (x := y)
        (by rw [← e2]; exact hids')
      have hta : L.length + (flat (.node x K)).length + M.length = ta := by
        rw [← hA, hAe, flat_node_eq hK]; simp; omega
      have := add_after L M D x K y Ft index f v hxa.1 hxl hya.1 hyl h1.1 h2.1
        (by rw [← hNe, hta]; exact hpar) (by omega)
      rw [hK, ← hNe] at this
      refine ⟨_, by rw [hfe]; exact this, ?_⟩
      have hXe : A ++ D = L ++ (flat (.node x K) ++ (M ++ D)) := by
        rw [hAe, flat_node_eq hK]; simp
      rw [hXe] at hXg
      exact good_replace_subtree _ _ hXg
    · -- the receiver stands after the subtree of the child
      have hxD : D[pa - (A.length + (flatF Ft).length + 1)]? = some x := by
        rw [hN, List.getElem?_append_right (by omega)] at hx
        obtain ⟨k, hk⟩ : ∃ k, pa - A.length = k + 1 := ⟨pa - A.length - 1, by omega⟩
        rw [hk, List.getElem?_cons_succ, List.getElem?_append_right (by omega)] at hx
        rw [← hx]; congr 1; omega
      obtain ⟨M, K, R, hDe, hM, hK⟩ := tree_at hgD hxD
      have hNe : N = A ++ (flat (.node y Ft) ++ (M ++ (flat (.node x K) ++ R))) := by
        rw [hN, hDe, flat_node_eq hK, flat_node_eq hFt]; simp
      have hids' := hids
      rw [hNe] at hids'
      have e1 : A ++ (flat (.node y Ft) ++ (M ++ (flat (.node x K) ++ R)))
          = (A ++ (flat (.node y Ft) ++ M)) ++ x :: (flatF K ++ R) := by
        rw [flat_node_eq hK]; simp
      have e2 : A ++ (flat (.node y Ft) ++ (M ++ (flat (.node x K) ++ R)))
          = A ++ y :: (flatF Ft ++ (M ++ (flat (.node x K) ++ R))) := by
        rw [flat_node_eq hFt]; simp
      have h1 := nodup_split (A := A ++ (flat (.node y Ft) ++ M)) (x := x)
        (by rw [← e1]; exact hids')
      have h2 := nodup_split (A := A) (x := y) (by rw [← e2]; exact hids')
      have := add_before A M R x K y Ft index f v hxa.1 hxl hya.1 hyl h1.1 h2.1
        (by rw [← hNe, hA]; exact hpar) (by omega)
      rw [hK, ← hNe] at this
      refine ⟨_, by rw [hfe]; exact this, ?_⟩
      have hXe : A ++ D = (A ++ M) ++ (flat (.node x K) ++ R) := by
        rw [hDe, flat_node_eq hK]; simp
      rw [hXe] at hXg
      have := good_replace_subtree (L := A ++ M) (R := R) (.node x K)
        (.node x (K.take index ++ .node y.retain Ft :: K.drop index)) hXg
      simpa using this
  | some r =>
    obtain ⟨ga, j⟩ := r
    obtain ⟨A1, g, G1, hAe, hga, hG1, hj⟩ := parent_at hscan
    rw [hAt] at hAe
    have hNe : N = A1 ++ g :: (flatF G1 ++ (y :: (flatF Ft ++ D))) := by
      rw [hN, hAe]; simp
    have hgm : g ∈ N := by rw [hNe]; simp
    have hga' := hall g hgm
    have hgl : g.isAllocationFailure = false := by
      cases hc : g.isAllocationFailure with
      | false => rfl
      | true => have := hga'.2.2 hc; omega
    obtain ⟨f, hfe⟩ : ∃ f, fuel = f + 1 := ⟨fuel - 1, by omega⟩
    subst hNe
    have hlen : (A1 ++ g :: flatF G1).length = ta := by rw [← hAe, hA]
    have := add_with_parent A1 D g y G1 Ft ⟨x.identifier⟩ pa x index f v hFt (by rw [hG1]; exact hj)
      hgood hids hga'.1 hgl hga'.2.1 hya.1 hyl hya.2.1 hP hx hxl
      (by rw [hlen]; simpa [hA] using hnot') hi
      (by
        simp only [List.length_append, List.length_cons] at hf
        omega)
    rw [hfe]
    exact this

/-! ## Subtrees do not straddle -/

theorem good_pos_drop {l : List TreeNode} {i : Nat} (h : goodWith 0 l) (hi : i < l.length) :
    1 ≤ bal (l.drop i) := by
  have := (good_iff_drop l 0).mp h i hi
  omega

/-- A run of complete subtrees cannot end strictly inside a subtree that begins inside the
run. -/
theorem no_straddle {N A W R U S D : List TreeNode} (h1 : N = A ++ (W ++ R))
    (h2 : N = U ++ (S ++ D)) (hW : goodWith 0 W) (hS : goodWith 0 S) (hbS : bal S = 1)
    (hA : A.length ≤ U.length) (hlt : U.length < A.length + W.length)
    (hlt2 : A.length + W.length < U.length + S.length) : False := by
  have e1 : (N.drop U.length).take (A.length + W.length - U.length)
      = W.drop (U.length - A.length) := by
    rw [h1, List.drop_append_eq_append_drop, List.drop_eq_nil_of_le hA, List.nil_append,
      List.drop_append_eq_append_drop, List.take_append_eq_append_take]
    have : (W.drop (U.length - A.length)).length = A.length + W.length - U.length := by
      rw [List.length_drop]; omega
    rw [List.take_of_length_le (by omega), this, Nat.sub_self, List.take_zero, List.append_nil]
  have e2 : (N.drop U.length).take (A.length + W.length - U.length)
      = S.take (A.length + W.length - U.length) := by
    rw [h2, drop_app, List.take_append_of_le_length (by omega)]
  have hw := good_pos_drop hW (i := U.length - A.length) (by omega)
  have hs := good_pos_drop hS (i := A.length + W.length - U.length) (by omega)
  have hb : bal (S.take (A.length + W.length - U.length))
      + bal (S.drop (A.length + W.length - U.length)) = 1 := by
    rw [← bal_append, List.take_append_drop, hbS]
  rw [← e1, e2] at hw
  omega

/-! ## What `hasChild` finds -/

theorem hasChildLoop_true (N : List TreeNode) :
    ∀ (k c b : Nat), hasChildLoop N k c b = true →
      0 < k ∧ c ≤ b ∧ goodWith 0 ((N.drop c).take (b - c)) := by
  intro k
  induction k with
  | zero => intro c b h; simp [hasChildLoop] at h
  | succ k ih =>
    intro c b h
    simp only [hasChildLoop] at h
    by_cases hcb : c = b
    · subst hcb; simp
    · simp only [hcb, if_false] at h
      cases hn : nextSibling N c with
      | error e => simp [hn] at h
      | ok c' =>
        simp only [hn] at h
        obtain ⟨_, hle, hg⟩ := ih c' b h
        -- the span walked over
        simp only [nextSibling] at hn
        cases hz : nodeAt N c with
        | error e => simp [hz] at hn
        | ok z =>
          simp only [hz, ok_bind] at hn
          simp only [deepSize, hz] at hn
          cases hsp : spanLength (N.drop (c + 1)) z.numberOfChildren with
          | none => simp [hsp] at hn
          | some m =>
            simp only [hsp, ok_bind, pure_eq_ok, Except.ok.injEq] at hn
            obtain ⟨S', R', hl, hlen, hgS, hbS⟩ := spanLength_split _ _ _ hsp
            have hzc : N[c]? = some z := by
              simp only [nodeAt] at hz
              cases hq : N[c]? with
              | none => simp [hq] at hz
              | some w => simp [hq] at hz; rw [hz]
            obtain ⟨hNs, hNl, hclt⟩ := getElem?_split hzc
            have hdc : N.drop c = z :: (S' ++ R') := by
              rw [← hl]
              conv_lhs => rw [hNs]
              rw [List.drop_append_of_le_length (by omega)]
              rw [List.drop_eq_nil_of_le (by omega)]
              rfl
            have hdc' : N.drop c' = R' := by
              have : c' = c + (S'.length + 1) := by omega
              rw [this, ← List.drop_drop, hdc]
              simp [drop_app]
            refine ⟨by omega, by omega, ?_⟩
            have hsplit : (N.drop c).take (b - c) = (z :: S') ++ (R'.take (b - c')) := by
              rw [hdc]
              have : b - c = (z :: S').length + (b - c') := by simp; omega
              rw [this, ← List.cons_append, List.take_append]
            rw [hsplit, goodWith_append]
            rw [hdc'] at hg
            refine ⟨?_, hg⟩
            have hzS : goodWith 0 (z :: S') := by
              rw [goodWith_cons]
              exact ⟨by simp only [bal_cons, hbS]; omega, hgS⟩
            exact goodWith_mono (by have := bal_nonneg_of_good hg; omega) _ hzS

/-- `mergeTreeChildrenAtIndex` from the arena that `moveChildren` leaves: the merged node is
emptied, taken out when `hasChild` finds it among the children of the receiver, and the
receiver counts the children it was given. -/
theorem merge_core (N U D V1a V1b V2 : List TreeNode) (x y : TreeNode) (Ft : List Tree)
    (i dst fuel v : Nat) (hFt : Ft.length = y.numberOfChildren)
    (hN : N = U ++ y :: (flatF Ft ++ D))
    (hids : (ids N).Nodup)
    (hxd : x.identifier ≠ NoNodeIdentifier) (hxl : x.isAllocationFailure = false)
    (hyd : y.identifier ≠ NoNodeIdentifier) (hyl : y.isAllocationFailure = false)
    (hP : (⟨x.identifier⟩ : TreeReference).node N = .ok V1a.length)
    (hx : N[V1a.length]? = some x)
    (hi : i ≤ x.numberOfChildren)
    (hdst1 : i < x.numberOfChildren → childAtIndex N V1a.length i = .ok dst)
    (hdst2 : ¬ i < x.numberOfChildren → lastDescendant N V1a.length = .ok (dst - 1) ∧ 1 ≤ dst)
    (hmove : moveNodes N dst (U.length + 1) (flatF Ft).length
      = V1a ++ x :: (V1b ++ (y :: V2)))
    (hf : 1 ≤ fuel) :
    mergeTreeChildrenAtIndex fuel ⟨x.identifier⟩ ⟨y.identifier⟩ i ⟨N, v⟩ =
      .ok ⟨if hasChildLoop (V1a ++ x :: (V1b ++ (y.eraseNumberOfChildren :: V2)))
            x.numberOfChildren (V1a.length + 1) (V1a ++ x :: V1b).length = true
          then V1a ++ (x.decrementNumberOfChildren 1).incrementNumberOfChildren y.numberOfChildren
            :: (V1b ++ (V2 ++ released (.node y.eraseNumberOfChildren [])))
          else V1a ++ x.incrementNumberOfChildren y.numberOfChildren
            :: (V1b ++ (y.eraseNumberOfChildren :: V2)), v⟩ := by
  have hC := nodup_split (A := U) (x := y) (B := flatF Ft ++ D) (by rw [← hN]; exact hids)
  have hF1i : (ids (V1a ++ x :: (V1b ++ (y :: V2)))).Nodup := by
    rw [← hmove]; exact ids_moveNodes_nodup _ _ _ hids
  have f1 : V1a ++ x :: (V1b ++ (y :: V2)) = (V1a ++ x :: V1b) ++ y :: V2 := by simp
  have hX := nodup_split (A := V1a) (x := x) (B := V1b ++ (y :: V2)) hF1i
  have hY := nodup_split (A := V1a ++ x :: V1b) (x := y) (B := V2) (by rw [← f1]; exact hF1i)
  set y0 : TreeNode := y.eraseNumberOfChildren with hy0
  have hy0i : y0.identifier = y.identifier := by
    simp [hy0, TreeNode.eraseNumberOfChildren, hyl]
  have hy0c : y0.numberOfChildren = 0 := by
    simp [hy0, TreeNode.eraseNumberOfChildren, hyl]
  set F2 := V1a ++ x :: (V1b ++ (y0 :: V2)) with hF2
  have f2 : F2 = (V1a ++ x :: V1b) ++ y0 :: V2 := by simp [hF2]
  have s1 : (⟨x.identifier⟩ : TreeReference).numberOfChildren N = .ok x.numberOfChildren :=
    numberOfChildren_at _ hP hx
  have s2 : (⟨y.identifier⟩ : TreeReference).numberOfChildren N = .ok y.numberOfChildren :=
    numberOfChildren_mid _ hN rfl hyd hC.1
  have s5 : (⟨y.identifier⟩ : TreeReference).node N = .ok U.length := node_mid _ hN rfl hyd hC.1
  have s6 : nodeAt N U.length = .ok y := nodeAt_mid hN rfl
  have s7 : deepSize N U.length y.numberOfChildren = .ok ((flatF Ft).length + 1) :=
    deepSize_mid hN rfl hFt.symm
  have s8 : moveNodes N dst (U.length + 1) ((flatF Ft).length + 1 - 1)
      = V1a ++ x :: (V1b ++ (y :: V2)) := by
    rw [Nat.add_sub_cancel]; exact hmove
  have s9 : (⟨y.identifier⟩ : TreeReference).node (V1a ++ x :: (V1b ++ (y :: V2)))
      = .ok (V1a ++ x :: V1b).length := node_mid _ f1 rfl hyd hY.1
  have s10 : modifyAt (V1a ++ x :: (V1b ++ (y :: V2))) (V1a ++ x :: V1b).length
      TreeNode.eraseNumberOfChildren = .ok F2 := by
    rw [modifyAt_mid _ f1 rfl, f2]
  have s11 : (⟨x.identifier⟩ : TreeReference).node F2 = .ok V1a.length :=
    node_mid _ hF2 rfl hxd hX.1
  have s12 : (⟨y.identifier⟩ : TreeReference).node F2 = .ok (V1a ++ x :: V1b).length :=
    node_mid _ f2 hy0i.symm (by rw [hy0i]; exact hyd) (by rw [hy0i]; exact hY.1)
  have s13 : nodeAt F2 V1a.length = .ok x := nodeAt_mid hF2 rfl
  have hin : (0 : Int) ≤ (i : Int) ∧ (i : Int) ≤ (x.numberOfChildren : Int) :=
    ⟨by omega, by omega⟩
  have hF2i : (ids F2).Nodup := by
    have : ids F2 = ids (V1a ++ x :: (V1b ++ (y :: V2))) := by
      simp [hF2, ids, hy0i]
    rw [this]; exact hF1i
  have s14 : removeTreeChild fuel ⟨x.identifier⟩ ⟨y.identifier⟩ ⟨F2, v⟩
      = .ok ⟨V1a ++ x.decrementNumberOfChildren 1
          :: (V1b ++ (V2 ++ released (.node y0 []))), v⟩ := by
    have := removeTreeChild_closed V1a V1b V2 x y0 [] fuel v (by rw [hy0c]; rfl)
      (by simpa [hF2] using hF2i) hxd (by rw [hy0i]; exact hyd) (by simpa [height] using hf)
    rw [hy0i] at this
    simpa [hF2] using this
  have hxdec : (x.decrementNumberOfChildren 1).identifier = x.identifier := by
    simp [TreeNode.decrementNumberOfChildren, hxl]
  have s15 : (⟨x.identifier⟩ : TreeReference).node
      (V1a ++ x.decrementNumberOfChildren 1 :: (V1b ++ (V2 ++ released (.node y0 []))))
      = .ok V1a.length :=
    node_mid _ rfl hxdec.symm (by rw [hxdec]; exact hxd) (by rw [hxdec]; exact hX.1)
  have s16 := modifyAt_mid
    (N := V1a ++ x.decrementNumberOfChildren 1 :: (V1b ++ (V2 ++ released (.node y0 []))))
    (fun z => z.incrementNumberOfChildren y.numberOfChildren) rfl rfl
  have s17 := modifyAt_mid (N := F2)
    (fun z => z.incrementNumberOfChildren y.numberOfChildren) hF2 rfl
  unfold mergeTreeChildrenAtIndex
  by_cases hlt : (i : Int) < (x.numberOfChildren : Int)
  · have hlt' : i < x.numberOfChildren := by omega
    have s4 := hdst1 hlt'
    cases hb : hasChildLoop F2 x.numberOfChildren (V1a.length + 1) (V1a ++ x :: V1b).length with
    | true =>
      simp only [s1, s2, hP, s4, s5, s6, s7, s8, s9, s10, s11, s12, s13, s14, s15, s16, hasChild,
        hb, ok_bind, pure_eq_ok, hin, and_self, if_true, moveChildren, hlt, Int.toNat_ofNat]
    | false =>
      simp only [s1, s2, hP, s4, s5, s6, s7, s8, s9, s10, s11, s12, s13, s17, hasChild,
        hb, ok_bind, pure_eq_ok, hin, and_self, if_true, moveChildren, hlt, Int.toNat_ofNat,
        Bool.false_eq_true, if_false]
  · have hlt' : ¬ i < x.numberOfChildren := by omega
    obtain ⟨s4, hd1⟩ := hdst2 hlt'
    have s4' : dst - 1 + 1 = dst := by omega
    cases hb : hasChildLoop F2 x.numberOfChildren (V1a.length + 1) (V1a ++ x :: V1b).length with
    | true =>
      simp only [s1, s2, hP, s4, s4', s5, s6, s7, s8, s9, s10, s11, s12, s13, s14, s15, s16,
        hasChild, hb, ok_bind, pure_eq_ok, hin, and_self, if_true, moveChildren, hlt,
        Int.toNat_ofNat, if_false]
    | false =>
      simp only [s1, s2, hP, s4, s4', s5, s6, s7, s8, s9, s10, s11, s12, s13, s17, hasChild,
        hb, ok_bind, pure_eq_ok, hin, and_self, if_true, moveChildren, hlt, Int.toNat_ofNat,
        Bool.false_eq_true, if_false]

/-! ## Well-formedness after a merge -/

theorem bal_add_nonneg {l : List TreeNode} {d : Int} (h : goodWith d l) (hd : 0 ≤ d) :
    0 ≤ bal l + d := by
  cases l with
  | nil => simpa using hd
  | cons x l =>
    rw [goodWith_cons] at h
    omega

theorem good_merge_back {PL B1 M Kt B2 : List TreeNode} {x xk y y0 : TreeNode}
    (h : goodWith 0 (PL ++ x :: (B1 ++ (M ++ (y :: (Kt ++ B2))))))
    (hK : goodWith 0 Kt) (hbK : bal Kt = (y.numberOfChildren : Int))
    (hxk : xk.numberOfChildren = x.numberOfChildren + y.numberOfChildren)
    (hy0 : y0.numberOfChildren = 0) :
    goodWith 0 (PL ++ xk :: ((B1 ++ (Kt ++ M)) ++ (y0 :: B2))) := by
  simp only [List.append_assoc, goodWith_append, goodWith_cons, bal_cons, bal_append, hbK, hxk,
    hy0] at h ⊢
  obtain ⟨h1, h2, h3, h4, h5, _, h7⟩ := h
  have hd := bal_nonneg_of_good h7
  have hM := bal_add_nonneg h4 (by omega)
  refine ⟨goodWith_mono ?_ _ h1, ?_, goodWith_mono ?_ _ h3, goodWith_mono ?_ _ hK,
    goodWith_mono ?_ _ h4, ?_, h7⟩ <;> (push_cast; omega)

theorem good_merge_fwd {PL B1 M Kt B2 : List TreeNode} {x xk y y0 : TreeNode}
    (h : goodWith 0 (PL ++ x :: (B1 ++ (y :: (Kt ++ (M ++ B2))))))
    (hK : goodWith 0 Kt) (hbK : bal Kt = (y.numberOfChildren : Int))
    (hxk : xk.numberOfChildren = x.numberOfChildren + y.numberOfChildren)
    (hy0 : y0.numberOfChildren = 0) :
    goodWith 0 (PL ++ xk :: (B1 ++ (y0 :: (M ++ (Kt ++ B2))))) := by
  simp only [List.append_assoc, goodWith_append, goodWith_cons, bal_cons, bal_append, hbK, hxk,
    hy0] at h ⊢
  obtain ⟨h1, h2, h3, h4, _, h6, h7⟩ := h
  have hd := bal_nonneg_of_good h7
  refine ⟨goodWith_mono ?_ _ h1, ?_, goodWith_mono ?_ _ h3, ?_, goodWith_mono ?_ _ h6,
    goodWith_mono ?_ _ hK, h7⟩ <;> (push_cast; omega)

theorem good_merge_true {V1a V1b V2 rel : List TreeNode} {xk x' y0 : TreeNode}
    (h : goodWith 0 (V1a ++ xk :: (V1b ++ (y0 :: V2)))) (hV : goodWith 0 V1b)
    (hy0 : y0.numberOfChildren = 0) (hx' : x'.numberOfChildren + 1 = xk.numberOfChildren)
    (hr : goodWith 0 rel) (hbr : 0 ≤ bal rel) :
    goodWith 0 (V1a ++ x' :: (V1b ++ (V2 ++ rel))) := by
  simp only [List.append_assoc, goodWith_append, goodWith_cons, bal_cons, bal_append, hy0,
    ← hx'] at h ⊢
  obtain ⟨h1, h2, _, _, h5⟩ := h
  have hd := bal_nonneg_of_good h5
  refine ⟨goodWith_mono ?_ _ h1, ?_, goodWith_mono ?_ _ hV, goodWith_mono ?_ _ h5, hr⟩
    <;> (push_cast at *; omega)

theorem merge_result_good (V1a V1b V2 : List TreeNode) (x y : TreeNode)
    (hxl : x.isAllocationFailure = false) (hyl : y.isAllocationFailure = false)
    (h : goodWith 0 (V1a ++ x.incrementNumberOfChildren y.numberOfChildren
      :: (V1b ++ (y.eraseNumberOfChildren :: V2)))) :
    goodWith 0 (if hasChildLoop (V1a ++ x :: (V1b ++ (y.eraseNumberOfChildren :: V2)))
            x.numberOfChildren (V1a.length + 1) (V1a ++ x :: V1b).length = true
          then V1a ++ (x.decrementNumberOfChildren 1).incrementNumberOfChildren y.numberOfChildren
            :: (V1b ++ (V2 ++ released (.node y.eraseNumberOfChildren [])))
          else V1a ++ x.incrementNumberOfChildren y.numberOfChildren
            :: (V1b ++ (y.eraseNumberOfChildren :: V2))) := by
  split
  · rename_i hb
    obtain ⟨hk, _, hg⟩ := hasChildLoop_true _ _ _ _ hb
    have e : ((V1a ++ x :: (V1b ++ (y.eraseNumberOfChildren :: V2))).drop (V1a.length + 1)).take
        ((V1a ++ x :: V1b).length - (V1a.length + 1)) = V1b := by
      have h1 : (V1a ++ x :: (V1b ++ (y.eraseNumberOfChildren :: V2))).drop (V1a.length + 1)
          = V1b ++ (y.eraseNumberOfChildren :: V2) := by
        have := drop_app (V1a ++ [x]) (V1b ++ (y.eraseNumberOfChildren :: V2))
        simp at this ⊢
      rw [h1]
      have h2 : (V1a ++ x :: V1b).length - (V1a.length + 1) = V1b.length := by simp; omega
      rw [h2]; exact take_app _ _
    rw [e] at hg
    refine good_merge_true h hg ?_ ?_ (goodWith_released _ 0 (le_refl _))
      (bal_released_nonneg _)
    · simp [TreeNode.eraseNumberOfChildren, hyl]
    · simp only [TreeNode.incrementNumberOfChildren, TreeNode.decrementNumberOfChildren, hxl,
        Bool.false_eq_true, if_false]
      omega
  · exact h

/-- `mergeTreeChildrenAtIndex` keeps a well-formed arena well-formed whenever the merged
node is not the receiver nor one of its ancestors. -/
theorem merge_general (fuel : Nat) (P t : TreeReference) (pool : TreePool) (pa ta i : Nat)
    (x y : TreeNode)
    (hgood : goodWith 0 pool.nodes) (hids : (ids pool.nodes).Nodup)
    (hall : ∀ z ∈ pool.nodes, z.identifier ≠ NoNodeIdentifier ∧ z.retainCount ≠ 0
      ∧ (z.isAllocationFailure = true → z.numberOfChildren = 0))
    (hP : P.node pool.nodes = .ok pa) (hx : pool.nodes[pa]? = some x)
    (hxl : x.isAllocationFailure = false)
    (ht : t.node pool.nodes = .ok ta) (hy : pool.nodes[ta]? = some y)
    (hyl : y.isAllocationFailure = false)
    (hnot : inSubtree pool.nodes ta pa = false)
    (hi : i ≤ x.numberOfChildren) (hf : pool.nodes.length ≤ fuel) :
    ∃ pool', mergeTreeChildrenAtIndex fuel P t i pool = .ok pool' ∧ goodWith 0 pool'.nodes := by
  obtain ⟨N, v⟩ := pool
  simp only at hgood hids hall hP hx ht hy hnot hf ⊢
  obtain ⟨hPd, _, x0, hx0, hxid⟩ := node_some hP
  rw [hx] at hx0; injection hx0 with hx0; subst hx0
  obtain ⟨htd, _, y0, hy0, hyid⟩ := node_some ht
  rw [hy] at hy0; injection hy0 with hy0; subst hy0
  have hPe := handle_eq hxid
  have hte := handle_eq hyid
  subst hPe hte
  have hxa := hall x (mem_of_getElem? hx)
  have hya := hall y (mem_of_getElem? hy)
  obtain ⟨A, Ft, D, hN, hA, hFt⟩ := tree_at hgood hy
  have hnot' := inSubtree_false hFt hN (by rw [hA]; exact hnot)
  simp only [List.length_cons] at hnot'
  have hNl : N.length = A.length + (flatF Ft).length + 1 + D.length := by
    rw [hN]; simp; omega
  have hf1 : 1 ≤ fuel := by omega
  have hgA : goodWith 0 (A ++ (y :: flatF Ft ++ D)) := by
    rw [hN] at hgood; simpa using hgood
  have hgD : goodWith 0 D := by
    rw [goodWith_append, goodWith_append] at hgA
    exact hgA.2.2
  have hgK : goodWith 0 (flatF Ft) := goodWith_flatF Ft 0 (le_refl _)
  have hbK : bal (flatF Ft) = (y.numberOfChildren : Int) := by rw [bal_flatF, hFt]
  have hxk : (x.incrementNumberOfChildren y.numberOfChildren).numberOfChildren
      = x.numberOfChildren + y.numberOfChildren := by
    simp [TreeNode.incrementNumberOfChildren, hxl]
  have hy0c : y.eraseNumberOfChildren.numberOfChildren = 0 := by
    simp [TreeNode.eraseNumberOfChildren, hyl]
  rcases hnot' with hlt | hge
  · -- the receiver stands before the merged node
    have hxA : A[pa]? = some x := by
      rw [hN, List.getElem?_append_left (by omega)] at hx; exact hx
    obtain ⟨hAs, hAl, _⟩ := getElem?_split hxA
    set PL := A.take pa with hPL
    set B := A.drop (pa + 1) with hB
    have hBl : B.length = A.length - (pa + 1) := by rw [hB, List.length_drop]
    obtain ⟨PL', K, PR, hNK, hPL', hK⟩ := tree_at hgood hx
    have hW : goodWith 0 (flatF (K.take i)) := goodWith_flatF _ 0 (le_refl _)
    have hWl : (flatF (K.take i)).length ≤ (flatF K).length := by
      rw [take_drop_flatF K i, List.length_append]; omega
    have hNKl : N.length = PL'.length + 1 + (flatF K).length + PR.length := by
      rw [hNK]; simp; omega
    set dst := pa + 1 + (flatF (K.take i)).length with hdst
    have hdst1 : i < x.numberOfChildren → childAtIndex N PL.length i = .ok dst := by
      intro _
      have := merge_dst_child (N := N) (A := PL') (y := x) (K := K) (B := PR) i hNK (by omega)
      rw [hdst, hAl, ← hPL']
      simpa using this
    have hdst2 : ¬ i < x.numberOfChildren →
        lastDescendant N PL.length = .ok (dst - 1) ∧ 1 ≤ dst := by
      intro h
      have hik : i = K.length := by omega
      have := merge_dst_last (N := N) (A := PL') (y := x) (K := K) (B := PR) hNK hK.symm
      rw [hdst, hAl, ← hPL', hik]
      exact ⟨this, by omega⟩
    have hPn : (⟨x.identifier⟩ : TreeReference).node N = .ok PL.length := by rw [hAl]; exact hP
    have hxn : N[PL.length]? = some x := by rw [hAl]; exact hx
    rcases Nat.lt_or_ge A.length dst with h1 | h1
    · rcases Nat.lt_or_ge dst (A.length + (flatF Ft).length + 1) with h2 | h2
      · -- the destination cannot fall inside the merged subtree
        exfalso
        have e1 : N = (PL' ++ [x]) ++ (flatF (K.take i) ++ (flatF (K.drop i) ++ PR)) := by
          rw [hNK, take_drop_flatF K i]; simp
        have hS : goodWith 0 (y :: flatF Ft) := by
          have := goodWith_flat (.node y Ft) 0 (le_refl _)
          rwa [flat_node_eq hFt] at this
        have hbS : bal (y :: flatF Ft) = 1 := by
          have := bal_flat (.node y Ft)
          rwa [flat_node_eq hFt] at this
        exact no_straddle (U := A) (S := y :: flatF Ft) (D := D) e1 (by rw [hN]; simp) hW hS hbS
          (by simp; omega) (by simp; omega) (by simp; omega)
      · -- the children go forward
        set M := D.take (dst - (A.length + (flatF Ft).length + 1)) with hM
        set B2 := D.drop (dst - (A.length + (flatF Ft).length + 1)) with hB2
        have hMl : M.length = dst - (A.length + (flatF Ft).length + 1) := by
          rw [hM, List.length_take]; omega
        have hD : D = M ++ B2 := (List.take_append_drop _ _).symm
        have hNe : N = (PL ++ x :: (B ++ [y])) ++ (flatF Ft ++ (M ++ B2)) := by
          rw [hN, ← hD]; conv_lhs => rw [hAs]
          simp
        have hmv := moveNodes_right (PL ++ x :: (B ++ [y])) M (flatF Ft) B2 (d := dst)
          (s := A.length + 1) (l := (flatF Ft).length)
          (by simp [hAl, hBl, hMl]; omega) (by simp [hAl, hBl]; omega) rfl
        rw [← hNe] at hmv
        have hmove : moveNodes N dst (A.length + 1) (flatF Ft).length
            = PL ++ x :: (B ++ (y :: (M ++ (flatF Ft ++ B2)))) := by
          rw [hmv]; simp
        have hcore := merge_core N A D PL B (M ++ (flatF Ft ++ B2)) x y Ft i dst fuel v hFt hN
          hids hxa.1 hxl hya.1 hyl hPn hxn hi hdst1 hdst2 hmove hf1
        refine ⟨_, hcore, ?_⟩
        apply merge_result_good _ _ _ _ _ hxl hyl
        have hg' : goodWith 0 (PL ++ x :: (B ++ (y :: (flatF Ft ++ (M ++ B2))))) := by
          have : N = PL ++ x :: (B ++ (y :: (flatF Ft ++ (M ++ B2)))) := by rw [hNe]; simp
          rw [← this]; exact hgood
        exact good_merge_fwd hg' hgK hbK hxk hy0c
    · -- the children go backward
      set B1 := B.take (dst - (pa + 1)) with hB1
      set M := B.drop (dst - (pa + 1)) with hM
      have hB1l : B1.length = dst - (pa + 1) := by
        rw [hB1, List.length_take]; omega
      have hBe : B = B1 ++ M := (List.take_append_drop _ _).symm
      have hNe : N = (PL ++ x :: B1) ++ ((M ++ [y]) ++ (flatF Ft ++ D)) := by
        rw [hN]; conv_lhs => rw [hAs, hBe]
        simp
      have hMl : M.length = A.length - dst := by
        rw [hM, List.length_drop, hBl]; omega
      have hmv := moveNodes_left (PL ++ x :: B1) (M ++ [y]) (flatF Ft) D (d := dst)
        (s := A.length + 1) (l := (flatF Ft).length)
        (by simp [hAl, hB1l]; omega) (by simp [hAl, hB1l, hMl]; omega) rfl
      rw [← hNe] at hmv
      have hmove : moveNodes N dst (A.length + 1) (flatF Ft).length
          = PL ++ x :: ((B1 ++ (flatF Ft ++ M)) ++ (y :: D)) := by
        rw [hmv]; simp
      have hcore := merge_core N A D PL (B1 ++ (flatF Ft ++ M)) D x y Ft i dst fuel v hFt hN
        hids hxa.1 hxl hya.1 hyl hPn hxn hi hdst1 hdst2 hmove hf1
      refine ⟨_, hcore, ?_⟩
      apply merge_result_good _ _ _ _ _ hxl hyl
      have hg' : goodWith 0 (PL ++ x :: (B1 ++ (M ++ (y :: (flatF Ft ++ D))))) := by
        have : N = PL ++ x :: (B1 ++ (M ++ (y :: (flatF Ft ++ D)))) := by rw [hNe]; simp
        rw [← this]; exact hgood
      exact good_merge_back hg' hgK hbK hxk hy0c
  · -- the receiver stands after the subtree of the merged node
    have hxD : D[pa - (A.length + (flatF Ft).length + 1)]? = some x := by
      rw [hN, List.getElem?_append_right (by omega)] at hx
      obtain ⟨k, hk⟩ : ∃ k, pa - A.length = k + 1 := ⟨pa - A.length - 1, by omega⟩
      rw [hk, List.getElem?_cons_succ, List.getElem?_append_right (by omega)] at hx
      rw [← hx]; congr 1; omega
    obtain ⟨M, K, R, hDe, hM, hK⟩ := tree_at hgD hxD
    have hNe : N = A ++ (flat (.node y Ft) ++ (M ++ (flat (.node x K) ++ R))) := by
      rw [hN, hDe, flat_node_eq hK, flat_node_eq hFt]; simp
    have hids' := hids
    rw [hNe] at hids'
    have := merge_before A M R x K y Ft i fuel v hids' hxa.1 hxl hya.1 (Or.inl hyl) (by omega)
    rw [← hNe] at this
    refine ⟨_, this, ?_⟩
    have hw : wellFormed (A ++ (flat (.node y Ft) ++ (M ++ (flat (.node x K) ++ R)))) = true := by
      rw [wellFormed_iff_good, ← hNe]; exact hgood
    exact (wellFormed_iff_good _).mp (wf_merge A M R _ _ _ _ hw)

/-! ## What a destruction leaves of the records -/

mutual
theorem ids_released_sublist (t : Tree) : (ids (released t)).Sublist (ids (flat t)) := by
  match t with
  | .node h ks =>
    rw [released_node]
    split
    · simp only [flat_node, ids, List.map_cons]
      exact List.Sublist.cons _ (ids_releasedF_sublist ks)
    · simp only [flat_node, ids, List.map_cons]
      exact List.Sublist.refl _
theorem ids_releasedF_sublist (F : List Tree) : (ids (releasedF F)).Sublist (ids (flatF F)) := by
  match F with
  | [] => simp [ids]
  | t :: ts =>
    simp only [releasedF_cons, flatF_cons, ids, List.map_append]
    exact List.Sublist.append (ids_released_sublist t) (ids_releasedF_sublist ts)
end

mutual
/-- A record with another owner survives the release of the subtree it stands in: it is
unchanged, or it has one owner less and heads one of the subtrees that are left. -/
theorem released_mem (t : Tree) (r : TreeNode) (hr : r ∈ flat t) (hrc : 2 ≤ r.retainCount) :
    ∃ k r', (released t)[k]? = some r' ∧ r'.identifier = r.identifier
      ∧ (r'.retainCount ≠ 1 ∨ goodWith 0 ((released t).take k)) := by
  match t with
  | .node h ks =>
    rw [released_node]
    simp only [flat_node, List.mem_cons] at hr
    split
    · rename_i h0
      rcases hr with hr | hr
      · exfalso
        rw [hr] at hrc
        simp only at hrc
        omega
      · exact releasedF_mem ks r hr hrc
    · rcases hr with hr | hr
      · refine ⟨0, { h with retainCount := h.retainCount - 1, numberOfChildren := ks.length },
          by simp [flat_node], ?_, Or.inr (by simp)⟩
        rw [hr]
      · obtain ⟨j, hj⟩ := List.getElem?_of_mem hr
        refine ⟨j + 1, r, by simp [flat_node, hj], rfl, Or.inl (by omega)⟩
theorem releasedF_mem (F : List Tree) (r : TreeNode) (hr : r ∈ flatF F)
    (hrc : 2 ≤ r.retainCount) :
    ∃ k r', (releasedF F)[k]? = some r' ∧ r'.identifier = r.identifier
      ∧ (r'.retainCount ≠ 1 ∨ goodWith 0 ((releasedF F).take k)) := by
  match F with
  | [] => simp at hr
  | t :: ts =>
    simp only [flatF_cons, List.mem_append] at hr
    simp only [releasedF_cons]
    rcases hr with hr | hr
    · obtain ⟨k, r', hk, hid, hc⟩ := released_mem t r hr hrc
      have hlt : k < (released t).length := by
        rcases Nat.lt_or_ge k (released t).length with h | h
        · exact h
        · rw [List.getElem?_eq_none h] at hk; cases hk
      refine ⟨k, r', by rw [List.getElem?_append_left hlt]; exact hk, hid, ?_⟩
      rcases hc with hc | hc
      · exact Or.inl hc
      · exact Or.inr (by rw [List.take_append_of_le_length (by omega)]; exact hc)
    · obtain ⟨k, r', hk, hid, hc⟩ := releasedF_mem ts r hr hrc
      refine ⟨(released t).length + k, r', ?_, hid, ?_⟩
      · rw [List.getElem?_append_right (by omega)]
        rw [← hk]; congr 1; omega
      · rcases hc with hc | hc
        · exact Or.inl hc
        · right
          rw [List.take_append]
          exact good_append_tail (goodWith_released t 0 (le_refl _)) hc (bal_nonneg_of_good hc)
end

/-! ## Giving a handle back -/

/-- The destructor of a handle keeps the arena well-formed when the node has another owner
or is parentless. -/
theorem destruct_good (F : List TreeNode) (p : TreeReference) (a : Nat) (r : TreeNode)
    (fuel v : Nat) (hgood : goodWith 0 F) (hids : (ids F).Nodup) (hr : F[a]? = some r)
    (hp : p.m_identifier = r.identifier) (hd : r.identifier ≠ NoNodeIdentifier)
    (hcond : r.retainCount ≠ 1 ∨ goodWith 0 (F.take a)) (hf : F.length ≤ fuel) :
    ∃ pool, destruct fuel p ⟨F, v⟩ = .ok pool ∧ goodWith 0 pool.nodes := by
  have s1 : p.isDefined = true := by simp [isDefined, hp, hd]
  have s2 : p.node F = .ok a := node_at p hids hr hp hd
  have s3 : nodeAt F a = .ok r := nodeAt_get hr
  obtain ⟨hs, hl, halt⟩ := getElem?_split hr
  by_cases hrc : r.retainCount = 1
  · have hga : goodWith 0 (F.take a) := by
      rcases hcond with h | h
      · exact absurd hrc h
      · exact h
    obtain ⟨B1, Fr, B2, hF, hB1, hFr⟩ := tree_at hgood hr
    have hh := height_le_length (.node r Fr)
    rw [flat_node_eq hFr] at hh
    have hFl : F.length = B1.length + 1 + (flatF Fr).length + B2.length := by
      rw [hF]; simp; omega
    have hrel := release_flat' (.node r Fr) B1 B2 fuel
      (by simp only [List.length_cons] at hh; omega) (N := F) (a := a)
      (by rw [flat_node_eq hFr, hF]; simp) hB1.symm
    simp only [Tree.root, Tree.children, hrc, sub_self, if_true] at hrel
    refine ⟨⟨B1 ++ (B2 ++ releasedF Fr), v⟩, ?_, ?_⟩
    · unfold destruct
      simp only [s1, s2, s3, hp, hrel, ok_bind, pure_eq_ok, if_true]
    · have hB1e : F.take a = B1 := by rw [hF, ← hB1]; exact take_app _ _
      rw [hB1e] at hga
      have hB2 : goodWith 0 B2 := by
        rw [hF, goodWith_append, goodWith_cons, goodWith_append] at hgood
        exact hgood.2.2.2
      have h1 := good_append_tail hga hB2 (bal_nonneg_of_good hB2)
      have h2 := good_append_tail h1 (goodWith_releasedF Fr 0 (le_refl _))
        (bal_releasedF_nonneg Fr)
      simpa using h2
  · obtain ⟨f, hfe⟩ : ∃ f, fuel = f + 1 := ⟨fuel - 1, by omega⟩
    have hrel := release_keep_at f F a r hr hrc
    refine ⟨⟨F.set a { r with retainCount := r.retainCount - 1 }, v⟩, ?_, ?_⟩
    · unfold destruct
      simp only [s1, s2, s3, hp, hfe, hrel, ok_bind, pure_eq_ok, if_true]
    · exact (good_set_same (y := { r with retainCount := r.retainCount - 1 }) 0 hr rfl).mpr hgood

theorem good_remove_span {HL T HR : List TreeNode} (h : goodWith 0 (HL ++ (T ++ HR)))
    (hb : bal T = 1) (hslack : ∀ i, i < HL.length → 2 ≤ bal ((HL ++ (T ++ HR)).drop i)) :
    goodWith 0 (HL ++ HR) := by
  rw [goodWith_append, goodWith_append] at h
  rw [goodWith_append]
  refine ⟨?_, h.2.2⟩
  rw [good_iff_drop]
  intro i hi
  have := hslack i hi
  rw [List.drop_append_of_le_length (by omega)] at this
  simp only [bal_append, hb] at this
  omega

/-- The end of `replaceTreeChildAtIndex`: the old child goes to the tail of the arena and is
released, and the two local handles go away. -/
theorem replace_tail (F1 : List TreeNode) (old p : TreeReference) (oa : Nat) (ro : TreeNode)
    (fuel v : Nat) (hgood : goodWith 0 F1) (hids : (ids F1).Nodup)
    (hdef : ∀ z ∈ F1, z.identifier ≠ NoNodeIdentifier)
    (hro : F1[oa]? = some ro) (hold : old.m_identifier = ro.identifier)
    (hrc : 2 ≤ ro.retainCount)
    (hslack : ∀ i, i < oa → 2 ≤ bal (F1.drop i))
    (hp : ∃ (ag : Nat) (rg : TreeNode), F1[ag]? = some rg ∧ p.m_identifier = rg.identifier
      ∧ 2 ≤ rg.retainCount)
    (hp3 : p.m_identifier = ro.identifier → 3 ≤ ro.retainCount)
    (hf : F1.length ≤ fuel) :
    ∃ F2 a2 F3 pool4 pool5,
      old.node F1 = .ok oa ∧ old.numberOfChildren F1 = .ok ro.numberOfChildren
      ∧ move F1 (last F1) oa ro.numberOfChildren = .ok F2
      ∧ old.node F2 = .ok a2 ∧ release fuel F2 a2 = .ok F3
      ∧ destruct fuel old ⟨F3, v⟩ = .ok pool4
      ∧ destruct fuel p pool4 = .ok pool5 ∧ goodWith 0 pool5.nodes := by
  obtain ⟨HL, Fo, HR, hF, hGL, hFo⟩ := tree_at hgood hro
  have hflat : flat (.node ro Fo) = ro :: flatF Fo := flat_node_eq hFo
  have hF' : F1 = HL ++ (flat (.node ro Fo) ++ HR) := by rw [hflat, hF]; simp
  have hrod : ro.identifier ≠ NoNodeIdentifier := hdef ro (mem_of_getElem? hro)
  have hsp := nodup_split (A := HL) (x := ro) (B := flatF Fo ++ HR) (by rw [← hF]; exact hids)
  have s0 : old.node F1 = .ok oa := node_at old hids hro hold hrod
  have s0' : old.numberOfChildren F1 = .ok ro.numberOfChildren := numberOfChildren_at old s0 hro
  have s1 : move F1 (last F1) oa ro.numberOfChildren = .ok (HL ++ (HR ++ flat (.node ro Fo))) :=
    move_mid_to_last hF' hGL.symm (by simp [Tree.children, hFo])
  have hFl : F1.length = HL.length + 1 + (flatF Fo).length + HR.length := by
    rw [hF]; simp; omega
  have hh := height_le_length (.node ro Fo)
  rw [hflat] at hh
  simp only [List.length_cons] at hh
  have hroG : ro.identifier ∉ ids (HL ++ HR) := by
    have h1 := not_mem_ids hsp.1
    have h2 := not_mem_ids hsp.2
    intro hmem
    obtain ⟨z, hz, hzi⟩ := List.mem_map.mp hmem
    rcases List.mem_append.mp hz with hz | hz
    · exact h1 z hz hzi
    · exact h2 z (List.mem_append_right _ hz) hzi
  have e2 : HL ++ (HR ++ flat (.node ro Fo)) = (HL ++ HR) ++ ro :: (flatF Fo ++ []) := by
    rw [hflat]; simp
  have s2 : old.node (HL ++ (HR ++ flat (.node ro Fo))) = .ok (HL ++ HR).length :=
    node_mid old e2 hold hrod hroG
  set ro1 : TreeNode := { ro with retainCount := ro.retainCount - 1 } with hro1
  have s3 : release fuel (HL ++ (HR ++ flat (.node ro Fo))) (HL ++ HR).length
      = .ok ((HL ++ HR) ++ ro1 :: (flatF Fo ++ [])) := by
    rw [release_flat' (.node ro Fo) (HL ++ HR) [] fuel (by omega) (by simp) rfl]
    have : ¬ (ro.retainCount - 1 = 0) := by omega
    simp [Tree.root, Tree.children, this, hro1, hFo]
  have hG : goodWith 0 (HL ++ HR) := by
    have hb : bal (flat (.node ro Fo)) = 1 := bal_flat _
    refine good_remove_span (T := flat (.node ro Fo)) (by rw [← hF']; exact hgood) hb ?_
    intro i hi
    rw [← hF']
    exact hslack i (by omega)
  have hro1i : ro1.identifier = ro.identifier := rfl
  have hFo1 : Fo.length = ro1.numberOfChildren := hFo
  have s4a : old.isDefined = true := by simp [isDefined, hold, hrod]
  have s4b : old.node ((HL ++ HR) ++ ro1 :: (flatF Fo ++ [])) = .ok (HL ++ HR).length :=
    node_mid old rfl hold hrod hroG
  have s4c : nodeAt ((HL ++ HR) ++ ro1 :: (flatF Fo ++ [])) (HL ++ HR).length = .ok ro1 :=
    nodeAt_mid rfl rfl
  have hh1 : height (.node ro1 Fo) = height (.node ro Fo) := by simp [height]
  have s4d := release_flat' (.node ro1 Fo) (HL ++ HR) [] fuel (by omega)
    (N := (HL ++ HR) ++ ro1 :: (flatF Fo ++ [])) (a := (HL ++ HR).length)
    (by rw [flat_node_eq hFo1]; simp) rfl
  simp only [Tree.root, Tree.children] at s4d
  obtain ⟨ag, rg, hrg, hpid, hrg2⟩ := hp
  have hrgm : rg ∈ F1 := mem_of_getElem? hrg
  have hrgd : rg.identifier ≠ NoNodeIdentifier := hdef rg hrgm
  have hrgcases : rg = ro ∨ rg ∈ HL ++ HR ∨ rg ∈ flatF Fo := by
    rw [hF] at hrgm
    simp only [List.mem_append, List.mem_cons] at hrgm ⊢
    tauto
  have hids2 : (ids (HL ++ (flatF Fo ++ HR))).Nodup := by
    have : (ids (HL ++ (flatF Fo ++ HR))).Sublist (ids F1) := by
      rw [hF]
      simp only [ids, List.map_append, List.map_cons]
      exact List.Sublist.append (List.Sublist.refl _) (List.Sublist.cons _ (List.Sublist.refl _))
    exact List.Nodup.sublist this hids
  by_cases hd2 : ro.retainCount = 2
  · -- the old child is destroyed
    have hz : ro1.retainCount - 1 = 0 := by simp [hro1, hd2]
    simp only [hz, if_true] at s4d
    have s4 : destruct fuel old ⟨(HL ++ HR) ++ ro1 :: (flatF Fo ++ []), v⟩
        = .ok ⟨(HL ++ HR) ++ ([] ++ releasedF Fo), v⟩ := by
      unfold destruct
      simp only [s4a, s4b, s4c, hro1i, hold, s4d, ok_bind, pure_eq_ok, if_true]
    have hF4g : goodWith 0 ((HL ++ HR) ++ ([] ++ releasedF Fo)) := by
      simpa using good_append_tail hG (goodWith_releasedF Fo 0 (le_refl _))
        (bal_releasedF_nonneg Fo)
    have hF4i : (ids ((HL ++ HR) ++ ([] ++ releasedF Fo))).Nodup := by
      have h1 : (ids ((HL ++ HR) ++ ([] ++ releasedF Fo))).Sublist
          (ids ((HL ++ HR) ++ flatF Fo)) := by
        simp only [ids, List.map_append, List.nil_append]
        exact List.Sublist.append (List.Sublist.refl _) (ids_releasedF_sublist Fo)
      have h2 : (ids ((HL ++ HR) ++ flatF Fo)).Perm (ids (HL ++ (flatF Fo ++ HR))) := by
        simp only [ids, List.map_append, List.append_assoc]
        exact List.Perm.append_left _ List.perm_append_comm
      exact List.Nodup.sublist h1 (h2.nodup_iff.mpr hids2)
    have hF4l : ((HL ++ HR) ++ ([] ++ releasedF Fo)).length ≤ fuel := by
      have := (ids_releasedF_sublist Fo).length_le
      simp only [ids, List.length_map] at this
      simp only [List.length_append, List.nil_append]
      omega
    have hne : rg ≠ ro := by
      intro h
      have := hp3 (by rw [hpid, h])
      omega
    obtain ⟨a4, r4, hr4, hr4i, hc4⟩ : ∃ a4 r4, ((HL ++ HR) ++ ([] ++ releasedF Fo))[a4]? = some r4
        ∧ r4.identifier = rg.identifier
        ∧ (r4.retainCount ≠ 1 ∨ goodWith 0 (((HL ++ HR) ++ ([] ++ releasedF Fo)).take a4)) := by
      rcases hrgcases with h | h | h
      · exact absurd h hne
      · obtain ⟨j, hj⟩ := List.getElem?_of_mem (List.mem_append_left ([] ++ releasedF Fo) h)
        exact ⟨j, rg, hj, rfl, Or.inl (by omega)⟩
      · obtain ⟨k, r', hk, hid, hc⟩ := releasedF_mem Fo rg h hrg2
        refine ⟨(HL ++ HR).length + k, r', ?_, hid, ?_⟩
        · rw [List.getElem?_append_right (by omega)]
          simp only [List.nil_append]
          rw [← hk]; congr 1; omega
        · rcases hc with hc | hc
          · exact Or.inl hc
          · right
            rw [List.take_append]
            simp only [List.nil_append]
            exact good_append_tail hG hc (bal_nonneg_of_good hc)
    obtain ⟨pool5, h5, hg5⟩ := destruct_good _ p a4 r4 fuel v hF4g hF4i hr4
      (by rw [hpid, hr4i]) (by rw [hr4i]; exact hrgd) hc4 hF4l
    exact ⟨_, _, _, _, pool5, s0, s0', s1, s2, s3, s4, h5, hg5⟩
  · -- the old child stays at the tail
    have hz : ¬ (ro1.retainCount - 1 = 0) := by simp only [hro1]; omega
    simp only [hz, if_false] at s4d
    set ro2 : TreeNode := { ro1 with retainCount := ro1.retainCount - 1 } with hro2
    have s4 : destruct fuel old ⟨(HL ++ HR) ++ ro1 :: (flatF Fo ++ []), v⟩
        = .ok ⟨(HL ++ HR) ++ (flat (.node ro2 Fo) ++ []), v⟩ := by
      unfold destruct
      simp only [s4a, s4b, s4c, hro1i, hold, s4d, ok_bind, pure_eq_ok, if_true]
      simp [hro2, hro1]
    have hFo2 : Fo.length = ro2.numberOfChildren := hFo
    have e4 : (HL ++ HR) ++ (flat (.node ro2 Fo) ++ []) = (HL ++ HR) ++ ro2 :: flatF Fo := by
      rw [flat_node_eq hFo2]; simp
    have hF4g : goodWith 0 ((HL ++ HR) ++ (flat (.node ro2 Fo) ++ [])) := by
      simpa using good_append_tail hG (goodWith_flat (.node ro2 Fo) 0 (le_refl _))
        (by rw [bal_flat]; decide)
    have hF4i : (ids ((HL ++ HR) ++ (flat (.node ro2 Fo) ++ []))).Nodup := by
      have h2 : (ids ((HL ++ HR) ++ (flat (.node ro2 Fo) ++ []))).Perm (ids F1) := by
        rw [e4, hF]
        simp only [ids, List.map_append, List.map_cons, List.append_assoc]
        refine List.Perm.append_left _ ?_
        have : ro2.identifier = ro.identifier := rfl
        rw [this]
        exact @List.perm_append_comm _ (List.map (fun x => x.identifier) HR)
          (ro.identifier :: List.map (fun x => x.identifier) (flatF Fo))
      exact h2.nodup_iff.mpr hids
    have hF4l : ((HL ++ HR) ++ (flat (.node ro2 Fo) ++ [])).length ≤ fuel := by
      rw [e4]; simp only [List.length_append, List.length_cons]; omega
    obtain ⟨a4, r4, hr4, hr4i, hc4⟩ : ∃ a4 r4,
        ((HL ++ HR) ++ (flat (.node ro2 Fo) ++ []))[a4]? = some r4
        ∧ r4.identifier = rg.identifier
        ∧ (r4.retainCount ≠ 1
          ∨ goodWith 0 (((HL ++ HR) ++ (flat (.node ro2 Fo) ++ [])).take a4)) := by
      rw [e4]
      rcases hrgcases with h | h | h
      · refine ⟨(HL ++ HR).length, ro2, getElem?_mid rfl rfl, by rw [h], Or.inr ?_⟩
        rw [take_app]; exact hG
      · obtain ⟨j, hj⟩ := List.getElem?_of_mem (List.mem_append_left (ro2 :: flatF Fo) h)
        exact ⟨j, rg, hj, rfl, Or.inl (by omega)⟩
      · obtain ⟨j, hj⟩ := List.getElem?_of_mem
          (List.mem_append_right (HL ++ HR) (List.mem_cons_of_mem ro2 h))
        exact ⟨j, rg, hj, rfl, Or.inl (by omega)⟩
    obtain ⟨pool5, h5, hg5⟩ := destruct_good _ p a4 r4 fuel v hF4g hF4i hr4
      (by rw [hpid, hr4i]) (by rw [hr4i]; exact hrgd) hc4 hF4l
    exact ⟨_, _, _, _, pool5, s0, s0', s1, s2, s3, s4, h5, hg5⟩

theorem deepSize_counts {m n : List TreeNode} (a k : Nat)
    (h : m.map (fun x => x.numberOfChildren) = n.map (fun x => x.numberOfChildren)) :
    deepSize m a k = deepSize n a k := by
  have hl : m.length = n.length := by
    have := congrArg List.length h
    simpa using this
  have hd : (m.drop (a + 1)).map (fun x => x.numberOfChildren)
      = (n.drop (a + 1)).map (fun x => x.numberOfChildren) := by
    rw [List.map_drop, List.map_drop, h]
  have hs := spanLength_counts _ _ k hd
  unfold deepSize nodeAt
  rcases Nat.lt_or_ge a m.length with hlt | hge
  · rw [List.getElem?_eq_getElem hlt, List.getElem?_eq_getElem (by omega), hs]
  · rw [List.getElem?_eq_none hge, List.getElem?_eq_none (by omega)]

theorem eq_of_id {l : List TreeNode} {a b : TreeNode} (h : (ids l).Nodup) (ha : a ∈ l)
    (hb : b ∈ l) (hab : a.identifier = b.identifier) : a = b :=
  List.inj_on_of_nodup_map h ha hb hab

theorem set_mid {A B : List TreeNode} {x : TreeNode} (z : TreeNode) :
    (A ++ x :: B).set A.length z = A ++ z :: B := by
  simp

/-- Moving a run of records amounts to taking it out and putting it back in. -/
theorem moveNodes_as_insert (U S D : List TreeNode) (dst : Nat)
    (hd : dst ≤ (U ++ (S ++ D)).length) :
    ∃ q, q ≤ (U ++ D).length
      ∧ moveNodes (U ++ (S ++ D)) dst U.length S.length = insertSpan (U ++ D) q S
      ∧ (dst ≤ U.length → q = dst) ∧ (U.length + S.length ≤ dst → q + S.length = dst)
      ∧ (U.length < dst → dst < U.length + S.length → q = U.length) := by
  simp only [List.length_append] at hd
  rcases Nat.lt_or_ge U.length dst with h1 | h1
  · rcases Nat.lt_or_ge dst (U.length + S.length) with h2 | h2
    · refine ⟨U.length, by simp, ?_, by omega, by omega, fun _ _ => rfl⟩
      unfold moveNodes
      rw [if_neg (by omega), if_neg (by omega)]
      rw [insertSpan_before S (le_refl _)]
      simp
    · refine ⟨dst - S.length, by simp; omega, ?_, by omega, by omega, by omega⟩
      have hj : dst - S.length = (U ++ []).length + (dst - (U.length + S.length)) := by
        simp; omega
      have e1 : U ++ (S ++ D) = U ++ (S ++ (D.take (dst - (U.length + S.length))
          ++ D.drop (dst - (U.length + S.length)))) := by rw [List.take_append_drop]
      have hmv := moveNodes_right U (D.take (dst - (U.length + S.length))) S
        (D.drop (dst - (U.length + S.length))) (d := dst) (s := U.length) (l := S.length)
        (by rw [List.length_take]; omega) rfl rfl
      rw [← e1] at hmv
      rw [hmv, hj]
      have := insertSpan_after (L := U) (X := []) (R := D) S (dst - (U.length + S.length))
      simpa using this.symm
  · refine ⟨dst, by simp; omega, ?_, fun _ => rfl, by omega, by omega⟩
    have e1 : U ++ (S ++ D) = U.take dst ++ (U.drop dst ++ (S ++ D)) := by
      conv_lhs => rw [← List.take_append_drop dst U]
      rw [List.append_assoc]
    have hmv := moveNodes_left (U.take dst) (U.drop dst) S D (d := dst) (s := U.length)
      (l := S.length) (by rw [List.length_take]; omega) (by simp; omega) rfl
    rw [← e1] at hmv
    rw [hmv, insertSpan_before S h1]

theorem slack_insert {X S : List TreeNode} {q i : Nat} (hX : goodWith 0 X) (hb : bal S = 1)
    (hq : q ≤ X.length) (hi : i < q) : 2 ≤ bal ((insertSpan X q S).drop i) := by
  unfold insertSpan
  have hl : (X.take q).length = q := by rw [List.length_take]; omega
  rw [List.drop_append_of_le_length (by omega)]
  have h1 := good_pos_drop hX (i := i) (by omega)
  have h2 : X.drop i = (X.take q).drop i ++ X.drop q := by
    conv_lhs => rw [← List.take_append_drop q X]
    rw [List.drop_append_of_le_length (by omega)]
  rw [h2] at h1
  simp only [bal_append, hb] at h1 ⊢
  omega

/-- The steps of `replaceTreeChildAtIndex` when the new child has a parent. -/
theorem replace_unfold (fuel : Nat) (P t p old : TreeReference) (i : Nat)
    (N Na N1 N2 F1 F2 F3 : List TreeNode) (v n oa dst ta nn oa' oldn a2 : Nat)
    (pool4 pool5 : TreePool)
    (h1 : P.isDefined = true) (h2 : t.isAllocationFailure N = .ok false)
    (h3 : t.parent N = .ok (p, Na)) (h4 : p.isDefined = true)
    (h5 : p.decrementNumberOfChildren ⟨Na, v⟩ = .ok ⟨N1, v⟩)
    (h6 : P.numberOfChildren N1 = .ok n) (h7 : i < n)
    (h8 : P.treeChildAtIndex i N1 = .ok (old, N2))
    (h9 : old.node N2 = .ok oa) (h10 : nextSibling N2 oa = .ok dst)
    (h11 : t.node N2 = .ok ta) (h12 : t.numberOfChildren N2 = .ok nn)
    (h13 : move N2 dst ta nn = .ok F1)
    (h14 : old.node F1 = .ok oa') (h15 : old.numberOfChildren F1 = .ok oldn)
    (h16 : move F1 (last F1) oa' oldn = .ok F2)
    (h17 : old.node F2 = .ok a2) (h18 : release fuel F2 a2 = .ok F3)
    (h19 : destruct fuel old ⟨F3, v⟩ = .ok pool4) (h20 : destruct fuel p pool4 = .ok pool5) :
    replaceTreeChildAtIndex fuel P i t ⟨N, v⟩ = .ok pool5 := by
  have hin : (0 : Int) ≤ (i : Int) ∧ (i : Int) < (n : Int) := ⟨by omega, by omega⟩
  unfold replaceTreeChildAtIndex
  simp only [h1, h2, h3, h4, h5, h6, hin, h8, h9, h10, h11, h12, h13, h14, h15, h16, h17, h18,
    h19, h20, ok_bind, pure_eq_ok, if_true, Bool.false_eq_true, if_false, and_self,
    Int.toNat_ofNat]

set_option maxHeartbeats 1000000 in
/-- `replaceTreeChildAtIndex` with a new child that has a parent: the new child is moved
behind the old child, the old child is taken out, and the arena stays well-formed. -/
theorem replace_with_parent (A1 D : List TreeNode) (g y : TreeNode) (G1 Ft : List Tree)
    (P : TreeReference) (pa : Nat) (x : TreeNode) (i fuel v : Nat)
    (hFt : Ft.length = y.numberOfChildren) (hj : G1.length < g.numberOfChildren)
    (hgood : goodWith 0 (A1 ++ g :: (flatF G1 ++ (y :: (flatF Ft ++ D)))))
    (hids : (ids (A1 ++ g :: (flatF G1 ++ (y :: (flatF Ft ++ D))))).Nodup)
    (hall : ∀ z ∈ A1 ++ g :: (flatF G1 ++ (y :: (flatF Ft ++ D))),
      z.identifier ≠ NoNodeIdentifier ∧ 0 < z.retainCount)
    (hgl : g.isAllocationFailure = false) (hyl : y.isAllocationFailure = false)
    (hP : P.node (A1 ++ g :: (flatF G1 ++ (y :: (flatF Ft ++ D)))) = .ok pa)
    (hx : (A1 ++ g :: (flatF G1 ++ (y :: (flatF Ft ++ D))))[pa]? = some x)
    (hnot : pa < (A1 ++ g :: flatF G1).length
      ∨ (A1 ++ g :: flatF G1).length + (y :: flatF Ft).length ≤ pa)
    (hi : i + (if pa = A1.length then 1 else 0) < x.numberOfChildren)
    (hf : (A1 ++ g :: (flatF G1 ++ (y :: (flatF Ft ++ D)))).length ≤ fuel) :
    ∃ pool, replaceTreeChildAtIndex fuel P i ⟨y.identifier⟩
        ⟨A1 ++ g :: (flatF G1 ++ (y :: (flatF Ft ++ D))), v⟩ = .ok pool
      ∧ goodWith 0 pool.nodes := by
  set U := A1 ++ g :: flatF G1 with hU
  set S := y :: flatF Ft with hS
  set N := A1 ++ g :: (flatF G1 ++ (y :: (flatF Ft ++ D))) with hN
  have e2 : N = U ++ y :: (flatF Ft ++ D) := by simp [hN, hU]
  have hC := nodup_split (A := U) (x := y) (B := flatF Ft ++ D) (by rw [← e2]; exact hids)
  have hG := nodup_split (A := A1) (x := g) (B := flatF G1 ++ (y :: (flatF Ft ++ D))) hids
  obtain ⟨hPd, _, x0, hx0, hxid⟩ := node_some hP
  rw [hx] at hx0
  injection hx0 with hx0
  subst hx0
  have hga := hall g (by simp [hN])
  have hya := hall y (by simp [hN])
  have hSl : S.length = (flatF Ft).length + 1 := by simp [hS]
  have hbS : bal S = 1 := by
    have := bal_flat (.node y Ft)
    rwa [flat_node_eq hFt] at this
  have hgS : goodWith 0 S := by
    have := goodWith_flat (.node y Ft) 0 (le_refl _)
    rwa [flat_node_eq hFt] at this
  -- the handle on the parent of the new child
  have r2 : (⟨y.identifier⟩ : TreeReference).isAllocationFailure N = .ok false := by
    rw [isAllocationFailure_mid _ e2 rfl hya.1 hC.1, hyl]
  have s4 : (⟨y.identifier⟩ : TreeReference).node N = .ok U.length := node_mid _ e2 rfl hya.1 hC.1
  have s7 : parentTree N U.length = some A1.length := by
    unfold parentTree
    rw [e2, take_app, hU, parentScan_child A1 g G1 hj]
    rfl
  have s8 : nodeAt N A1.length = .ok g := nodeAt_mid hN rfl
  set Na := A1 ++ g.retain :: (flatF G1 ++ (y :: (flatF Ft ++ D))) with hNa
  have s9 : modifyAt N A1.length TreeNode.retain = .ok Na := modifyAt_mid _ hN rfl
  have r3 : (⟨y.identifier⟩ : TreeReference).parent N = .ok (⟨g.identifier⟩, Na) := by
    simp only [parent, s4, s7, ofNode, s8, s9, ok_bind, pure_eq_ok]
  have r4 : (⟨g.identifier⟩ : TreeReference).isDefined = true := by simp [isDefined, hga.1]
  set g2 : TreeNode := g.retain.decrementNumberOfChildren 1 with hg2
  have hg2c : g2.numberOfChildren + 1 = g.numberOfChildren := by
    simp only [hg2, TreeNode.decrementNumberOfChildren, TreeNode.retain, hgl]
    simp; omega
  have hg2i : g2.identifier = g.identifier := by
    simp [hg2, TreeNode.decrementNumberOfChildren, TreeNode.retain, hgl]
  have hg2r : g2.retainCount = g.retainCount + 1 := by
    simp [hg2, TreeNode.decrementNumberOfChildren, TreeNode.retain, hgl]
  set N1 := A1 ++ g2 :: (flatF G1 ++ (y :: (flatF Ft ++ D))) with hN1
  have r5 : TreeReference.decrementNumberOfChildren ⟨g.identifier⟩ ⟨Na, v⟩ = .ok ⟨N1, v⟩ := by
    have h1 : (⟨g.identifier⟩ : TreeReference).node Na = .ok A1.length :=
      node_mid _ hNa rfl hga.1 hG.1
    have h2 := modifyAt_mid (fun z => z.decrementNumberOfChildren 1) hNa rfl
    simp only [TreeReference.decrementNumberOfChildren, h1, h2, ok_bind, pure_eq_ok]
  have hN1set : N1 = N.set A1.length g2 := by rw [hN, set_mid]
  have hN1ids : ids N1 = ids N := by simp [hN1, hN, ids, hg2i]
  have hids1 : (ids N1).Nodup := by rw [hN1ids]; exact hids
  have hN1g : goodWith 0 N1 := good_decrement hgood (by omega)
  have hg2m : g2 ∈ N1 := by simp [hN1]
  have hall1 : ∀ z ∈ N1, z.identifier ≠ NoNodeIdentifier ∧ 0 < z.retainCount := by
    intro z hz
    rw [hN1set] at hz
    rcases List.mem_or_eq_of_mem_set hz with h | h
    · exact hall z h
    · rw [h]; exact ⟨by rw [hg2i]; exact hga.1, by rw [hg2r]; omega⟩
  set U1 := A1 ++ g2 :: flatF G1 with hU1
  have hU1l : U1.length = U.length := by simp [hU1, hU]
  have e1' : N1 = U1 ++ y :: (flatF Ft ++ D) := by simp [hN1, hU1]
  have e1'' : N1 = U1 ++ (S ++ D) := by simp [hN1, hU1, hS]
  have hXg : goodWith 0 (U1 ++ D) := by
    have := @good_detach A1 (flatF G1) S D g g2
      (by simpa [hN, hS] using hgood) (goodWith_flatF G1 0 (le_refl _)) hbS hg2c
    simpa [hU1] using this
  -- the receiver after the decrement
  obtain ⟨x', hx'1, hx'c⟩ : ∃ x', N1[pa]? = some x' ∧ i < x'.numberOfChildren := by
    by_cases hpa : pa = A1.length
    · subst hpa
      have hxg : x = g := by
        have := getElem?_mid (N := N) (x := g) hN rfl
        rw [this] at hx
        injection hx with h
        exact h.symm
      refine ⟨g2, getElem?_mid hN1 rfl, ?_⟩
      simp only [if_true] at hi
      rw [hxg] at hi
      omega
    · refine ⟨x, ?_, by simpa [hpa] using hi⟩
      rw [hN1set, List.getElem?_set_ne (Ne.symm hpa)]
      exact hx
  have hPn1 : P.node N1 = .ok pa := by rw [node_ids P hN1ids]; exact hP
  have r6 : P.numberOfChildren N1 = .ok x'.numberOfChildren := numberOfChildren_at P hPn1 hx'1
  -- the old child
  obtain ⟨PL, K, PR, hNK, hPL, hK⟩ := tree_at hN1g hx'1
  have hci := merge_dst_child (N := N1) (A := PL) (y := x') (K := K) (B := PR) i hNK (by omega)
  obtain ⟨Ti, Krest, hKd⟩ : ∃ Ti Krest, K.drop i = Ti :: Krest := by
    cases h : K.drop i with
    | nil =>
      have := congrArg List.length h
      simp at this
      omega
    | cons a b => exact ⟨a, b, rfl⟩
  obtain ⟨o, Fo, hTi, hFo⟩ : ∃ (o : TreeNode) (Fo : List Tree), flat Ti = o :: flatF Fo
      ∧ Fo.length = o.numberOfChildren := by
    cases Ti with
    | node h ks => exact ⟨{ h with numberOfChildren := ks.length }, ks, by simp, rfl⟩
  set W := flatF (K.take i) with hW
  have hWg : goodWith 0 W := goodWith_flatF _ 0 (le_refl _)
  have hKs : flatF K = W ++ (o :: (flatF Fo ++ flatF Krest)) := by
    rw [take_drop_flatF K i, hKd, flatF_cons, hTi]
    simp
  set E1 := PL ++ x' :: W with hE1
  set E2 := flatF Krest ++ PR with hE2
  have hNE : N1 = E1 ++ o :: (flatF Fo ++ E2) := by
    rw [hNK, hKs]; simp [hE1, hE2]
  have hoa : E1.length = pa + 1 + W.length := by simp [hE1, hPL]; omega
  have hE := nodup_split (A := E1) (x := o) (B := flatF Fo ++ E2) (by rw [← hNE]; exact hids1)
  have hom : o ∈ N1 := by rw [hNE]; simp
  have hoa1 := hall1 o hom
  have hoN1 : N1[E1.length]? = some o := getElem?_mid hNE rfl
  set N2 := E1 ++ o.retain :: (flatF Fo ++ E2) with hN2
  have r8 : P.treeChildAtIndex i N1 = .ok (⟨o.identifier⟩, N2) := by
    have h1 : childAtIndex N1 pa i = .ok E1.length := by
      rw [hoa, ← hPL]; simpa using hci
    have h2 : nodeAt N1 E1.length = .ok o := nodeAt_mid hNE rfl
    have h3 := modifyAt_mid TreeNode.retain hNE rfl
    simp only [treeChildAtIndex, hPn1, h1, ofNode, h2, h3, ok_bind, pure_eq_ok]
  have hN2set : N2 = N1.set E1.length o.retain := by
    rw [hN2]
    conv_rhs => rw [hNE]
    rw [set_mid]
  have hN2ids : ids N2 = ids N1 := by
    rw [hN2set]; exact ids_set_same hoN1 rfl
  have hids2 : (ids N2).Nodup := by rw [hN2ids]; exact hids1
  have hcnt2 : N2.map (fun z => z.numberOfChildren) = N1.map (fun z => z.numberOfChildren) := by
    rw [hN2set]; exact map_set_eq _ _ _ _ _ hoN1 rfl
  have hN2l : N2.length = N.length := by
    have h1 := congrArg List.length hN2ids
    have h2 := congrArg List.length hN1ids
    simp only [ids, List.length_map] at h1 h2
    omega
  have r9 : (⟨o.identifier⟩ : TreeReference).node N2 = .ok E1.length :=
    node_mid _ hN2 rfl hoa1.1 hE.1
  have hFo' : Fo.length = o.retain.numberOfChildren := hFo
  have r10 : nextSibling N2 E1.length = .ok (E1.length + ((flatF Fo).length + 1)) := by
    have := nextSibling_mid (N := N2) (A := E1) (B := E2) (t := .node o.retain Fo)
      (a := E1.length) (by rw [flat_node_eq hFo', hN2]; simp) rfl
    rw [this, flat_node_eq hFo']
    simp
  have r11 : (⟨y.identifier⟩ : TreeReference).node N2 = .ok U.length := by
    rw [node_ids _ hN2ids, node_ids _ hN1ids]; exact s4
  have hyN1 : N1[U.length]? = some y := getElem?_mid e1' hU1l.symm
  obtain ⟨y2, hy2, hy2c⟩ : ∃ y2, N2[U.length]? = some y2
      ∧ y2.numberOfChildren = y.numberOfChildren := by
    by_cases h : E1.length = U.length
    · refine ⟨o.retain, by rw [← h]; exact getElem?_mid hN2 rfl, ?_⟩
      have ho := hoN1
      rw [h, hyN1] at ho
      injection ho with ho
      rw [← ho]
      rfl
    · exact ⟨y, by rw [hN2set, List.getElem?_set_ne h]; exact hyN1, rfl⟩
  have r12 : (⟨y.identifier⟩ : TreeReference).numberOfChildren N2 = .ok y.numberOfChildren := by
    rw [numberOfChildren_at _ r11 hy2, hy2c]
  have hds : deepSize N2 U.length y.numberOfChildren = .ok ((flatF Ft).length + 1) := by
    rw [deepSize_counts _ _ hcnt2]
    exact deepSize_mid e1' hU1l.symm hFt.symm
  set dst := E1.length + ((flatF Fo).length + 1) with hdst
  set F1 := moveNodes N2 dst U.length ((flatF Ft).length + 1) with hF1
  have r13 : move N2 dst U.length y.numberOfChildren = .ok F1 := by
    simp only [move, hds, ok_bind, pure_eq_ok]
  have hdstl : dst ≤ N2.length := by
    rw [hN2]; simp only [List.length_append, List.length_cons]; omega
  -- the arena before the old child leaves
  obtain ⟨Xr, q, S2, oa', hF1e, hXr, hS2g, hS2b, hq, hoq, hro⟩ : ∃ Xr q S2 oa',
      F1 = insertSpan Xr q S2 ∧ goodWith 0 Xr ∧ goodWith 0 S2 ∧ bal S2 = 1 ∧ q ≤ Xr.length
      ∧ oa' ≤ q ∧ F1[oa']? = some o.retain := by
    rcases Nat.lt_trichotomy E1.length U.length with hlt | heq | hgt
    · -- the old child stands before the new child
      have hoU : (U1 ++ D)[E1.length]? = some o := by
        rw [List.getElem?_append_left (by omega)]
        rw [e1'', List.getElem?_append_left (by omega)] at hoN1
        exact hoN1
      have hN2e : N2 = U1.set E1.length o.retain ++ (S ++ D) := by
        rw [hN2set]
        conv_lhs => rw [e1'']
        rw [List.set_append, if_pos (by omega)]
      have hlt1 : E1.length < U1.length := by omega
      have hXe : U1.set E1.length o.retain ++ D = (U1 ++ D).set E1.length o.retain := by
        conv_rhs => rw [List.set_append, if_pos hlt1]
      obtain ⟨q, hq, hmv, hq1, hq2, hq3⟩ := moveNodes_as_insert (U1.set E1.length o.retain) S D
        dst (by rw [← hN2e]; exact hdstl)
      have hU2l : (U1.set E1.length o.retain).length = U.length := by
        rw [List.length_set]; exact hU1l
      rw [hU2l, hSl, ← hN2e, ← hF1] at hmv
      rw [hU2l] at hq1 hq2 hq3
      have hqlt : E1.length < q := by
        rcases Nat.lt_or_ge U.length dst with h1 | h1
        · rcases Nat.lt_or_ge dst (U.length + S.length) with h2 | h2
          · rw [hq3 h1 h2]; exact hlt
          · have := hq2 h2; omega
        · rw [hq1 h1]; omega
      refine ⟨_, q, S, E1.length, hmv, ?_, hgS, hbS, hq, by omega, ?_⟩
      · rw [hXe]
        exact (good_set_same (y := o.retain) 0 hoU rfl).mpr hXg
      · rw [hmv, insertSpan_get_lt hqlt hq, List.getElem?_append_left (by omega),
          List.getElem?_set_self (by omega)]
    · -- the old child is the new child
      have hsplit := List.append_inj (by rw [← hNE, ← e1']) (by omega : E1.length = U1.length)
      obtain ⟨hEU, hrest⟩ := hsplit
      injection hrest with hoy hrest
      have hlen : (flatF Fo).length = (flatF Ft).length := by
        have h1 := spanLength_flatF Fo E2 0
        have h2 := spanLength_flatF Ft D 0
        rw [hrest, hFo, hoy, ← hFt, h2] at h1
        simp [spanLength] at h1
        omega
      have hFt' : Ft.length = y.retain.numberOfChildren := hFt
      have hS2 : goodWith 0 (y.retain :: flatF Ft) := by
        have := goodWith_flat (.node y.retain Ft) 0 (le_refl _)
        rwa [flat_node_eq hFt'] at this
      have hbS2 : bal (y.retain :: flatF Ft) = 1 := by
        have := bal_flat (.node y.retain Ft)
        rwa [flat_node_eq hFt'] at this
      have hN2e : N2 = U1 ++ ((y.retain :: flatF Ft) ++ D) := by
        rw [hN2, hEU, hoy, hrest]; simp
      obtain ⟨q, hq, hmv, hq1, hq2, hq3⟩ := moveNodes_as_insert U1 (y.retain :: flatF Ft) D
        dst (by rw [← hN2e]; exact hdstl)
      have hS2l : (y.retain :: flatF Ft).length = (flatF Ft).length + 1 := by simp
      rw [hU1l, hS2l, ← hN2e, ← hF1] at hmv
      rw [hU1l, hS2l] at hq2
      have hqe : q = U.length := by
        have := hq2 (by omega)
        omega
      refine ⟨_, q, _, q, hmv, hXg, hS2, hbS2, hq, le_refl _, ?_⟩
      have := insertSpan_get_mid (X := U1 ++ D) (S := y.retain :: flatF Ft) (q := q) (j := 0) hq
        (by simp)
      rw [hmv]
      simpa [hoy] using this
    · rcases Nat.lt_or_ge E1.length (U.length + S.length) with hin | hout
      · -- the old child cannot stand inside the subtree of the new child
        exfalso
        have h1 : N1 = (PL ++ [x']) ++ (W ++ (o :: (flatF Fo ++ E2))) := by
          rw [hNE]; simp [hE1]
        have hpal : pa < U.length := by
          rcases hnot with h | h
          · exact h
          · omega
        exact no_straddle (U := U1) (S := S) (D := D) h1 e1'' hWg hgS hbS
          (by simp; omega) (by simp; omega) (by simp; omega)
      · -- the old child stands after the subtree of the new child
        set k := E1.length - (U.length + S.length) with hk
        have hoD : D[k]? = some o := by
          have h := hoN1
          rw [e1'', List.getElem?_append_right (by omega),
            List.getElem?_append_right (by omega)] at h
          rw [← h]; congr 1; omega
        have hoU : (U1 ++ D)[E1.length - S.length]? = some o := by
          rw [List.getElem?_append_right (by omega), ← hoD]
          congr 1; omega
        have hN2e : N2 = U1 ++ (S ++ D.set k o.retain) := by
          rw [hN2set]
          conv_lhs => rw [e1'']
          rw [List.set_append, if_neg (by omega), List.set_append, if_neg (by omega)]
          congr 3; omega
        have hge1 : ¬ E1.length - S.length < U1.length := by omega
        have hXe : U1 ++ D.set k o.retain = (U1 ++ D).set (E1.length - S.length) o.retain := by
          conv_rhs => rw [List.set_append, if_neg hge1]
          congr 2; omega
        obtain ⟨q, hq, hmv, hq1, hq2, hq3⟩ := moveNodes_as_insert U1 S (D.set k o.retain)
          dst (by rw [← hN2e]; exact hdstl)
        rw [hU1l, hSl, ← hN2e, ← hF1] at hmv
        rw [hU1l] at hq2
        have hqv := hq2 (by omega)
        have hklt : k < D.length := by
          rcases Nat.lt_or_ge k D.length with h | h
          · exact h
          · rw [List.getElem?_eq_none h] at hoD; cases hoD
        refine ⟨_, q, S, E1.length - S.length, hmv, ?_, hgS, hbS, hq, by omega, ?_⟩
        · rw [hXe]
          exact (good_set_same (y := o.retain) 0 hoU rfl).mpr hXg
        · rw [hmv, insertSpan_get_lt (by omega) hq, List.getElem?_append_right (by omega)]
          have : E1.length - S.length - U1.length = k := by omega
          rw [this, List.getElem?_set_self hklt]
  -- what the end of the call needs
  have hF1g : goodWith 0 F1 := by
    rw [hF1e]; exact good_insert q hXr hS2g (by rw [hS2b]; decide)
  have hslack : ∀ j, j < oa' → 2 ≤ bal (F1.drop j) := by
    intro j hj
    rw [hF1e]
    exact slack_insert hXr hS2b hq (by omega)
  have hF1i : (ids F1).Nodup := ids_moveNodes_nodup _ _ _ hids2
  have hF1d : ∀ z ∈ F1, z.identifier ≠ NoNodeIdentifier := by
    intro z hz
    rw [hF1, mem_moveNodes, hN2set] at hz
    rcases List.mem_or_eq_of_mem_set hz with h | h
    · exact (hall1 z h).1
    · rw [h]; exact hoa1.1
  have hrc : 2 ≤ o.retain.retainCount := by
    have := hoa1.2
    simp only [TreeNode.retain]
    omega
  have hp : ∃ (ag : Nat) (rg : TreeNode), F1[ag]? = some rg
      ∧ (⟨g.identifier⟩ : TreeReference).m_identifier = rg.identifier ∧ 2 ≤ rg.retainCount := by
    have hga2 := hga.2
    obtain ⟨rg, hrgm, hrgi, hrgr⟩ : ∃ rg, rg ∈ N2 ∧ rg.identifier = g.identifier
        ∧ 2 ≤ rg.retainCount := by
      by_cases h : E1.length = A1.length
      · have hog : o = g2 := by
          have h1 := hoN1
          rw [h, getElem?_mid hN1 rfl] at h1
          injection h1 with h1
          exact h1.symm
        refine ⟨o.retain, by rw [hN2]; simp, by rw [hog]; exact hg2i, ?_⟩
        rw [hog]
        simp only [TreeNode.retain, hg2r]
        omega
      · refine ⟨g2, ?_, hg2i, by rw [hg2r]; omega⟩
        have : N2[A1.length]? = some g2 := by
          rw [hN2set, List.getElem?_set_ne h]
          exact getElem?_mid hN1 rfl
        exact mem_of_getElem? this
    have hm : rg ∈ F1 := by rw [hF1, mem_moveNodes]; exact hrgm
    obtain ⟨ag, hag⟩ := List.getElem?_of_mem hm
    exact ⟨ag, rg, hag, hrgi.symm, hrgr⟩
  have hp3 : (⟨g.identifier⟩ : TreeReference).m_identifier = o.retain.identifier
      → 3 ≤ o.retain.retainCount := by
    intro h
    have hog : o = g2 := eq_of_id hids1 hom hg2m (by rw [hg2i]; exact h.symm)
    have hga2 := hga.2
    rw [hog]
    simp only [TreeNode.retain, hg2r]
    omega
  have hfl : F1.length ≤ fuel := by
    have := (moveNodes_perm N2 dst U.length ((flatF Ft).length + 1)).length_eq
    rw [hF1, this, hN2l]
    exact hf
  obtain ⟨F2, a2, F3, pool4, pool5, t0, t0', t1, t2, t3, t4, t5, hg5⟩ :=
    replace_tail F1 ⟨o.identifier⟩ ⟨g.identifier⟩ oa' o.retain fuel v hF1g hF1i hF1d hro rfl hrc
      hslack hp hp3 hfl
  exact ⟨pool5, replace_unfold fuel P ⟨y.identifier⟩ ⟨g.identifier⟩ ⟨o.identifier⟩ i N Na N1 N2
    F1 F2 F3 v x'.numberOfChildren E1.length dst U.length y.numberOfChildren oa'
    o.retain.numberOfChildren a2 pool4 pool5 hPd r2 r3 r4 r5 r6 hx'c r8 r9 r10 r11 r12 r13 t0 t0'
    t1 t2 t3 t4 t5, hg5⟩

theorem tree_cases (T : Tree) : ∃ (h : TreeNode) (ks : List Tree), T = .node h ks := by
  cases T with
  | node h ks => exact ⟨h, ks, rfl⟩

/-- The children of a record of a well-formed arena, split at a child index. -/
theorem children_at {N : List TreeNode} {a i : Nat} {x : TreeNode} (hg : goodWith 0 N)
    (hx : N[a]? = some x) (hi : i < x.numberOfChildren) :
    ∃ L K1 K2 oh oks R, N = L ++ (flat (.node x (K1 ++ .node oh oks :: K2)) ++ R)
      ∧ L.length = a ∧ K1.length = i
      ∧ (K1 ++ Tree.node oh oks :: K2).length = x.numberOfChildren := by
  obtain ⟨L, K, R, hN, hL, hK⟩ := tree_at hg hx
  obtain ⟨Ti, Krest, hKd⟩ : ∃ Ti Krest, K.drop i = Ti :: Krest := by
    cases h : K.drop i with
    | nil =>
      have := congrArg List.length h
      simp at this
      omega
    | cons a b => exact ⟨a, b, rfl⟩
  obtain ⟨oh, oks, rfl⟩ := tree_cases Ti
  have hKe : K = K.take i ++ .node oh oks :: Krest := by
    rw [← hKd, List.take_append_drop]
  have hlen : (K.take i ++ Tree.node oh oks :: Krest).length = x.numberOfChildren := by
    rw [← hKe, hK]
  refine ⟨L, K.take i, Krest, oh, oks, R, ?_, hL, by rw [List.length_take]; omega, hlen⟩
  rw [flat_node_eq hlen, ← hKe, hN]
  simp

/-- `removeTreeChildAtIndex` keeps a well-formed arena well-formed. -/
theorem remove_general (fuel : Nat) (P : TreeReference) (pool : TreePool) (pa i : Nat)
    (x : TreeNode)
    (hgood : goodWith 0 pool.nodes) (hids : (ids pool.nodes).Nodup)
    (hall : ∀ z ∈ pool.nodes, z.identifier ≠ NoNodeIdentifier ∧ 0 < z.retainCount)
    (hP : P.node pool.nodes = .ok pa) (hx : pool.nodes[pa]? = some x)
    (hxl : x.isAllocationFailure = false)
    (hi : i < x.numberOfChildren) (hf : pool.nodes.length ≤ fuel) :
    ∃ pool', removeTreeChildAtIndex fuel P i pool = .ok pool' ∧ goodWith 0 pool'.nodes := by
  obtain ⟨N, v⟩ := pool
  simp only at hgood hids hall hP hx hf ⊢
  obtain ⟨hPd, _, x0, hx0, hxid⟩ := node_some hP
  rw [hx] at hx0; injection hx0 with hx0; subst hx0
  have hPe := handle_eq hxid
  subst hPe
  have hxa := hall x (mem_of_getElem? hx)
  obtain ⟨L, K1, K2, oh, oks, R, hN, hL, hK1, hK⟩ := children_at hgood hx hi
  subst hN
  have hom : ({ oh with numberOfChildren := oks.length } : TreeNode)
      ∈ L ++ (flat (.node x (K1 ++ .node oh oks :: K2)) ++ R) := by simp
  have hoa := hall _ hom
  simp only at hoa
  have hh := height_le_length (.node oh oks)
  have hlen : (flat (.node oh oks)).length
      ≤ (L ++ (flat (.node x (K1 ++ .node oh oks :: K2)) ++ R)).length := by
    simp; omega
  have := remove_closed L R x K1 K2 oh oks fuel v hids hxa.1 hxl hoa.1 (by omega) (by omega)
  rw [hK1] at this
  refine ⟨_, this, ?_⟩
  exact (wellFormed_iff_good _).mp (wf_remove L R x _ _ _ ((wellFormed_iff_good _).mpr hgood))

/-- `replaceTreeChildAtIndex` keeps a well-formed arena well-formed whenever the new child is
not the receiver nor one of its ancestors, and the index stays below the count that the
receiver has once the new child is detached. -/
theorem replace_general (fuel : Nat) (P t : TreeReference) (pool : TreePool) (pa ta i : Nat)
    (x y : TreeNode)
    (hgood : goodWith 0 pool.nodes) (hids : (ids pool.nodes).Nodup)
    (hall : ∀ z ∈ pool.nodes, z.identifier ≠ NoNodeIdentifier ∧ 0 < z.retainCount
      ∧ (z.isAllocationFailure = true → z.numberOfChildren = 0))
    (hP : P.node pool.nodes = .ok pa) (hx : pool.nodes[pa]? = some x)
    (ht : t.node pool.nodes = .ok ta) (hy : pool.nodes[ta]? = some y)
    (hyl : y.isAllocationFailure = false)
    (hnot : inSubtree pool.nodes ta pa = false)
    (hi : i + (if parentTree pool.nodes ta = some pa then 1 else 0) < x.numberOfChildren)
    (hf : pool.nodes.length ≤ fuel) :
    ∃ pool', replaceTreeChildAtIndex fuel P i t pool = .ok pool' ∧ goodWith 0 pool'.nodes := by
  obtain ⟨N, v⟩ := pool
  simp only at hgood hids hall hP hx ht hy hnot hi hf ⊢
  obtain ⟨hPd, _, x0, hx0, hxid⟩ := node_some hP
  rw [hx] at hx0; injection hx0 with hx0; subst hx0
  obtain ⟨htd, _, y0, hy0, hyid⟩ := node_some ht
  rw [hy] at hy0; injection hy0 with hy0; subst hy0
  have hPe := handle_eq hxid
  have hte := handle_eq hyid
  subst hPe hte
  have hxa := hall x (mem_of_getElem? hx)
  have hya := hall y (mem_of_getElem? hy)
  obtain ⟨A, Ft, D, hN, hA, hFt⟩ := tree_at hgood hy
  have hAt : N.take ta = A := by rw [hN, ← hA]; exact take_app A _
  have hnot' := inSubtree_false hFt hN (by rw [hA]; exact hnot)
  have hNl : N.length = A.length + (flatF Ft).length + 1 + D.length := by
    rw [hN]; simp; omega
  simp only [List.length_cons] at hnot'
  have hgA : goodWith 0 (A ++ (y :: flatF Ft ++ D)) := by
    rw [hN] at hgood; simpa using hgood
  have hgD : goodWith 0 D := by
    rw [goodWith_append, goodWith_append] at hgA
    exact hgA.2.2
  cases hscan : parentScan (N.take ta).reverse 0 with
  | none =>
    have hpar : parentTree N ta = none := by simp [parentTree, hscan]
    rw [hpar] at hi
    simp only [reduceCtorEq, if_false, Nat.add_zero] at hi
    have hgA' : goodWith 0 A := by
      rw [parentTree_none_iff, hAt] at hpar; exact hpar
    have hXg : goodWith 0 (A ++ D) := good_append_tail hgA' hgD (bal_nonneg_of_good hgD)
    rcases hnot' with hlt | hge
    · -- the receiver stands before the new child
      have hxA : A[pa]? = some x := by
        rw [hN, List.getElem?_append_left (by omega)] at hx; exact hx
      obtain ⟨L, K1, K2, oh, oks, M, hAe, hL, hK1, hK⟩ := children_at hgA' hxA hi
      have hNe : N = L ++ (flat (.node x (K1 ++ .node oh oks :: K2))
          ++ (M ++ (flat (.node y Ft) ++ D))) := by
        rw [hN, hAe, flat_node_eq hFt]; simp
      have hids' := hids
      rw [hNe] at hids'
      have hom : ({ oh with numberOfChildren := oks.length } : TreeNode) ∈ N := by
        rw [hNe]; simp
      have hoa := hall _ hom
      simp only at hoa
      have hh := height_le_length (.node oh oks)
      have hlen : (flat (.node oh oks)).length ≤ N.length := by
        rw [hNe]; simp; omega
      have hta : L.length + (flat (.node x (K1 ++ .node oh oks :: K2))).length + M.length
          = ta := by
        rw [← hA, hAe]; simp; omega
      have := replace_after L M D x K1 K2 oh oks y Ft fuel v hids' hxa.1 hya.1 hyl hoa.1
        (by omega) (by rw [← hNe, hta]; exact hpar) (by omega)
      rw [hK1, ← hNe] at this
      refine ⟨_, this, ?_⟩
      have hXe : A ++ D = L ++ (flat (.node x (K1 ++ .node oh oks :: K2)) ++ (M ++ D)) := by
        rw [hAe]; simp
      rw [hXe] at hXg
      have h1 := good_replace_subtree (.node x (K1 ++ .node oh oks :: K2))
        (.node x (K1 ++ .node y.retain Ft :: K2)) hXg
      have h2 := good_append_tail h1 (goodWith_released (.node oh oks) 0 (le_refl _))
        (bal_released_nonneg _)
      simpa using h2
    · -- the receiver stands after the subtree of the new child
      have hxD : D[pa - (A.length + (flatF Ft).length + 1)]? = some x := by
        rw [hN, List.getElem?_append_right (by omega)] at hx
        obtain ⟨k, hk⟩ : ∃ k, pa - A.length = k + 1 := ⟨pa - A.length - 1, by omega⟩
        rw [hk, List.getElem?_cons_succ, List.getElem?_append_right (by omega)] at hx
        rw [← hx]; congr 1; omega
      obtain ⟨M, K1, K2, oh, oks, R, hDe, hM, hK1, hK⟩ := children_at hgD hxD hi
      have hNe : N = A ++ (flat (.node y Ft) ++ (M
          ++ (flat (.node x (K1 ++ .node oh oks :: K2)) ++ R))) := by
        rw [hN, hDe, flat_node_eq hFt]; simp
      have hids' := hids
      rw [hNe] at hids'
      have hom : ({ oh with numberOfChildren := oks.length } : TreeNode) ∈ N := by
        rw [hNe]; simp
      have hoa := hall _ hom
      simp only at hoa
      have hh := height_le_length (.node oh oks)
      have hlen : (flat (.node oh oks)).length ≤ N.length := by
        rw [hNe]; simp; omega
      have := replace_before A M R x K1 K2 oh oks y Ft fuel v hids' hxa.1 hya.1 hyl hoa.1
        (by omega) (by rw [← hNe, hA]; exact hpar) (by omega)
      rw [hK1, ← hNe] at this
      refine ⟨_, this, ?_⟩
      have hXe : A ++ D = (A ++ M) ++ (flat (.node x (K1 ++ .node oh oks :: K2)) ++ R) := by
        rw [hDe]; simp
      rw [hXe] at hXg
      have h1 := good_replace_subtree (.node x (K1 ++ .node oh oks :: K2))
        (.node x (K1 ++ .node y.retain Ft :: K2)) hXg
      have h2 := good_append_tail h1 (goodWith_released (.node oh oks) 0 (le_refl _))
        (bal_released_nonneg _)
      simpa using h2
  | some r =>
    obtain ⟨ga, j⟩ := r
    have hpar : parentTree N ta = some ga := by simp [parentTree, hscan]
    obtain ⟨A1, g, G1, hAe, hga, hG1, hj⟩ := parent_at hscan
    rw [hAt] at hAe
    have hNe : N = A1 ++ g :: (flatF G1 ++ (y :: (flatF Ft ++ D))) := by
      rw [hN, hAe]; simp
    have hgm : g ∈ N := by rw [hNe]; simp
    have hga' := hall g hgm
    have hgl : g.isAllocationFailure = false := by
      cases hc : g.isAllocationFailure with
      | false => rfl
      | true => have := hga'.2.2 hc; omega
    rw [hpar] at hi
    have hi' : i + (if pa = A1.length then 1 else 0) < x.numberOfChildren := by
      by_cases h : pa = A1.length
      · simpa [h, hga] using hi
      · have : ¬ (ga = pa) := by rw [← hga]; exact fun e => h e.symm
        simpa [h, this] using hi
    subst hNe
    have hlen : (A1 ++ g :: flatF G1).length = ta := by rw [← hAe, hA]
    exact replace_with_parent A1 D g y G1 Ft ⟨x.identifier⟩ pa x i fuel v hFt
      (by rw [hG1]; exact hj) hgood hids (fun z hz => ⟨(hall z hz).1, (hall z hz).2.1⟩) hgl hyl
      hP hx (by rw [hlen]; simpa [hA] using hnot') hi' hf

/-- Merging a node into itself changes nothing. -/
theorem merge_self (fuel : Nat) (P : TreeReference) (pool : TreePool) (pa i : Nat)
    (x : TreeNode) (hgood : goodWith 0 pool.nodes)
    (hP : P.node pool.nodes = .ok pa) (hx : pool.nodes[pa]? = some x)
    (hxl : x.isAllocationFailure = false) (hi : i ≤ x.numberOfChildren) :
    mergeTreeChildrenAtIndex fuel P P i pool = .ok pool := by
  obtain ⟨N, v⟩ := pool
  simp only at hgood hP hx ⊢
  obtain ⟨PL, K, PR, hN, hPL, hK⟩ := tree_at hgood hx
  have s1 : P.numberOfChildren N = .ok x.numberOfChildren := numberOfChildren_at P hP hx
  have s3 : nodeAt N pa = .ok x := nodeAt_get hx
  have s4 : deepSize N pa x.numberOfChildren = .ok ((flatF K).length + 1) :=
    deepSize_mid hN hPL.symm hK.symm
  have hWl : (flatF (K.take i)).length ≤ (flatF K).length := by
    rw [take_drop_flatF K i, List.length_append]; omega
  set dst := pa + 1 + (flatF (K.take i)).length with hdst
  have s5 : moveNodes N dst (pa + 1) ((flatF K).length + 1 - 1) = N := by
    rw [Nat.add_sub_cancel]
    have e : N = (PL ++ [x]) ++ ([] ++ (flatF K ++ PR)) := by rw [hN]; simp
    rcases Nat.lt_or_ge (pa + 1) dst with h1 | h1
    · rcases Nat.lt_or_ge dst (pa + 1 + (flatF K).length) with h2 | h2
      · unfold moveNodes
        rw [if_neg (by omega), if_neg (by omega)]
      · have e' : N = (PL ++ [x]) ++ (flatF K ++ ([] ++ PR)) := by rw [hN]; simp
        have := moveNodes_right (PL ++ [x]) [] (flatF K) PR (d := dst) (s := pa + 1)
          (l := (flatF K).length) (by simp [hPL]; omega) (by simp [hPL]) rfl
        rw [← e'] at this
        rw [this, hN]; simp
    · have := moveNodes_left (PL ++ [x]) [] (flatF K) PR (d := dst) (s := pa + 1)
        (l := (flatF K).length) (by simp [hPL]; omega) (by simp [hPL]) rfl
      rw [← e] at this
      rw [this, hN]; simp
  have s6 : modifyAt N pa TreeNode.eraseNumberOfChildren
      = .ok (N.set pa x.eraseNumberOfChildren) := modifyAt_get _ hx
  have hlt : pa < N.length := (getElem?_split hx).2.2
  have hx0 : (N.set pa x.eraseNumberOfChildren)[pa]? = some x.eraseNumberOfChildren := by
    rw [List.getElem?_set_self hlt]
  have hids0 : ids (N.set pa x.eraseNumberOfChildren) = ids N :=
    ids_set_same hx (by simp [TreeNode.eraseNumberOfChildren, hxl])
  have s7 : P.node (N.set pa x.eraseNumberOfChildren) = .ok pa := by
    rw [node_ids P hids0]; exact hP
  have s8 : nodeAt (N.set pa x.eraseNumberOfChildren) pa = .ok x.eraseNumberOfChildren :=
    nodeAt_get hx0
  have hc0 : x.eraseNumberOfChildren.numberOfChildren = 0 := by
    simp [TreeNode.eraseNumberOfChildren, hxl]
  have s9 : modifyAt (N.set pa x.eraseNumberOfChildren) pa
      (fun z => z.incrementNumberOfChildren x.numberOfChildren) = .ok N := by
    rw [modifyAt_get _ hx0, List.set_set]
    have : x.eraseNumberOfChildren.incrementNumberOfChildren x.numberOfChildren = x := by
      cases x
      simp only at hxl
      subst hxl
      simp [TreeNode.eraseNumberOfChildren, TreeNode.incrementNumberOfChildren]
    rw [this]
    congr 1
    apply List.ext_getElem?
    intro n
    by_cases hn : n = pa
    · subst hn
      rw [List.getElem?_set_self hlt, hx]
    · rw [List.getElem?_set_ne (Ne.symm hn)]
  have hin : (0 : Int) ≤ (i : Int) ∧ (i : Int) ≤ (x.numberOfChildren : Int) :=
    ⟨by omega, by omega⟩
  have hN' : N = PL ++ x :: (flatF K ++ PR) := hN
  unfold mergeTreeChildrenAtIndex
  by_cases hlti : (i : Int) < (x.numberOfChildren : Int)
  · have sd := merge_dst_child (N := N) (A := PL) (y := x) (K := K) (B := PR) i hN (by omega)
    rw [hPL] at sd
    simp only [s1, hP, sd, s3, s4, s5, s6, s7, s8, s9, hc0, hasChild, hasChildLoop, moveChildren,
      ok_bind, pure_eq_ok, hin, and_self, if_true, hlti, Bool.false_eq_true, if_false]
  · have hik : i = K.length := by omega
    have sd := merge_dst_last (N := N) (A := PL) (y := x) (K := K) (B := PR) hN hK.symm
    rw [hPL, ← hik] at sd
    have sd' : pa + 1 + (flatF (K.take i)).length - 1 + 1 = dst := by omega
    simp only [s1, hP, sd, sd', s3, s4, s5, s6, s7, s8, s9, hc0, hasChild, hasChildLoop,
      moveChildren, ok_bind, pure_eq_ok, hin, and_self, if_true, hlti, Bool.false_eq_true,
      if_false]

/-! ## The claims -/

/-- C1: let the live node `p` have the child subtrees `K`, and let the live, parentless subtree
rooted at `ch` be stored at address `q`, outside the subtree of `p`.  For `index ≤ K.length`,
`addChildTreeAtIndex` returns, the children of `p` are the old ones with the subtree of `ch`
inserted at position `index`, the child count of `p` is one more, the reference count of `ch`
is one more, and every other record is as before. -/
theorem C1_addChildTreeAtIndex_inserts (L R : List TreeNode) (p : TreeNode) (K : List Tree)
    (ch : TreeNode) (cks : List Tree) (q index fuel v : Nat)
    (hq : q ≤ L.length ∨ L.length + (flat (.node p K)).length ≤ q)
    (hqR : q ≤ (L ++ (flat (.node p K) ++ R)).length)
    (hids : (ids (insertSpan (L ++ (flat (.node p K) ++ R)) q (flat (.node ch cks)))).Nodup)
    (hpd : p.identifier ≠ NoNodeIdentifier) (hpl : p.isAllocationFailure = false)
    (hcd : ch.identifier ≠ NoNodeIdentifier) (hcl : ch.isAllocationFailure = false)
    (hpar : parentTree (insertSpan (L ++ (flat (.node p K) ++ R)) q (flat (.node ch cks))) q
      = none)
    (hi : index ≤ K.length) :
    addChildTreeAtIndex (fuel + 1) ⟨p.identifier⟩ ⟨ch.identifier⟩ index K.length
        ⟨insertSpan (L ++ (flat (.node p K) ++ R)) q (flat (.node ch cks)), v⟩ =
      .ok ⟨L ++ (flat (.node p (K.take index ++ .node ch.retain cks :: K.drop index)) ++ R), v⟩
    ∧ (Tree.node p (K.take index ++ .node ch.retain cks :: K.drop index)).root.numberOfChildren
        = K.length + 1
    ∧ ch.retain.retainCount = ch.retainCount + 1 := by
  refine ⟨add_insertSpan L R p K ch cks q index fuel v hq hqR hids hpd hpl hcd hcl hpar hi, ?_,
    rfl⟩
  simp [Tree.root]
  omega

/-- C1, worked: the subtree 9[10] stored after 1[2,3] becomes the child of index 1. -/
theorem C1_witness :
    addChildTreeAtIndex 1 ⟨1⟩ ⟨9⟩ 1 2
        ⟨[⟨1, 1, 2, false, 0⟩, liveNode 2 1, liveNode 3 1, ⟨9, 1, 1, false, 0⟩, liveNode 10 1],
          0⟩ =
      .ok ⟨[⟨1, 1, 3, false, 0⟩, liveNode 2 1, ⟨9, 2, 1, false, 0⟩, liveNode 10 1, liveNode 3 1],
        0⟩ :=
  (C1_addChildTreeAtIndex_inserts [] [] (liveNode 1 1) [leaf 2 1, leaf 3 1] (liveNode 9 1)
    [leaf 10 1] 3 1 0 0 (by decide) (by decide) (by decide) (by decide) (by decide) (by decide)
    (by decide) (by decide) (by decide)).1

/-- C2, the failing inputs: let the live node `p` have the child subtrees `K`, and let `path`
list its live ancestors, nearest first and up to a parentless one; the identifiers of `p` and
of its ancestors are distinct and occur nowhere else.  For every handle `t` that denotes a
failure sentinel, `addChildTreeAtIndex` with the child count `K.length` does not return: it
goes to `replaceWithAllocationFailure`, the failure climbs through every ancestor, and on
the parentless one the child count of the parent is decremented through an undefined
handle. -/
theorem C2_failure_child_stops_on_undefined_parent (path : List Frame) (p : TreeNode)
    (K : List Tree) (A0 B : List TreeNode) (t : TreeReference) (index : Int) (fuel v : Nat)
    (hpd : p.identifier ≠ NoNodeIdentifier) (hpl : p.isAllocationFailure = false)
    (hn : (p.identifier :: pathIds path).Nodup)
    (hfresh : ∀ i ∈ p.identifier :: pathIds path,
      i ∉ ids A0 ∧ i ∉ ids B ∧ i ∉ ids (flatF K) ∧ i ∉ ids (pathKids path))
    (hok : ∀ g ∈ path, g.hdr.identifier ≠ NoNodeIdentifier ∧ g.hdr.isAllocationFailure = false)
    (hroot : parentTree (A0 ++ (pathBefore path ++ (flat (.node p K) ++ (pathAfter path ++ B))))
      A0.length = none)
    (ht : t.isAllocationFailure
      (A0 ++ (pathBefore path ++ (flat (.node p K) ++ (pathAfter path ++ B)))) = .ok true)
    (hfuel : fuelFor path K ≤ fuel) :
    addChildTreeAtIndex (fuel + 1) ⟨p.identifier⟩ t index K.length
        ⟨A0 ++ (pathBefore path ++ (flat (.node p K) ++ (pathAfter path ++ B))), v⟩
      = .error .undefinedHandle :=
  add_failure_child path p K A0 B t index fuel v hpd hpl hn hfresh hok hroot ht hfuel

/-- C2, failing input: the failure sentinel 9 is added under the live, parentless node 1,
and under the node 1 of the arena 7[1[2,3]]; neither call returns. -/
theorem C2_witness :
    addChildTreeAtIndex 2 ⟨1⟩ ⟨9⟩ 0 0 ⟨[liveNode 1 1, failureNode 9 1], 0⟩
      = .error .undefinedHandle
    ∧ addChildTreeAtIndex 4 ⟨1⟩ ⟨9⟩ 0 2
        ⟨[⟨7, 1, 1, false, 0⟩, ⟨1, 2, 2, false, 0⟩, liveNode 2 1, liveNode 3 2,
          failureNode 9 1], 0⟩
      = .error .undefinedHandle :=
  ⟨C2_failure_child_stops_on_undefined_parent [] (liveNode 1 1) [] [] [failureNode 9 1] ⟨9⟩ 0
      1 0 (by decide) (by decide) (by decide) (by decide) (by decide) (by decide) (by decide)
      (by decide),
    C2_failure_child_stops_on_undefined_parent [⟨liveNode 7 1, [], []⟩] (liveNode 1 2)
      [leaf 2 1, leaf 3 2] [] [failureNode 9 1] ⟨9⟩ 0 3 0 (by decide) (by decide) (by decide)
      (by decide) (by decide) (by decide) (by decide) (by decide)⟩

/-- C3: when the handle `self` denotes an allocation-failure sentinel, `addChildTreeAtIndex`
returns and leaves the shared pool exactly as it was, whatever the child handle `t`, the index
and the stated child count are. -/
theorem C3_addChildTreeAtIndex_failure_parent_noop (fuel : Nat) (self t : TreeReference)
    (index currentNumberOfChildren : Int) (pool : TreePool)
    (h : self.isAllocationFailure pool.nodes = .ok true) :
    addChildTreeAtIndex (fuel + 1) self t index currentNumberOfChildren pool = .ok pool := by
  unfold TreeReference.isAllocationFailure at h
  rw [addChildTreeAtIndex]
  cases hd : self.isDefined with
  | false => simp [hd] at h
  | true =>
    simp only [hd, if_true] at h ⊢
    cases hn : self.node pool.nodes with
    | error e => simp [hn] at h
    | ok a =>
      simp only [hn, ok_bind] at h ⊢
      cases hx : nodeAt pool.nodes a with
      | error e => simp [hx] at h
      | ok x =>
        simp only [hx, ok_bind, pure_eq_ok] at h ⊢
        have : x.isAllocationFailure = true := by
          injection h
        simp [this]

/-- C3, worked: adding under the failure sentinel 1 changes nothing, also when the child is
the failure sentinel 9. -/
theorem C3_witness :
    addChildTreeAtIndex 1 ⟨1⟩ ⟨9⟩ 0 0 ⟨[failureNode 1 1, failureNode 9 1], 0⟩
      = .ok ⟨[failureNode 1 1, failureNode 9 1], 0⟩ :=
  C3_addChildTreeAtIndex_failure_parent_noop 0 ⟨1⟩ ⟨9⟩ 0 0
    ⟨[failureNode 1 1, failureNode 9 1], 0⟩ (by decide)

/-- C4, as stated, fails when the handle argument is the receiver or one of its ancestors.
The arena holding the single live node 1 is well-formed, the call `addChildTreeAtIndex` with
the node itself as the child and index 0 meets the index precondition and returns, and the node
then counts one child that the arena does not hold.  Likewise node 2, the only child of node 1,
receives its parent 1 as a child: the call returns and both nodes count a child that is not
there.  And `replaceTreeChildAtIndex` of the last child by another child of the same node
stops at its index assertion. -/
theorem C4_counterexample :
    wellFormed [liveNode 1 1] = true
    ∧ addChildTreeAtIndex 1 ⟨1⟩ ⟨1⟩ 0 0 ⟨[liveNode 1 1], 0⟩ = .ok ⟨[⟨1, 2, 1, false, 0⟩], 0⟩
    ∧ wellFormed [⟨1, 2, 1, false, 0⟩] = false
    ∧ wellFormed [⟨1, 1, 1, false, 0⟩, liveNode 2 1] = true
    ∧ addChildTreeAtIndex 3 ⟨2⟩ ⟨1⟩ 0 0 ⟨[⟨1, 1, 1, false, 0⟩, liveNode 2 1], 0⟩
      = .ok ⟨[⟨1, 2, 1, false, 0⟩, ⟨2, 1, 1, false, 0⟩], 0⟩
    ∧ wellFormed [⟨1, 2, 1, false, 0⟩, ⟨2, 1, 1, false, 0⟩] = false
    ∧ wellFormed [⟨1, 1, 2, false, 0⟩, liveNode 2 1, liveNode 3 1] = true
    ∧ replaceTreeChildAtIndex 3 ⟨1⟩ 1 ⟨2⟩
        ⟨[⟨1, 1, 2, false, 0⟩, liveNode 2 1, liveNode 3 1], 0⟩ = .error .assertion := by
  decide

/-- C4, amended: take a well-formed arena whose identifiers are pairwise distinct and defined,
whose reference counts are positive and whose failure records are childless, and a live
receiver `P` stored at address `pa` with record `x`.  Then `removeTreeChildAtIndex` returns and
leaves the arena well-formed for every index below the child count;
`mergeTreeChildrenAtIndex` with `P` itself as the argument returns and leaves the arena as it
is; and for every live handle argument `t` that is neither `P` nor an ancestor of `P`
(wherever else it stands: with or without a parent, inside or outside the subtree of `P`),
`addChildTreeAtIndex` and `mergeTreeChildrenAtIndex` return and leave the arena well-formed
for every index up to the child count, and so does `replaceTreeChildAtIndex` for every index
below the child count, the last index excepted when `t` is itself a child of `P`. -/
theorem C4_edits_preserve_wellFormed (fuel : Nat) (P : TreeReference) (pool : TreePool)
    (pa : Nat) (x : TreeNode)
    (hwf : wellFormed pool.nodes = true) (hids : (ids pool.nodes).Nodup)
    (hall : ∀ z ∈ pool.nodes, z.identifier ≠ NoNodeIdentifier ∧ 0 < z.retainCount
      ∧ (z.isAllocationFailure = true → z.numberOfChildren = 0))
    (hP : P.node pool.nodes = .ok pa) (hx : pool.nodes[pa]? = some x)
    (hxl : x.isAllocationFailure = false) (hf : pool.nodes.length ≤ fuel) :
    (∀ i, i < x.numberOfChildren →
      ∃ pool', removeTreeChildAtIndex fuel P i pool = .ok pool'
        ∧ wellFormed pool'.nodes = true)
    ∧ (∀ i, i ≤ x.numberOfChildren → mergeTreeChildrenAtIndex fuel P P i pool = .ok pool)
    ∧ (∀ (t : TreeReference) (ta : Nat) (y : TreeNode),
      t.node pool.nodes = .ok ta → pool.nodes[ta]? = some y → y.isAllocationFailure = false →
      inSubtree pool.nodes ta pa = false →
      (∀ index, index ≤ x.numberOfChildren →
        ∃ pool', addChildTreeAtIndex fuel P t index x.numberOfChildren pool = .ok pool'
          ∧ wellFormed pool'.nodes = true)
      ∧ (∀ i, i + (if parentTree pool.nodes ta = some pa then 1 else 0) < x.numberOfChildren →
        ∃ pool', replaceTreeChildAtIndex fuel P i t pool = .ok pool'
          ∧ wellFormed pool'.nodes = true)
      ∧ (∀ i, i ≤ x.numberOfChildren →
        ∃ pool', mergeTreeChildrenAtIndex fuel P t i pool = .ok pool'
          ∧ wellFormed pool'.nodes = true)) := by
  have hgood : goodWith 0 pool.nodes := (wellFormed_iff_good _).1 hwf
  have hall1 : ∀ z ∈ pool.nodes, z.identifier ≠ NoNodeIdentifier ∧ 0 < z.retainCount :=
    fun z hz => ⟨(hall z hz).1, (hall z hz).2.1⟩
  have hall2 : ∀ z ∈ pool.nodes, z.identifier ≠ NoNodeIdentifier ∧ z.retainCount ≠ 0
      ∧ (z.isAllocationFailure = true → z.numberOfChildren = 0) :=
    fun z hz => ⟨(hall z hz).1, ne_of_gt (hall z hz).2.1, (hall z hz).2.2⟩
  refine ⟨fun i hi => ?_, fun i hi => ?_, fun t ta y ht hy hyl hnot => ⟨fun index hi => ?_,
    fun i hi => ?_, fun i hi => ?_⟩⟩
  · obtain ⟨pool', h1, h2⟩ := remove_general fuel P pool pa i x hgood hids hall1 hP hx hxl hi hf
    exact ⟨pool', h1, (wellFormed_iff_good _).2 h2⟩
  · exact merge_self fuel P pool pa i x hgood hP hx hxl hi
  · obtain ⟨pool', h1, h2⟩ := add_general fuel P t pool pa ta index x y hgood hids hall2 hP hx
      hxl ht hy hyl hnot hi hf
    exact ⟨pool', h1, (wellFormed_iff_good _).2 h2⟩
  · obtain ⟨pool', h1, h2⟩ := replace_general fuel P t pool pa ta i x y hgood hids hall hP hx
      ht hy hyl hnot hi hf
    exact ⟨pool', h1, (wellFormed_iff_good _).2 h2⟩
  · obtain ⟨pool', h1, h2⟩ := merge_general fuel P t pool pa ta i x y hgood hids hall2 hP hx
      hxl ht hy hyl hnot hi hf
    exact ⟨pool', h1, (wellFormed_iff_good _).2 h2⟩

/-- C4, worked: in the arena below node 1 has the children 2 and 4, node 2 has the child 3,
and node 5, a root of its own, has the child 6.  Each edit on receiver 1 returns and leaves a
well-formed arena: removing a child; adding the child 6 of another node, the own child 4 or
the grandchild 3; replacing a child by node 6 or by the own child 4; merging the child 2 at
either end; merging node 1 into itself. -/
theorem C4_witness :
    (∃ pool, removeTreeChildAtIndex 6 ⟨1⟩ 0
        ⟨[⟨1, 1, 2, false, 0⟩, ⟨2, 1, 1, false, 0⟩, liveNode 3 1, liveNode 4 1,
          ⟨5, 1, 1, false, 0⟩, liveNode 6 1], 0⟩ = .ok pool ∧ wellFormed pool.nodes = true)
    ∧ (∃ pool, addChildTreeAtIndex 6 ⟨1⟩ ⟨6⟩ 1 2
        ⟨[⟨1, 1, 2, false, 0⟩, ⟨2, 1, 1, false, 0⟩, liveNode 3 1, liveNode 4 1,
          ⟨5, 1, 1, false, 0⟩, liveNode 6 1], 0⟩ = .ok pool ∧ wellFormed pool.nodes = true)
    ∧ (∃ pool, addChildTreeAtIndex 6 ⟨1⟩ ⟨4⟩ 0 2
        ⟨[⟨1, 1, 2, false, 0⟩, ⟨2, 1, 1, false, 0⟩, liveNode 3 1, liveNode 4 1,
          ⟨5, 1, 1, false, 0⟩, liveNode 6 1], 0⟩ = .ok pool ∧ wellFormed pool.nodes = true)
    ∧ (∃ pool, addChildTreeAtIndex 6 ⟨1⟩ ⟨3⟩ 2 2
        ⟨[⟨1, 1, 2, false, 0⟩, ⟨2, 1, 1, false, 0⟩, liveNode 3 1, liveNode 4 1,
          ⟨5, 1, 1, false, 0⟩, liveNode 6 1], 0⟩ = .ok pool ∧ wellFormed pool.nodes = true)
    ∧ (∃ pool, replaceTreeChildAtIndex 6 ⟨1⟩ 1 ⟨6⟩
        ⟨[⟨1, 1, 2, false, 0⟩, ⟨2, 1, 1, false, 0⟩, liveNode 3 1, liveNode 4 1,
          ⟨5, 1, 1, false, 0⟩, liveNode 6 1], 0⟩ = .ok pool ∧ wellFormed pool.nodes = true)
    ∧ (∃ pool, replaceTreeChildAtIndex 6 ⟨1⟩ 0 ⟨4⟩
        ⟨[⟨1, 1, 2, false, 0⟩, ⟨2, 1, 1, false, 0⟩, liveNode 3 1, liveNode 4 1,
          ⟨5, 1, 1, false, 0⟩, liveNode 6 1], 0⟩ = .ok pool ∧ wellFormed pool.nodes = true)
    ∧ (∃ pool, mergeTreeChildrenAtIndex 6 ⟨1⟩ ⟨2⟩ 0
        ⟨[⟨1, 1, 2, false, 0⟩, ⟨2, 1, 1, false, 0⟩, liveNode 3 1, liveNode 4 1,
          ⟨5, 1, 1, false, 0⟩, liveNode 6 1], 0⟩ = .ok pool ∧ wellFormed pool.nodes = true)
    ∧ (∃ pool, mergeTreeChildrenAtIndex 6 ⟨1⟩ ⟨2⟩ 2
        ⟨[⟨1, 1, 2, false, 0⟩, ⟨2, 1, 1, false, 0⟩, liveNode 3 1, liveNode 4 1,
          ⟨5, 1, 1, false, 0⟩, liveNode 6 1], 0⟩ = .ok pool ∧ wellFormed pool.nodes = true)
    ∧ mergeTreeChildrenAtIndex 6 ⟨1⟩ ⟨1⟩ 1
        ⟨[⟨1, 1, 2, false, 0⟩, ⟨2, 1, 1, false, 0⟩, liveNode 3 1, liveNode 4 1,
          ⟨5, 1, 1, false, 0⟩, liveNode 6 1], 0⟩
      = .ok ⟨[⟨1, 1, 2, false, 0⟩, ⟨2, 1, 1, false, 0⟩, liveNode 3 1, liveNode 4 1,
          ⟨5, 1, 1, false, 0⟩, liveNode 6 1], 0⟩ :=
  (fun h => ⟨h.1 0 (by decide),
      (h.2.2 ⟨6⟩ 5 (liveNode 6 1) (by decide) (by decide) (by decide) (by decide)).1 1
        (by decide),
      (h.2.2 ⟨4⟩ 3 (liveNode 4 1) (by decide) (by decide) (by decide) (by decide)).1 0
        (by decide),
      (h.2.2 ⟨3⟩ 2 (liveNode 3 1) (by decide) (by decide) (by decide) (by decide)).1 2
        (by decide),
      (h.2.2 ⟨6⟩ 5 (liveNode 6 1) (by decide) (by decide) (by decide) (by decide)).2.1 1
        (by decide),
      (h.2.2 ⟨4⟩ 3 (liveNode 4 1) (by decide) (by decide) (by decide) (by decide)).2.1 0
        (by decide),
      (h.2.2 ⟨2⟩ 1 ⟨2, 1, 1, false, 0⟩ (by decide) (by decide) (by decide) (by decide)).2.2 0
        (by decide),
      (h.2.2 ⟨2⟩ 1 ⟨2, 1, 1, false, 0⟩ (by decide) (by decide) (by decide) (by decide)).2.2 2
        (by decide),
      h.2.1 1 (by decide)⟩)
    (C4_edits_preserve_wellFormed 6 ⟨1⟩
      ⟨[⟨1, 1, 2, false, 0⟩, ⟨2, 1, 1, false, 0⟩, liveNode 3 1, liveNode 4 1,
        ⟨5, 1, 1, false, 0⟩, liveNode 6 1], 0⟩ 0 ⟨1, 1, 2, false, 0⟩
      (by decide) (by decide) (by decide) (by decide) (by decide) (by decide) (by decide))

/-- C5: let the live node `p` have the child subtrees `K1 ++ c :: K2`, where `c` is rooted
at `ch`.  `removeTreeChildAtIndex` at index `K1.length` returns, the children of `p` are
`K1 ++ K2`, its child count is one less, and the subtree of `ch` stands at the tail of the arena
with one owner less, or, when that was its last owner, is destroyed and only what the release
of its own children leaves stands there. -/
theorem C5_removeTreeChildAtIndex_removes (L R : List TreeNode) (p : TreeNode)
    (K1 K2 : List Tree) (ch : TreeNode) (cks : List Tree) (fuel v : Nat)
    (hids : (ids (L ++ (flat (.node p (K1 ++ .node ch cks :: K2)) ++ R))).Nodup)
    (hpd : p.identifier ≠ NoNodeIdentifier) (hpl : p.isAllocationFailure = false)
    (hcd : ch.identifier ≠ NoNodeIdentifier) (hc0 : ch.retainCount ≠ 0)
    (hf : height (.node ch cks) ≤ fuel) :
    removeTreeChildAtIndex fuel ⟨p.identifier⟩ K1.length
        ⟨L ++ (flat (.node p (K1 ++ .node ch cks :: K2)) ++ R), v⟩ =
      .ok ⟨L ++ (flat (.node p (K1 ++ K2)) ++ (R ++
        (if ch.retainCount - 1 = 0 then releasedF cks
         else flat (.node { ch with retainCount := ch.retainCount - 1 } cks)))), v⟩
    ∧ (Tree.node p (K1 ++ K2)).root.numberOfChildren + 1
        = (Tree.node p (K1 ++ .node ch cks :: K2)).root.numberOfChildren := by
  refine ⟨?_, ?_⟩
  · rw [remove_closed L R p K1 K2 ch cks fuel v hids hpd hpl hcd hc0 hf, released_node]
  · simp [Tree.root]
    omega

/-- C5, worked: removing child 0 of 1[2[3,4],5]; the child 2 had one owner and is destroyed
with its child 3, its child 4 had two owners and stays. -/
theorem C5_witness :
    removeTreeChildAtIndex 2 ⟨1⟩ 0
        ⟨[⟨1, 1, 2, false, 0⟩, ⟨2, 1, 2, false, 0⟩, liveNode 3 1, liveNode 4 2, liveNode 5 2],
          0⟩ =
      .ok ⟨[⟨1, 1, 1, false, 0⟩, liveNode 5 2, liveNode 4 1], 0⟩ :=
  (C5_removeTreeChildAtIndex_removes [] [] (liveNode 1 1) [] [leaf 5 2] (liveNode 2 1)
    [leaf 3 1, leaf 4 2] 2 0 (by decide) (by decide) (by decide) (by decide) (by decide)
    (by decide)).1

/-- C6, as stated, fails: the node 1 has the children 2, 3, 4, and the child 3, which an
outside handle holds too, is a failure sentinel.  `removeTreeChildAtIndex(1)` returns and
leaves the sentinel at the tail; `addChildTreeAtIndex` with it then does not insert: for a
failure child it goes to `replaceWithAllocationFailure` on the node 1, which does not return,
and the children 2, 3, 4 are not restored. -/
theorem C6_counterexample :
    removeTreeChildAtIndex 1 ⟨1⟩ 1
        ⟨[⟨1, 1, 3, false, 0⟩, liveNode 2 1, failureNode 3 2, liveNode 4 1], 0⟩
      = .ok ⟨[⟨1, 1, 2, false, 0⟩, liveNode 2 1, liveNode 4 1, failureNode 3 1], 0⟩
    ∧ (⟨3⟩ : TreeReference).isAllocationFailure
        [⟨1, 1, 2, false, 0⟩, liveNode 2 1, liveNode 4 1, failureNode 3 1] = .ok true
    ∧ (removeTreeChildAtIndex 1 ⟨1⟩ 1
          ⟨[⟨1, 1, 3, false, 0⟩, liveNode 2 1, failureNode 3 2, liveNode 4 1], 0⟩ >>=
        addChildTreeAtIndex 3 ⟨1⟩ ⟨3⟩ 1 2)
      = .error .undefinedHandle
    ∧ (removeTreeChildAtIndex 1 ⟨1⟩ 1
          ⟨[⟨1, 1, 3, false, 0⟩, liveNode 2 1, failureNode 3 2, liveNode 4 1], 0⟩ >>=
        addChildTreeAtIndex 3 ⟨1⟩ ⟨3⟩ 1 2)
      ≠ .ok ⟨[⟨1, 1, 3, false, 0⟩, liveNode 2 1, failureNode 3 2, liveNode 4 1], 0⟩ := by
  decide

/-- C6, amended: in a well-formed arena let the live node `p` have the child subtrees
`K1 ++ c :: K2`, where the root `ch` of `c` is not a failure sentinel and has an owner besides
`p`.  Removing the child of index
`K1.length` and adding it again at that index, with the child count `p` then has, returns and
gives back the arena as it was: the same children in the same order, the same child count, the
same reference counts. -/
theorem C6_remove_then_add_restores (L R : List TreeNode) (p : TreeNode) (K1 K2 : List Tree)
    (ch : TreeNode) (cks : List Tree) (fuel v : Nat)
    (hwf : wellFormed (L ++ (flat (.node p (K1 ++ .node ch cks :: K2)) ++ R)) = true)
    (hids : (ids (L ++ (flat (.node p (K1 ++ .node ch cks :: K2)) ++ R))).Nodup)
    (hpd : p.identifier ≠ NoNodeIdentifier) (hpl : p.isAllocationFailure = false)
    (hcd : ch.identifier ≠ NoNodeIdentifier) (hcl : ch.isAllocationFailure = false)
    (hrc : 2 ≤ ch.retainCount) (hf : height (.node ch cks) ≤ fuel) :
    (removeTreeChildAtIndex fuel ⟨p.identifier⟩ K1.length
        ⟨L ++ (flat (.node p (K1 ++ .node ch cks :: K2)) ++ R), v⟩ >>=
      addChildTreeAtIndex (fuel + 1) ⟨p.identifier⟩ ⟨ch.identifier⟩ K1.length
        ((K1 ++ K2).length : Nat)) =
      .ok ⟨L ++ (flat (.node p (K1 ++ .node ch cks :: K2)) ++ R), v⟩ :=
  remove_then_add L R p K1 K2 ch cks fuel v hwf hids hpd hpl hcd hcl hrc hf

/-- C6, worked: P = 1 with children A = 2, B = 3, C = 4, where B has an outside owner;
`removeTreeChildAtIndex(1)` then `addChildTreeAtIndex(B, 1, 2)`. -/
theorem C6_witness :
    (removeTreeChildAtIndex 1 ⟨1⟩ 1
        ⟨[⟨1, 1, 3, false, 0⟩, liveNode 2 1, liveNode 3 2, liveNode 4 1], 0⟩ >>=
      addChildTreeAtIndex 2 ⟨1⟩ ⟨3⟩ 1 2) =
      .ok ⟨[⟨1, 1, 3, false, 0⟩, liveNode 2 1, liveNode 3 2, liveNode 4 1], 0⟩ :=
  C6_remove_then_add_restores [] [] (liveNode 1 1) [leaf 2 1] [leaf 4 1] (liveNode 3 2) [] 1 0
    (by decide) (by decide) (by decide) (by decide) (by decide) (by decide) (by decide)
    (by decide)

/-- C7, as stated, fails when the receiver is a failure sentinel: the sentinel 1 and the live
node 3 with the children 4 and 5 are defined nodes, neither in the subtree of the other, and
index 0 meets the precondition; after `mergeTreeChildrenAtIndex` the sentinel still counts no
children, and 4 is not a child of it. -/
theorem C7_counterexample :
    mergeTreeChildrenAtIndex 0 ⟨1⟩ ⟨3⟩ 0
        ⟨[failureNode 1 1, ⟨3, 1, 2, false, 0⟩, liveNode 4 1, liveNode 5 1], 0⟩
      = .ok ⟨[failureNode 1 1, liveNode 4 1, liveNode 5 1, liveNode 3 1], 0⟩
    ∧ (⟨1⟩ : TreeReference).numberOfChildren
        [failureNode 1 1, liveNode 4 1, liveNode 5 1, liveNode 3 1] = .ok 0
    ∧ hasChild [failureNode 1 1, liveNode 4 1, liveNode 5 1, liveNode 3 1] 0 1 = .ok false := by
  decide

/-- C7, amended: let the live node `p` have the child subtrees `K` and the node `qh` the child
subtrees `QK` (none when `qh` is a failure sentinel), neither node lying in the subtree of the
other.  For `i ≤ K.length`, `mergeTreeChildrenAtIndex` returns, the children of `p` are
`K.take i ++ QK ++ K.drop i` with their subtrees as they were, the child count of `p` is
`K.length + QK.length`, and `qh` is left where it was without children.  The first part has
`qh` stored after `p`, the second before. -/
theorem C7_mergeTreeChildrenAtIndex_adopts (L M R : List TreeNode) (p : TreeNode)
    (K : List Tree) (qh : TreeNode) (QK : List Tree) (i fuel v : Nat)
    (hpd : p.identifier ≠ NoNodeIdentifier) (hpl : p.isAllocationFailure = false)
    (hqd : qh.identifier ≠ NoNodeIdentifier) (hql : qh.isAllocationFailure = false ∨ QK = [])
    (hi : i ≤ K.length) :
    ((ids (L ++ (flat (.node p K) ++ (M ++ (flat (.node qh QK) ++ R))))).Nodup →
      mergeTreeChildrenAtIndex fuel ⟨p.identifier⟩ ⟨qh.identifier⟩ i
          ⟨L ++ (flat (.node p K) ++ (M ++ (flat (.node qh QK) ++ R))), v⟩ =
        .ok ⟨L ++ (flat (.node p (K.take i ++ (QK ++ K.drop i)))
          ++ (M ++ (flat (.node qh []) ++ R))), v⟩)
    ∧ ((ids (L ++ (flat (.node qh QK) ++ (M ++ (flat (.node p K) ++ R))))).Nodup →
      mergeTreeChildrenAtIndex fuel ⟨p.identifier⟩ ⟨qh.identifier⟩ i
          ⟨L ++ (flat (.node qh QK) ++ (M ++ (flat (.node p K) ++ R))), v⟩ =
        .ok ⟨L ++ (flat (.node qh []) ++ (M ++ (flat (.node p (K.take i ++ (QK ++ K.drop i)))
          ++ R))), v⟩)
    ∧ (Tree.node p (K.take i ++ (QK ++ K.drop i))).root.numberOfChildren
        = K.length + QK.length
    ∧ (Tree.node qh []).root.numberOfChildren = 0 := by
  refine ⟨fun hids => merge_after L M R p K qh QK i fuel v hids hpd hpl hqd hql hi,
    fun hids => merge_before L M R p K qh QK i fuel v hids hpd hpl hqd hql hi, ?_, rfl⟩
  simp [Tree.root]
  omega

/-- C7, worked: P = 1 with the child X = 2, Q = 3 with the children Y = 4 and Z = 5;
`P.mergeTreeChildrenAtIndex(Q, 1)` gives P = [X, Y, Z] and leaves Q without children; the
same with Q stored before P. -/
theorem C7_witness :
    mergeTreeChildrenAtIndex 0 ⟨1⟩ ⟨3⟩ 1
        ⟨[⟨1, 1, 1, false, 0⟩, liveNode 2 1, ⟨3, 1, 2, false, 0⟩, liveNode 4 1, liveNode 5 1],
          0⟩ =
      .ok ⟨[⟨1, 1, 3, false, 0⟩, liveNode 2 1, liveNode 4 1, liveNode 5 1, liveNode 3 1], 0⟩
    ∧ mergeTreeChildrenAtIndex 0 ⟨1⟩ ⟨3⟩ 1
        ⟨[⟨3, 1, 2, false, 0⟩, liveNode 4 1, liveNode 5 1, ⟨1, 1, 1, false, 0⟩, liveNode 2 1],
          0⟩ =
      .ok ⟨[liveNode 3 1, ⟨1, 1, 3, false, 0⟩, liveNode 2 1, liveNode 4 1, liveNode 5 1], 0⟩ :=
  ⟨(C7_mergeTreeChildrenAtIndex_adopts [] [] [] (liveNode 1 1) [leaf 2 1] (liveNode 3 1)
      [leaf 4 1, leaf 5 1] 1 0 0 (by decide) (by decide) (by decide) (Or.inl (by decide))
      (by decide)).1 (by decide),
    (C7_mergeTreeChildrenAtIndex_adopts [] [] [] (liveNode 1 1) [leaf 2 1] (liveNode 3 1)
      [leaf 4 1, leaf 5 1] 1 0 0 (by decide) (by decide) (by decide) (Or.inl (by decide))
      (by decide)).2.1 (by decide)⟩

/-- C8, failing input: P = 1 has the single child T = 3, which has the children 4 and 5.
`P.mergeTreeChildrenAtIndex(T, 0)` returns with T still a direct child of P, after its former
children, and with the child count 3 for P instead of 1 + 2 - 1 = 2: the check `hasChild` runs
while P still counts one child, and T has been pushed behind its two children. -/
theorem C8_merge_keeps_emptied_child :
    mergeTreeChildrenAtIndex 1 ⟨1⟩ ⟨3⟩ 0
        ⟨[⟨1, 1, 1, false, 0⟩, ⟨3, 2, 2, false, 0⟩, liveNode 4 1, liveNode 5 1], 0⟩ =
      .ok ⟨[⟨1, 1, 3, false, 0⟩, liveNode 4 1, liveNode 5 1, liveNode 3 2], 0⟩
    ∧ hasChild [⟨1, 1, 3, false, 0⟩, liveNode 4 1, liveNode 5 1, liveNode 3 2] 0 3 = .ok true
    ∧ parentTree [⟨1, 1, 3, false, 0⟩, liveNode 4 1, liveNode 5 1, liveNode 3 2] 3 = some 0 := by
  decide

/-- C9: let the node `p` have the child subtrees `K1 ++ o :: K2`, where `o` is rooted at `oh`,
and let the live, parentless subtree rooted at `nh` be stored at address `q`, outside the
subtree of `p`.  `replaceTreeChildAtIndex` at index `K1.length` returns, the children of `p`
are `K1 ++ n :: K2` with the other children as they were, the child count of `p` is the same,
the reference count of `nh` is one more, and the subtree of `oh` stands at the tail with one
owner less, or is destroyed when that was its last owner. -/
theorem C9_replaceTreeChildAtIndex_substitutes (L R : List TreeNode) (p : TreeNode)
    (K1 K2 : List Tree) (oh : TreeNode) (oks : List Tree) (nh : TreeNode) (nks : List Tree)
    (q fuel v : Nat)
    (hq : q ≤ L.length ∨ L.length + (flat (.node p (K1 ++ .node oh oks :: K2))).length ≤ q)
    (hqR : q ≤ (L ++ (flat (.node p (K1 ++ .node oh oks :: K2)) ++ R)).length)
    (hids : (ids (insertSpan (L ++ (flat (.node p (K1 ++ .node oh oks :: K2)) ++ R)) q
      (flat (.node nh nks)))).Nodup)
    (hpd : p.identifier ≠ NoNodeIdentifier)
    (hnd : nh.identifier ≠ NoNodeIdentifier) (hnl : nh.isAllocationFailure = false)
    (hod : oh.identifier ≠ NoNodeIdentifier) (ho0 : oh.retainCount ≠ 0)
    (hpar : parentTree (insertSpan (L ++ (flat (.node p (K1 ++ .node oh oks :: K2)) ++ R)) q
      (flat (.node nh nks))) q = none)
    (hf : height (.node oh oks) ≤ fuel) :
    replaceTreeChildAtIndex fuel ⟨p.identifier⟩ K1.length ⟨nh.identifier⟩
        ⟨insertSpan (L ++ (flat (.node p (K1 ++ .node oh oks :: K2)) ++ R)) q
          (flat (.node nh nks)), v⟩ =
      .ok ⟨L ++ (flat (.node p (K1 ++ .node nh.retain nks :: K2)) ++ (R ++
        (if oh.retainCount - 1 = 0 then releasedF oks
         else flat (.node { oh with retainCount := oh.retainCount - 1 } oks)))), v⟩
    ∧ (Tree.node p (K1 ++ .node nh.retain nks :: K2)).root.numberOfChildren
        = (Tree.node p (K1 ++ .node oh oks :: K2)).root.numberOfChildren
    ∧ nh.retain.retainCount = nh.retainCount + 1 := by
  refine ⟨?_, ?_, rfl⟩
  · rw [replace_insertSpan L R p K1 K2 oh oks nh nks q fuel v hq hqR hids hpd hnd hnl hod ho0
      hpar hf, released_node]
  · simp [Tree.root]

/-- C9, worked: in 1[2,3] the child of index 1 is replaced by the free subtree 9[10]; the old
child 3 had an outside owner and stays, at the tail, with one owner less. -/
theorem C9_witness :
    replaceTreeChildAtIndex 1 ⟨1⟩ 1 ⟨9⟩
        ⟨[⟨1, 1, 2, false, 0⟩, liveNode 2 1, liveNode 3 2, ⟨9, 1, 1, false, 0⟩, liveNode 10 1],
          0⟩ =
      .ok ⟨[⟨1, 1, 2, false, 0⟩, liveNode 2 1, ⟨9, 2, 1, false, 0⟩, liveNode 10 1, liveNode 3 1],
        0⟩ :=
  (C9_replaceTreeChildAtIndex_substitutes [] [] (liveNode 1 1) [leaf 2 1] [] (liveNode 3 2) []
    (liveNode 9 1) [leaf 10 1] 3 1 0 (by decide) (by decide) (by decide) (by decide) (by decide)
    (by decide) (by decide) (by decide) (by decide) (by decide)).1

/-- C10, the failing inputs: let the live node `p` have the child subtrees `K`, and let
`path` list its live ancestors, nearest first and up to a parentless one; the identifiers of
`p` and of its ancestors are distinct and occur nowhere else.  For every handle `newChild`
that denotes a failure sentinel and every index, `replaceTreeChildAtIndex` does not return:
it goes to `replaceWithAllocationFailure`, the failure climbs through every ancestor, and on
the parentless one the child count of the parent is decremented through an undefined
handle. -/
theorem C10_failure_newChild_stops_on_undefined_parent (path : List Frame) (p : TreeNode)
    (K : List Tree) (A0 B : List TreeNode) (newChild : TreeReference) (oldChildIndex : Int)
    (fuel v : Nat)
    (hpd : p.identifier ≠ NoNodeIdentifier) (hpl : p.isAllocationFailure = false)
    (hn : (p.identifier :: pathIds path).Nodup)
    (hfresh : ∀ i ∈ p.identifier :: pathIds path,
      i ∉ ids A0 ∧ i ∉ ids B ∧ i ∉ ids (flatF K) ∧ i ∉ ids (pathKids path))
    (hok : ∀ g ∈ path, g.hdr.identifier ≠ NoNodeIdentifier ∧ g.hdr.isAllocationFailure = false)
    (hroot : parentTree (A0 ++ (pathBefore path ++ (flat (.node p K) ++ (pathAfter path ++ B))))
      A0.length = none)
    (ht : newChild.isAllocationFailure
      (A0 ++ (pathBefore path ++ (flat (.node p K) ++ (pathAfter path ++ B)))) = .ok true)
    (hfuel : fuelFor path K ≤ fuel) :
    replaceTreeChildAtIndex fuel ⟨p.identifier⟩ oldChildIndex newChild
        ⟨A0 ++ (pathBefore path ++ (flat (.node p K) ++ (pathAfter path ++ B))), v⟩
      = .error .undefinedHandle :=
  replace_failure_child path p K A0 B newChild oldChildIndex fuel v hpd hpl hn hfresh hok hroot
    ht hfuel

/-- C10, failing input: the child of index 0 of the live, parentless node 1 is to be
replaced by the failure sentinel 9; the same under the node 1 of the arena 7[1[2,3]].
Neither call returns. -/
theorem C10_witness :
    replaceTreeChildAtIndex 2 ⟨1⟩ 0 ⟨9⟩
        ⟨[⟨1, 1, 1, false, 0⟩, liveNode 2 1, failureNode 9 1], 0⟩
      = .error .undefinedHandle
    ∧ replaceTreeChildAtIndex 3 ⟨1⟩ 0 ⟨9⟩
        ⟨[⟨7, 1, 1, false, 0⟩, ⟨1, 2, 2, false, 0⟩, liveNode 2 1, liveNode 3 2,
          failureNode 9 1], 0⟩
      = .error .undefinedHandle :=
  ⟨C10_failure_newChild_stops_on_undefined_parent [] (liveNode 1 1) [leaf 2 1] []
      [failureNode 9 1] ⟨9⟩ 0 2 0 (by decide) (by decide) (by decide) (by decide) (by decide)
      (by decide) (by decide) (by decide),
    C10_failure_newChild_stops_on_undefined_parent [⟨liveNode 7 1, [], []⟩] (liveNode 1 2)
      [leaf 2 1, leaf 3 2] [] [failureNode 9 1] ⟨9⟩ 0 3 0 (by decide) (by decide) (by decide)
      (by decide) (by decide) (by decide) (by decide) (by decide)⟩

/-- C13, the failing inputs: let the live, parentless node `h` have the child subtrees `K` and
an identifier that no record before it carries.  `replaceWithAllocationFailure` with the child
count of `h` does not return: after the sentinel has been set up, the child count of the
parent is decremented through the undefined handle on it. -/
theorem C13_parentless_node_stops_on_undefined_parent (h : TreeNode) (K : List Tree)
    (A0 B : List TreeNode) (fuel v : Nat)
    (hd : h.identifier ≠ NoNodeIdentifier) (hl : h.isAllocationFailure = false)
    (hA : h.identifier ∉ ids A0)
    (hroot : parentTree (A0 ++ (flat (.node h K) ++ B)) A0.length = none)
    (hf : heightF K + 1 ≤ fuel) :
    replaceWithAllocationFailure fuel ⟨h.identifier⟩ K.length
        ⟨A0 ++ (flat (.node h K) ++ B), v⟩
      = .error .undefinedHandle := by
  have hg : goodWith 0 A0 := by
    rw [parentTree_none_iff, take_app] at hroot
    exact hroot
  have s := rwaf_root (Tree.node h K).root K A0 B fuel v hd hl hA hg hf
  simpa [Tree.root] using s

/-- C13, failing input: the parentless node 1 with the reference count 3 and the children 2
and 3. -/
theorem C13_witness :
    replaceWithAllocationFailure 2 ⟨1⟩ 2
        ⟨[⟨1, 3, 2, false, 0⟩, liveNode 2 1, liveNode 3 2], 0⟩
      = .error .undefinedHandle :=
  C13_parentless_node_stops_on_undefined_parent (liveNode 1 3) [leaf 2 1, leaf 3 2] [] [] 2 0
    (by decide) (by decide) (by decide) (by decide) (by decide)

/-- C14, the failing inputs: let the live node `h`, with the child subtrees `K`, be a child of
the live node `f.hdr`, whose further ancestors are `rest` (identifiers distinct).
`replaceWithAllocationFailure` with the child count of `h` does not return with the parent
keeping its children: the sentinel is handed to `addChildTreeAtIndex` on the parent, which
for a failure child goes to `replaceWithAllocationFailure` on the parent instead of
inserting; the failure climbs so to the parentless ancestor, where the child count of the
parent is decremented through an undefined handle. -/
theorem C14_failure_climbs_and_stops (f : Frame) (rest : List Frame) (h : TreeNode)
    (K : List Tree) (A0 B : List TreeNode) (fuel v : Nat)
    (hd : h.identifier ≠ NoNodeIdentifier) (hl : h.isAllocationFailure = false)
    (hn : (h.identifier :: pathIds (f :: rest)).Nodup)
    (hfresh : ∀ i ∈ h.identifier :: pathIds (f :: rest),
      i ∉ ids A0 ∧ i ∉ ids B ∧ i ∉ ids (flatF K) ∧ i ∉ ids (pathKids (f :: rest)))
    (hok : ∀ g ∈ f :: rest, g.hdr.identifier ≠ NoNodeIdentifier
      ∧ g.hdr.isAllocationFailure = false)
    (hroot : parentTree (A0 ++ (pathBefore (f :: rest) ++ (flat (.node h K)
      ++ (pathAfter (f :: rest) ++ B)))) A0.length = none)
    (hfuel : fuelFor (f :: rest) K ≤ fuel) :
    replaceWithAllocationFailure fuel ⟨h.identifier⟩ K.length
        ⟨A0 ++ (pathBefore (f :: rest) ++ (flat (.node h K) ++ (pathAfter (f :: rest) ++ B))), v⟩
      = .error .undefinedHandle := by
  have hg : goodWith 0 A0 := by
    rw [parentTree_none_iff, take_app] at hroot
    exact hroot
  have s := rwaf_closed (f :: rest) (Tree.node h K).root K A0 B fuel v hd hl hn hfresh hok hg
    hfuel
  rw [← s]
  simp [Tree.root]

/-- C14, failing input: in the arena 7[1[2,3]] the node 1, with the reference count 2, is
child 0 of the live node 7. -/
theorem C14_witness :
    replaceWithAllocationFailure 3 ⟨1⟩ 2
        ⟨[⟨7, 1, 1, false, 0⟩, ⟨1, 2, 2, false, 0⟩, liveNode 2 1, liveNode 3 2], 0⟩
      = .error .undefinedHandle :=
  C14_failure_climbs_and_stops ⟨liveNode 7 1, [], []⟩ [] (liveNode 1 2) [leaf 2 1, leaf 3 2]
    [] [] 3 0 (by decide) (by decide) (by decide) (by decide) (by decide) (by decide)
    (by decide)

/-- C15: when the handle `h` denotes a failure sentinel, `treeClone` returns a handle with
the identifier of `h` and allocates no node: the arena keeps its length and its identifiers,
the sentinel has one owner more.  On an undefined handle `treeClone` returns an undefined
handle and leaves the pool as it was. -/
theorem C15_treeClone_of_sentinel_aliases (h : TreeReference) (nodes : List TreeNode) (v : Nat) :
    (h.isAllocationFailure nodes = .ok true →
      ∃ a x, h.node nodes = .ok a ∧ nodes[a]? = some x ∧ x.isAllocationFailure = true
        ∧ treeClone h ⟨nodes, v⟩ = .ok (h, ⟨nodes.set a x.retain, v⟩)
        ∧ (nodes.set a x.retain).length = nodes.length
        ∧ ids (nodes.set a x.retain) = ids nodes)
    ∧ (h.isDefined = false →
      treeClone h ⟨nodes, v⟩ = .ok (⟨NoNodeIdentifier⟩, ⟨nodes, v⟩)) := by
  refine ⟨fun hf => ?_, fun hu => treeClone_undefined h ⟨nodes, v⟩ hu⟩
  obtain ⟨a, x, hn, hx, hxf, hc⟩ := treeClone_failure h nodes v hf
  exact ⟨a, x, hn, hx, hxf, hc, by simp,
    map_set_same (fun y => y.identifier) TreeNode.retain (fun _ => rfl) _ _ _ hx⟩

/-- C15, worked: the clone of the sentinel that carries the identifier 1 is a handle with the
identifier 1, and the clone of an undefined handle is undefined. -/
theorem C15_witness :
    (∃ a x, (⟨1⟩ : TreeReference).node [liveNode 2 1, failureNode 1 3] = .ok a
      ∧ [liveNode 2 1, failureNode 1 3][a]? = some x ∧ x.isAllocationFailure = true
      ∧ treeClone ⟨1⟩ ⟨[liveNode 2 1, failureNode 1 3], 0⟩
          = .ok (⟨1⟩, ⟨[liveNode 2 1, failureNode 1 3].set a x.retain, 0⟩)
      ∧ ([liveNode 2 1, failureNode 1 3].set a x.retain).length
          = [liveNode 2 1, failureNode 1 3].length
      ∧ ids ([liveNode 2 1, failureNode 1 3].set a x.retain)
          = ids [liveNode 2 1, failureNode 1 3])
    ∧ treeClone ⟨NoNodeIdentifier⟩ ⟨[liveNode 2 1, failureNode 1 3], 0⟩
        = .ok (⟨NoNodeIdentifier⟩, ⟨[liveNode 2 1, failureNode 1 3], 0⟩) :=
  ⟨(C15_treeClone_of_sentinel_aliases ⟨1⟩ [liveNode 2 1, failureNode 1 3] 0).1 (by decide),
    (C15_treeClone_of_sentinel_aliases ⟨NoNodeIdentifier⟩ [liveNode 2 1, failureNode 1 3] 0).2
      (by decide)⟩

/-- C16: let the live node `h`, with the child subtrees `K`, be stored in the arena `N`.
`treeClone` returns a defined handle on a copy stored behind the arena as it was: the copy has
the child counts and the content of the subtree of `h`, record by record, its identifiers
occur nowhere in `N`, and `N` itself, identifiers and reference counts, is unchanged.
Releasing the returned handle gives back exactly `N`. -/
theorem C16_treeClone_copies (L R N : List TreeNode) (h : TreeNode) (K : List Tree)
    (fuel v : Nat) (hN : N = L ++ (flat (.node h K) ++ R))
    (hd : h.identifier ≠ NoNodeIdentifier) (hl : h.isAllocationFailure = false)
    (hL : h.identifier ∉ ids L) (hf : height (.node h K) ≤ fuel) :
    treeClone ⟨h.identifier⟩ ⟨N, v⟩
      = .ok (⟨freshIdentifier N⟩,
          ⟨N ++ cloneSpan (freshIdentifier N) (flat (.node h K)), v⟩)
    ∧ (⟨freshIdentifier N⟩ : TreeReference).node
        (N ++ cloneSpan (freshIdentifier N) (flat (.node h K))) = .ok N.length
    ∧ (cloneSpan (freshIdentifier N) (flat (.node h K))).map
          (fun y => (y.numberOfChildren, y.isAllocationFailure, y.content))
        = (flat (.node h K)).map
          (fun y => (y.numberOfChildren, y.isAllocationFailure, y.content))
    ∧ (∀ i ∈ ids (cloneSpan (freshIdentifier N) (flat (.node h K))), i ∉ ids N)
    ∧ destruct fuel ⟨freshIdentifier N⟩
        ⟨N ++ cloneSpan (freshIdentifier N) (flat (.node h K)), v⟩ = .ok ⟨N, v⟩ := by
  refine ⟨?_, clone_node N _, cloneSpan_shape _ _, ?_, destruct_clone N _ fuel v hf⟩
  · subst hN
    exact treeClone_closed L R h K v hd hl hL
  · intro i hi hm
    have h1 := cloneSpan_ids_ge _ _ i hi
    have h2 := freshIdentifier_gt N i hm
    omega

/-- C16, worked: the clone of the subtree 1[2[4],3] in an arena that also holds 9 is
10[11[12],13], every record with one owner; the records 1, 2, 4, 3, 9 are as they were. -/
theorem C16_witness :
    treeClone ⟨1⟩
        ⟨[⟨1, 3, 2, false, 7⟩, ⟨2, 1, 1, false, 8⟩, liveNode 4 5, liveNode 3 2, liveNode 9 1],
          0⟩
      = .ok (⟨10⟩,
          ⟨[⟨1, 3, 2, false, 7⟩, ⟨2, 1, 1, false, 8⟩, liveNode 4 5, liveNode 3 2, liveNode 9 1,
            ⟨10, 1, 2, false, 7⟩, ⟨11, 1, 1, false, 8⟩, liveNode 12 1, liveNode 13 1], 0⟩)
    ∧ destruct 3 ⟨10⟩
        ⟨[⟨1, 3, 2, false, 7⟩, ⟨2, 1, 1, false, 8⟩, liveNode 4 5, liveNode 3 2, liveNode 9 1,
          ⟨10, 1, 2, false, 7⟩, ⟨11, 1, 1, false, 8⟩, liveNode 12 1, liveNode 13 1], 0⟩
      = .ok ⟨[⟨1, 3, 2, false, 7⟩, ⟨2, 1, 1, false, 8⟩, liveNode 4 5, liveNode 3 2,
          liveNode 9 1], 0⟩ :=
  have w := C16_treeClone_copies [] [liveNode 9 1]
    [⟨1, 3, 2, false, 7⟩, ⟨2, 1, 1, false, 8⟩, liveNode 4 5, liveNode 3 2, liveNode 9 1]
    ⟨1, 3, 0, false, 7⟩ [.node ⟨2, 1, 0, false, 8⟩ [leaf 4 5], leaf 3 2] 3 0 (by decide)
    (by decide) (by decide) (by decide) (by decide)
  ⟨w.1, w.2.2.2.2⟩

/-- C17: `setTo` leaves the handle with the identifier of `tr`.  When the two identifiers are
equal the pool is left as it was.  Otherwise the call is: one retain of the node of `tr`, when
`tr` is defined, and after it one release of the node `h` denoted, when `h` was defined; in
particular, with both defined and another owner left for the node of `h`, the count of the
node of `tr` is one more, the count of the node of `h` one less, and no other record
changes. -/
theorem C17_setTo_retains_then_releases (fuel : Nat) (h tr : TreeReference) (pool : TreePool) :
    (h.m_identifier = tr.m_identifier → setTo fuel h tr pool = .ok (h, pool))
    ∧ (∀ r pool', setTo fuel h tr pool = .ok (r, pool') → r.m_identifier = tr.m_identifier)
    ∧ (h.m_identifier ≠ tr.m_identifier →
      setTo fuel h tr pool =
        ((if tr.isDefined then
            tr.node pool.nodes >>= fun b => modifyAt pool.nodes b TreeNode.retain
          else .ok pool.nodes) >>= fun retained =>
        (if h.isDefined then h.node pool.nodes >>= fun a => release fuel retained a
          else .ok retained) >>= fun released =>
        .ok (tr, { pool with nodes := released })))
    ∧ (∀ a b x y, h.m_identifier ≠ tr.m_identifier →
      h.node pool.nodes = .ok a → tr.node pool.nodes = .ok b →
      pool.nodes[a]? = some x → pool.nodes[b]? = some y → x.retainCount ≠ 1 →
      setTo (fuel + 1) h tr pool
        = .ok (tr,
            ⟨(pool.nodes.set b y.retain).set a { x with retainCount := x.retainCount - 1 },
              pool.undefinedUses⟩)) :=
  ⟨fun he => setTo_same fuel h tr pool he,
    fun r pool' hr => setTo_identifier fuel h tr pool r pool' hr,
    fun he => setTo_steps fuel h tr pool he,
    fun a b x y he ha hb hx hy hrc =>
      setTo_counts fuel h tr pool.nodes pool.undefinedUses a b x y he ha hb hx hy hrc⟩

/-- C17, worked: a handle on the node 1 is set to the node 2: the node 2 gains an owner, the
node 1 loses one; set to itself nothing changes; an undefined handle set to the node 2 only
retains; a handle set to an undefined one only releases, here the last owner. -/
theorem C17_witness :
    setTo 1 ⟨1⟩ ⟨2⟩ ⟨[liveNode 1 2, liveNode 2 1], 0⟩
      = .ok (⟨2⟩, ⟨[liveNode 1 1, liveNode 2 2], 0⟩)
    ∧ setTo 1 ⟨1⟩ ⟨1⟩ ⟨[liveNode 1 2, liveNode 2 1], 0⟩
      = .ok (⟨1⟩, ⟨[liveNode 1 2, liveNode 2 1], 0⟩)
    ∧ setTo 1 ⟨NoNodeIdentifier⟩ ⟨2⟩ ⟨[liveNode 1 2, liveNode 2 1], 0⟩
      = .ok (⟨2⟩, ⟨[liveNode 1 2, liveNode 2 2], 0⟩)
    ∧ setTo 1 ⟨1⟩ ⟨NoNodeIdentifier⟩ ⟨[liveNode 1 1, liveNode 2 1], 0⟩
      = .ok (⟨NoNodeIdentifier⟩, ⟨[liveNode 2 1], 0⟩) :=
  ⟨(C17_setTo_retains_then_releases 0 ⟨1⟩ ⟨2⟩ ⟨[liveNode 1 2, liveNode 2 1], 0⟩).2.2.2 0 1
      (liveNode 1 2) (liveNode 2 1) (by decide) (by decide) (by decide) (by decide) (by decide)
      (by decide),
    (C17_setTo_retains_then_releases 1 ⟨1⟩ ⟨1⟩ ⟨[liveNode 1 2, liveNode 2 1], 0⟩).1 rfl,
    ((C17_setTo_retains_then_releases 1 ⟨NoNodeIdentifier⟩ ⟨2⟩
      ⟨[liveNode 1 2, liveNode 2 1], 0⟩).2.2.1 (by decide)).trans (by decide),
    ((C17_setTo_retains_then_releases 1 ⟨1⟩ ⟨NoNodeIdentifier⟩
      ⟨[liveNode 1 1, liveNode 2 1], 0⟩).2.2.1 (by decide)).trans (by decide)⟩

/-- C19, failing input: the live node 1 has no parent.  The handle on its parent is
undefined, and `replaceWithAllocationFailure` still decrements the child count through it:
the call stops on that operation on an undefined handle. -/
theorem C19_decrement_through_undefined_parent :
    (⟨1⟩ : TreeReference).parent [liveNode 1 1] = .ok (⟨NoNodeIdentifier⟩, [liveNode 1 1])
    ∧ (⟨NoNodeIdentifier⟩ : TreeReference).isDefined = false
    ∧ replaceWithAllocationFailure 1 ⟨1⟩ 0 ⟨[liveNode 1 1], 0⟩ = .error .undefinedHandle := by
  decide

/-- C20, failing input: the node 1 has the children 2 and 3, and the child 2, of index 0, is
to replace the child of index 1, the last one.  The call stops at its index assertion: the
count of the node 1 has been decremented before the assertion compares the index with it.
On the index 0, with the child 3 as the new child, the same call returns and the node 1 has
the one child 3, with the reference count it had. -/
theorem C20_last_index_stops_at_assertion :
    replaceTreeChildAtIndex 1 ⟨1⟩ 1 ⟨2⟩
        ⟨[⟨1, 1, 2, false, 0⟩, liveNode 2 2, liveNode 3 1], 0⟩ = .error .assertion
    ∧ replaceTreeChildAtIndex 1 ⟨1⟩ 0 ⟨3⟩
        ⟨[⟨1, 1, 2, false, 0⟩, liveNode 2 1, liveNode 3 2], 0⟩
      = .ok ⟨[⟨1, 1, 1, false, 0⟩, liveNode 3 2], 0⟩ := by
  decide

end Poincare

namespace Bootloader
open UserlandHeader

/-- C18: for every header record and whatever the three constants are, `isValid` is true
exactly when the header field and the footer field both equal `Magic`, `isOmega` exactly when
both omega magic fields equal `OmegaMagic`, `isUpsilon` exactly when both upsilon magic fields
equal `UpsilonMagic`; and two records that agree on the two fields a check reads get the same
result from it. -/
theorem C18_magic_checks (Magic OmegaMagic UpsilonMagic : Nat) (h : UserlandHeader) :
    (isValid Magic h = true ↔ h.m_header = Magic ∧ h.m_footer = Magic)
    ∧ (isOmega OmegaMagic h = true
        ↔ h.m_omegaMagicHeader = OmegaMagic ∧ h.m_omegaMagicFooter = OmegaMagic)
    ∧ (isUpsilon UpsilonMagic h = true
        ↔ h.m_upsilonMagicHeader = UpsilonMagic ∧ h.m_upsilonMagicFooter = UpsilonMagic)
    ∧ (∀ g : UserlandHeader, g.m_header = h.m_header → g.m_footer = h.m_footer →
        isValid Magic g = isValid Magic h)
    ∧ (∀ g : UserlandHeader, g.m_omegaMagicHeader = h.m_omegaMagicHeader →
        g.m_omegaMagicFooter = h.m_omegaMagicFooter →
        isOmega OmegaMagic g = isOmega OmegaMagic h)
    ∧ (∀ g : UserlandHeader, g.m_upsilonMagicHeader = h.m_upsilonMagicHeader →
        g.m_upsilonMagicFooter = h.m_upsilonMagicFooter →
        isUpsilon UpsilonMagic g = isUpsilon UpsilonMagic h) := by
  refine ⟨?_, ?_, ?_, ?_, ?_, ?_⟩
  · simp [isValid]
  · simp [isOmega]
  · simp [isUpsilon]
  · intro g h1 h2
    simp [isValid, h1, h2]
  · intro g h1 h2
    simp [isOmega, h1, h2]
  · intro g h1 h2
    simp [isUpsilon, h1, h2]

/-- C18, worked: with the constants 7, 8, 9, a record whose header and footer are 7 is valid
whatever its other fields are, and a record whose footer differs is not. -/
theorem C18_witness :
    isValid 7 ⟨7, "a", [1], 7, 0, "b", 8, 9, "c", 9⟩ = true
    ∧ isValid 7 ⟨7, "x", [], 7, 1, "y", 2, 3, "z", 4⟩
        = isValid 7 ⟨7, "a", [1], 7, 0, "b", 8, 9, "c", 9⟩
    ∧ ¬ (isValid 7 ⟨7, "a", [1], 6, 0, "b", 8, 9, "c", 9⟩ = true) :=
  ⟨(C18_magic_checks 7 8 9 ⟨7, "a", [1], 7, 0, "b", 8, 9, "c", 9⟩).1.2 ⟨rfl, rfl⟩,
    (C18_magic_checks 7 8 9 ⟨7, "a", [1], 7, 0, "b", 8, 9, "c", 9⟩).2.2.2.1
      ⟨7, "x", [], 7, 1, "y", 2, 3, "z", 4⟩ rfl rfl,
    fun hv => absurd ((C18_magic_checks 7 8 9 ⟨7, "a", [1], 6, 0, "b", 8, 9, "c", 9⟩).1.1 hv).2
      (by decide)⟩

end Bootloader
